import Mathlib

/-!
# Moonlight: a verification development of the OSCP engine

Shallow embedding of the sparse logical matrix (`Matrix.cpp`), the solution
accumulator (`Solution.cpp`) and the reducer / greedy solver (`OSCPSolver.cpp`).

Conventions of the embedding

* C++ `int` / `long long` values are `Int` (no wrap-around is modelled; every
  quantity is bounded by the size of the corpus).
* `std::vector<T>` is `List T`; an access outside the bounds of a vector is
  undefined behaviour and is reported as `Err.undefined`.
* A thrown `std::out_of_range` is `Err.out_of_range`, a failed `assert` is
  `Err.assert_failed`, a vector constructed with a negative size is
  `Err.length_error`, a call of `exit` is `Err.exit`.
* `double` weights are exact rationals.
* A `boost::filesystem::path` is represented by the string of its file-name
  component: all exemplars of a run live in one directory, so comparing full
  paths and comparing file names agree.
-/

namespace Moonlight

/-! ## Part I: the embedding of the source -/

/-- Failure kinds of the embedded code. -/
inductive Err where
  | out_of_range
  | assert_failed
  | length_error
  | undefined
  | exit
deriving DecidableEq, Repr

/-- The tombstone `#define DELETED -1` of `Matrix.h`. -/
def DELETED : Int := -1

/-- Class `RowElem` of `Matrix.h`. -/
structure RowElem where
  file_size : Int
  row_sum : Int
  file_path : String
  column : List Int
  weight : ℚ
deriving DecidableEq, Repr

/-- Operator `RowElem::operator==` of `Matrix.cpp`: the row sums and the
stored column vectors are compared. -/
def RowElem.operator_eq (a other : RowElem) : Bool :=
  if a.row_sum ≠ other.row_sum then false
  else if a.column ≠ other.column then false
  else true

/-- Class `Matrix` of `Matrix.h` (the corpus directory and the regex pattern
play no part in the engine and are left out). -/
structure Matrix where
  num_rows : Int
  num_cols : Int
  num_cols_orig : Int
  num_elems : Int
  rowlist : List RowElem
deriving DecidableEq, Repr

/-- Constructor `Matrix::Matrix()`. -/
def Matrix.default : Matrix :=
  { num_rows := 0, num_cols := 0, num_cols_orig := 0, num_elems := 0, rowlist := [] }

/-- Constructor `Matrix::Matrix(int rows, int columns)`: the counters are set
from the arguments, `rowlist` starts empty. -/
def Matrix.sized (rows columns : Int) : Except Err Matrix :=
  if rows < 0 ∨ columns < 0 then Except.error Err.out_of_range
  else
    Except.ok { num_rows := rows, num_cols := columns, num_cols_orig := columns,
                num_elems := 0, rowlist := [] }

/-- Vector access `xs[i]` with an `int` index: outside the bounds it is
undefined behaviour. -/
def at_index {α : Type} (xs : List α) (i : Int) : Except Err α :=
  if i < 0 then Except.error Err.undefined
  else
    match xs[i.toNat]? with
    | some x => Except.ok x
    | none => Except.error Err.undefined

/-- The `for` loop of `transform_index`: `n` iterations are left, `i` is the
loop variable, `del_count` the number of deletions met so far.  Returns the
filled part of `transform` and the final `del_count`. -/
def transform_index_loop (delset : List Int) : Nat → Int → Nat → List Int × Nat
  | 0, _, del_count => ([], del_count)
  | n + 1, i, del_count =>
    if delset[del_count]? = some i then
      let r := transform_index_loop delset n (i + 1) (del_count + 1)
      (DELETED :: r.1, r.2)
    else
      let r := transform_index_loop delset n (i + 1) del_count
      ((i - (del_count : Int)) :: r.1, r.2)

/-- Function `transform_index` of `Matrix.cpp`: `delset` is sorted ascending,
the loop fills the transform, and the closing `assert` requires that every
element of `delset` was met. -/
def transform_index (num_elements : Int) (delset : List Int) : Except Err (List Int) :=
  if num_elements < 0 then Except.error Err.length_error
  else
    let sorted := delset.insertionSort (fun a b => a ≤ b)
    let r := transform_index_loop sorted num_elements.toNat 0 0
    if r.2 = sorted.length then Except.ok r.1 else Except.error Err.assert_failed

/-- Number of entries of a column sequence that are not tombstones. -/
def live_count (column : List Int) : Int :=
  ((column.filter (fun v => v ≠ DELETED)).length : Int)

/-- Method `Matrix::assert_row_sums`: true when none of its assertions fails. -/
def assert_row_sums (m : Matrix) : Bool :=
  decide (m.num_rows = (m.rowlist.length : Int)) &&
    m.rowlist.all (fun e => decide (live_count e.column = e.row_sum))

/-- Method `Matrix::insert_row`. -/
def insert_row (m : Matrix) (row : RowElem) : Matrix :=
  { m with rowlist := m.rowlist ++ [row],
           num_rows := m.num_rows + 1,
           num_elems := m.num_elems + row.row_sum }

/-- The erase loop of `Matrix::remove_rows` over the list sorted in
descending order. -/
def remove_rows_loop : Matrix → List Int → Except Err Matrix
  | m, [] => Except.ok m
  | m, r :: rs =>
    match at_index m.rowlist r with
    | Except.error e => Except.error e
    | Except.ok row =>
      let m1 : Matrix :=
        { m with num_elems := m.num_elems - row.row_sum,
                 rowlist := m.rowlist.eraseIdx r.toNat,
                 num_rows := m.num_rows - 1 }
      if m1.num_rows = (m1.rowlist.length : Int) then remove_rows_loop m1 rs
      else Except.error Err.assert_failed

/-- Method `Matrix::remove_rows`: range check (`r < 0 || r > num_rows`), sort
descending, erase one row after the other. -/
def remove_rows (m : Matrix) (del_list : List Int) : Except Err Matrix :=
  if del_list.any (fun r => decide (r < 0) || decide (r > m.num_rows)) then
    Except.error Err.out_of_range
  else
    remove_rows_loop m (del_list.insertionSort (fun a b => a ≥ b))

/-- Method `Matrix::remove_row`: `INDEX_LIST del_list(r)` is the vector
constructor taking a length, so the list handed to `remove_rows` is `r` zeros. -/
def remove_row (m : Matrix) (r : Int) : Except Err Matrix :=
  if r < 0 then Except.error Err.length_error
  else remove_rows m (List.replicate r.toNat 0)

/-- The inner loop of `Matrix::remove_cols` on one column sequence: every
live entry is sent through the transform; returns the new sequence. -/
def remove_cols_data (T : List Int) : List Int → Except Err (List Int)
  | [] => Except.ok []
  | v :: vs =>
    if v ≠ DELETED then
      match at_index T v with
      | Except.error e => Except.error e
      | Except.ok w =>
        match remove_cols_data T vs with
        | Except.error e => Except.error e
        | Except.ok ws => Except.ok (w :: ws)
    else
      match remove_cols_data T vs with
      | Except.error e => Except.error e
      | Except.ok ws => Except.ok (v :: ws)

/-- The outer loop of `Matrix::remove_cols` over the rows; returns the new
rows and the updated `num_elems`. -/
def remove_cols_rows (T : List Int) : List RowElem → Int → Except Err (List RowElem × Int)
  | [], num_elems => Except.ok ([], num_elems)
  | element :: rest, num_elems =>
    match remove_cols_data T element.column with
    | Except.error e => Except.error e
    | Except.ok data =>
      let new_rowsum := live_count data
      let delta := element.row_sum - new_rowsum
      match remove_cols_rows T rest (num_elems - delta) with
      | Except.error e => Except.error e
      | Except.ok r =>
        Except.ok ({ element with column := data, row_sum := new_rowsum } :: r.1, r.2)

/-- Method `Matrix::remove_cols`. -/
def remove_cols (m : Matrix) (del_list : List Int) : Except Err Matrix :=
  if assert_row_sums m = false then Except.error Err.assert_failed
  else if del_list.any (fun c => decide (c < 0) || decide (c > m.num_cols)) then
    Except.error Err.out_of_range
  else
    match transform_index m.num_cols del_list with
    | Except.error e => Except.error e
    | Except.ok T =>
      match remove_cols_rows T m.rowlist m.num_elems with
      | Except.error e => Except.error e
      | Except.ok r =>
        let m1 : Matrix :=
          { m with rowlist := r.1, num_elems := r.2,
                   num_cols := m.num_cols - (del_list.length : Int) }
        if assert_row_sums m1 = false then Except.error Err.assert_failed
        else Except.ok m1

/-- Method `Matrix::remove_col`: as in `remove_row`, the list handed on is
`c` zeros. -/
def remove_col (m : Matrix) (c : Int) : Except Err Matrix :=
  if c < 0 then Except.error Err.length_error
  else remove_cols m (List.replicate c.toNat 0)

/-- The loop of `Matrix::get_row`: `result[value] = 1` for every live entry. -/
def get_row_scatter : List Int → List Int → Except Err (List Int)
  | result, [] => Except.ok result
  | result, value :: rest =>
    if value ≠ DELETED then
      if 0 ≤ value ∧ value < (result.length : Int) then
        get_row_scatter (result.set value.toNat 1) rest
      else Except.error Err.undefined
    else get_row_scatter result rest

/-- Method `Matrix::get_row`. -/
def get_row (m : Matrix) (r : Int) : Except Err (List Int) :=
  if r < 0 ∨ r ≥ m.num_rows then Except.error Err.out_of_range
  else if m.num_cols < 0 then Except.error Err.length_error
  else
    match at_index m.rowlist r with
    | Except.error e => Except.error e
    | Except.ok row => get_row_scatter (List.replicate m.num_cols.toNat 0) row.column

/-- The scan shared by `Matrix::get_col` and `Matrix::is_row_column_set`:
`while (i < size && (data[i] < c || data[i] == DELETED)) i++;` followed by the
test `i < size && data[i] == c`. -/
def scan_for_column : List Int → Int → Bool
  | [], _ => false
  | v :: rest, c => if v < c ∨ v = DELETED then scan_for_column rest c else decide (v = c)

/-- Method `Matrix::get_col`. -/
def get_col (m : Matrix) (c : Int) : Except Err (List Int) :=
  if c < 0 ∨ c ≥ m.num_cols then Except.error Err.out_of_range
  else if m.num_rows < 0 then Except.error Err.length_error
  else if m.num_rows ≤ (m.rowlist.length : Int) then
    Except.ok ((m.rowlist.take m.num_rows.toNat).map
      (fun element => if scan_for_column element.column c then 1 else 0))
  else Except.error Err.undefined

/-- Method `Matrix::is_row_column_set`. -/
def is_row_column_set (m : Matrix) (r c : Int) : Except Err Bool :=
  if r < 0 ∨ c < 0 ∨ r ≥ m.num_rows ∨ c ≥ m.num_cols then Except.error Err.out_of_range
  else
    match at_index m.rowlist r with
    | Except.error e => Except.error e
    | Except.ok row => Except.ok (scan_for_column row.column c)

/-! ### Files, solution and analytics records -/

/-- Contents of the exemplar files: the bytes stored under each path. -/
abbrev FileSystem := String → List Nat

/-- The inner loop of `get_exemplar_data` on one byte: the eight bits,
most significant first (`mask` starts at 128 and is shifted right). -/
def byte_bits (datum : Nat) : List Int :=
  (List.range 8).map (fun i => if Nat.land (datum % 256) (Nat.shiftRight 128 i) > 0 then 1 else 0)

/-- Function `get_exemplar_data` of `Corpus.cpp`. -/
def get_exemplar_data (fs : FileSystem) (exemplar : String) : List Int :=
  (fs exemplar).flatMap byte_bits

/-- Member `path::filename()`; paths are represented by their file name. -/
def filename (p : String) : String := p

/-- Class `Solution` of `Solution.h`. -/
structure Solution where
  corpusname : String
  scorelabel : String
  scoresum : ℚ
  num_columns : Int
  num_rows : Int
  weight : ℚ
  solution : List String
  rowdata : List (List Int)
  scores : List ℚ
  initial_singularities : List Int
  num_non_optimal : Int
  weight_non_optimal : ℚ
deriving DecidableEq, Repr

/-- Default constructor `Solution::Solution()`. -/
def Solution.empty : Solution :=
  { corpusname := "", scorelabel := "", scoresum := 0, num_columns := 0, num_rows := 0,
    weight := 0, solution := [], rowdata := [], scores := [], initial_singularities := [],
    num_non_optimal := 0, weight_non_optimal := 0 }

/-- Method `Solution::add_to_soln`. -/
def Solution.add_to_soln (S : Solution) (f : String) (row : List Int) (weight : ℚ)
    (optimal : Bool) : Solution :=
  let S1 : Solution :=
    { S with weight := S.weight + weight,
             solution := S.solution ++ [f],
             rowdata := S.rowdata ++ [row],
             scores := S.scores ++ [0] }
  if optimal = false then
    { S1 with num_non_optimal := S1.num_non_optimal + 1,
              weight_non_optimal := S1.weight_non_optimal + weight }
  else S1

/-- Class `ExemplarData` of `ExemplarData.h`. -/
structure ExemplarData where
  file_size : Int
  file_path : String
  selected_greedy_rowsum : Bool
  score_rowsum : ℚ
  score_unitarian : ℚ
  score_block_target : ℚ
deriving DecidableEq, Repr

/-- Function `initialise_corpus_data` of `ExemplarData.cpp`. -/
def initialise_corpus_data (m : Matrix) : List ExemplarData :=
  m.rowlist.map (fun element =>
    { file_size := element.file_size, file_path := element.file_path,
      selected_greedy_rowsum := false, score_rowsum := (element.row_sum : ℚ),
      score_unitarian := 0, score_block_target := 0 })

/-! ### Matrix accessors -/

/-- The rows visited by a loop `for (r = 0; r < num_rows; r++)` that walks
`rowlist`: walking past the end of the vector is undefined behaviour. -/
def visited_rows (m : Matrix) : Except Err (List RowElem) :=
  if m.num_rows ≤ (m.rowlist.length : Int) then Except.ok (m.rowlist.take m.num_rows.toNat)
  else Except.error Err.undefined

/-- Method `Matrix::get_row_sum()`. -/
def get_row_sum (m : Matrix) : Except Err (List Int) :=
  if m.num_rows < 0 then Except.error Err.length_error
  else
    match visited_rows m with
    | Except.error e => Except.error e
    | Except.ok rows => Except.ok (rows.map (fun e => e.row_sum))

/-- Method `Matrix::get_row_sum(int r)`. -/
def get_row_sum_at (m : Matrix) (r : Int) : Except Err Int :=
  if r < 0 ∨ r ≥ m.num_rows then Except.error Err.out_of_range
  else
    match at_index m.rowlist r with
    | Except.error e => Except.error e
    | Except.ok row => Except.ok row.row_sum

/-- Method `Matrix::get_row_weight`. -/
def get_row_weight (m : Matrix) (r : Int) : Except Err ℚ :=
  if r < 0 ∨ r ≥ m.num_rows then Except.error Err.out_of_range
  else
    match at_index m.rowlist r with
    | Except.error e => Except.error e
    | Except.ok row => Except.ok row.weight

/-- Method `Matrix::get_row_exemplar`. -/
def get_row_exemplar (m : Matrix) (r : Int) : Except Err String :=
  if r < 0 ∨ r ≥ m.num_rows then Except.error Err.out_of_range
  else
    match at_index m.rowlist r with
    | Except.error e => Except.error e
    | Except.ok row => Except.ok row.file_path

/-- The inner loop of `Matrix::get_column_sum`: `result[value]++` for every
live entry. -/
def column_sum_add : List Int → List Int → Except Err (List Int)
  | result, [] => Except.ok result
  | result, value :: rest =>
    if value ≠ DELETED then
      match at_index result value with
      | Except.error e => Except.error e
      | Except.ok x => column_sum_add (result.set value.toNat (x + 1)) rest
    else column_sum_add result rest

/-- The outer loop of `Matrix::get_column_sum`. -/
def column_sum_rows : List Int → List RowElem → Except Err (List Int)
  | result, [] => Except.ok result
  | result, e :: rest =>
    match column_sum_add result e.column with
    | Except.error err => Except.error err
    | Except.ok result1 => column_sum_rows result1 rest

/-- Method `Matrix::get_column_sum`. -/
def get_column_sum (m : Matrix) : Except Err (List Int) :=
  if m.num_cols < 0 then Except.error Err.length_error
  else
    match visited_rows m with
    | Except.error e => Except.error e
    | Except.ok rows => column_sum_rows (List.replicate m.num_cols.toNat 0) rows

/-- The loop of `Matrix::get_overlap` over `columndata1`; the second argument
is the part of `columndata2` from position `j` on. -/
def overlap_loop : List Int → List Int → Int → Int
  | [], _, result => result
  | v :: rest, data2, result =>
    if v = DELETED then overlap_loop rest data2 result
    else
      match data2.dropWhile (fun w => decide (w < v)) with
      | [] => result
      | w :: data2rest =>
        if w = v then overlap_loop rest (w :: data2rest) (result + 1)
        else overlap_loop rest (w :: data2rest) result

/-- Method `Matrix::get_overlap`, with its range check (`r > num_rows`) and
its closing assertion. -/
def get_overlap (m : Matrix) (r1 r2 : Int) : Except Err Int :=
  if r1 < 0 ∨ r2 < 0 ∨ r1 > m.num_rows ∨ r2 > m.num_rows then Except.error Err.out_of_range
  else
    match at_index m.rowlist r1, at_index m.rowlist r2 with
    | Except.ok row1, Except.ok row2 =>
      let result := overlap_loop row1.column row2.column 0
      match get_row_sum_at m r1, get_row_sum_at m r2 with
      | Except.ok s1, Except.ok s2 =>
        if result ≤ s1 ∧ result ≤ s2 then Except.ok result else Except.error Err.assert_failed
      | Except.error e, _ => Except.error e
      | _, Except.error e => Except.error e
    | Except.error e, _ => Except.error e
    | _, Except.error e => Except.error e

/-- Conversion of a sequence to a `std::set<int>` and back to a vector:
sorted ascending, without duplicates. -/
def index_set (l : List Int) : List Int := l.dedup.insertionSort (fun a b => a ≤ b)

/-- Function `dedup` of `OSCPSolver.cpp`. -/
def dedup (indices : List Int) : List Int := index_set indices

/-! ### Solver: generally useful functions -/

/-- Function `add_to_solution` of `OSCPSolver.cpp`. -/
def add_to_solution (fs : FileSystem) (data : Matrix) (S : Solution) (row : Int)
    (optimal : Bool) : Except Err Solution :=
  match get_row_exemplar data row with
  | Except.error e => Except.error e
  | Except.ok fullpath =>
    let exemplar := filename fullpath
    let rowdata := get_exemplar_data fs fullpath
    match get_row_weight data row with
    | Except.error e => Except.error e
    | Except.ok weight => Except.ok (S.add_to_soln exemplar rowdata weight optimal)

/-- The loop `for (auto row : rows) add_to_solution(...)`. -/
def add_rows_to_solution (fs : FileSystem) (data : Matrix) (optimal : Bool) :
    Solution → List Int → Except Err Solution
  | S, [] => Except.ok S
  | S, row :: rest =>
    match add_to_solution fs data S row optimal with
    | Except.error e => Except.error e
    | Except.ok S1 => add_rows_to_solution fs data optimal S1 rest

/-- Function `is_column_singular` (and, on row sums, `is_row_singular`). -/
def is_column_singular (freq : List Int) : Bool := freq.any (fun v => decide (v = 0))

/-- Function `is_row_singular`. -/
def is_row_singular (rowsum : List Int) : Bool := rowsum.any (fun v => decide (v = 0))

/-- The loop of `get_singular_columns` / `get_singular_rows`: the subscripts,
counted from `c`, of the zero entries. -/
def singular_positions : List Int → Int → List Int
  | [], _ => []
  | v :: rest, c =>
    if v = 0 then c :: singular_positions rest (c + 1) else singular_positions rest (c + 1)

/-- Function `get_singular_columns`. -/
def get_singular_columns (freq : List Int) : List Int := singular_positions freq 0

/-- Function `get_singular_rows`. -/
def get_singular_rows (rowsum : List Int) : List Int := singular_positions rowsum 0

/-- Function `eliminate_column_singularities`; returns `changed` with the
updated matrix and solution. -/
def eliminate_column_singularities (data : Matrix) (solution : Solution) :
    Except Err (Bool × Matrix × Solution) :=
  match get_column_sum data with
  | Except.error e => Except.error e
  | Except.ok freq =>
    if is_column_singular freq then
      let singularities := get_singular_columns freq
      let solution1 :=
        if solution.initial_singularities.length = 0 then
          { solution with initial_singularities := singularities }
        else solution
      match remove_cols data singularities with
      | Except.error e => Except.error e
      | Except.ok data1 => Except.ok (true, data1, solution1)
    else Except.ok (false, data, solution)

/-- Function `eliminate_row_singularities`. -/
def eliminate_row_singularities (data : Matrix) (rowsum : List Int) : Except Err Matrix :=
  if is_row_singular rowsum then remove_rows data (get_singular_rows rowsum)
  else Except.ok data

/-- The inner loop of `project_columns`: the columns `c < cols` with
`rowdata[c] == 1`, counted from `c`. -/
def set_positions : List Int → Int → List Int
  | [], _ => []
  | v :: rest, c =>
    if v = 1 then c :: set_positions rest (c + 1) else set_positions rest (c + 1)

/-- The outer loop of `project_columns`. -/
def project_columns_loop (data : Matrix) : List Int → List Int → Except Err (List Int)
  | [], C => Except.ok C
  | r :: rest, C =>
    match get_row data r with
    | Except.error e => Except.error e
    | Except.ok rowdata => project_columns_loop data rest (C ++ set_positions rowdata 0)

/-- Function `project_columns`. -/
def project_columns (data : Matrix) (rowset : List Int) : Except Err (List Int) :=
  match project_columns_loop data rowset [] with
  | Except.error e => Except.error e
  | Except.ok C => Except.ok (dedup C)

/-- Function `reduce`: delete the rows of `rowset` and all their columns, then
the rows left without any column. -/
def reduce (data : Matrix) (rowset : List Int) : Except Err Matrix :=
  match project_columns data rowset with
  | Except.error e => Except.error e
  | Except.ok cols =>
    match remove_cols data cols with
    | Except.error e => Except.error e
    | Except.ok data1 =>
      match remove_rows data1 rowset with
      | Except.error e => Except.error e
      | Except.ok data2 =>
        match get_row_sum data2 with
        | Except.error e => Except.error e
        | Except.ok rowsum =>
          if is_row_singular rowsum then eliminate_row_singularities data2 rowsum
          else Except.ok data2

/-! ### Solver: row unitarians -/

/-- The scan of one row in `find_unitarian_rows`: is some live entry a
unitarian column? -/
def has_unitarian_entry (unitycols : List Int) (column : List Int) : Bool :=
  column.any (fun value => decide (value ≠ DELETED) && decide (value ∈ unitycols))

/-- The loop of `find_unitarian_rows` over the rows, `r` being the index of
the first row of the list; `c_data[r].score_unitarian` is bumped for every row
found. -/
def find_unitarian_rows_loop (unitycols : List Int) :
    List RowElem → Int → List ExemplarData → Except Err (List Int × List ExemplarData)
  | [], _, c_data => Except.ok ([], c_data)
  | e :: rest, r, c_data =>
    if has_unitarian_entry unitycols e.column then
      match at_index c_data r with
      | Except.error err => Except.error err
      | Except.ok x =>
        let c_data1 :=
          c_data.set r.toNat { x with score_unitarian := x.score_unitarian + 1 }
        match find_unitarian_rows_loop unitycols rest (r + 1) c_data1 with
        | Except.error err => Except.error err
        | Except.ok res => Except.ok (r :: res.1, res.2)
    else find_unitarian_rows_loop unitycols rest (r + 1) c_data

/-- Function `find_unitarian_rows`. -/
def find_unitarian_rows (data : Matrix) (columns : List Int) (c_data : List ExemplarData) :
    Except Err (List Int × List ExemplarData) :=
  match visited_rows data with
  | Except.error e => Except.error e
  | Except.ok rows => find_unitarian_rows_loop columns rows 0 c_data

/-- The loop of `eliminate_row_unitarians` collecting the columns of
frequency one, `col` being the index of the first entry of the list. -/
def unity_columns : List Int → Int → List Int
  | [], _ => []
  | value :: rest, col =>
    if value = 1 then col :: unity_columns rest (col + 1) else unity_columns rest (col + 1)

/-- Function `eliminate_row_unitarians`. -/
def eliminate_row_unitarians (fs : FileSystem) (data : Matrix) (solution : Solution)
    (corpus_data : List ExemplarData) :
    Except Err (Bool × Matrix × Solution × List ExemplarData) :=
  if data.num_rows = 0 ∨ data.num_cols = 0 then Except.ok (false, data, solution, corpus_data)
  else
    match get_column_sum data with
    | Except.error e => Except.error e
    | Except.ok Freq =>
      let unity_cols := unity_columns Freq 0
      if unity_cols.length > 0 then
        match find_unitarian_rows data unity_cols corpus_data with
        | Except.error e => Except.error e
        | Except.ok (unity_rows, corpus_data1) =>
          match add_rows_to_solution fs data true solution unity_rows with
          | Except.error e => Except.error e
          | Except.ok solution1 =>
            match reduce data unity_rows with
            | Except.error e => Except.error e
            | Except.ok data1 => Except.ok (true, data1, solution1, corpus_data1)
      else Except.ok (false, data, solution, corpus_data)

/-! ### Solver: subset rows -/

/-- Member `std::string::compare`, up to the magnitude of its result:
negative, zero or positive. -/
def string_compare (a b : String) : Int :=
  if a < b then -1 else if b < a then 1 else 0

/-- Function `deterministic_compare`. -/
def deterministic_compare (data : Matrix) (row1 row2 : Int) : Except Err Int :=
  match get_row_exemplar data row1, get_row_exemplar data row2 with
  | Except.ok path1, Except.ok path2 => Except.ok (string_compare path1 path2)
  | Except.error e, _ => Except.error e
  | _, Except.error e => Except.error e

/-- The local record `row_meta` of `find_subset_rows`. -/
structure RowMeta where
  index : Int
  rowsum : Int
  weight : ℚ
deriving DecidableEq, Repr

/-- The lambda `cmp` of `find_subset_rows`: true iff `a` goes before `b`
(row sum decreasing, then weight increasing, then file name decreasing).  The
indices handed to it are row indices of `data`, for which
`deterministic_compare` does not throw. -/
def row_meta_before (data : Matrix) (a b : RowMeta) : Bool :=
  if a.rowsum > b.rowsum then true
  else if a.rowsum < b.rowsum then false
  else if a.weight < b.weight then true
  else if a.weight > b.weight then false
  else
    match deterministic_compare data a.index b.index with
    | Except.ok v => decide (v > 0)
    | Except.error _ => false

/-- Call `std::sort(first, last, before)`: the sorted arrangement in which no
element goes strictly before an earlier one (elements that compare equivalent
keep their order). -/
def sort_by {α : Type} (before : α → α → Bool) (l : List α) : List α :=
  l.insertionSort (fun a b => before b a = false)

/-- The loop filling `sorted_rows`, `i` being the index of the first entry. -/
def row_metas : List RowElem → Int → List RowMeta
  | [], _ => []
  | e :: rest, i => { index := i, rowsum := e.row_sum, weight := e.weight } :: row_metas rest (i + 1)

/-- Lookup in the `std::map<ROW, int>` of `find_subset_rows`, kept as an
association list whose first binding of a key is the current one. -/
def rows_find (rows : List (List Int × Int)) (row : List Int) : Option Int :=
  match rows.find? (fun p => decide (p.1 = row)) with
  | some p => some p.2
  | none => none

/-- The duplicate-removing loop of `find_subset_rows` over `sorted_rows`. -/
def find_duplicate_rows (data : Matrix) :
    List RowMeta → Int → List (List Int × Int) → List Int → Except Err (List Int)
  | [], _, _, del_set => Except.ok del_set
  | it :: rest, cur_rowsum, rows, del_set =>
    let rows1 := if cur_rowsum ≠ it.rowsum then [] else rows
    let cur_rowsum1 := if cur_rowsum ≠ it.rowsum then it.rowsum else cur_rowsum
    match get_row data it.index with
    | Except.error e => Except.error e
    | Except.ok row =>
      match rows_find rows1 row with
      | none => find_duplicate_rows data rest cur_rowsum1 ((row, it.index) :: rows1) del_set
      | some match_index =>
        match get_row_weight data match_index with
        | Except.error e => Except.error e
        | Except.ok w =>
          if it.weight = w then
            match deterministic_compare data match_index it.index with
            | Except.error e => Except.error e
            | Except.ok c =>
              if c > 0 then
                find_duplicate_rows data rest cur_rowsum1 ((row, it.index) :: rows1)
                  (match_index :: del_set)
              else find_duplicate_rows data rest cur_rowsum1 rows1 (it.index :: del_set)
          else find_duplicate_rows data rest cur_rowsum1 rows1 (it.index :: del_set)

/-- The inner loop (`it2`) of the subset search of `find_subset_rows`. -/
def find_subsets_of (data : Matrix) (it1 : RowMeta) :
    List RowMeta → List Int → Except Err (List Int)
  | [], del_set => Except.ok del_set
  | it2 :: rest, del_set =>
    if it2.index ∈ del_set then find_subsets_of data it1 rest del_set
    else if it1.weight > it2.weight then find_subsets_of data it1 rest del_set
    else
      match get_overlap data it1.index it2.index with
      | Except.error e => Except.error e
      | Except.ok overlap =>
        if it2.rowsum = overlap then find_subsets_of data it1 rest (it2.index :: del_set)
        else find_subsets_of data it1 rest del_set

/-- The outer loop (`it1`) of the subset search of `find_subset_rows`. -/
def find_strict_subsets (data : Matrix) : List RowMeta → List Int → Except Err (List Int)
  | [], del_set => Except.ok del_set
  | it1 :: rest, del_set =>
    if it1.index ∈ del_set then find_strict_subsets data rest del_set
    else
      match find_subsets_of data it1 rest del_set with
      | Except.error e => Except.error e
      | Except.ok del_set1 => find_strict_subsets data rest del_set1

/-- Function `find_subset_rows`. -/
def find_subset_rows (data : Matrix) : Except Err (List Int) :=
  if data.num_rows = 0 then Except.ok []
  else
    match get_row_sum data, visited_rows data with
    | Except.ok _, Except.ok rows =>
      let sorted_rows := sort_by (row_meta_before data) (row_metas rows 0)
      match at_index sorted_rows 0 with
      | Except.error e => Except.error e
      | Except.ok first =>
        match find_duplicate_rows data sorted_rows first.rowsum [] [] with
        | Except.error e => Except.error e
        | Except.ok del_set =>
          match find_strict_subsets data sorted_rows del_set with
          | Except.error e => Except.error e
          | Except.ok del_set1 => Except.ok (index_set del_set1)
    | Except.error e, _ => Except.error e
    | _, Except.error e => Except.error e

/-- Function `eliminate_subset_rows`. -/
def eliminate_subset_rows (data : Matrix) : Except Err (Bool × Matrix) :=
  match find_subset_rows data with
  | Except.error e => Except.error e
  | Except.ok subset_rows =>
    if subset_rows.length > 0 then
      match remove_rows data subset_rows with
      | Except.error e => Except.error e
      | Except.ok data1 => Except.ok (true, data1)
    else Except.ok (false, data)

/-! ### Solver: superset columns -/

/-- The statement `columns[c].push_back(r)` for the live entries of one row. -/
def push_row_entries (r : Int) : List (List Int) → List Int → Except Err (List (List Int))
  | columns, [] => Except.ok columns
  | columns, c :: rest =>
    if c ≠ DELETED then
      match at_index columns c with
      | Except.error e => Except.error e
      | Except.ok col => push_row_entries r (columns.set c.toNat (col ++ [r])) rest
    else push_row_entries r columns rest

/-- The loop building the local column-major view, `r` being the index of
the first row of the list. -/
def build_columns : List (List Int) → List RowElem → Int → Except Err (List (List Int))
  | columns, [], _ => Except.ok columns
  | columns, e :: rest, r =>
    match push_row_entries r columns e.column with
    | Except.error err => Except.error err
    | Except.ok columns1 => build_columns columns1 rest (r + 1)

/-- The two-pointer `while (superset1 || superset2)` loop of
`find_superset_cols`; `fuel` bounds the number of iterations (each one
advances at least one iterator). -/
def superset_test : Nat → List Int → List Int → Bool → Bool → Bool × Bool
  | 0, _, _, superset1, superset2 => (superset1, superset2)
  | fuel + 1, iter1, iter2, superset1, superset2 =>
    if superset1 || superset2 then
      match iter1, iter2 with
      | [], [] => (superset1, superset2)
      | [], _ :: _ => (false, superset2)
      | _ :: _, [] => (superset1, false)
      | a :: rest1, b :: rest2 =>
        if a < b then superset_test fuel rest1 (b :: rest2) superset1 false
        else if a > b then superset_test fuel (a :: rest1) rest2 false superset2
        else superset_test fuel rest1 rest2 superset1 superset2
    else (superset1, superset2)

/-- The inner loop (`c2`) of `find_superset_cols`; the list holds the values
of `c2` still to visit. -/
def find_supersets_of (columns : List (List Int)) (c1 : Int) (col1 : List Int) :
    List Int → List Int → Except Err (List Int)
  | [], supersets => Except.ok supersets
  | c2 :: rest, supersets =>
    if c2 ∈ supersets then find_supersets_of columns c1 col1 rest supersets
    else
      match at_index columns c2 with
      | Except.error e => Except.error e
      | Except.ok col2 =>
        if col2.length = 0 then find_supersets_of columns c1 col1 rest supersets
        else
          let t := superset_test (col1.length + col2.length + 1) col1 col2 true true
          if t.1 then Except.ok (c1 :: supersets)
          else if t.2 then find_supersets_of columns c1 col1 rest (c2 :: supersets)
          else find_supersets_of columns c1 col1 rest supersets

/-- The outer loop (`c1`) of `find_superset_cols`; the list holds the values
of `c1` still to visit, its tail being the range of `c2`. -/
def find_supersets (columns : List (List Int)) : List Int → List Int → Except Err (List Int)
  | [], supersets => Except.ok supersets
  | c1 :: rest, supersets =>
    if c1 ∈ supersets then find_supersets columns rest supersets
    else
      match at_index columns c1 with
      | Except.error e => Except.error e
      | Except.ok col1 =>
        if col1.length = 0 then find_supersets columns rest supersets
        else
          match find_supersets_of columns c1 col1 rest supersets with
          | Except.error e => Except.error e
          | Except.ok supersets1 => find_supersets columns rest supersets1

/-- Function `find_superset_cols`. -/
def find_superset_cols (data : Matrix) : Except Err (List Int) :=
  if data.num_cols < 0 then Except.error Err.length_error
  else
    match visited_rows data with
    | Except.error e => Except.error e
    | Except.ok rows =>
      match build_columns (List.replicate data.num_cols.toNat []) rows 0 with
      | Except.error e => Except.error e
      | Except.ok columns =>
        match find_supersets columns ((List.range data.num_cols.toNat).map Int.ofNat) [] with
        | Except.error e => Except.error e
        | Except.ok supersets => Except.ok (index_set supersets)

/-- Function `eliminate_superset_cols`. -/
def eliminate_superset_cols (data : Matrix) : Except Err (Bool × Matrix) :=
  match find_superset_cols data with
  | Except.error e => Except.error e
  | Except.ok superset_cols =>
    if superset_cols.length > 0 then
      match remove_cols data superset_cols with
      | Except.error e => Except.error e
      | Except.ok data1 => Except.ok (true, data1)
    else Except.ok (false, data)

/-! ### Solver: the greedy selector -/

/-- The constant `#define NULL_INDEX -1` of `OSCPSolver.h`. -/
def NULL_INDEX : Int := -1

/-- The loop of `score_rows`: `rowsums[r] / weight(r)`. -/
def score_rows (data : Matrix) : Except Err (List ℚ) :=
  if data.num_rows < 0 then Except.error Err.length_error
  else
    match visited_rows data with
    | Except.error e => Except.error e
    | Except.ok rows => Except.ok (rows.map (fun e => (e.row_sum : ℚ) / e.weight))

/-- The loop pairing every score with its row index, `i` being the index of
the first entry. -/
def score_pairs : List ℚ → Int → List (ℚ × Int)
  | [], _ => []
  | s :: rest, i => (s, i) :: score_pairs rest (i + 1)

/-- The comparison `std::greater<std::pair<double, int>>`. -/
def score_pair_greater (a b : ℚ × Int) : Bool :=
  decide (a.1 > b.1) || (decide (a.1 = b.1) && decide (a.2 > b.2))

/-- The `while` loop of `deterministic_select`: `rest` holds `scores[i..]`. -/
def deterministic_select_loop (data : Matrix) (scores : List (ℚ × Int)) (first : ℚ) :
    List (ℚ × Int) → Int → Int → Except Err Int
  | [], _, bestindex => Except.ok bestindex
  | s :: rest, i, bestindex =>
    if s.1 = first then
      match at_index scores bestindex with
      | Except.error e => Except.error e
      | Except.ok best =>
        match deterministic_compare data best.2 s.2 with
        | Except.error e => Except.error e
        | Except.ok c =>
          deterministic_select_loop data scores first rest (i + 1)
            (if c > 0 then i else bestindex)
    else Except.ok bestindex

/-- Function `deterministic_select`. -/
def deterministic_select (data : Matrix) (scores : List (ℚ × Int)) : Except Err Int :=
  match scores with
  | [] => Except.ok NULL_INDEX
  | s0 :: rest => deterministic_select_loop data scores s0.1 rest 1 0

/-- Function `eliminate_max_score` (its `corpus_data` argument, taken by
value, is not used). -/
def eliminate_max_score (fs : FileSystem) (data : Matrix) (solution : Solution) :
    Except Err (Bool × Matrix × Solution) :=
  match score_rows data with
  | Except.error e => Except.error e
  | Except.ok row_scores =>
    let sorted_scores := sort_by score_pair_greater (score_pairs row_scores 0)
    match deterministic_select data sorted_scores with
    | Except.error e => Except.error e
    | Except.ok rank =>
      match at_index sorted_scores rank with
      | Except.error e => Except.error e
      | Except.ok chosen =>
        let row := chosen.2
        if row = NULL_INDEX then Except.ok (false, data, solution)
        else
          match add_to_solution fs data solution row false with
          | Except.error e => Except.error e
          | Except.ok solution1 =>
            match reduce data [row] with
            | Except.error e => Except.error e
            | Except.ok data1 => Except.ok (true, data1, solution1)

/-! ### Verification of a solution -/

/-- The inner loop of `calc_soln_col_sum` on one raw row, `c` being the
index of the first entry. -/
def soln_col_sum_add : List Int → List Int → Int → Except Err (List Int)
  | colsum, [], _ => Except.ok colsum
  | colsum, v :: rest, c =>
    if v = 1 then
      match at_index colsum c with
      | Except.error e => Except.error e
      | Except.ok x => soln_col_sum_add (colsum.set c.toNat (x + 1)) rest (c + 1)
    else soln_col_sum_add colsum rest (c + 1)

/-- The outer loop of `calc_soln_col_sum`. -/
def soln_col_sum_rows : List Int → List (List Int) → Except Err (List Int)
  | colsum, [] => Except.ok colsum
  | colsum, row :: rest =>
    match soln_col_sum_add colsum row 0 with
    | Except.error e => Except.error e
    | Except.ok colsum1 => soln_col_sum_rows colsum1 rest

/-- Function `calc_soln_col_sum`. -/
def calc_soln_col_sum (data : Matrix) (S : Solution) : Except Err (List Int) :=
  if data.num_cols_orig < 0 then Except.error Err.length_error
  else soln_col_sum_rows (List.replicate data.num_cols_orig.toNat 0) S.rowdata

/-- The parsed weight file: `none` for the empty path (unweighted run),
otherwise the records `<filename> <weight>` in file order. -/
abbrev WeightFile := Option (List (String × ℚ))

/-- Function `get_weight_data` as a lookup: `std::map::insert` keeps the first
record of a name. -/
def weight_lookup (records : List (String × ℚ)) (name : String) : Option ℚ :=
  match records.find? (fun p => decide (p.1 = name)) with
  | some p => some p.2
  | none => none

/-- Expression `weight_map[name]`: a missing name reads as `0.0`. -/
def weight_map_at (records : List (String × ℚ)) (name : String) : ℚ :=
  match weight_lookup records name with
  | some w => w
  | none => 0

/-- The loop of `verify_solution` over the columns, `c` being the index of
the first entry: false as soon as an uncovered column is not recorded as an
initial singularity. -/
def all_columns_covered (singularities : List Int) : List Int → Int → Bool
  | [], _ => true
  | v :: rest, c =>
    if v = 0 ∧ c ∉ singularities then false
    else all_columns_covered singularities rest (c + 1)

/-- The loop of `verify_solution` summing `weight_map[...]` over the solution. -/
def solution_weight_sum (records : List (String × ℚ)) : List String → ℚ → ℚ
  | [], weight => weight
  | f :: rest, weight => solution_weight_sum records rest (weight + weight_map_at records (filename f))

/-- Function `verify_solution`; the `binary_search` over the sorted
`initial_singularities` is a membership test. -/
def verify_solution (data : Matrix) (S : Solution) (weight_file : WeightFile) :
    Except Err Bool :=
  match calc_soln_col_sum data S with
  | Except.error e => Except.error e
  | Except.ok colsum =>
    let singularities := S.initial_singularities.insertionSort (fun a b => a ≤ b)
    if all_columns_covered singularities colsum 0 = false then Except.ok false
    else
      match weight_file with
      | some records =>
        if solution_weight_sum records S.solution 0 ≠ S.weight then Except.ok false
        else Except.ok true
      | none =>
        if S.weight ≠ (S.solution.length : ℚ) then Except.ok false else Except.ok true

/-- Function `print_solution`: it sorts `solution.solution` in place. -/
def print_solution (solution : Solution) : Solution :=
  { solution with solution := solution.solution.insertionSort (fun a b => a ≤ b) }

/-! ### The top-level solve loop -/

/-- The variables of the `while (r && c)` loop of `solve_oscp`. -/
structure LoopState where
  data : Matrix
  solution : Solution
  corpus_data : List ExemplarData
  option0 : Bool
  option1 : Bool
  option2 : Bool
  non_optimal : Int
deriving DecidableEq, Repr

/-- One pass through the body of the `while (r && c)` loop of `solve_oscp`. -/
def solve_step (fs : FileSystem) (greedy : Bool) (st : LoopState) : Except Err LoopState :=
  if greedy = false ∧ st.option0 = true then
    match eliminate_row_unitarians fs st.data st.solution st.corpus_data with
    | Except.error e => Except.error e
    | Except.ok (changed, data1, solution1, corpus_data1) =>
      Except.ok { st with data := data1, solution := solution1, corpus_data := corpus_data1,
                          option0 := false,
                          option1 := if changed then true else st.option1 }
  else if greedy = false ∧ st.option1 = true then
    match eliminate_subset_rows st.data with
    | Except.error e => Except.error e
    | Except.ok (changed, data1) =>
      Except.ok { st with data := data1, option1 := false,
                          option0 := if changed then true else st.option0,
                          option2 := if changed then true else st.option2 }
  else if greedy = false ∧ st.option2 = true then
    match eliminate_superset_cols st.data with
    | Except.error e => Except.error e
    | Except.ok (changed, data1) =>
      Except.ok { st with data := data1, option2 := false,
                          option1 := if changed then true else st.option1 }
  else
    match eliminate_max_score fs st.data st.solution with
    | Except.error e => Except.error e
    | Except.ok (changed, data1, solution1) =>
      Except.ok { st with data := data1, solution := solution1,
                          option1 := if changed then true else st.option1,
                          non_optimal := if changed then st.non_optimal + 1 else st.non_optimal }

/-- The `while (r && c)` loop of `solve_oscp`, run for at most `fuel` passes;
`none` when the passes are used up before the loop condition fails. -/
def solve_loop (fs : FileSystem) (greedy : Bool) : Nat → LoopState → Except Err (Option LoopState)
  | fuel, st =>
    if st.data.num_rows ≠ 0 ∧ st.data.num_cols ≠ 0 then
      match fuel with
      | 0 => Except.ok none
      | fuel1 + 1 =>
        match solve_step fs greedy st with
        | Except.error e => Except.error e
        | Except.ok st1 => solve_loop fs greedy fuel1 st1
    else Except.ok (some st)

/-- The result of `solve_oscp`: the returned solution, the final matrix and
analytics (both are updated through references) and the outcome `verified` of
`verify_solution`. -/
structure SolveResult where
  solution : Solution
  data : Matrix
  corpus_data : List ExemplarData
  verified : Bool
deriving DecidableEq, Repr

/-- Method `OSCPSolver::solve_oscp`; `solution0` is the member
`this->solution` of the solver, `fuel` bounds the passes of the loop. -/
def solve_oscp (fs : FileSystem) (fuel : Nat) (solution0 : Solution) (data : Matrix)
    (corpus_data : List ExemplarData) (name : String) (greedy : Bool)
    (weight_file : WeightFile) : Except Err (Option SolveResult) :=
  let solution1 : Solution :=
    { solution0 with
        scorelabel := if greedy then "Greedy heuristic" else "Milford-Hayes reduction",
        corpusname := name,
        num_rows := data.num_rows,
        num_columns := data.num_cols_orig }
  match get_column_sum data with
  | Except.error e => Except.error e
  | Except.ok _ =>
    match eliminate_column_singularities data solution1 with
    | Except.error e => Except.error e
    | Except.ok (_, data1, solution2) =>
      match solve_loop fs greedy fuel
          { data := data1, solution := solution2, corpus_data := corpus_data,
            option0 := true, option1 := true, option2 := true, non_optimal := 0 } with
      | Except.error e => Except.error e
      | Except.ok none => Except.ok none
      | Except.ok (some st) =>
        let solution3 := print_solution st.solution
        match verify_solution st.data solution3 weight_file with
        | Except.error e => Except.error e
        | Except.ok verified =>
          Except.ok (some { solution := solution3, data := st.data,
                            corpus_data := st.corpus_data, verified := verified })

/-! ### Construction of the matrix from a corpus, and the large-data pass -/

/-- Class `CorpusFile` of `Corpus.h`. -/
structure CorpusFile where
  file_path : String
  file_size : Int
deriving DecidableEq, Repr

/-- Function `get_file_list`: the files of the corpus directory, given by
their names in directory order, with their sizes. -/
def get_file_list (fs : FileSystem) (names : List String) : List CorpusFile :=
  names.map (fun f => { file_path := f, file_size := ((fs f).length : Int) })

/-- The comparison `std::greater<CorpusFile>` (by file size). -/
def corpus_file_greater (a b : CorpusFile) : Bool := decide (a.file_size > b.file_size)

/-- The loop of the constructor `RowElem(exemplar, init_col_transform)` over
the raw data, `idx` being the index of the first entry. -/
def row_entries (init_col_transform : List Int) : List Int → Int → Except Err (List Int)
  | [], _ => Except.ok []
  | v :: rest, idx =>
    if v ≠ 0 then
      match at_index init_col_transform idx with
      | Except.error e => Except.error e
      | Except.ok t =>
        match row_entries init_col_transform rest (idx + 1) with
        | Except.error e => Except.error e
        | Except.ok temp => if t ≠ DELETED then Except.ok (t :: temp) else Except.ok temp
    else row_entries init_col_transform rest (idx + 1)

/-- Constructor `RowElem(exemplar, init_col_transform)`. -/
def row_from_file (fs : FileSystem) (exemplar : String) (init_col_transform : List Int) :
    Except Err RowElem :=
  match row_entries init_col_transform (get_exemplar_data fs exemplar) 0 with
  | Except.error e => Except.error e
  | Except.ok temp =>
    Except.ok { file_path := exemplar, file_size := ((fs exemplar).length : Int),
                row_sum := (temp.length : Int), column := temp, weight := 1 }

/-- The loop of the corpus constructor of `Matrix` that parses the files and
inserts the rows; `weight_map` holds the records not yet used (`none` in the
unweighted version).  Returns the matrix and the records left over. -/
def insert_corpus_rows (fs : FileSystem) (init_col_transform : List Int) :
    List CorpusFile → Option (List (String × ℚ)) → Matrix →
      Except Err (Matrix × Option (List (String × ℚ)))
  | [], weight_map, m => Except.ok (m, weight_map)
  | f :: rest, weight_map, m =>
    match row_from_file fs f.file_path init_col_transform with
    | Except.error e => Except.error e
    | Except.ok row =>
      match weight_map with
      | some records =>
        let name := filename row.file_path
        match weight_lookup records name with
        | some w =>
          let row1 := { row with weight := w }
          let records1 := records.filter (fun p => decide (p.1 ≠ name))
          if w > 0 then
            insert_corpus_rows fs init_col_transform rest (some records1) (insert_row m row1)
          else insert_corpus_rows fs init_col_transform rest (some records1) m
        | none => insert_corpus_rows fs init_col_transform rest (some records) m
      | none => insert_corpus_rows fs init_col_transform rest none (insert_row m row)

/-- Constructor `Matrix(directory, pattern, weight_file, cols_to_ignore)`:
`names` are the corpus files found in the directory. -/
def matrix_from_corpus (fs : FileSystem) (names : List String) (weight_file : WeightFile)
    (cols_to_ignore : List Int) : Except Err Matrix :=
  let corpus := sort_by corpus_file_greater (get_file_list fs names)
  match corpus with
  | [] => Except.error Err.exit
  | first :: _ =>
    let num_cols_orig := 8 * first.file_size
    match transform_index num_cols_orig cols_to_ignore with
    | Except.error e => Except.error e
    | Except.ok init_col_transform =>
      let m0 : Matrix :=
        { num_rows := 0, num_cols := 0, num_cols_orig := num_cols_orig, num_elems := 0,
          rowlist := [] }
      match insert_corpus_rows fs init_col_transform corpus weight_file m0 with
      | Except.error e => Except.error e
      | Except.ok (m1, weight_map) =>
        let m2 : Matrix :=
          { m1 with num_cols := m1.num_cols_orig - (cols_to_ignore.length : Int) }
        match weight_map with
        | some (_ :: _) => Except.error Err.assert_failed
        | _ => Except.ok m2

/-- Is the exemplar skipped by `calc_cols_to_ignore` (weighted run and
`weight_map[name] <= 0`)? -/
def skipped (weight_file : WeightFile) (f : CorpusFile) : Bool :=
  match weight_file with
  | some records => decide (weight_map_at records (filename f.file_path) ≤ 0)
  | none => false

/-- The statement `col_freq[i] += row_data[i]` over one raw row, `i` being the
index of the first entry. -/
def col_freq_add : List Int → List Int → Int → Except Err (List Int)
  | col_freq, [], _ => Except.ok col_freq
  | col_freq, v :: rest, i =>
    match at_index col_freq i with
    | Except.error e => Except.error e
    | Except.ok x => col_freq_add (col_freq.set i.toNat (x + v)) rest (i + 1)

/-- Step 1 of `calc_cols_to_ignore`: the column frequencies. -/
def count_column_frequencies (fs : FileSystem) (weight_file : WeightFile) (num_cols : Int) :
    List CorpusFile → List Int → Except Err (List Int)
  | [], col_freq => Except.ok col_freq
  | f :: rest, col_freq =>
    if skipped weight_file f then count_column_frequencies fs weight_file num_cols rest col_freq
    else
      let row_data := get_exemplar_data fs f.file_path
      if num_cols ≥ (row_data.length : Int) then
        match col_freq_add col_freq row_data 0 with
        | Except.error e => Except.error e
        | Except.ok col_freq1 => count_column_frequencies fs weight_file num_cols rest col_freq1
      else Except.error Err.assert_failed

/-- The scan of step 3 of `calc_cols_to_ignore`: is there an `i` with
`row_data[i] == 1 && col_freq[i] == 1`?  `i` is the index of the first entry. -/
def is_unitarian_row (col_freq : List Int) : List Int → Int → Except Err Bool
  | [], _ => Except.ok false
  | v :: rest, i =>
    if v = 1 then
      match at_index col_freq i with
      | Except.error e => Except.error e
      | Except.ok x => if x = 1 then Except.ok true else is_unitarian_row col_freq rest (i + 1)
    else is_unitarian_row col_freq rest (i + 1)

/-- The columns `i` with `row_data[i] != 0`, counted from `i`. -/
def nonzero_positions : List Int → Int → List Int
  | [], _ => []
  | v :: rest, i =>
    if v ≠ 0 then i :: nonzero_positions rest (i + 1) else nonzero_positions rest (i + 1)

/-- Step 3 of `calc_cols_to_ignore`: the row unitarians are added to the
solution and their columns to `cols_to_ignore`. -/
def ignore_unitarian_rows (fs : FileSystem) (weight_file : WeightFile) (num_cols : Int)
    (col_freq : List Int) :
    List CorpusFile → Solution → List Int → Except Err (Solution × List Int)
  | [], solution, cols_to_ignore => Except.ok (solution, cols_to_ignore)
  | f :: rest, solution, cols_to_ignore =>
    if skipped weight_file f then
      ignore_unitarian_rows fs weight_file num_cols col_freq rest solution cols_to_ignore
    else
      let row_data := get_exemplar_data fs f.file_path
      if num_cols ≥ (row_data.length : Int) then
        match is_unitarian_row col_freq row_data 0 with
        | Except.error e => Except.error e
        | Except.ok unitarian =>
          if unitarian then
            let f_name := filename f.file_path
            let solution1 := solution.add_to_soln (filename f.file_path) row_data 0 true
            let solution2 : Solution :=
              match weight_file with
              | some records =>
                { solution1 with weight := solution1.weight + weight_map_at records f_name }
              | none => { solution1 with weight := solution1.weight + 1 }
            ignore_unitarian_rows fs weight_file num_cols col_freq rest solution2
              (cols_to_ignore ++ nonzero_positions row_data 0)
          else ignore_unitarian_rows fs weight_file num_cols col_freq rest solution cols_to_ignore
      else Except.error Err.assert_failed

/-- Method `OSCPSolver::calc_cols_to_ignore`; returns the list of columns to
ignore and the updated member `this->solution`. -/
def calc_cols_to_ignore (fs : FileSystem) (names : List String) (weight_file : WeightFile)
    (solution : Solution) : Except Err (List Int × Solution) :=
  let corpus := sort_by corpus_file_greater (get_file_list fs names)
  match corpus with
  | [] => Except.error Err.assert_failed
  | first :: _ =>
    let num_cols := 8 * first.file_size
    match count_column_frequencies fs weight_file num_cols corpus
        (List.replicate num_cols.toNat 0) with
    | Except.error e => Except.error e
    | Except.ok col_freq =>
      let singular := get_singular_columns col_freq
      let solution1 : Solution := { solution with initial_singularities := index_set singular }
      match ignore_unitarian_rows fs weight_file num_cols col_freq corpus solution1 singular with
      | Except.error e => Except.error e
      | Except.ok (solution2, cols_to_ignore) => Except.ok (index_set cols_to_ignore, solution2)

/-- The processing part of `main` of `moonlight.cpp` when the matrix is built
from the corpus: optional large-data pass, matrix construction, analytics
store, solve. -/
def moonlight_main (fs : FileSystem) (fuel : Nat) (names : List String)
    (weight_file : WeightFile) (large_data greedy : Bool) (runname : String) :
    Except Err (Option SolveResult) :=
  let pre : Except Err (List Int × Solution) :=
    if large_data = true ∧ greedy = false then
      calc_cols_to_ignore fs names weight_file Solution.empty
    else Except.ok ([], Solution.empty)
  match pre with
  | Except.error e => Except.error e
  | Except.ok (cols_to_ignore, solution0) =>
    match matrix_from_corpus fs names weight_file cols_to_ignore with
    | Except.error e => Except.error e
    | Except.ok matrix =>
      solve_oscp fs fuel solution0 matrix (initialise_corpus_data matrix) runname greedy
        weight_file

/-! ## Part II: definitions used to state the properties -/

/-- Number of elements of `D` strictly below `i`. -/
def count_below (D : List Int) (i : Int) : Nat := D.countP (fun d => decide (d < i))

/-- Closed form of the transform at index `i`. -/
def transform_value (D : List Int) (i : Int) : Int :=
  if i ∈ D then DELETED else i - (count_below D i : Int)

/-- Number of indices below `n` that are not in `D`. -/
def kept_before (D : List Int) (n : Nat) : Nat :=
  ((List.range n).filter (fun i : Nat => decide ((i : Int) ∉ D))).length

/-- The list `xs`, whose first element has position `k`, with the elements at
the positions listed in `D` deleted. -/
def delete_positions_from {α : Type} (D : List Int) : Nat → List α → List α
  | _, [] => []
  | k, x :: xs =>
    if (k : Int) ∈ D then delete_positions_from D (k + 1) xs
    else x :: delete_positions_from D (k + 1) xs

/-- The list `xs` with the elements at the positions listed in `D` deleted;
the other elements keep their relative order. -/
def delete_positions {α : Type} (D : List Int) (xs : List α) : List α :=
  delete_positions_from D 0 xs

/-- The `row_sum` of the row at position `r`, zero when there is none. -/
def row_sum_at (rows : List RowElem) (r : Int) : Int :=
  match rows[r.toNat]? with
  | some e => e.row_sum
  | none => 0

/-- Sum of the `row_sum` fields of a list of rows. -/
def total_row_sum (rows : List RowElem) : Int := (rows.map (fun e => e.row_sum)).sum

/-- An example row over the given column sequence. -/
def example_row (name : String) (column : List Int) : RowElem :=
  { file_size := 1, row_sum := live_count column, file_path := name, column := column,
    weight := 1 }

/-- An example matrix with three rows and five columns. -/
def example_matrix : Matrix :=
  { num_rows := 3, num_cols := 5, num_cols_orig := 5, num_elems := 6,
    rowlist := [example_row "a" [0, 1, 2], example_row "b" [1, 4], example_row "c" [3]] }

/-- The live (non-tombstone) entries of a column sequence, in stored order. -/
def live (column : List Int) : List Int := column.filter (fun v => v ≠ DELETED)

/-- Row invariant: `row_sum` counts the live entries, which are strictly
increasing and lie in `[0, num_cols)`. -/
def row_wf (num_cols : Int) (e : RowElem) : Prop :=
  e.row_sum = live_count e.column ∧ (live e.column).Pairwise (fun a b => a < b) ∧
    ∀ v ∈ live e.column, 0 ≤ v ∧ v < num_cols

instance (num_cols : Int) (e : RowElem) : Decidable (row_wf num_cols e) := by
  unfold row_wf; infer_instance

/-- Matrix invariants of the data model: `num_rows == |rowlist|`, `num_cols`
is a count, `num_elems == Σ row_sum`, and every row satisfies `row_wf`. -/
def matrix_wf (m : Matrix) : Prop :=
  m.num_rows = (m.rowlist.length : Int) ∧ 0 ≤ m.num_cols ∧
    m.num_elems = total_row_sum m.rowlist ∧ ∀ e ∈ m.rowlist, row_wf m.num_cols e

instance (m : Matrix) : Decidable (matrix_wf m) := by
  unfold matrix_wf; infer_instance

/-- The stored entry `v` after the columns in `D` are removed. -/
def relocate (D : List Int) (v : Int) : Int :=
  if v ≠ DELETED then transform_value D v else v

/-- The row after the columns in `D` are removed. -/
def relocate_row (D : List Int) (e : RowElem) : RowElem :=
  { e with column := e.column.map (relocate D),
           row_sum := live_count (e.column.map (relocate D)) }

/-- The matrix after the columns in `D` are removed. -/
def relocate_matrix (D : List Int) (m : Matrix) : Matrix :=
  { m with rowlist := m.rowlist.map (relocate_row D),
           num_elems := total_row_sum (m.rowlist.map (relocate_row D)),
           num_cols := m.num_cols - (D.length : Int) }

/-- Dense 0/1 vector of width `W` with ones exactly at the positions in `L`. -/
def dense (W : Nat) (L : List Int) : List Int :=
  (List.range W).map (fun c : Nat => if (c : Int) ∈ L then 1 else 0)

/-- The row at position `r`, if any. -/
def row_at (m : Matrix) (r : Int) : Option RowElem :=
  if r < 0 then none else m.rowlist[r.toNat]?

/-- Number of live entries of the rows that are equal to `c`: the column sum
of column `c`. -/
def column_count (rows : List RowElem) (c : Int) : Int :=
  (rows.map (fun e => ((live e.column).count c : Int))).sum

/-- The vector of column sums of a matrix of `W` columns. -/
def column_sums (W : Nat) (rows : List RowElem) : List Int :=
  (List.range W).map (fun c : Nat => column_count rows (c : Int))

/-- Number of live entries of `column1` that are live entries of `column2`. -/
def overlap_count (column1 column2 : List Int) : Int :=
  (((live column1).filter (fun v => decide (v ∈ live column2))).length : Int)

/-- The positions, counted from `c`, of the entries of a vector that satisfy
`p`: the common shape of the index-collecting loops. -/
def positions_from (p : Int → Bool) : List Int → Int → List Int
  | [], _ => []
  | v :: rest, c =>
    if p v then c :: positions_from p rest (c + 1) else positions_from p rest (c + 1)

/-- The columns that are live in some row of `rowset`. -/
def projected_columns (m : Matrix) (rowset : List Int) : List Int :=
  rowset.flatMap (fun r =>
    match row_at m r with
    | some e => set_positions (dense m.num_cols.toNat (live e.column)) 0
    | none => [])

/-- The matrix with the rows at the positions in `D` deleted and the counters
updated as `remove_rows` does. -/
def delete_rows (D : List Int) (m : Matrix) : Matrix :=
  { m with rowlist := delete_positions D m.rowlist,
           num_rows := m.num_rows - (D.length : Int),
           num_elems := m.num_elems - (D.map (row_sum_at m.rowlist)).sum }

/-- The result of `reduce`: the columns of the rows of `rowset` are removed,
then the rows of `rowset`, then the rows left without a live entry. -/
def reduced (m : Matrix) (rowset : List Int) : Matrix :=
  let m1 := relocate_matrix (dedup (projected_columns m rowset)) m
  let m2 := delete_rows rowset m1
  delete_rows (get_singular_rows (m2.rowlist.map (fun e => e.row_sum))) m2

/-- The rows found at the given positions. -/
def selected_rows (m : Matrix) (rows : List Int) : List RowElem :=
  rows.filterMap (row_at m)

/-- The solution after the given rows are added by `add_to_solution`. -/
def add_all (fs : FileSystem) (optimal : Bool) (S : Solution) (es : List RowElem) : Solution :=
  es.foldl (fun S e =>
    S.add_to_soln (filename e.file_path) (get_exemplar_data fs e.file_path) e.weight optimal) S

/-- The positions of the rows that have a live entry in a column of `U`. -/
def unitarian_rows (U : List Int) (rows : List RowElem) (r : Int) : List Int :=
  positions_from (fun v => decide (v = 1))
    (rows.map (fun e => if has_unitarian_entry U e.column then 1 else 0)) r

/-- Row `a` dominates row `b`: every live column of `b` is a live column of
`a`, and `a` weighs no more than `b`. -/
def dominates (m : Matrix) (a b : Int) : Prop :=
  ∃ ea eb, row_at m a = some ea ∧ row_at m b = some eb ∧
    (∀ v ∈ live eb.column, v ∈ live ea.column) ∧ ea.weight ≤ eb.weight

/-- Every row marked for deletion is dominated by a row that is not marked. -/
def deletion_sound (m : Matrix) (del : List Int) : Prop :=
  ∀ b ∈ del, ∃ a, a ∉ del ∧ dominates m a b

/-- The record of `sorted_rows` describes a row of the matrix. -/
def meta_ok (m : Matrix) (it : RowMeta) : Prop :=
  ∃ e, row_at m it.index = some e ∧ it.rowsum = e.row_sum ∧ it.weight = e.weight

/-- The file path of the row a `sorted_rows` record points to. -/
def meta_path (m : Matrix) (it : RowMeta) : String :=
  match row_at m it.index with
  | some e => e.file_path
  | none => ""

/-- The sorting key of `find_subset_rows`: row sum decreasing, then weight
increasing, then file path decreasing. -/
def meta_key (m : Matrix) (it : RowMeta) : Lex (Int × Lex (ℚ × Stringᵒᵈ)) :=
  toLex (-it.rowsum, toLex (it.weight, OrderDual.toDual (meta_path m it)))

/-- The list `sorted_rows` of `find_subset_rows`. -/
def sorted_row_metas (m : Matrix) : List RowMeta :=
  sort_by (row_meta_before m) (row_metas m.rowlist 0)

/-- The entries of column `c` of the local column-major view: the indices,
counted from `r`, of the rows in which `c` is live (once per live entry). -/
def column_rows : List RowElem → Int → Int → List Int
  | [], _, _ => []
  | e :: rest, r, c => List.replicate ((live e.column).count c) r ++ column_rows rest (r + 1) c

/-- Column `a` is a non-empty column all of whose rows are rows of column `b`
in the column-major view. -/
def column_within (columns : List (List Int)) (a b : Int) : Prop :=
  ∃ la lb, at_index columns a = Except.ok la ∧ at_index columns b = Except.ok lb ∧
    la ≠ [] ∧ ∀ x ∈ la, x ∈ lb

/-- Every column marked as a superset contains a non-empty column that is not
marked. -/
def superset_sound (columns : List (List Int)) (sup : List Int) : Prop :=
  ∀ b ∈ sup, ∃ a, a ∉ sup ∧ column_within columns a b

/-- Column `a` is a non-empty column of the matrix all of whose rows have
column `b` too. -/
def column_subset (m : Matrix) (a b : Int) : Prop :=
  0 ≤ a ∧ a < m.num_cols ∧ (∃ e ∈ m.rowlist, a ∈ live e.column) ∧
    ∀ e ∈ m.rowlist, a ∈ live e.column → b ∈ live e.column

/-- What the loop of `solve_oscp` needs of its state: the matrix invariants,
and an analytics entry for every row. -/
def loop_ok (st : LoopState) : Prop :=
  matrix_wf st.data ∧ st.data.num_rows ≤ (st.corpus_data.length : Int)

/-- Rows plus columns of the matrix of a loop state. -/
def loop_size (st : LoopState) : Nat := (st.data.num_rows + st.data.num_cols).toNat

/-- Number of reduction rules that are enabled. -/
def loop_flags (st : LoopState) : Nat :=
  (if st.option0 then 1 else 0) + (if st.option1 then 1 else 0) + (if st.option2 then 1 else 0)

/-- A bound on the number of passes still to run. -/
def loop_measure (st : LoopState) : Nat := 4 * loop_size st + loop_flags st

/-- The state in which `solve_oscp` enters its loop on the example matrix. -/
def example_state : LoopState :=
  { data := example_matrix, solution := Solution.empty,
    corpus_data := initialise_corpus_data example_matrix,
    option0 := true, option1 := true, option2 := true, non_optimal := 0 }

/-- The rows selected by the row-unitarian rule on a matrix. -/
def forced_rows (m : Matrix) : List Int :=
  unitarian_rows (unity_columns (column_sums m.num_cols.toNat m.rowlist) 0) m.rowlist 0

/-- The effect of one pass of the loop of `solve_oscp` on the matrix and the
solution: nothing (a rule found nothing to do); or rows are selected and
reduced away (`optimal` for the unitarian rule, not for the greedy pick); or
dominated rows are removed; or superset columns are removed. -/
def step_effect (fs : FileSystem) (st st1 : LoopState) : Prop :=
  (st1.data = st.data ∧ st1.solution = st.solution) ∨
  (∃ (rows : List Int) (optimal : Bool), rows ≠ [] ∧ rows.Nodup ∧
    (∀ r ∈ rows, 0 ≤ r ∧ r < st.data.num_rows) ∧
    (optimal = true → rows = forced_rows st.data) ∧
    st1.data = reduced st.data rows ∧
    st1.solution = add_all fs optimal st.solution (selected_rows st.data rows)) ∨
  (∃ result : List Int, result ≠ [] ∧ result.Nodup ∧
    (∀ b ∈ result, 0 ≤ b ∧ b < st.data.num_rows) ∧ deletion_sound st.data result ∧
    st1.data = delete_rows result st.data ∧ st1.solution = st.solution) ∨
  (∃ result : List Int, result ≠ [] ∧ result.Nodup ∧
    (∀ c ∈ result, 0 ≤ c ∧ c < st.data.num_cols) ∧
    (∀ c ∈ result, ∃ a, a ∉ result ∧ column_subset st.data a c) ∧
    st1.data = relocate_matrix result st.data ∧ st1.solution = st.solution)

/-- Column `c` is set in the raw data of the exemplar file `path`. -/
def raw_bit (fs : FileSystem) (path : String) (c : Int) : Prop :=
  0 ≤ c ∧ (get_exemplar_data fs path)[c.toNat]? = some 1

/-- Column `c` is set in one of the raw rows kept in the solution. -/
def covered (rowdata : List (List Int)) (c : Int) : Prop :=
  ∃ row ∈ rowdata, 0 ≤ c ∧ row[c.toNat]? = some 1

/-- Current column `j` stands for original column `c`: every row that has
`j` has `c` set in its raw data. -/
def col_witness (fs : FileSystem) (m : Matrix) (c j : Int) : Prop :=
  0 ≤ j ∧ j < m.num_cols ∧ ∀ e ∈ m.rowlist, j ∈ live e.column → raw_bit fs e.file_path c

/-- The rows of `m1` are rows of `m` after removal of the columns in `D`. -/
def rows_relocated (D : List Int) (m m1 : Matrix) : Prop :=
  m1.num_cols = m.num_cols - (D.length : Int) ∧
    ∀ e1 ∈ m1.rowlist, ∃ e ∈ m.rowlist, e1 = relocate_row D e

/-- The invariant of the solve loop behind the cover property: every original
column is an initial singularity, or covered by the solution, or stood for by
a current column; no current column is empty; raw rows fit the original
width; the solution keeps the raw row of each of its exemplars. -/
def cover_inv (fs : FileSystem) (W0 : Int) (m : Matrix) (S : Solution) : Prop :=
  m.num_cols_orig = W0 ∧
  (∀ c, 0 ≤ c → c < W0 →
    c ∈ S.initial_singularities ∨ covered S.rowdata c ∨ ∃ j, col_witness fs m c j) ∧
  (∀ j, 0 ≤ j → j < m.num_cols → ∃ e ∈ m.rowlist, j ∈ live e.column) ∧
  (∀ e ∈ m.rowlist, ((get_exemplar_data fs e.file_path).length : Int) ≤ W0) ∧
  S.rowdata = S.solution.map (get_exemplar_data fs) ∧
  (∀ row ∈ S.rowdata, (row.length : Int) ≤ W0)

/-- The weight of an exemplar: its record in the weight file, or `1` in an
unweighted run. -/
def weight_of (weight_file : WeightFile) (name : String) : ℚ :=
  match weight_file with
  | some records => weight_map_at records name
  | none => 1

/-- The invariant behind the weight law: each row carries the weight of its
exemplar, and the weight of the solution is the sum over its exemplars. -/
def weight_inv (weight_file : WeightFile) (m : Matrix) (S : Solution) : Prop :=
  (∀ e ∈ m.rowlist, e.weight = weight_of weight_file (filename e.file_path)) ∧
    S.weight = (S.solution.map (weight_of weight_file)).sum

/-- The columns removed when `solve_oscp` starts: the columns without entry. -/
def entry_columns (m : Matrix) : List Int :=
  get_singular_columns (column_sums m.num_cols.toNat m.rowlist)

/-- The matrix with which `solve_oscp` enters its loop. -/
def entry_matrix (m : Matrix) : Matrix :=
  if entry_columns m = [] then m else relocate_matrix (entry_columns m) m

/-- The solution with which `solve_oscp` enters its loop. -/
def entry_solution (m : Matrix) (S : Solution) : Solution :=
  if entry_columns m = [] then S
  else if S.initial_singularities.length = 0 then
    { S with initial_singularities := entry_columns m }
  else S

/-- The member `solution` after the first statements of `solve_oscp`. -/
def labelled (S : Solution) (m : Matrix) (name : String) (greedy : Bool) : Solution :=
  { S with
      scorelabel := if greedy then "Greedy heuristic" else "Milford-Hayes reduction",
      corpusname := name,
      num_rows := m.num_rows,
      num_columns := m.num_cols_orig }

/-- The raw rows of the matrix and of the solution fit the original width. -/
def len_inv (fs : FileSystem) (W0 : Int) (m : Matrix) (S : Solution) : Prop :=
  m.num_cols_orig = W0 ∧
  (∀ e ∈ m.rowlist, ((get_exemplar_data fs e.file_path).length : Int) ≤ W0) ∧
  (∀ row ∈ S.rowdata, (row.length : Int) ≤ W0)

/-- The stored entries of the row built from raw data `raw` when the columns
in `D` are ignored. -/
def file_entries (D : List Int) (raw : List Int) : List Int :=
  ((nonzero_positions raw 0).filter (fun c => decide (c ∉ D))).map (transform_value D)

/-- The original width of the matrix built from a corpus: eight times the
size of the largest file. -/
def corpus_width (fs : FileSystem) (names : List String) : Int :=
  match sort_by corpus_file_greater (get_file_list fs names) with
  | [] => 0
  | first :: _ => 8 * first.file_size

/-- What the corpus constructor stores in a row, the columns in `D` being
ignored: the exemplar is a corpus file, the entries are the set bits of its
raw data, the weight is the one of the exemplar and is positive. -/
def corpus_row (fs : FileSystem) (weight_file : WeightFile) (D : List Int)
    (names : List String) (e : RowElem) : Prop :=
  e.file_path ∈ names ∧ e.column = file_entries D (get_exemplar_data fs e.file_path) ∧
    e.row_sum = ((file_entries D (get_exemplar_data fs e.file_path)).length : Int) ∧
    e.weight = weight_of weight_file (filename e.file_path) ∧ 0 < e.weight

/-- The condition on the matrix and the solution handed to `solve_oscp` for
the cover property: every original column is recorded as a singularity, or
covered by the solution, or stood for by a column of the matrix; a column of
the matrix without entry stands for itself and no singularity is recorded. -/
def start_ok (fs : FileSystem) (W0 : Int) (m : Matrix) (S : Solution) : Prop :=
  ∀ c, 0 ≤ c → c < W0 →
    c ∈ S.initial_singularities ∨ covered S.rowdata c ∨
      ∃ j, col_witness fs m c j ∧
        (column_count m.rowlist j = 0 → S.initial_singularities = [] ∧ j = c)

/-- The solution after the large-data pass has selected the exemplar `p`. -/
def with_exemplar (fs : FileSystem) (weight_file : WeightFile) (S : Solution) (p : String) :
    Solution :=
  match weight_file with
  | some records =>
    { S.add_to_soln (filename p) (get_exemplar_data fs p) 0 true with
      weight := (S.add_to_soln (filename p) (get_exemplar_data fs p) 0 true).weight +
        weight_map_at records (filename p) }
  | none =>
    { S.add_to_soln (filename p) (get_exemplar_data fs p) 0 true with
      weight := (S.add_to_soln (filename p) (get_exemplar_data fs p) 0 true).weight + 1 }

/-- An example corpus of two one-byte files: `a` sets the columns 0 and 1,
`b` sets column 1. -/
def example_files : FileSystem := fun p => if p = "a" then [192] else [64]

/-- The matrix of a corpus of one file holding the byte `0b10000000`. -/
def example_single : Matrix :=
  { num_rows := 1, num_cols := 8, num_cols_orig := 8, num_elems := 1,
    rowlist := [example_row "f" [0]] }

/-- Rows `a` and `b` have the same columns: they are duplicates. -/
def same_columns (m : Matrix) (a b : Int) : Prop :=
  ∃ ea eb, row_at m a = some ea ∧ row_at m b = some eb ∧
    ∀ v, v ∈ live ea.column ↔ v ∈ live eb.column

/-- Row `a` is kept rather than row `b` among duplicates: it weighs no more,
and at equal weight its exemplar path is not greater. -/
def keeps_before (m : Matrix) (a b : Int) : Prop :=
  ∃ ea eb, row_at m a = some ea ∧ row_at m b = some eb ∧ ea.weight ≤ eb.weight ∧
    (ea.weight = eb.weight → ea.file_path ≤ eb.file_path)

/-- The state of the duplicate pass of `find_subset_rows` after the rows `P`
are processed: of two duplicates one is marked, a row that is not marked is
kept before each of its duplicates, and every row has a duplicate (possibly
itself) that is not marked. -/
def dup_inv (m : Matrix) (P del : List Int) : Prop :=
  (∀ x ∈ P, ∀ y ∈ P, x ≠ y → same_columns m x y → x ∈ del ∨ y ∈ del) ∧
  (∀ x ∈ P, x ∉ del → ∀ y ∈ P, same_columns m x y → keeps_before m x y) ∧
  (∀ x ∈ P, ∃ z ∈ P, z ∉ del ∧ same_columns m z x)

/-- A matrix with two duplicate rows `x` and `y` of equal weight and a third
row `z`. -/
def example_duplicates : Matrix :=
  { num_rows := 3, num_cols := 3, num_cols_orig := 3, num_elems := 5,
    rowlist := [example_row "y" [0, 1], example_row "z" [2], example_row "x" [0, 1]] }

/-- Column `j` of the matrix is not empty and all its rows carry an exemplar
path satisfying `Q`. -/
def col_marks (Q : String → Prop) (m : Matrix) (j : Int) : Prop :=
  0 ≤ j ∧ j < m.num_cols ∧ (∃ e ∈ m.rowlist, j ∈ live e.column) ∧
    ∀ e ∈ m.rowlist, j ∈ live e.column → Q e.file_path

/-- The invariant behind the inclusion of forced exemplars: an exemplar
satisfying `Q` is in the solution, or a column of the matrix is covered by
such exemplars only. -/
def mark_inv (Q : String → Prop) (m : Matrix) (S : Solution) : Prop :=
  (∃ p ∈ S.solution, Q p) ∨ ∃ j, col_marks Q m j

/-- Columns `a < b` of the column-major view hold the same non-empty list of
rows. -/
def equal_columns (columns : List (List Int)) (a b : Int) : Prop :=
  a < b ∧ ∃ l, at_index columns a = Except.ok l ∧ at_index columns b = Except.ok l ∧ l ≠ []

/-- The rows with indices in `R` have an entry in column `c`. -/
def rows_cover (m : Matrix) (R : List Int) (c : Int) : Prop :=
  ∃ r ∈ R, ∃ e, row_at m r = some e ∧ c ∈ live e.column

/-- Column `c` has an entry in some row. -/
def column_nonempty (m : Matrix) (c : Int) : Prop :=
  ∃ e ∈ m.rowlist, c ∈ live e.column

/-- The local column-major view built by `find_superset_cols`. -/
def column_view (m : Matrix) : List (List Int) :=
  (List.range m.num_cols.toNat).map (fun c : Nat => column_rows m.rowlist 0 (c : Int))

/-- The exemplar path of row `r` (the empty string outside the matrix). -/
def row_path (m : Matrix) (r : Int) : String :=
  match row_at m r with
  | some e => e.file_path
  | none => ""

/-- The score `row_sum / weight` of a row. -/
def row_score (e : RowElem) : ℚ := (e.row_sum : ℚ) / e.weight

/-- The files of the corpus that the large-data pass does not skip. -/
def unskipped (weight_file : WeightFile) (files : List CorpusFile) : List CorpusFile :=
  files.filter (fun f => !skipped weight_file f)

/-- The frequency of column `c` in the large-data pass: the number of files
that are not skipped and have column `c` set in their raw data. -/
def corpus_frequency (fs : FileSystem) (weight_file : WeightFile) (files : List CorpusFile)
    (c : Int) : Int :=
  (((unskipped weight_file files).filter
    (fun f => decide ((get_exemplar_data fs f.file_path)[c.toNat]? = some 1))).length : Int)

/-- The file is a row unitarian of the large-data pass: it has a column of
frequency one set. -/
def row_unitarian (fs : FileSystem) (weight_file : WeightFile) (files : List CorpusFile)
    (f : CorpusFile) : Prop :=
  ∃ c, raw_bit fs f.file_path c ∧ corpus_frequency fs weight_file files c = 1

/-- The corpus of scenario S2: every file holds the single byte `0b11000000`. -/
def twin_files : FileSystem := fun _ => [192]

/-- The row built from a file of `twin_files`. -/
def twin_row (name : String) : RowElem :=
  { file_size := 1, row_sum := 2, file_path := name, column := [0, 1], weight := 1 }

/-- The matrix built from the corpus of two files of `twin_files`, in the
given order. -/
def twin_matrix (first second : String) : Matrix :=
  { num_rows := 2, num_cols := 8, num_cols_orig := 8, num_elems := 4,
    rowlist := [twin_row first, twin_row second] }

/-- The solution holds no exemplar yet. -/
def solution_fresh (S : Solution) : Prop :=
  S.solution = [] ∧ S.weight = 0 ∧ S.num_non_optimal = 0

/-- The states of the loop of `solve_oscp` in scenario S2, `w` being the
smaller and `l` the greater of the two paths: two duplicate rows and the
subset-row rule still enabled; or the row `w` alone and the unitarian rule
enabled; or no row left and `w` selected as an optimal choice. -/
def twin_inv (w l : String) (st : LoopState) : Prop :=
  (∃ r1 r2, st.data.rowlist = [r1, r2] ∧ r1.column = r2.column ∧ live r1.column ≠ [] ∧
    r1.weight = 1 ∧ r2.weight = 1 ∧
    ((r1.file_path = w ∧ r2.file_path = l) ∨ (r1.file_path = l ∧ r2.file_path = w)) ∧
    st.option1 = true ∧ solution_fresh st.solution) ∨
  (∃ r, st.data.rowlist = [r] ∧ live r.column ≠ [] ∧ r.weight = 1 ∧ r.file_path = w ∧
    st.option0 = true ∧ solution_fresh st.solution) ∨
  (st.data.num_rows = 0 ∧ st.solution.solution = [w] ∧ st.solution.weight = 1 ∧
    st.solution.num_non_optimal = 0)

/-- A matrix of two rows and two columns; both rows have column 1 set. -/
def example_pair : Matrix :=
  { num_rows := 2, num_cols := 2, num_cols_orig := 2, num_elems := 3,
    rowlist := [example_row "a" [0, 1], example_row "b" [1]] }

/-- The row with its tombstones dropped from the column sequence. -/
def compact_row (e : RowElem) : RowElem := { e with column := live e.column }

/-- The matrix with the tombstones dropped from every row. -/
def compact (m : Matrix) : Matrix := { m with rowlist := m.rowlist.map compact_row }

/-- The corpus of three one-byte files: `a` and `b` hold `0b11000000`, every
other file holds `0b00100000`. -/
def trio_files : FileSystem := fun p => if p = "a" ∨ p = "b" then [192] else [32]

/-- Row `a` wins against row `b` in `find_subset_rows`: the two have different
exemplar paths, every column of `b` is a column of `a`, `a` weighs no more
than `b`, and if the two have the same columns and the same weight then `a`
has the smaller path. -/
def row_beats (a b : RowElem) : Prop :=
  a.file_path ≠ b.file_path ∧ (∀ v ∈ live b.column, v ∈ live a.column) ∧
    a.weight ≤ b.weight ∧
    ((∀ v ∈ live a.column, v ∈ live b.column) → b.weight ≤ a.weight →
      a.file_path < b.file_path)

instance (a b : RowElem) : Decidable (row_beats a b) := by
  unfold row_beats; infer_instance

/-- Some row of `rows` wins against row `b`. -/
def beaten (rows : List RowElem) (b : RowElem) : Prop := ∃ a ∈ rows, row_beats a b

instance (rows : List RowElem) (b : RowElem) : Decidable (beaten rows b) := by
  unfold beaten; infer_instance

/-- The exemplar paths of the rows are pairwise distinct. -/
def distinct_paths (m : Matrix) : Prop := (m.rowlist.map (fun e => e.file_path)).Nodup

/-- The rows of `m1` are rows of `m`, in the same order, possibly with fewer
columns: the paths of `m1` form a sublist of the paths of `m`, and every row
of `m1` stems from a row of `m` with the same path and weight, without entry
if that row had none. -/
def rows_kept (m m1 : Matrix) : Prop :=
  (m1.rowlist.map (fun e => e.file_path)).Sublist (m.rowlist.map (fun e => e.file_path)) ∧
  ∀ e1 ∈ m1.rowlist, ∃ e ∈ m.rowlist, e1.file_path = e.file_path ∧ e1.weight = e.weight ∧
    (live e.column = [] → live e1.column = [])

/-- The invariant of the solve loop behind the claim that no exemplar is
selected twice: the cover invariant, pairwise distinct paths and positive
weights of the rows, no repetition in the solution, and no entry left in a
row whose exemplar is in the solution. -/
def fresh_inv (fs : FileSystem) (W0 : Int) (st : LoopState) : Prop :=
  cover_inv fs W0 st.data st.solution ∧ distinct_paths st.data ∧
  (∀ e ∈ st.data.rowlist, 0 < e.weight) ∧ st.solution.solution.Nodup ∧
  ∀ e ∈ st.data.rowlist, filename e.file_path ∈ st.solution.solution → live e.column = []

/-- The analytics after `find_unitarian_rows` has found the rows `rows`: the
entry at the index of each row has its `score_unitarian` raised by one. -/
def credit (rows : List Int) (c_data : List ExemplarData) : List ExemplarData :=
  rows.foldl (fun cd r =>
    match cd[r.toNat]? with
    | some x => cd.set r.toNat { x with score_unitarian := x.score_unitarian + 1 }
    | none => cd) c_data

/-- The analytics entry of a file of `twin_files` with the given unitarian
score. -/
def twin_data (name : String) (score : ℚ) : ExemplarData :=
  { file_size := 1, file_path := name, selected_greedy_rowsum := false, score_rowsum := 2,
    score_unitarian := score, score_block_target := 0 }

/-- The states of the loop of `solve_oscp` on the two duplicates `b` and `a`,
stored in this order, with their analytics: the two rows and the analytics
of the start; or the row `a` alone, at index 0, and the analytics of the
start; or no row, `a` selected, and the unitarian credit on the entry of
`b`. -/
def credit_inv (st : LoopState) : Prop :=
  (∃ r1 r2, st.data.rowlist = [r1, r2] ∧ r1.column = r2.column ∧ live r1.column ≠ [] ∧
    r1.weight = 1 ∧ r2.weight = 1 ∧ r1.file_path = "b" ∧ r2.file_path = "a" ∧
    st.option1 = true ∧ solution_fresh st.solution ∧
    st.corpus_data = [twin_data "b" 0, twin_data "a" 0]) ∨
  (∃ r, st.data.rowlist = [r] ∧ live r.column ≠ [] ∧ r.weight = 1 ∧ r.file_path = "a" ∧
    st.option0 = true ∧ solution_fresh st.solution ∧
    st.corpus_data = [twin_data "b" 0, twin_data "a" 0]) ∨
  (st.data.num_rows = 0 ∧ st.solution.solution = ["a"] ∧
    st.corpus_data = [twin_data "b" 1, twin_data "a" 0])

/-- The last states of a run of the reduction rules: the row `r` alone with
the unitarian rule enabled and the solution `S`; or no row left and `r`
added to `S` as an optimal choice. -/
def closing_inv (fs : FileSystem) (r : RowElem) (S : Solution) (st : LoopState) : Prop :=
  (st.data.rowlist = [r] ∧ st.option0 = true ∧ st.solution = S) ∨
  (st.data.num_rows = 0 ∧ st.solution = add_all fs true S [r])

/-- The corpus of scenario S4: the one-byte files `x = 0b10000000`,
`y = 0b01000000` and (under every other name) `z = 0b11000000`. -/
def dominated_files : FileSystem :=
  fun p => if p = "x" then [128] else if p = "y" then [64] else [192]

/-- The row built from a file of `dominated_files`. -/
def dominated_row (p : String) : RowElem :=
  example_row p (if p = "x" then [0] else if p = "y" then [1] else [0, 1])

/-- The matrix built from the corpus of scenario S4, the files being listed
in the given order. -/
def dominated_matrix (names : List String) : Matrix :=
  { num_rows := 3, num_cols := 8, num_cols_orig := 8, num_elems := 4,
    rowlist := names.map dominated_row }

/-- The states of the loop of `solve_oscp` in scenario S4: the three rows,
in some order, with the subset-row rule enabled and the solution `S`; or the
last states with the row `z`. -/
def dominated_inv (S : Solution) (st : LoopState) : Prop :=
  (st.data.rowlist.Perm [dominated_row "x", dominated_row "y", dominated_row "z"] ∧
    st.data.num_cols = 2 ∧ st.option1 = true ∧ st.solution = S) ∨
  closing_inv dominated_files (dominated_row "z") S st

/-- The corpus of scenario S6: the one-byte files `a = 0b11000000`,
`b = 0b00110000` and (under every other name) `c = 0b11110000`. -/
def weighted_files : FileSystem :=
  fun p => if p = "a" then [192] else if p = "b" then [48] else [240]

/-- The weight file of scenario S6. -/
def weighted_records : WeightFile := some [("a", 1), ("b", 1), ("c", 10)]

/-- A row of scenario S6 with the given stored column sequence: the exemplar
`c` weighs 10, the others weigh 1. -/
def weighted_row (p : String) (column : List Int) : RowElem :=
  { file_size := 1, row_sum := live_count column, file_path := p, column := column,
    weight := if p = "c" then 10 else 1 }

/-- The matrix built from the corpus of scenario S6, the files being listed
in the given order. -/
def weighted_matrix (names : List String) : Matrix :=
  { num_rows := 3, num_cols := 8, num_cols_orig := 8, num_elems := 8,
    rowlist := names.map (fun p =>
      weighted_row p (if p = "a" then [0, 1] else if p = "b" then [2, 3] else [0, 1, 2, 3])) }

/-- The rows of scenario S6 over the four columns that are not empty. -/
def weighted_rows4 : List RowElem :=
  [weighted_row "a" [0, 1], weighted_row "b" [2, 3], weighted_row "c" [0, 1, 2, 3]]

/-- The rows of scenario S6 after the columns 0 and 2 are removed. -/
def weighted_rows2 : List RowElem :=
  [weighted_row "a" [DELETED, 0], weighted_row "b" [DELETED, 1],
    weighted_row "c" [DELETED, 0, DELETED, 1]]

/-- The rows of scenario S6 after the row `a` is selected. -/
def weighted_rows1 : List RowElem :=
  [weighted_row "b" [DELETED, 0], weighted_row "c" [DELETED, DELETED, DELETED, 0]]

/-- The states of the loop of `solve_oscp` in scenario S6, `S` being the
solution at the start: the three rows over four columns with the
superset-column rule enabled; the three rows over two columns with only the
subset-row rule possibly enabled; the rows `b` and `c` over one column with
`a` selected by the greedy pick and the subset-row rule enabled; the last
states with the row `b`. -/
def weighted_inv (S : Solution) (st : LoopState) : Prop :=
  (st.data.rowlist.Perm weighted_rows4 ∧ st.data.num_cols = 4 ∧ st.option2 = true ∧
    st.solution = S) ∨
  (st.data.rowlist.Perm weighted_rows2 ∧ st.data.num_cols = 2 ∧ st.option0 = false ∧
    st.option2 = false ∧ st.solution = S) ∨
  (st.data.rowlist.Perm weighted_rows1 ∧ st.data.num_cols = 1 ∧ st.option1 = true ∧
    st.solution = S.add_to_soln "a" (get_exemplar_data weighted_files "a") 1 false) ∨
  closing_inv weighted_files (weighted_row "b" [DELETED, 0])
    (S.add_to_soln "a" (get_exemplar_data weighted_files "a") 1 false) st

/-! ## Part III: theorems -/

/-! ### The column index transform -/

theorem count_below_succ (D : List Int) (hnd : D.Nodup) (i : Int) :
    count_below D (i + 1) = count_below D i + (if i ∈ D then 1 else 0) := by
  induction D with
  | nil => simp [count_below]
  | cons a D ih =>
    have hnd' := (List.nodup_cons.mp hnd)
    have ih' := ih hnd'.2
    simp only [count_below, List.countP_cons, List.mem_cons] at ih' ⊢
    by_cases h1 : a < i
    · have h2 : a < i + 1 := by omega
      have h3 : i ≠ a := by omega
      simp [h1, h2, h3, ih']
      omega
    · by_cases h2 : a = i
      · subst h2
        have : a ∉ D := hnd'.1
        simp [this] at ih'
        simp [ih']
      · have h3 : ¬ a < i + 1 := by omega
        have h4 : i ≠ a := fun h => h2 h.symm
        simp [h1, h3, h4, ih']

theorem count_below_eq_zero (D : List Int) (i : Int) (h : ∀ d ∈ D, i ≤ d) :
    count_below D i = 0 := by
  simp only [count_below, List.countP_eq_zero]
  intro d hd
  have := h d hd
  simp; omega

theorem count_below_eq_length (D : List Int) (i : Int) (h : ∀ d ∈ D, d < i) :
    count_below D i = D.length := by
  simp only [count_below, List.countP_eq_length]
  intro d hd
  simpa using h d hd

theorem sorted_getElem_count_below (S : List Int) (hS : S.Pairwise (fun a b => a < b)) (i : Int) :
    S[count_below S i]? = some i ↔ i ∈ S := by
  induction S with
  | nil => simp [count_below]
  | cons a S ih =>
    have hp := List.pairwise_cons.mp hS
    by_cases h1 : a < i
    · have : count_below (a :: S) i = count_below S i + 1 := by
        simp [count_below, List.countP_cons, h1]
      rw [this, List.getElem?_cons_succ, ih hp.2]
      have : i ≠ a := by omega
      simp [this]
    · have h0 : count_below S i = 0 := by
        apply count_below_eq_zero
        intro d hd
        have := hp.1 d hd
        omega
      have : count_below (a :: S) i = 0 := by
        simp only [count_below, List.countP_cons] at h0 ⊢
        simp [h0, h1]
      rw [this]
      simp only [List.getElem?_cons_zero, Option.some.injEq, List.mem_cons]
      constructor
      · intro h; exact Or.inl h.symm
      · rintro (h | h)
        · exact h.symm
        · have := hp.1 i h
          omega

theorem transform_index_loop_spec (S : List Int) (hS : S.Pairwise (fun a b => a < b)) (n : Nat) :
    ∀ i : Int, transform_index_loop S n i (count_below S i) =
      ((List.range n).map (fun j : Nat => transform_value S (i + (j : Int))),
        count_below S (i + (n : Int))) := by
  have hnd : S.Nodup := hS.imp (fun h => ne_of_lt h)
  induction n with
  | zero => intro i; simp [transform_index_loop]
  | succ n ih =>
    intro i
    have hstep := count_below_succ S hnd i
    have hget := sorted_getElem_count_below S hS i
    rw [List.range_succ_eq_map]
    simp only [transform_index_loop, List.map_cons, List.map_map]
    by_cases hi : i ∈ S
    · have h1 : S[count_below S i]? = some i := hget.mpr hi
      have h2 : count_below S i + 1 = count_below S (i + 1) := by simp [hstep, hi]
      rw [if_pos h1, h2, ih (i + 1)]
      simp only [transform_value, hi, if_true, Nat.cast_zero, add_zero, Prod.mk.injEq, List.cons.injEq, true_and]
      constructor
      · apply List.map_congr_left
        intro j _
        simp only [Function.comp, Nat.cast_succ]
        have : i + 1 + (j : Int) = i + ((j : Int) + 1) := by ring
        rw [this]
      · have : i + 1 + (n : Int) = i + ((n : Int) + 1) := by ring
        rw [this]; simp
    · have h1 : ¬ S[count_below S i]? = some i := fun h => hi (hget.mp h)
      have h2 : count_below S i = count_below S (i + 1) := by simp [hstep, hi]
      rw [if_neg h1]
      have ih1 := ih (i + 1)
      rw [← h2] at ih1
      rw [ih1]
      simp only [transform_value, hi, if_false, Nat.cast_zero, add_zero, Prod.mk.injEq, List.cons.injEq, true_and]
      constructor
      · apply List.map_congr_left
        intro j _
        simp only [Function.comp, Nat.cast_succ]
        have : i + 1 + (j : Int) = i + ((j : Int) + 1) := by ring
        rw [this]
      · have : i + 1 + (n : Int) = i + ((n : Int) + 1) := by ring
        rw [this]; simp

theorem count_below_perm {S D : List Int} (h : S.Perm D) (i : Int) :
    count_below S i = count_below D i := by
  simp only [count_below]; exact h.countP_eq _

theorem transform_value_perm {S D : List Int} (h : S.Perm D) (i : Int) :
    transform_value S i = transform_value D i := by
  simp only [transform_value, count_below_perm h, h.mem_iff]

theorem sorted_lt_of_nodup (D : List Int) (hnd : D.Nodup) :
    (D.insertionSort (fun a b => a ≤ b)).Pairwise (fun a b => a < b) := by
  have hs : (D.insertionSort (fun a b => a ≤ b)).Sorted (fun a b => a ≤ b) :=
    List.sorted_insertionSort _ D
  have hp : (D.insertionSort (fun a b => a ≤ b)).Perm D := List.perm_insertionSort _ D
  have hnd' : (D.insertionSort (fun a b => a ≤ b)).Nodup := hp.nodup_iff.mpr hnd
  have := List.Pairwise.and hs hnd'
  exact this.imp (fun h => lt_of_le_of_ne h.1 h.2)

theorem transform_index_ok (W : Int) (D : List Int) (hW : 0 ≤ W) (hnd : D.Nodup)
    (hD : ∀ d ∈ D, 0 ≤ d ∧ d < W) :
    transform_index W D =
      Except.ok ((List.range W.toNat).map (fun j : Nat => transform_value D (j : Int))) := by
  have hp : (D.insertionSort (fun a b => a ≤ b)).Perm D := List.perm_insertionSort _ D
  have hS := sorted_lt_of_nodup D hnd
  have h0 : count_below (D.insertionSort (fun a b => a ≤ b)) 0 = 0 := by
    rw [count_below_perm hp]
    exact count_below_eq_zero D 0 (fun d hd => (hD d hd).1)
  have hspec := transform_index_loop_spec _ hS W.toNat 0
  rw [h0] at hspec
  have hWn : ((W.toNat : Nat) : Int) = W := Int.toNat_of_nonneg hW
  have hlen : count_below (D.insertionSort (fun a b => a ≤ b)) (0 + (W.toNat : Int)) =
      (D.insertionSort (fun a b => a ≤ b)).length := by
    apply count_below_eq_length
    intro d hd
    have := (hD d (hp.mem_iff.mp hd)).2
    omega
  simp only [transform_index, if_neg (not_lt.mpr hW), hspec, hlen, if_true]
  congr 1
  apply List.map_congr_left
  intro j _
  simp only [zero_add]
  exact transform_value_perm hp _

theorem kept_before_succ (D : List Int) (n : Nat) :
    kept_before D (n + 1) = kept_before D n + (if (n : Int) ∈ D then 0 else 1) := by
  simp only [kept_before, List.range_succ, List.filter_append, List.length_append]
  by_cases h : (n : Int) ∈ D <;> simp [h]

theorem kept_before_mono (D : List Int) {i j : Nat} (h : i ≤ j) :
    kept_before D i ≤ kept_before D j := by
  induction j with
  | zero => have : i = 0 := by omega
            subst this; exact le_refl _
  | succ j ih =>
    by_cases hij : i = j + 1
    · subst hij; exact le_refl _
    · have := ih (by omega)
      rw [kept_before_succ]; omega

theorem kept_before_lt (D : List Int) {i j : Nat} (h : i < j) (hi : (i : Int) ∉ D) :
    kept_before D i < kept_before D j := by
  have h1 : kept_before D (i + 1) = kept_before D i + 1 := by
    rw [kept_before_succ]; simp [hi]
  have h2 := kept_before_mono D (show i + 1 ≤ j by omega)
  omega

theorem kept_before_inj (D : List Int) {i j : Nat} (hi : (i : Int) ∉ D) (hj : (j : Int) ∉ D)
    (h : kept_before D i = kept_before D j) : i = j := by
  rcases Nat.lt_trichotomy i j with h1 | h1 | h1
  · have := kept_before_lt D h1 hi; omega
  · exact h1
  · have := kept_before_lt D h1 hj; omega

theorem kept_before_surj (D : List Int) (n k : Nat) (h : k < kept_before D n) :
    ∃ i, i < n ∧ (i : Int) ∉ D ∧ kept_before D i = k := by
  induction n with
  | zero => simp [kept_before] at h
  | succ n ih =>
    rw [kept_before_succ] at h
    by_cases hk : k < kept_before D n
    · obtain ⟨i, h1, h2, h3⟩ := ih hk
      exact ⟨i, by omega, h2, h3⟩
    · by_cases hn : (n : Int) ∈ D
      · simp [hn] at h; omega
      · simp [hn] at h
        exact ⟨n, by omega, hn, by omega⟩

theorem count_below_add_kept_before (D : List Int) (hnd : D.Nodup) (hD : ∀ d ∈ D, 0 ≤ d)
    (n : Nat) : count_below D (n : Int) + kept_before D n = n := by
  induction n with
  | zero =>
    have := count_below_eq_zero D 0 hD
    simp [kept_before]
    simpa using this
  | succ n ih =>
    have h1 := count_below_succ D hnd (n : Int)
    have h2 := kept_before_succ D n
    have : ((n + 1 : Nat) : Int) = (n : Int) + 1 := by simp
    rw [this, h1, h2]
    by_cases hn : (n : Int) ∈ D <;> simp [hn] <;> omega

theorem transform_value_kept (D : List Int) (hnd : D.Nodup) (hD : ∀ d ∈ D, 0 ≤ d)
    (n : Nat) (hn : (n : Int) ∉ D) : transform_value D (n : Int) = (kept_before D n : Int) := by
  have := count_below_add_kept_before D hnd hD n
  simp only [transform_value, hn, if_false]
  omega

theorem kept_before_total (D : List Int) (hnd : D.Nodup) (W : Nat)
    (hD : ∀ d ∈ D, 0 ≤ d ∧ d < (W : Int)) : kept_before D W + D.length = W := by
  have h1 := count_below_add_kept_before D hnd (fun d hd => (hD d hd).1) W
  have h2 := count_below_eq_length D (W : Int) (fun d hd => (hD d hd).2)
  omega

theorem at_index_map_range {α : Type} (f : Nat → α) (n : Nat) (i : Int) (h0 : 0 ≤ i)
    (h1 : i < (n : Int)) :
    at_index ((List.range n).map f) i = Except.ok (f i.toNat) := by
  have : i.toNat < n := by omega
  simp [at_index, not_lt.mpr h0, List.getElem?_map, List.getElem?_range this]

/-- C7. For every width `W ≥ 0` and every duplicate-free list `D` of indices in
`[0, W)`, `transform_index W D` succeeds with a vector of length `W` that maps
`i` to `DELETED` when `i ∈ D` and to `i` minus the number of elements of `D`
below `i` otherwise; it is strictly increasing on the kept indices and maps
them onto exactly `[0, W - |D|)`. -/
theorem transform_index_reference (W : Int) (D : List Int) (hW : 0 ≤ W) (hnd : D.Nodup)
    (hD : ∀ d ∈ D, 0 ≤ d ∧ d < W) :
    ∃ T, transform_index W D = Except.ok T ∧ (T.length : Int) = W ∧
      (∀ i, 0 ≤ i → i < W →
        at_index T i = Except.ok (if i ∈ D then DELETED else i - (count_below D i : Int))) ∧
      (∀ i j a b, 0 ≤ i → i < j → j < W → i ∉ D → j ∉ D →
        at_index T i = Except.ok a → at_index T j = Except.ok b → a < b) ∧
      (∀ k, (∃ i, 0 ≤ i ∧ i < W ∧ i ∉ D ∧ at_index T i = Except.ok k) ↔
        (0 ≤ k ∧ k < W - (D.length : Int))) := by
  have hWn : ((W.toNat : Nat) : Int) = W := Int.toNat_of_nonneg hW
  have hD0 : ∀ d ∈ D, 0 ≤ d := fun d hd => (hD d hd).1
  have hat : ∀ i, 0 ≤ i → i < W →
      at_index ((List.range W.toNat).map (fun j : Nat => transform_value D (j : Int))) i =
        Except.ok (transform_value D i) := by
    intro i h0 h1
    rw [at_index_map_range _ _ i h0 (by omega)]
    simp [Int.toNat_of_nonneg h0]
  have hkept : ∀ i, 0 ≤ i → i ∉ D → transform_value D i = (kept_before D i.toNat : Int) := by
    intro i h0 hi
    have := transform_value_kept D hnd hD0 i.toNat (by rw [Int.toNat_of_nonneg h0]; exact hi)
    rwa [Int.toNat_of_nonneg h0] at this
  have htot := kept_before_total D hnd W.toNat (by rw [hWn]; exact hD)
  refine ⟨_, transform_index_ok W D hW hnd hD, ?_, ?_, ?_, ?_⟩
  · simp [hWn]
  · intro i h0 h1
    rw [hat i h0 h1]; rfl
  · intro i j a b h0 hij hj hi hjD ha hb
    rw [hat i h0 (by omega)] at ha
    rw [hat j (by omega) hj] at hb
    injection ha with ha
    injection hb with hb
    rw [hkept i h0 hi] at ha
    rw [hkept j (by omega) hjD] at hb
    have := kept_before_lt D (show i.toNat < j.toNat by omega)
      (by rw [Int.toNat_of_nonneg h0]; exact hi)
    omega
  · intro k
    constructor
    · rintro ⟨i, h0, h1, hi, hk⟩
      rw [hat i h0 h1] at hk
      injection hk with hk
      rw [hkept i h0 hi] at hk
      have := kept_before_lt D (show i.toNat < W.toNat by omega)
        (by rw [Int.toNat_of_nonneg h0]; exact hi)
      omega
    · rintro ⟨h0, h1⟩
      obtain ⟨i, hi1, hi2, hi3⟩ := kept_before_surj D W.toNat k.toNat (by omega)
      refine ⟨(i : Int), by omega, by omega, hi2, ?_⟩
      rw [hat (i : Int) (by omega) (by omega), hkept (i : Int) (by omega) hi2]
      simp only [Int.toNat_ofNat, hi3]
      rw [Int.toNat_of_nonneg h0]

/-- Witness for C7 at width 6 and deletion list `[4, 1]`. -/
theorem transform_index_reference_witness :
    ∃ T, transform_index 6 [4, 1] = Except.ok T ∧ (T.length : Int) = 6 ∧
      (∀ i, 0 ≤ i → i < 6 →
        at_index T i =
          Except.ok (if i ∈ [4, 1] then DELETED else i - (count_below [4, 1] i : Int))) ∧
      (∀ i j a b, 0 ≤ i → i < j → j < 6 → i ∉ [4, 1] → j ∉ [4, 1] →
        at_index T i = Except.ok a → at_index T j = Except.ok b → a < b) ∧
      (∀ k, (∃ i, 0 ≤ i ∧ i < 6 ∧ i ∉ [4, 1] ∧ at_index T i = Except.ok k) ↔
        (0 ≤ k ∧ k < 6 - (([4, 1] : List Int).length : Int))) :=
  transform_index_reference 6 [4, 1] (by decide) (by decide) (by decide)

/-! ### Row removal -/

theorem delete_positions_from_all_below {α : Type} (D : List Int) (xs : List α) :
    ∀ k : Nat, (∀ d ∈ D, d < (k : Int)) → delete_positions_from D k xs = xs := by
  induction xs with
  | nil => intro k _; rfl
  | cons x xs ih =>
    intro k h
    have hk : (k : Int) ∉ D := fun hm => by have := h _ hm; omega
    simp only [delete_positions_from, if_neg hk]
    rw [ih (k + 1) (fun d hd => by have := h d hd; push_cast; omega)]

theorem delete_positions_from_congr {α : Type} {D E : List Int} (h : ∀ i : Int, i ∈ D ↔ i ∈ E)
    (xs : List α) : ∀ k, delete_positions_from D k xs = delete_positions_from E k xs := by
  induction xs with
  | nil => intro k; rfl
  | cons x xs ih =>
    intro k
    simp only [delete_positions_from, h, ih]

theorem delete_positions_from_eraseIdx {α : Type} (rs : List Int) (xs : List α) :
    ∀ (k r : Nat), k ≤ r → r - k < xs.length → (∀ s ∈ rs, s < (r : Int)) →
      delete_positions_from ((r : Int) :: rs) k xs =
        delete_positions_from rs k (xs.eraseIdx (r - k)) := by
  induction xs with
  | nil => intro k r _ h; simp at h
  | cons x xs ih =>
    intro k r hkr hlen hrs
    by_cases hk : k = r
    · subst hk
      have h1 : (∀ d ∈ ((k : Int) :: rs), d < ((k + 1 : Nat) : Int)) := by
        intro d hd
        rcases List.mem_cons.mp hd with h | h
        · subst h; push_cast; omega
        · have := hrs d h; push_cast; omega
      simp only [delete_positions_from, List.mem_cons, true_or, if_true, Nat.sub_self,
        List.eraseIdx_cons_zero]
      rw [delete_positions_from_all_below _ xs (k + 1) h1,
        delete_positions_from_all_below _ xs k hrs]
    · have hlt : k < r := by omega
      have h2 : r - k = (r - (k + 1)) + 1 := by omega
      have h3 : ((k : Int) ∈ ((r : Int) :: rs)) ↔ (k : Int) ∈ rs := by
        simp only [List.mem_cons]
        constructor
        · rintro (h | h)
          · omega
          · exact h
        · exact Or.inr
      have ih' := ih (k + 1) r (by omega) (by simp at hlen; omega) hrs
      rw [h2, List.eraseIdx_cons_succ]
      simp only [delete_positions_from, h3, ih']

theorem row_sum_at_eraseIdx (rows : List RowElem) (r : Nat) (s : Int) (h0 : 0 ≤ s)
    (h : s < (r : Int)) : row_sum_at (rows.eraseIdx r) s = row_sum_at rows s := by
  simp only [row_sum_at]
  rw [List.getElem?_eraseIdx_of_lt _ _ _ (by omega)]

theorem total_row_sum_eraseIdx (rows : List RowElem) :
    ∀ (r : Nat) (e : RowElem), rows[r]? = some e →
      total_row_sum (rows.eraseIdx r) = total_row_sum rows - e.row_sum := by
  induction rows with
  | nil => intro r e h; simp at h
  | cons x xs ih =>
    intro r e h
    cases r with
    | zero =>
      simp at h; subst h
      simp [total_row_sum]
    | succ r =>
      simp at h
      have := ih r e h
      simp only [total_row_sum, List.eraseIdx_cons_succ, List.map_cons, List.sum_cons] at this ⊢
      rw [this]; ring

theorem remove_rows_loop_spec (S : List Int) :
    ∀ m : Matrix, m.num_rows = (m.rowlist.length : Int) →
      S.Pairwise (fun a b => a > b) →
      (∀ s ∈ S, 0 ≤ s ∧ s < (m.rowlist.length : Int)) →
      remove_rows_loop m S = Except.ok
        { m with rowlist := delete_positions S m.rowlist,
                 num_rows := m.num_rows - (S.length : Int),
                 num_elems := m.num_elems - (S.map (row_sum_at m.rowlist)).sum } := by
  induction S with
  | nil =>
    intro m _ _ _
    simp [remove_rows_loop, delete_positions, delete_positions_from_all_below]
  | cons r rs ih =>
    intro m hm hS hb
    have hp := List.pairwise_cons.mp hS
    obtain ⟨hr0, hr1⟩ := hb r (List.mem_cons_self _ _)
    have hrn : r.toNat < m.rowlist.length := by omega
    have hget : m.rowlist[r.toNat]? = some (m.rowlist[r.toNat]) := List.getElem?_eq_getElem hrn
    have hat : at_index m.rowlist r = Except.ok (m.rowlist[r.toNat]) := by
      simp [at_index, not_lt.mpr hr0, hget]
    have hlen : ((m.rowlist.eraseIdx r.toNat).length : Int) = (m.rowlist.length : Int) - 1 := by
      rw [List.length_eraseIdx_of_lt hrn]; omega
    simp only [remove_rows_loop, hat]
    rw [if_pos (by simp only [hlen]; omega)]
    rw [ih _ (by simp only [hlen]; omega) hp.2 (by
      intro s hs
      have := hp.1 s hs
      have := (hb s (List.mem_cons_of_mem _ hs)).1
      simp only [hlen]; omega)]
    have hrr : ((r.toNat : Nat) : Int) = r := Int.toNat_of_nonneg hr0
    have hdel := delete_positions_from_eraseIdx rs m.rowlist 0 r.toNat (Nat.zero_le _)
      (by simpa using hrn) (by intro s hs; have := hp.1 s hs; omega)
    rw [hrr] at hdel
    simp only [Nat.sub_zero] at hdel
    have hsum : (rs.map (row_sum_at (m.rowlist.eraseIdx r.toNat))).sum =
        (rs.map (row_sum_at m.rowlist)).sum := by
      congr 1
      apply List.map_congr_left
      intro s hs
      apply row_sum_at_eraseIdx
      · exact (hb s (List.mem_cons_of_mem _ hs)).1
      · have := hp.1 s hs; omega
    have hrs : row_sum_at m.rowlist r = (m.rowlist[r.toNat]).row_sum := by
      simp [row_sum_at, hget]
    simp only [delete_positions, hdel, hsum, List.map_cons, List.sum_cons, hrs, List.length_cons]
    have e1 : m.num_rows - 1 - (rs.length : Int) = m.num_rows - ((rs.length + 1 : Nat) : Int) := by
      push_cast; ring
    have e2 : m.num_elems - (m.rowlist[r.toNat]).row_sum - (rs.map (row_sum_at m.rowlist)).sum =
        m.num_elems - ((m.rowlist[r.toNat]).row_sum + (rs.map (row_sum_at m.rowlist)).sum) := by
      ring
    rw [e1, e2]

theorem sorted_gt_of_nodup (D : List Int) (hnd : D.Nodup) :
    (D.insertionSort (fun a b => a ≥ b)).Pairwise (fun a b => a > b) := by
  have hs : (D.insertionSort (fun a b => a ≥ b)).Sorted (fun a b => a ≥ b) :=
    List.sorted_insertionSort _ D
  have hp : (D.insertionSort (fun a b => a ≥ b)).Perm D := List.perm_insertionSort _ D
  have hnd' : (D.insertionSort (fun a b => a ≥ b)).Nodup := hp.nodup_iff.mpr hnd
  have := List.Pairwise.and hs hnd'
  exact this.imp (fun h => lt_of_le_of_ne h.1 (fun e => h.2 e.symm))

theorem remove_rows_check_pass (m : Matrix) (D : List Int)
    (hD : ∀ d ∈ D, 0 ≤ d ∧ d ≤ m.num_rows) :
    D.any (fun r => decide (r < 0) || decide (r > m.num_rows)) = false := by
  rw [Bool.eq_false_iff]
  intro h
  rw [List.any_eq_true] at h
  obtain ⟨d, hd, h⟩ := h
  have := hD d hd
  simp at h
  omega

theorem remove_rows_ok (m : Matrix) (D : List Int) (hm : m.num_rows = (m.rowlist.length : Int))
    (hnd : D.Nodup) (hD : ∀ d ∈ D, 0 ≤ d ∧ d < m.num_rows) :
    remove_rows m D = Except.ok
      { m with rowlist := delete_positions D m.rowlist,
               num_rows := m.num_rows - (D.length : Int),
               num_elems := m.num_elems - (D.map (row_sum_at m.rowlist)).sum } := by
  have hp : (D.insertionSort (fun a b => a ≥ b)).Perm D := List.perm_insertionSort _ D
  have hchk := remove_rows_check_pass m D (fun d hd => ⟨(hD d hd).1, le_of_lt (hD d hd).2⟩)
  simp only [remove_rows, hchk]
  rw [if_neg (by simp)]
  rw [remove_rows_loop_spec _ m hm (sorted_gt_of_nodup D hnd) (by
    intro s hs
    have := hD s (hp.mem_iff.mp hs)
    omega)]
  have h1 : delete_positions (D.insertionSort (fun a b => a ≥ b)) m.rowlist =
      delete_positions D m.rowlist :=
    delete_positions_from_congr (fun i => hp.mem_iff) _ 0
  have h2 : ((D.insertionSort (fun a b => a ≥ b)).map (row_sum_at m.rowlist)).sum =
      (D.map (row_sum_at m.rowlist)).sum := (hp.map _).sum_eq
  rw [h1, h2, hp.length_eq]

/-- C9. For every matrix (with `num_rows` rows in its `rowlist`) and every
duplicate-free list `D` of indices in `[0, num_rows)`, in any order,
`remove_rows D` succeeds; the new `rowlist` is the previous one with exactly the
rows at the pre-call positions in `D` deleted, the others unchanged and in
their previous order; `num_rows` decreases by `|D|` and `num_elems` by the sum
of the `row_sum` of the removed rows. -/
theorem remove_rows_pre_call_indexing (m : Matrix) (D : List Int)
    (hm : m.num_rows = (m.rowlist.length : Int)) (hnd : D.Nodup)
    (hD : ∀ d ∈ D, 0 ≤ d ∧ d < m.num_rows) :
    ∃ m1, remove_rows m D = Except.ok m1 ∧
      m1.rowlist = delete_positions D m.rowlist ∧
      m1.num_rows = m.num_rows - (D.length : Int) ∧
      m1.num_elems = m.num_elems - (D.map (row_sum_at m.rowlist)).sum ∧
      m1.num_cols = m.num_cols ∧ m1.num_cols_orig = m.num_cols_orig :=
  ⟨_, remove_rows_ok m D hm hnd hD, rfl, rfl, rfl, rfl, rfl⟩

/-- Witness for C9: rows 2 and 0 (given in that order) of the example matrix. -/
theorem remove_rows_pre_call_indexing_witness :
    ∃ m1, remove_rows example_matrix [2, 0] = Except.ok m1 ∧
      m1.rowlist = delete_positions [2, 0] example_matrix.rowlist ∧
      m1.num_rows = example_matrix.num_rows - (([2, 0] : List Int).length : Int) ∧
      m1.num_elems =
        example_matrix.num_elems - (([2, 0] : List Int).map (row_sum_at example_matrix.rowlist)).sum ∧
      m1.num_cols = example_matrix.num_cols ∧ m1.num_cols_orig = example_matrix.num_cols_orig :=
  remove_rows_pre_call_indexing example_matrix [2, 0] (by decide) (by decide) (by decide)

/-- C10 (the code departs from the claim). `remove_row 2` on the three-row
example matrix hands the list `[0, 0]` to `remove_rows`: rows `a` and `b` are
erased, row `c` at index 2 stays and `num_rows` drops by two; `remove_row 0`
removes nothing. -/
theorem remove_row_erases_leading_rows :
    remove_row example_matrix 2 = Except.ok
        { example_matrix with num_rows := 1, num_elems := 1,
                              rowlist := [example_row "c" [3]] } ∧
      remove_row example_matrix 0 = Except.ok example_matrix ∧
      delete_positions [2] example_matrix.rowlist =
        [example_row "a" [0, 1, 2], example_row "b" [1, 4]] :=
  ⟨rfl, rfl, rfl⟩

/-! ### Column removal, the dense view and the matrix invariants -/

theorem live_count_eq (column : List Int) : live_count column = ((live column).length : Int) := rfl

theorem mem_live {column : List Int} {v : Int} : v ∈ live column ↔ v ∈ column ∧ v ≠ DELETED := by
  simp [live]

theorem assert_row_sums_of_wf (m : Matrix) (h : matrix_wf m) : assert_row_sums m = true := by
  obtain ⟨h1, _, _, h4⟩ := h
  simp only [assert_row_sums, Bool.and_eq_true, decide_eq_true_eq, List.all_eq_true]
  exact ⟨h1, fun e he => (h4 e he).1.symm⟩

theorem remove_cols_data_spec (D : List Int) (W : Nat) (column : List Int)
    (h : ∀ v ∈ live column, 0 ≤ v ∧ v < (W : Int)) :
    remove_cols_data ((List.range W).map (fun j : Nat => transform_value D (j : Int))) column =
      Except.ok (column.map (relocate D)) := by
  induction column with
  | nil => rfl
  | cons v vs ih =>
    have ih' := ih (fun u hu => h u (by
      rw [mem_live] at hu ⊢
      exact ⟨List.mem_cons_of_mem _ hu.1, hu.2⟩))
    by_cases hv : v = DELETED
    · simp only [remove_cols_data, hv, ne_eq, not_true_eq_false, if_false, ih', List.map_cons,
        relocate]
    · have hb := h v (by rw [mem_live]; exact ⟨List.mem_cons_self _ _, hv⟩)
      have hat := at_index_map_range (fun j : Nat => transform_value D (j : Int)) W v hb.1 hb.2
      simp only [remove_cols_data, ne_eq, hv, not_false_eq_true, if_true, hat, ih', List.map_cons,
        relocate, Int.toNat_of_nonneg hb.1]

theorem remove_cols_rows_spec (D : List Int) (W : Nat) (rows : List RowElem) :
    ∀ num_elems : Int, (∀ e ∈ rows, ∀ v ∈ live e.column, 0 ≤ v ∧ v < (W : Int)) →
      remove_cols_rows ((List.range W).map (fun j : Nat => transform_value D (j : Int))) rows
          num_elems =
        Except.ok (rows.map (relocate_row D),
          num_elems - total_row_sum rows + total_row_sum (rows.map (relocate_row D))) := by
  induction rows with
  | nil => intro ne _; simp [remove_cols_rows, total_row_sum]
  | cons e rest ih =>
    intro ne h
    have h1 := remove_cols_data_spec D W e.column (h e (List.mem_cons_self _ _))
    have h2 := ih (ne - (e.row_sum - live_count (e.column.map (relocate D))))
      (fun e' he' => h e' (List.mem_cons_of_mem _ he'))
    simp only [remove_cols_rows, h1, h2, List.map_cons, total_row_sum, List.sum_cons, relocate_row]
    congr 2
    ring

theorem live_map_relocate (D : List Int) (hnd : D.Nodup) (hD : ∀ d ∈ D, 0 ≤ d)
    (column : List Int) (h : ∀ v ∈ live column, 0 ≤ v) :
    live (column.map (relocate D)) =
      ((live column).filter (fun v => decide (v ∉ D))).map (transform_value D) := by
  induction column with
  | nil => rfl
  | cons v vs ih =>
    have ih' := ih (fun u hu => h u (by
      rw [mem_live] at hu ⊢
      exact ⟨List.mem_cons_of_mem _ hu.1, hu.2⟩))
    simp only [live] at ih' ⊢
    by_cases hv : v = DELETED
    · subst hv
      simp only [List.map_cons, relocate, ne_eq, not_true_eq_false, if_false, List.filter_cons,
        decide_False, Bool.false_eq_true]
      exact ih'
    · have hv0 := h v (by rw [mem_live]; exact ⟨List.mem_cons_self _ _, hv⟩)
      by_cases hvD : v ∈ D
      · have : relocate D v = DELETED := by simp [relocate, hv, transform_value, hvD]
        simp only [List.map_cons, this, List.filter_cons, ne_eq, not_true_eq_false, decide_False,
          Bool.false_eq_true, if_false, hv, not_false_eq_true, decide_True, if_true, hvD]
        exact ih'
      · have hk := transform_value_kept D hnd hD v.toNat (by
          rw [Int.toNat_of_nonneg hv0]; exact hvD)
        rw [Int.toNat_of_nonneg hv0] at hk
        have hne : relocate D v ≠ DELETED := by
          simp only [relocate, ne_eq, hv, not_false_eq_true, if_true, hk, DELETED]
          omega
        have hrel : relocate D v = transform_value D v := by simp [relocate, hv]
        have hne' : ¬ transform_value D v = DELETED := by rw [← hrel]; exact hne
        simp only [List.map_cons, List.filter_cons, ne_eq, not_false_eq_true, decide_True,
          if_true, hv, hvD, ih', hrel, hne']

theorem transform_value_lt (D : List Int) (hnd : D.Nodup) (hD : ∀ d ∈ D, 0 ≤ d) {a b : Int}
    (ha : 0 ≤ a) (haD : a ∉ D) (hbD : b ∉ D) (hab : a < b) :
    transform_value D a < transform_value D b := by
  have h1 := transform_value_kept D hnd hD a.toNat (by rw [Int.toNat_of_nonneg ha]; exact haD)
  have h2 := transform_value_kept D hnd hD b.toNat (by
    rw [Int.toNat_of_nonneg (by omega)]; exact hbD)
  rw [Int.toNat_of_nonneg ha] at h1
  rw [Int.toNat_of_nonneg (by omega)] at h2
  have := kept_before_lt D (show a.toNat < b.toNat by omega) (by
    rw [Int.toNat_of_nonneg ha]; exact haD)
  omega

theorem transform_value_range (D : List Int) (hnd : D.Nodup) (W : Int)
    (hD : ∀ d ∈ D, 0 ≤ d ∧ d < W) {a : Int} (ha : 0 ≤ a) (haW : a < W) (haD : a ∉ D) :
    0 ≤ transform_value D a ∧ transform_value D a < W - (D.length : Int) := by
  have hW : 0 ≤ W := by omega
  have h1 := transform_value_kept D hnd (fun d hd => (hD d hd).1) a.toNat (by
    rw [Int.toNat_of_nonneg ha]; exact haD)
  rw [Int.toNat_of_nonneg ha] at h1
  have h2 := kept_before_total D hnd W.toNat (by rw [Int.toNat_of_nonneg hW]; exact hD)
  have := kept_before_lt D (show a.toNat < W.toNat by omega) (by
    rw [Int.toNat_of_nonneg ha]; exact haD)
  omega

theorem relocate_row_wf (D : List Int) (hnd : D.Nodup) (W : Int)
    (hD : ∀ d ∈ D, 0 ≤ d ∧ d < W) (e : RowElem) (he : row_wf W e) :
    row_wf (W - (D.length : Int)) (relocate_row D e) := by
  obtain ⟨_, h2, h3⟩ := he
  have hD0 : ∀ d ∈ D, 0 ≤ d := fun d hd => (hD d hd).1
  have hl := live_map_relocate D hnd hD0 e.column (fun v hv => (h3 v hv).1)
  refine ⟨rfl, ?_, ?_⟩
  · simp only [relocate_row, hl]
    rw [List.pairwise_map]
    have hf : ((live e.column).filter (fun v => decide (v ∉ D))).Pairwise (fun a b => a < b) :=
      h2.filter _
    refine List.Pairwise.imp_of_mem ?_ hf
    intro a b ha hb hab
    have ha' := List.mem_filter.mp ha
    have hb' := List.mem_filter.mp hb
    exact transform_value_lt D hnd hD0 (h3 a ha'.1).1 (by simpa using ha'.2)
      (by simpa using hb'.2) hab
  · simp only [relocate_row, hl]
    intro v hv
    obtain ⟨a, ha, rfl⟩ := List.mem_map.mp hv
    have ha' := List.mem_filter.mp ha
    exact transform_value_range D hnd W hD (h3 a ha'.1).1 (h3 a ha'.1).2 (by simpa using ha'.2)

theorem remove_cols_check_pass (m : Matrix) (D : List Int)
    (hD : ∀ d ∈ D, 0 ≤ d ∧ d ≤ m.num_cols) :
    D.any (fun c => decide (c < 0) || decide (c > m.num_cols)) = false := by
  rw [Bool.eq_false_iff]
  intro h
  rw [List.any_eq_true] at h
  obtain ⟨d, hd, h⟩ := h
  have := hD d hd
  simp at h
  omega

theorem relocate_matrix_wf (m : Matrix) (D : List Int) (hm : matrix_wf m) (hnd : D.Nodup)
    (hD : ∀ d ∈ D, 0 ≤ d ∧ d < m.num_cols) : matrix_wf (relocate_matrix D m) := by
  obtain ⟨h1, h2, h3, h4⟩ := hm
  refine ⟨by simp [relocate_matrix, h1], ?_, rfl, ?_⟩
  · have h0 := kept_before_total D hnd m.num_cols.toNat (by
      rw [Int.toNat_of_nonneg h2]; exact hD)
    simp only [relocate_matrix]
    omega
  · intro e he
    simp only [relocate_matrix] at he ⊢
    obtain ⟨e0, he0, rfl⟩ := List.mem_map.mp he
    exact relocate_row_wf D hnd m.num_cols hD e0 (h4 e0 he0)

theorem remove_cols_ok (m : Matrix) (D : List Int) (hm : matrix_wf m) (hnd : D.Nodup)
    (hD : ∀ d ∈ D, 0 ≤ d ∧ d < m.num_cols) :
    remove_cols m D = Except.ok (relocate_matrix D m) := by
  have hwf' := relocate_matrix_wf m D hm hnd hD
  have ha' := assert_row_sums_of_wf _ hwf'
  have ha := assert_row_sums_of_wf m hm
  obtain ⟨h1, h2, h3, h4⟩ := hm
  have hchk := remove_cols_check_pass m D (fun d hd => ⟨(hD d hd).1, le_of_lt (hD d hd).2⟩)
  have hT := transform_index_ok m.num_cols D h2 hnd hD
  have hrows := remove_cols_rows_spec D m.num_cols.toNat m.rowlist m.num_elems (by
    intro e he v hv
    rw [Int.toNat_of_nonneg h2]
    exact (h4 e he).2.2 v hv)
  simp only [remove_cols, ha, hchk, hT, hrows]
  simp only [Bool.true_eq_false, if_false, Bool.false_eq_true]
  have hm1 : ({ m with rowlist := m.rowlist.map (relocate_row D),
                       num_elems := m.num_elems - total_row_sum m.rowlist +
                         total_row_sum (m.rowlist.map (relocate_row D)),
                       num_cols := m.num_cols - (D.length : Int) } : Matrix) =
      relocate_matrix D m := by
    simp only [relocate_matrix, h3]
    congr 1
    ring
  rw [hm1, ha']
  simp

theorem dense_congr (W : Nat) {L1 L2 : List Int} (h : ∀ v : Int, v ∈ L1 ↔ v ∈ L2) :
    dense W L1 = dense W L2 := by
  simp only [dense, h]

theorem dense_length (W : Nat) (L : List Int) : (dense W L).length = W := by
  simp [dense]

theorem dense_getElem? (W : Nat) (L : List Int) (i : Nat) :
    (dense W L)[i]? = if i < W then some (if (i : Int) ∈ L then 1 else 0) else none := by
  by_cases h : i < W
  · simp [dense, List.getElem?_map, List.getElem?_range h, h]
  · have : (dense W L).length ≤ i := by rw [dense_length]; omega
    simp [List.getElem?_eq_none this, h]

theorem dense_set (W : Nat) (L : List Int) (v : Int) (h0 : 0 ≤ v) :
    (dense W L).set v.toNat 1 = dense W (L ++ [v]) := by
  apply List.ext_getElem?
  intro i
  rw [List.getElem?_set, dense_getElem?, dense_getElem?, dense_length]
  by_cases hi : i < W
  · by_cases hv : v.toNat = i
    · have : (i : Int) = v := by omega
      subst hv
      simp [hi, this]
    · have : (i : Int) ≠ v := by omega
      simp [hi, hv, this]
  · by_cases hv : v.toNat = i
    · subst hv; simp [hi]
    · simp [hi, hv]

theorem get_row_scatter_spec (W : Nat) (vs : List Int) :
    ∀ L0 : List Int, (∀ v ∈ live vs, 0 ≤ v ∧ v < (W : Int)) →
      get_row_scatter (dense W L0) vs = Except.ok (dense W (L0 ++ live vs)) := by
  induction vs with
  | nil => intro L0 _; simp [get_row_scatter, live]
  | cons v vs ih =>
    intro L0 h
    have hrest : ∀ u ∈ live vs, 0 ≤ u ∧ u < (W : Int) := fun u hu => h u (by
      rw [mem_live] at hu ⊢
      exact ⟨List.mem_cons_of_mem _ hu.1, hu.2⟩)
    by_cases hv : v = DELETED
    · subst hv
      have : live (DELETED :: vs) = live vs := by simp [live]
      simp only [get_row_scatter, ne_eq, not_true_eq_false, if_false, this]
      exact ih L0 hrest
    · have hb := h v (by rw [mem_live]; exact ⟨List.mem_cons_self _ _, hv⟩)
      have hl : live (v :: vs) = v :: live vs := by simp [live, hv]
      simp only [get_row_scatter, ne_eq, hv, not_false_eq_true, if_true, dense_length, hb,
        and_self, dense_set W L0 v hb.1, hl]
      rw [ih (L0 ++ [v]) hrest]
      simp

theorem replicate_eq_dense (W : Nat) : List.replicate W (0 : Int) = dense W [] := by
  apply List.ext_getElem?
  intro i
  rw [List.getElem?_replicate, dense_getElem?]
  simp

theorem get_row_ok (m : Matrix) (hm : matrix_wf m) (r : Nat) (e : RowElem)
    (he : m.rowlist[r]? = some e) :
    get_row m (r : Int) = Except.ok (dense m.num_cols.toNat (live e.column)) := by
  obtain ⟨h1, h2, _, h4⟩ := hm
  have hr : r < m.rowlist.length := by
    by_contra hc
    rw [List.getElem?_eq_none (by omega)] at he
    cases he
  have hmem : e ∈ m.rowlist := List.getElem?_mem he
  have hat : at_index m.rowlist (r : Int) = Except.ok e := by
    simp [at_index, he]
  have hc1 : ¬ ((r : Int) < 0 ∨ (r : Int) ≥ m.num_rows) := by omega
  simp only [get_row, if_neg hc1, if_neg (not_lt.mpr h2), hat, replicate_eq_dense]
  rw [get_row_scatter_spec _ _ [] (by
    intro v hv
    rw [Int.toNat_of_nonneg h2]
    exact (h4 e hmem).2.2 v hv)]
  simp

theorem delete_positions_from_map_range' {α : Type} (D : List Int) (f : Nat → α) (n : Nat) :
    ∀ k : Nat, delete_positions_from D k ((List.range' k n).map f) =
      ((List.range' k n).filter (fun i : Nat => decide ((i : Int) ∉ D))).map f := by
  induction n with
  | zero => intro k; rfl
  | succ n ih =>
    intro k
    simp only [List.range'_succ, List.map_cons, delete_positions_from, List.filter_cons, ih]
    by_cases h : (k : Int) ∈ D <;> simp [h]

theorem delete_positions_map_range {α : Type} (D : List Int) (f : Nat → α) (n : Nat) :
    delete_positions D ((List.range n).map f) =
      ((List.range n).filter (fun i : Nat => decide ((i : Int) ∉ D))).map f := by
  rw [List.range_eq_range']
  exact delete_positions_from_map_range' D f n 0

theorem map_kept_before_filter_range (D : List Int) (n : Nat) :
    ((List.range n).filter (fun i : Nat => decide ((i : Int) ∉ D))).map (kept_before D) =
      List.range (kept_before D n) := by
  induction n with
  | zero => simp [kept_before]
  | succ n ih =>
    rw [kept_before_succ, List.range_succ, List.filter_append, List.map_append, ih]
    by_cases h : (n : Int) ∈ D
    · simp [h]
    · simp [h, List.range_succ]

theorem dense_relocate (D : List Int) (hnd : D.Nodup) (W : Nat)
    (hD : ∀ d ∈ D, 0 ≤ d ∧ d < (W : Int)) (L : List Int) (hL : ∀ v ∈ L, 0 ≤ v) :
    dense (kept_before D W) ((L.filter (fun v => decide (v ∉ D))).map (transform_value D)) =
      delete_positions D (dense W L) := by
  have hD0 : ∀ d ∈ D, 0 ≤ d := fun d hd => (hD d hd).1
  simp only [dense]
  rw [delete_positions_map_range, ← map_kept_before_filter_range, List.map_map]
  apply List.map_congr_left
  intro i hi
  have hiD : (i : Int) ∉ D := by simpa using (List.mem_filter.mp hi).2
  have hki := transform_value_kept D hnd hD0 i hiD
  simp only [Function.comp]
  have hiff : ((kept_before D i : Int) ∈
      (L.filter (fun v => decide (v ∉ D))).map (transform_value D)) ↔ (i : Int) ∈ L := by
    constructor
    · intro h
      obtain ⟨v, hv, hveq⟩ := List.mem_map.mp h
      have hv' := List.mem_filter.mp hv
      have hvD : v ∉ D := by simpa using hv'.2
      have hv0 := hL v hv'.1
      have hkv := transform_value_kept D hnd hD0 v.toNat (by
        rw [Int.toNat_of_nonneg hv0]; exact hvD)
      rw [Int.toNat_of_nonneg hv0] at hkv
      rw [hkv] at hveq
      have hinj := kept_before_inj D (by rw [Int.toNat_of_nonneg hv0]; exact hvD) hiD
        (by exact_mod_cast hveq)
      have : v = (i : Int) := by omega
      rw [← this]; exact hv'.1
    · intro h
      rw [← hki]
      exact List.mem_map.mpr ⟨(i : Int), List.mem_filter.mpr ⟨h, by simpa using hiD⟩, rfl⟩
  simp only [hiff]

theorem remove_rows_loop_wf (S : List Int) :
    ∀ m m1 : Matrix, matrix_wf m → remove_rows_loop m S = Except.ok m1 → matrix_wf m1 := by
  induction S with
  | nil =>
    intro m m1 hm h
    simp only [remove_rows_loop] at h
    injection h with h
    subst h; exact hm
  | cons r rs ih =>
    intro m m1 hm h
    simp only [remove_rows_loop] at h
    cases hat : at_index m.rowlist r with
    | error e => rw [hat] at h; simp at h
    | ok row =>
      rw [hat] at h
      simp only at h
      split at h
      · rename_i hassert
        refine ih _ m1 ?_ h
        obtain ⟨h1, h2, h3, h4⟩ := hm
        have hget : m.rowlist[r.toNat]? = some row := by
          simp only [at_index] at hat
          split at hat
          · cases hat
          · split at hat
            · rename_i x hx
              injection hat with hat
              rw [hx, hat]
            · cases hat
        refine ⟨hassert, h2, ?_, ?_⟩
        · simp only
          rw [total_row_sum_eraseIdx _ _ _ hget, h3]
        · intro e he
          exact h4 e (List.mem_of_mem_eraseIdx he)
      · cases h

theorem remove_rows_wf (m m1 : Matrix) (D : List Int) (hm : matrix_wf m)
    (h : remove_rows m D = Except.ok m1) : matrix_wf m1 := by
  simp only [remove_rows] at h
  split at h
  · cases h
  · exact remove_rows_loop_wf _ m m1 hm h

/-- C8. For every matrix satisfying the invariants and every duplicate-free
`D` within `[0, num_cols)`, `remove_cols D` succeeds, `num_cols` decreases by
`|D|`, every dense row `get_row r` is the previous `get_row r` with the
positions in `D` deleted (order kept), every surviving stored entry lies in
`[0, new num_cols)` and the stored sequences keep their lengths. -/
theorem remove_cols_dense_view (m : Matrix) (D : List Int) (hm : matrix_wf m) (hnd : D.Nodup)
    (hD : ∀ d ∈ D, 0 ≤ d ∧ d < m.num_cols) :
    ∃ m1, remove_cols m D = Except.ok m1 ∧
      m1.num_cols = m.num_cols - (D.length : Int) ∧ m1.num_rows = m.num_rows ∧
      (∀ r : Int, 0 ≤ r → r < m.num_rows →
        ∃ row, get_row m r = Except.ok row ∧ get_row m1 r = Except.ok (delete_positions D row)) ∧
      (∀ e ∈ m1.rowlist, ∀ v ∈ e.column, v ≠ DELETED → 0 ≤ v ∧ v < m1.num_cols) ∧
      m1.rowlist.map (fun e => e.column.length) = m.rowlist.map (fun e => e.column.length) := by
  have hwf1 := relocate_matrix_wf m D hm hnd hD
  refine ⟨_, remove_cols_ok m D hm hnd hD, rfl, rfl, ?_, ?_, ?_⟩
  · intro r hr0 hr1
    obtain ⟨h1, h2, h3, h4⟩ := hm
    have hrn : r.toNat < m.rowlist.length := by omega
    have hget : m.rowlist[r.toNat]? = some (m.rowlist[r.toNat]) := List.getElem?_eq_getElem hrn
    have hget1 : (relocate_matrix D m).rowlist[r.toNat]? =
        some (relocate_row D (m.rowlist[r.toNat])) := by
      simp [relocate_matrix, List.getElem?_map, hget]
    have hmem : m.rowlist[r.toNat] ∈ m.rowlist := List.getElem_mem hrn
    have hrow := h4 _ hmem
    have g0 := get_row_ok m ⟨h1, h2, h3, h4⟩ r.toNat _ hget
    have g1 := get_row_ok _ hwf1 r.toNat _ hget1
    rw [Int.toNat_of_nonneg hr0] at g0 g1
    refine ⟨_, g0, ?_⟩
    rw [g1]
    have hD0 : ∀ d ∈ D, 0 ≤ d := fun d hd => (hD d hd).1
    have hl := live_map_relocate D hnd hD0 (m.rowlist[r.toNat]).column
      (fun v hv => (hrow.2.2 v hv).1)
    have htot := kept_before_total D hnd m.num_cols.toNat (by
      rw [Int.toNat_of_nonneg h2]; exact hD)
    have hW : (relocate_matrix D m).num_cols.toNat = kept_before D m.num_cols.toNat := by
      simp only [relocate_matrix]; omega
    have hcol : (relocate_row D (m.rowlist[r.toNat])).column =
        (m.rowlist[r.toNat]).column.map (relocate D) := rfl
    rw [hW, hcol, hl]
    congr 1
    exact dense_relocate D hnd m.num_cols.toNat (by
      rw [Int.toNat_of_nonneg h2]; exact hD) _ (fun v hv => (hrow.2.2 v hv).1)
  · intro e he v hv hvd
    exact (hwf1.2.2.2 e he).2.2 v (mem_live.mpr ⟨hv, hvd⟩)
  · simp [relocate_matrix, relocate_row, List.map_map, Function.comp]

/-- Witness for C8: columns 3 and 1 of the example matrix. -/
theorem remove_cols_dense_view_witness :
    ∃ m1, remove_cols example_matrix [3, 1] = Except.ok m1 ∧
      m1.num_cols = example_matrix.num_cols - (([3, 1] : List Int).length : Int) ∧
      m1.num_rows = example_matrix.num_rows ∧
      (∀ r : Int, 0 ≤ r → r < example_matrix.num_rows →
        ∃ row, get_row example_matrix r = Except.ok row ∧
          get_row m1 r = Except.ok (delete_positions [3, 1] row)) ∧
      (∀ e ∈ m1.rowlist, ∀ v ∈ e.column, v ≠ DELETED → 0 ≤ v ∧ v < m1.num_cols) ∧
      m1.rowlist.map (fun e => e.column.length) =
        example_matrix.rowlist.map (fun e => e.column.length) :=
  remove_cols_dense_view example_matrix [3, 1] (by decide) (by decide) (by decide)

/-- C6. If a matrix satisfies the invariants (`num_rows == |rowlist|`,
`num_elems == Σ row_sum`, `row_sum` counts the non-`DELETED` entries, which are
strictly increasing and lie in `[0, num_cols)`, `num_cols` being a count), then
`remove_rows Dr` for every duplicate-free `Dr` within `[0, num_rows)` and
`remove_cols Dc` for every duplicate-free `Dc` within `[0, num_cols)` succeed
and the resulting matrix satisfies the same invariants. -/
theorem matrix_invariants_preserved (m : Matrix) (Dr Dc : List Int) (hm : matrix_wf m)
    (hrnd : Dr.Nodup) (hr : ∀ d ∈ Dr, 0 ≤ d ∧ d < m.num_rows)
    (hcnd : Dc.Nodup) (hc : ∀ d ∈ Dc, 0 ≤ d ∧ d < m.num_cols) :
    (∃ m1, remove_rows m Dr = Except.ok m1 ∧ matrix_wf m1) ∧
    (∃ m1, remove_cols m Dc = Except.ok m1 ∧ matrix_wf m1) := by
  constructor
  · have h := remove_rows_ok m Dr hm.1 hrnd hr
    exact ⟨_, h, remove_rows_wf m _ Dr hm h⟩
  · exact ⟨_, remove_cols_ok m Dc hm hcnd hc, relocate_matrix_wf m Dc hm hcnd hc⟩

/-- Witness for C6: rows 2, 0 and columns 3, 1 of the example matrix. -/
theorem matrix_invariants_preserved_witness :
    (∃ m1, remove_rows example_matrix [2, 0] = Except.ok m1 ∧ matrix_wf m1) ∧
    (∃ m1, remove_cols example_matrix [3, 1] = Except.ok m1 ∧ matrix_wf m1) :=
  matrix_invariants_preserved example_matrix [2, 0] [3, 1] (by decide) (by decide) (by decide)
    (by decide) (by decide)

/-! ### Accessors under the invariants -/

theorem at_index_eq_ok {α : Type} (xs : List α) (i : Int) (x : α) :
    at_index xs i = Except.ok x ↔ 0 ≤ i ∧ xs[i.toNat]? = some x := by
  simp only [at_index]
  by_cases h : i < 0
  · simp [h]
  · simp only [h, if_false]
    cases hx : xs[i.toNat]? with
    | none => simp
    | some y => simp; intro _; omega

theorem at_index_of_getElem? {α : Type} (xs : List α) (i : Nat) (x : α) (h : xs[i]? = some x) :
    at_index xs (i : Int) = Except.ok x := by
  rw [at_index_eq_ok]; simpa using h

theorem at_index_of_lt {α : Type} (xs : List α) (i : Int) (h0 : 0 ≤ i)
    (h1 : i < (xs.length : Int)) : ∃ x, at_index xs i = Except.ok x ∧ xs[i.toNat]? = some x := by
  have : i.toNat < xs.length := by omega
  exact ⟨xs[i.toNat], (at_index_eq_ok _ _ _).mpr ⟨h0, List.getElem?_eq_getElem this⟩,
    List.getElem?_eq_getElem this⟩

theorem visited_rows_ok (m : Matrix) (hm : matrix_wf m) : visited_rows m = Except.ok m.rowlist := by
  have h1 := hm.1
  simp only [visited_rows, h1, le_refl, if_true, Int.toNat_ofNat, List.take_length]

theorem get_row_sum_ok (m : Matrix) (hm : matrix_wf m) :
    get_row_sum m = Except.ok (m.rowlist.map (fun e => e.row_sum)) := by
  have h1 := hm.1
  simp only [get_row_sum, visited_rows_ok m hm]
  rw [if_neg (by omega)]

theorem row_at_some (m : Matrix) (hm : matrix_wf m) (r : Int) (h0 : 0 ≤ r) (h1 : r < m.num_rows) :
    ∃ e, row_at m r = some e ∧ e ∈ m.rowlist ∧ at_index m.rowlist r = Except.ok e := by
  have hl := hm.1
  obtain ⟨e, he1, he2⟩ := at_index_of_lt m.rowlist r h0 (by omega)
  exact ⟨e, by simp [row_at, not_lt.mpr h0, he2], List.getElem?_mem he2, he1⟩

theorem row_at_mem (m : Matrix) (r : Int) (e : RowElem) (h : row_at m r = some e) :
    e ∈ m.rowlist ∧ 0 ≤ r ∧ r < (m.rowlist.length : Int) ∧ at_index m.rowlist r = Except.ok e := by
  simp only [row_at] at h
  split at h
  · cases h
  · rename_i h0
    have hlt : r.toNat < m.rowlist.length := by
      by_contra hc
      rw [List.getElem?_eq_none (by omega)] at h
      cases h
    exact ⟨List.getElem?_mem h, by omega, by omega, (at_index_eq_ok _ _ _).mpr ⟨by omega, h⟩⟩

theorem get_row_sum_at_ok (m : Matrix) (hm : matrix_wf m) (r : Int) (e : RowElem)
    (h : row_at m r = some e) : get_row_sum_at m r = Except.ok e.row_sum := by
  obtain ⟨_, h0, h1, hat⟩ := row_at_mem m r e h
  have hl := hm.1
  simp only [get_row_sum_at, hat]
  rw [if_neg (by omega)]

theorem get_row_weight_ok (m : Matrix) (hm : matrix_wf m) (r : Int) (e : RowElem)
    (h : row_at m r = some e) : get_row_weight m r = Except.ok e.weight := by
  obtain ⟨_, h0, h1, hat⟩ := row_at_mem m r e h
  have hl := hm.1
  simp only [get_row_weight, hat]
  rw [if_neg (by omega)]

theorem get_row_exemplar_ok (m : Matrix) (hm : matrix_wf m) (r : Int) (e : RowElem)
    (h : row_at m r = some e) : get_row_exemplar m r = Except.ok e.file_path := by
  obtain ⟨_, h0, h1, hat⟩ := row_at_mem m r e h
  have hl := hm.1
  simp only [get_row_exemplar, hat]
  rw [if_neg (by omega)]

theorem get_row_at (m : Matrix) (hm : matrix_wf m) (r : Int) (e : RowElem)
    (h : row_at m r = some e) :
    get_row m r = Except.ok (dense m.num_cols.toNat (live e.column)) := by
  obtain ⟨_, h0, h1, _⟩ := row_at_mem m r e h
  have := get_row_ok m hm r.toNat e (by simpa [row_at, not_lt.mpr h0] using h)
  rwa [Int.toNat_of_nonneg h0] at this

/-! ### Column sums -/

theorem column_sum_add_spec (W : Nat) (vs : List Int) :
    ∀ f : Nat → Int, (∀ v ∈ live vs, 0 ≤ v ∧ v < (W : Int)) →
      column_sum_add ((List.range W).map f) vs =
        Except.ok ((List.range W).map (fun c : Nat => f c + ((live vs).count (c : Int) : Int))) := by
  induction vs with
  | nil => intro f _; simp [column_sum_add, live]
  | cons v vs ih =>
    intro f h
    have hrest : ∀ u ∈ live vs, 0 ≤ u ∧ u < (W : Int) := fun u hu => h u (by
      rw [mem_live] at hu ⊢
      exact ⟨List.mem_cons_of_mem _ hu.1, hu.2⟩)
    by_cases hv : v = DELETED
    · subst hv
      have : live (DELETED :: vs) = live vs := by simp [live]
      simp only [column_sum_add, ne_eq, not_true_eq_false, if_false, this]
      exact ih f hrest
    · have hb := h v (by rw [mem_live]; exact ⟨List.mem_cons_self _ _, hv⟩)
      have hl : live (v :: vs) = v :: live vs := by simp [live, hv]
      have hat := at_index_map_range f W v hb.1 hb.2
      simp only [column_sum_add, ne_eq, hv, not_false_eq_true, if_true, hat, hl]
      have hset : ((List.range W).map f).set v.toNat (f v.toNat + 1) =
          (List.range W).map (fun c : Nat => if c = v.toNat then f c + 1 else f c) := by
        apply List.ext_getElem?
        intro i
        rw [List.getElem?_set]
        by_cases hi : i < W
        · by_cases hvi : v.toNat = i
          · subst hvi
            simp [List.getElem?_map, List.getElem?_range hi, hi]
          · have : ¬ i = v.toNat := fun h => hvi h.symm
            simp [List.getElem?_map, List.getElem?_range hi, hvi, this]
        · have h1 : ((List.range W).map f).length ≤ i := by simp; omega
          have h2 : ((List.range W).map
              (fun c : Nat => if c = v.toNat then f c + 1 else f c)).length ≤ i := by
            simp; omega
          rw [List.getElem?_eq_none h1, List.getElem?_eq_none h2]
          by_cases hvi : v.toNat = i
          · subst hvi; simp; omega
          · simp [hvi]
      rw [hset, ih _ hrest]
      congr 1
      apply List.map_congr_left
      intro c _
      by_cases hc : c = v.toNat
      · have : (c : Int) = v := by omega
        simp [hc, List.count_cons, this]
        omega
      · have : ¬ v = (c : Int) := by omega
        simp [hc, List.count_cons, this]

theorem column_sum_rows_spec (W : Nat) (rows : List RowElem) :
    ∀ f : Nat → Int, (∀ e ∈ rows, ∀ v ∈ live e.column, 0 ≤ v ∧ v < (W : Int)) →
      column_sum_rows ((List.range W).map f) rows =
        Except.ok ((List.range W).map (fun c : Nat => f c + column_count rows (c : Int))) := by
  induction rows with
  | nil => intro f _; simp [column_sum_rows, column_count]
  | cons e rest ih =>
    intro f h
    have h1 := column_sum_add_spec W e.column f (h e (List.mem_cons_self _ _))
    simp only [column_sum_rows, h1]
    rw [ih _ (fun e' he' => h e' (List.mem_cons_of_mem _ he'))]
    congr 1
    apply List.map_congr_left
    intro c _
    simp only [column_count, List.map_cons, List.sum_cons]
    ring

theorem get_column_sum_ok (m : Matrix) (hm : matrix_wf m) :
    get_column_sum m = Except.ok (column_sums m.num_cols.toNat m.rowlist) := by
  have hv := visited_rows_ok m hm
  obtain ⟨_, h2, _, h4⟩ := hm
  have hrep : List.replicate m.num_cols.toNat (0 : Int) =
      (List.range m.num_cols.toNat).map (fun _ => (0 : Int)) := by
    apply List.ext_getElem?
    intro i
    by_cases hi : i < m.num_cols.toNat
    · simp [List.getElem?_replicate, hi, List.getElem?_map, List.getElem?_range hi]
    · rw [List.getElem?_eq_none (by simp; omega), List.getElem?_eq_none (by simp; omega)]
  simp only [get_column_sum, if_neg (not_lt.mpr h2), hv, hrep]
  rw [column_sum_rows_spec _ _ _ (by
    intro e he v hv
    rw [Int.toNat_of_nonneg h2]
    exact (h4 e he).2.2 v hv)]
  simp [column_sums]

/-! ### Index-collecting loops -/

theorem singular_positions_eq (l : List Int) :
    ∀ c, singular_positions l c = positions_from (fun v => decide (v = 0)) l c := by
  induction l with
  | nil => intro c; rfl
  | cons v rest ih => intro c; simp [singular_positions, positions_from, ih]

theorem unity_columns_eq (l : List Int) :
    ∀ c, unity_columns l c = positions_from (fun v => decide (v = 1)) l c := by
  induction l with
  | nil => intro c; rfl
  | cons v rest ih => intro c; simp [unity_columns, positions_from, ih]

theorem set_positions_eq (l : List Int) :
    ∀ c, set_positions l c = positions_from (fun v => decide (v = 1)) l c := by
  induction l with
  | nil => intro c; rfl
  | cons v rest ih => intro c; simp [set_positions, positions_from, ih]

theorem nonzero_positions_eq (l : List Int) :
    ∀ c, nonzero_positions l c = positions_from (fun v => decide (v ≠ 0)) l c := by
  induction l with
  | nil => intro c; rfl
  | cons v rest ih => intro c; simp [nonzero_positions, positions_from, ih]

theorem mem_positions_from (p : Int → Bool) (l : List Int) :
    ∀ (c x : Int), x ∈ positions_from p l c ↔
      ∃ (i : Nat) (v : Int), l[i]? = some v ∧ p v = true ∧ x = c + (i : Int) := by
  induction l with
  | nil => intro c x; simp [positions_from]
  | cons v rest ih =>
    intro c x
    have hrest : x ∈ positions_from p rest (c + 1) ↔
        ∃ (i : Nat) (u : Int), (v :: rest)[i + 1]? = some u ∧ p u = true ∧
          x = c + ((i + 1 : Nat) : Int) := by
      rw [ih]
      constructor
      · rintro ⟨i, u, h1, h2, h3⟩
        exact ⟨i, u, by simpa using h1, h2, by push_cast; omega⟩
      · rintro ⟨i, u, h1, h2, h3⟩
        exact ⟨i, u, by simpa using h1, h2, by push_cast at h3; omega⟩
    constructor
    · intro h
      simp only [positions_from] at h
      split at h
      · rename_i hp
        rcases List.mem_cons.mp h with h | h
        · exact ⟨0, v, by simp, hp, by simpa using h⟩
        · obtain ⟨i, u, h1, h2, h3⟩ := hrest.mp h
          exact ⟨i + 1, u, h1, h2, h3⟩
      · obtain ⟨i, u, h1, h2, h3⟩ := hrest.mp h
        exact ⟨i + 1, u, h1, h2, h3⟩
    · rintro ⟨i, u, h1, h2, h3⟩
      cases i with
      | zero =>
        simp at h1
        subst h1
        simp only [positions_from, h2, if_true]
        simp [h3]
      | succ i =>
        have := hrest.mpr ⟨i, u, h1, h2, h3⟩
        simp only [positions_from]
        split
        · exact List.mem_cons_of_mem _ this
        · exact this

theorem positions_from_sorted (p : Int → Bool) (l : List Int) :
    ∀ c : Int, (positions_from p l c).Pairwise (fun a b => a < b) := by
  induction l with
  | nil => intro c; simp [positions_from]
  | cons v rest ih =>
    intro c
    simp only [positions_from]
    split
    · rw [List.pairwise_cons]
      refine ⟨?_, ih (c + 1)⟩
      intro x hx
      obtain ⟨i, _, _, _, h3⟩ := (mem_positions_from p rest (c + 1) x).mp hx
      omega
    · exact ih (c + 1)

theorem mem_positions_map_range (p : Int → Bool) (W : Nat) (f : Nat → Int) (x : Int) :
    x ∈ positions_from p ((List.range W).map f) 0 ↔
      0 ≤ x ∧ x < (W : Int) ∧ p (f x.toNat) = true := by
  rw [mem_positions_from]
  constructor
  · rintro ⟨i, v, h1, h2, h3⟩
    have hi : i < W := by
      by_contra hc
      rw [List.getElem?_eq_none (by simp; omega)] at h1
      cases h1
    simp [List.getElem?_map, List.getElem?_range hi] at h1
    subst h1
    have : x.toNat = i := by omega
    rw [this]
    exact ⟨by omega, by omega, h2⟩
  · rintro ⟨h0, h1, h2⟩
    have hi : x.toNat < W := by omega
    exact ⟨x.toNat, f x.toNat, by simp [List.getElem?_map, List.getElem?_range hi], h2, by omega⟩

theorem mem_get_singular_columns (W : Nat) (rows : List RowElem) (x : Int) :
    x ∈ get_singular_columns (column_sums W rows) ↔
      0 ≤ x ∧ x < (W : Int) ∧ column_count rows x = 0 := by
  simp only [get_singular_columns, singular_positions_eq, column_sums, mem_positions_map_range]
  constructor
  · rintro ⟨h0, h1, h2⟩
    rw [Int.toNat_of_nonneg h0] at h2
    exact ⟨h0, h1, by simpa using h2⟩
  · rintro ⟨h0, h1, h2⟩
    rw [Int.toNat_of_nonneg h0]
    exact ⟨h0, h1, by simpa using h2⟩

theorem mem_unity_columns (W : Nat) (rows : List RowElem) (x : Int) :
    x ∈ unity_columns (column_sums W rows) 0 ↔
      0 ≤ x ∧ x < (W : Int) ∧ column_count rows x = 1 := by
  simp only [unity_columns_eq, column_sums, mem_positions_map_range]
  constructor
  · rintro ⟨h0, h1, h2⟩
    rw [Int.toNat_of_nonneg h0] at h2
    exact ⟨h0, h1, by simpa using h2⟩
  · rintro ⟨h0, h1, h2⟩
    rw [Int.toNat_of_nonneg h0]
    exact ⟨h0, h1, by simpa using h2⟩

theorem mem_set_positions_dense (W : Nat) (L : List Int) (x : Int) :
    x ∈ set_positions (dense W L) 0 ↔ 0 ≤ x ∧ x < (W : Int) ∧ x ∈ L := by
  simp only [set_positions_eq, dense, mem_positions_map_range]
  constructor
  · rintro ⟨h0, h1, h2⟩
    rw [Int.toNat_of_nonneg h0] at h2
    refine ⟨h0, h1, ?_⟩
    by_contra hc
    simp [hc] at h2
  · rintro ⟨h0, h1, h2⟩
    rw [Int.toNat_of_nonneg h0]
    exact ⟨h0, h1, by simp [h2]⟩

theorem any_zero_iff_positions (l : List Int) :
    ∀ c : Int, l.any (fun v => decide (v = 0)) = true ↔
      positions_from (fun v => decide (v = 0)) l c ≠ [] := by
  induction l with
  | nil => intro c; simp [positions_from]
  | cons v rest ih =>
    intro c
    by_cases hv : v = 0
    · simp [positions_from, hv]
    · simp only [List.any_cons, hv, decide_False, Bool.false_or, positions_from,
        Bool.false_eq_true, if_false]
      exact ih (c + 1)

theorem is_column_singular_iff (l : List Int) :
    is_column_singular l = true ↔ get_singular_columns l ≠ [] := by
  simp only [is_column_singular, get_singular_columns, singular_positions_eq]
  exact any_zero_iff_positions l 0

theorem is_row_singular_iff (l : List Int) :
    is_row_singular l = true ↔ get_singular_rows l ≠ [] := is_column_singular_iff l

/-! ### Overlap of two rows -/

theorem live_cons_deleted (vs : List Int) : live (DELETED :: vs) = live vs := by
  simp [live]

theorem live_cons_live (v : Int) (vs : List Int) (h : v ≠ DELETED) :
    live (v :: vs) = v :: live vs := by
  simp [live, h]

theorem live_sublist_of_suffix (l1 l2 : List Int) (h : l1.Sublist l2) :
    (live l1).Sublist (live l2) := h.filter _

theorem overlap_loop_spec (vs : List Int) :
    ∀ (data2 : List Int) (result : Int),
      (live vs).Pairwise (fun a b => a < b) → (∀ v ∈ live vs, 0 ≤ v) →
      (live data2).Pairwise (fun a b => a < b) →
      overlap_loop vs data2 result = result + overlap_count vs data2 := by
  induction vs with
  | nil => intro d2 res _ _ _; simp [overlap_loop, overlap_count, live]
  | cons v vs ih =>
    intro d2 res hs h0 hs2
    by_cases hv : v = DELETED
    · subst hv
      rw [live_cons_deleted] at hs h0
      simp only [overlap_loop, if_true, overlap_count, live_cons_deleted]
      exact ih d2 res hs h0 hs2
    · rw [live_cons_live v vs hv] at hs h0
      have hp := List.pairwise_cons.mp hs
      have hv0 : 0 ≤ v := h0 v (List.mem_cons_self _ _)
      have hrest0 : ∀ u ∈ live vs, 0 ≤ u := fun u hu => h0 u (List.mem_cons_of_mem _ hu)
      have hsuf : (d2.dropWhile (fun w => decide (w < v))).Sublist d2 :=
        (List.dropWhile_suffix _).sublist
      have hs2' : (live (d2.dropWhile (fun w => decide (w < v)))).Pairwise (fun a b => a < b) :=
        hs2.sublist (live_sublist_of_suffix _ _ hsuf)
      have hkeep : ∀ u, v ≤ u → (u ∈ live d2 ↔ u ∈ live (d2.dropWhile (fun w => decide (w < v)))) := by
        intro u hu
        constructor
        · intro h
          rw [mem_live] at h ⊢
          refine ⟨?_, h.2⟩
          have hd := List.takeWhile_append_dropWhile (fun w => decide (w < v)) d2
          have h1 := h.1
          rw [← hd] at h1
          rcases List.mem_append.mp h1 with h1 | h1
          · have := List.mem_takeWhile_imp h1
            simp at this
            omega
          · exact h1
        · intro h
          exact (live_sublist_of_suffix _ _ hsuf).subset h
      simp only [overlap_loop, hv, if_false]
      cases hd : d2.dropWhile (fun w => decide (w < v)) with
      | nil =>
        simp only
        have hnone : ∀ u ∈ v :: live vs, u ∉ live d2 := by
          intro u hu hm
          have hvu : v ≤ u := by
            rcases List.mem_cons.mp hu with h | h
            · omega
            · exact le_of_lt (hp.1 u h)
          have := (hkeep u hvu).mp hm
          rw [hd] at this
          simp [live] at this
        have : overlap_count (v :: vs) d2 = 0 := by
          simp only [overlap_count, live_cons_live v vs hv]
          rw [List.filter_eq_nil_iff.mpr (by
            intro u hu
            simpa using hnone u hu)]
          rfl
        rw [this]; ring
      | cons w rest =>
        rw [hd] at hs2' hkeep
        have hwv : ¬ w < v := by
          have := List.head_dropWhile_not (fun w => decide (w < v)) d2 (by rw [hd]; simp)
          simp only [hd, List.head_cons] at this
          simpa using this
        have hwl : w ≠ DELETED := by simp only [DELETED]; omega
        have hcong : overlap_count vs (w :: rest) = overlap_count vs d2 := by
          simp only [overlap_count]
          congr 2
          apply List.filter_congr
          intro u hu
          have := hkeep u (le_of_lt (hp.1 u hu))
          simp only [this]
        by_cases hw : w = v
        · subst hw
          simp only [if_true]
          rw [ih (w :: rest) (res + 1) hp.2 hrest0 hs2', hcong]
          have hin : w ∈ live d2 := (hkeep w (le_refl _)).mpr (by
            rw [live_cons_live w rest hwl]; exact List.mem_cons_self _ _)
          simp only [overlap_count, live_cons_live w vs hv, List.filter_cons, hin, decide_True,
            if_true, List.length_cons]
          push_cast; ring
        · simp only [hw, if_false]
          rw [ih (w :: rest) res hp.2 hrest0 hs2', hcong]
          have hnin : v ∉ live d2 := by
            intro hm
            have := (hkeep v (le_refl _)).mp hm
            rw [live_cons_live w rest hwl] at this hs2'
            rcases List.mem_cons.mp this with h | h
            · exact hw h.symm
            · have := (List.pairwise_cons.mp hs2').1 v h
              omega
          simp only [overlap_count, live_cons_live v vs hv, List.filter_cons, hnin, decide_False,
            Bool.false_eq_true, if_false]

theorem overlap_count_le_left (c1 c2 : List Int) : overlap_count c1 c2 ≤ live_count c1 := by
  simp only [overlap_count, live_count_eq]
  exact_mod_cast List.length_filter_le _ _

theorem overlap_count_le_right (c1 c2 : List Int) (h : (live c1).Nodup) :
    overlap_count c1 c2 ≤ live_count c2 := by
  simp only [overlap_count, live_count_eq]
  have hnd : ((live c1).filter (fun v => decide (v ∈ live c2))).Nodup := h.filter _
  have hsub : ((live c1).filter (fun v => decide (v ∈ live c2))) ⊆ live c2 := by
    intro x hx
    simpa using (List.mem_filter.mp hx).2
  exact_mod_cast (List.Nodup.subperm hnd hsub).length_le

theorem subset_of_overlap_count_eq (c1 c2 : List Int) (h1 : (live c1).Nodup)
    (h : overlap_count c1 c2 = live_count c2) : ∀ v ∈ live c2, v ∈ live c1 := by
  simp only [overlap_count, live_count_eq] at h
  have hnd : ((live c1).filter (fun v => decide (v ∈ live c2))).Nodup := h1.filter _
  have hsub : ((live c1).filter (fun v => decide (v ∈ live c2))) ⊆ live c2 := by
    intro x hx
    simpa using (List.mem_filter.mp hx).2
  have hperm := (List.Nodup.subperm hnd hsub).perm_of_length_le (by
    have : ((live c1).filter (fun v => decide (v ∈ live c2))).length = (live c2).length := by
      exact_mod_cast h
    omega)
  intro v hv
  exact (List.mem_filter.mp (hperm.mem_iff.mpr hv)).1

theorem get_overlap_ok (m : Matrix) (hm : matrix_wf m) (r1 r2 : Int) (e1 e2 : RowElem)
    (h1 : row_at m r1 = some e1) (h2 : row_at m r2 = some e2) :
    get_overlap m r1 r2 = Except.ok (overlap_count e1.column e2.column) := by
  obtain ⟨hmem1, h10, h11, hat1⟩ := row_at_mem m r1 e1 h1
  obtain ⟨hmem2, h20, h21, hat2⟩ := row_at_mem m r2 e2 h2
  have hs1 := get_row_sum_at_ok m hm r1 e1 h1
  have hs2 := get_row_sum_at_ok m hm r2 e2 h2
  have hl := hm.1
  have hw1 := hm.2.2.2 e1 hmem1
  have hw2 := hm.2.2.2 e2 hmem2
  have hspec := overlap_loop_spec e1.column e2.column 0 hw1.2.1
    (fun v hv => (hw1.2.2 v hv).1) hw2.2.1
  simp only [get_overlap, hat1, hat2, hs1, hs2, hspec, zero_add]
  rw [if_neg (by omega)]
  have hnd : (live e1.column).Nodup := hw1.2.1.imp (fun h => ne_of_lt h)
  have b1 := overlap_count_le_left e1.column e2.column
  have b2 := overlap_count_le_right e1.column e2.column hnd
  rw [hw1.1, hw2.1, if_pos ⟨b1, b2⟩]

/-! ### The function `reduce` -/

theorem mem_index_set (l : List Int) (x : Int) : x ∈ index_set l ↔ x ∈ l := by
  simp only [index_set]
  rw [(List.perm_insertionSort _ _).mem_iff, List.mem_dedup]

theorem index_set_nodup (l : List Int) : (index_set l).Nodup := by
  simp only [index_set]
  exact (List.perm_insertionSort _ _).nodup_iff.mpr (List.nodup_dedup l)

theorem index_set_sorted (l : List Int) : (index_set l).Pairwise (fun a b => a < b) := by
  have hs : (index_set l).Sorted (fun a b => a ≤ b) := List.sorted_insertionSort _ _
  exact (List.Pairwise.and hs (index_set_nodup l)).imp (fun h => lt_of_le_of_ne h.1 h.2)

theorem index_set_eq_nil (l : List Int) : index_set l = [] ↔ l = [] := by
  constructor
  · intro h
    cases l with
    | nil => rfl
    | cons a l =>
      have : a ∈ index_set (a :: l) := (mem_index_set _ _).mpr (List.mem_cons_self _ _)
      rw [h] at this
      cases this
  · intro h; subst h; rfl

theorem mem_delete_positions_from {α : Type} (D : List Int) (xs : List α) (x : α) :
    ∀ k : Nat, x ∈ delete_positions_from D k xs ↔
      ∃ i : Nat, ((k + i : Nat) : Int) ∉ D ∧ xs[i]? = some x := by
  induction xs with
  | nil => intro k; simp [delete_positions_from]
  | cons y ys ih =>
    intro k
    have hrest : x ∈ delete_positions_from D (k + 1) ys ↔
        ∃ i : Nat, ((k + (i + 1) : Nat) : Int) ∉ D ∧ (y :: ys)[i + 1]? = some x := by
      rw [ih]
      constructor
      · rintro ⟨i, h1, h2⟩
        exact ⟨i, by rw [show k + (i + 1) = k + 1 + i by omega]; exact h1, by simpa using h2⟩
      · rintro ⟨i, h1, h2⟩
        exact ⟨i, by rw [show k + 1 + i = k + (i + 1) by omega]; exact h1, by simpa using h2⟩
    simp only [delete_positions_from]
    constructor
    · intro h
      split at h
      · obtain ⟨i, h1, h2⟩ := hrest.mp h
        exact ⟨i + 1, h1, h2⟩
      · rename_i hk
        rcases List.mem_cons.mp h with h | h
        · exact ⟨0, by simpa using hk, by simp [h]⟩
        · obtain ⟨i, h1, h2⟩ := hrest.mp h
          exact ⟨i + 1, h1, h2⟩
    · rintro ⟨i, h1, h2⟩
      cases i with
      | zero =>
        simp at h1 h2
        subst h2
        simp [h1]
      | succ i =>
        have := hrest.mpr ⟨i, h1, h2⟩
        split
        · exact this
        · exact List.mem_cons_of_mem _ this

theorem mem_delete_positions {α : Type} (D : List Int) (xs : List α) (x : α) :
    x ∈ delete_positions D xs ↔ ∃ i : Nat, (i : Int) ∉ D ∧ xs[i]? = some x := by
  simp only [delete_positions, mem_delete_positions_from, Nat.zero_add]

theorem delete_positions_nil {α : Type} (xs : List α) : delete_positions [] xs = xs :=
  delete_positions_from_all_below [] xs 0 (by simp)

theorem delete_positions_subset {α : Type} (D : List Int) (xs : List α) :
    ∀ x ∈ delete_positions D xs, x ∈ xs := by
  intro x hx
  obtain ⟨i, _, h⟩ := (mem_delete_positions D xs x).mp hx
  exact List.getElem?_mem h

theorem delete_rows_nil (m : Matrix) : delete_rows [] m = m := by
  simp [delete_rows, delete_positions_nil]

theorem remove_rows_eq_delete_rows (m : Matrix) (D : List Int) (hm : matrix_wf m)
    (hnd : D.Nodup) (hD : ∀ d ∈ D, 0 ≤ d ∧ d < m.num_rows) :
    remove_rows m D = Except.ok (delete_rows D m) ∧ matrix_wf (delete_rows D m) := by
  have h := remove_rows_ok m D hm.1 hnd hD
  exact ⟨h, remove_rows_wf m _ D hm h⟩

theorem project_columns_loop_spec (m : Matrix) (hm : matrix_wf m) (rowset : List Int) :
    ∀ C : List Int, (∀ r ∈ rowset, 0 ≤ r ∧ r < m.num_rows) →
      project_columns_loop m rowset C = Except.ok (C ++ projected_columns m rowset) := by
  induction rowset with
  | nil => intro C _; simp [project_columns_loop, projected_columns]
  | cons r rest ih =>
    intro C h
    obtain ⟨h0, h1⟩ := h r (List.mem_cons_self _ _)
    obtain ⟨e, he, _, _⟩ := row_at_some m hm r h0 h1
    have hg := get_row_at m hm r e he
    simp only [project_columns_loop, hg]
    rw [ih _ (fun r' hr' => h r' (List.mem_cons_of_mem _ hr'))]
    simp [projected_columns, he]

theorem project_columns_ok (m : Matrix) (hm : matrix_wf m) (rowset : List Int)
    (h : ∀ r ∈ rowset, 0 ≤ r ∧ r < m.num_rows) :
    project_columns m rowset = Except.ok (dedup (projected_columns m rowset)) := by
  simp only [project_columns, project_columns_loop_spec m hm rowset [] h, List.nil_append]

theorem mem_projected_columns (m : Matrix) (hm : matrix_wf m) (rowset : List Int) (c : Int) :
    c ∈ projected_columns m rowset ↔
      ∃ r ∈ rowset, ∃ e, row_at m r = some e ∧ c ∈ live e.column := by
  simp only [projected_columns, List.mem_flatMap]
  constructor
  · rintro ⟨r, hr, hc⟩
    cases he : row_at m r with
    | none => rw [he] at hc; cases hc
    | some e =>
      rw [he] at hc
      exact ⟨r, hr, e, he, ((mem_set_positions_dense _ _ _).mp hc).2.2⟩
  · rintro ⟨r, hr, e, he, hc⟩
    refine ⟨r, hr, ?_⟩
    rw [he]
    have hw := (hm.2.2.2 e (row_at_mem m r e he).1).2.2 c hc
    exact (mem_set_positions_dense _ _ _).mpr ⟨hw.1, by
      rw [Int.toNat_of_nonneg hm.2.1]; exact hw.2, hc⟩

theorem projected_columns_range (m : Matrix) (hm : matrix_wf m) (rowset : List Int) :
    ∀ c ∈ dedup (projected_columns m rowset), 0 ≤ c ∧ c < m.num_cols := by
  intro c hc
  rw [dedup, mem_index_set, mem_projected_columns m hm] at hc
  obtain ⟨r, _, e, he, hc⟩ := hc
  exact (hm.2.2.2 e (row_at_mem m r e he).1).2.2 c hc

theorem get_singular_rows_range (rows : List RowElem) :
    ∀ r ∈ get_singular_rows (rows.map (fun e => e.row_sum)),
      0 ≤ r ∧ r < (rows.length : Int) := by
  intro r hr
  simp only [get_singular_rows, singular_positions_eq] at hr
  obtain ⟨i, v, h1, _, h3⟩ := (mem_positions_from _ _ _ _).mp hr
  have hi : i < rows.length := by
    by_contra hc
    rw [List.getElem?_eq_none (by simp; omega)] at h1
    cases h1
  omega

theorem get_singular_rows_nodup (l : List Int) : (get_singular_rows l).Nodup := by
  simp only [get_singular_rows, singular_positions_eq]
  exact (positions_from_sorted _ _ _).imp (fun h => ne_of_lt h)

theorem reduce_ok (m : Matrix) (hm : matrix_wf m) (rowset : List Int) (hnd : rowset.Nodup)
    (h : ∀ r ∈ rowset, 0 ≤ r ∧ r < m.num_rows) :
    reduce m rowset = Except.ok (reduced m rowset) ∧ matrix_wf (reduced m rowset) := by
  have hp := project_columns_ok m hm rowset h
  have hcn : (dedup (projected_columns m rowset)).Nodup := index_set_nodup _
  have hcr := projected_columns_range m hm rowset
  have hc := remove_cols_ok m _ hm hcn hcr
  have hwf1 := relocate_matrix_wf m _ hm hcn hcr
  obtain ⟨hr, hwf2⟩ := remove_rows_eq_delete_rows
    (relocate_matrix (dedup (projected_columns m rowset)) m) rowset hwf1 hnd h
  have hs := get_row_sum_ok _ hwf2
  have hzr := get_singular_rows_range
    (delete_rows rowset (relocate_matrix (dedup (projected_columns m rowset)) m)).rowlist
  have hzn := get_singular_rows_nodup
    ((delete_rows rowset (relocate_matrix (dedup (projected_columns m rowset)) m)).rowlist.map
      (fun e => e.row_sum))
  obtain ⟨hr3, hwf3⟩ := remove_rows_eq_delete_rows _ _ hwf2 hzn (by
    intro r hr
    have := hzr r hr
    rw [hwf2.1]; exact this)
  simp only [reduce, hp, hc, hr, hs, eliminate_row_singularities]
  by_cases hz : is_row_singular ((delete_rows rowset
      (relocate_matrix (dedup (projected_columns m rowset)) m)).rowlist.map
        (fun e => e.row_sum)) = true
  · simp only [hz, if_true, hr3]
    exact ⟨rfl, hwf3⟩
  · have hnil : get_singular_rows ((delete_rows rowset
        (relocate_matrix (dedup (projected_columns m rowset)) m)).rowlist.map
          (fun e => e.row_sum)) = [] := by
      by_contra hc'
      exact hz ((is_row_singular_iff _).mpr hc')
    simp only [hz, if_false, Bool.false_eq_true]
    have : reduced m rowset = delete_rows rowset
        (relocate_matrix (dedup (projected_columns m rowset)) m) := by
      simp only [reduced, hnil, delete_rows_nil]
    rw [this]
    exact ⟨rfl, hwf2⟩

/-! ### Adding rows to the solution; row unitarians -/

theorem add_to_solution_ok (fs : FileSystem) (m : Matrix) (hm : matrix_wf m) (S : Solution)
    (row : Int) (optimal : Bool) (e : RowElem) (he : row_at m row = some e) :
    add_to_solution fs m S row optimal = Except.ok
      (S.add_to_soln (filename e.file_path) (get_exemplar_data fs e.file_path) e.weight optimal) := by
  simp only [add_to_solution, get_row_exemplar_ok m hm row e he, get_row_weight_ok m hm row e he]

theorem add_rows_to_solution_ok (fs : FileSystem) (m : Matrix) (hm : matrix_wf m)
    (optimal : Bool) (rows : List Int) :
    ∀ S : Solution, (∀ r ∈ rows, 0 ≤ r ∧ r < m.num_rows) →
      add_rows_to_solution fs m optimal S rows =
        Except.ok (add_all fs optimal S (selected_rows m rows)) := by
  induction rows with
  | nil => intro S _; rfl
  | cons r rest ih =>
    intro S h
    obtain ⟨h0, h1⟩ := h r (List.mem_cons_self _ _)
    obtain ⟨e, he, _, _⟩ := row_at_some m hm r h0 h1
    simp only [add_rows_to_solution, add_to_solution_ok fs m hm S r optimal e he]
    rw [ih _ (fun r' hr' => h r' (List.mem_cons_of_mem _ hr'))]
    simp [selected_rows, add_all, he]

theorem add_to_soln_fields (S : Solution) (f : String) (row : List Int) (w : ℚ) (optimal : Bool) :
    (S.add_to_soln f row w optimal).solution = S.solution ++ [f] ∧
    (S.add_to_soln f row w optimal).rowdata = S.rowdata ++ [row] ∧
    (S.add_to_soln f row w optimal).weight = S.weight + w ∧
    (S.add_to_soln f row w optimal).initial_singularities = S.initial_singularities ∧
    (S.add_to_soln f row w optimal).num_non_optimal =
      S.num_non_optimal + (if optimal then 0 else 1) ∧
    (S.add_to_soln f row w optimal).weight_non_optimal =
      S.weight_non_optimal + (if optimal then 0 else w) := by
  cases optimal <;> simp [Solution.add_to_soln]

theorem add_all_fields (fs : FileSystem) (optimal : Bool) (es : List RowElem) :
    ∀ S : Solution,
      (add_all fs optimal S es).solution = S.solution ++ es.map (fun e => filename e.file_path) ∧
      (add_all fs optimal S es).rowdata =
        S.rowdata ++ es.map (fun e => get_exemplar_data fs e.file_path) ∧
      (add_all fs optimal S es).weight = S.weight + (es.map (fun e => e.weight)).sum ∧
      (add_all fs optimal S es).initial_singularities = S.initial_singularities ∧
      (add_all fs optimal S es).num_non_optimal =
        S.num_non_optimal + (if optimal then 0 else (es.length : Int)) := by
  induction es with
  | nil => intro S; cases optimal <;> simp [add_all]
  | cons e rest ih =>
    intro S
    have h := ih (S.add_to_soln (filename e.file_path) (get_exemplar_data fs e.file_path)
      e.weight optimal)
    have hf := add_to_soln_fields S (filename e.file_path) (get_exemplar_data fs e.file_path)
      e.weight optimal
    simp only [add_all, List.foldl_cons] at h ⊢
    obtain ⟨h1, h2, h3, h4, h5⟩ := h
    obtain ⟨f1, f2, f3, f4, f5, _⟩ := hf
    refine ⟨?_, ?_, ?_, ?_, ?_⟩
    · rw [h1, f1]; simp
    · rw [h2, f2]; simp
    · rw [h3, f3]; simp; ring
    · rw [h4, f4]
    · rw [h5, f5]
      cases optimal <;> simp
      ring

theorem find_unitarian_rows_loop_spec (U : List Int) (rows : List RowElem) :
    ∀ (r : Int) (c_data : List ExemplarData), 0 ≤ r →
      r + (rows.length : Int) ≤ (c_data.length : Int) →
      ∃ c_data1, find_unitarian_rows_loop U rows r c_data =
          Except.ok (unitarian_rows U rows r, c_data1) ∧
        c_data1.length = c_data.length := by
  induction rows with
  | nil => intro r cd _ _; exact ⟨cd, rfl, rfl⟩
  | cons e rest ih =>
    intro r cd h0 hlen
    simp only [List.length_cons, Nat.cast_succ] at hlen
    by_cases hu : has_unitarian_entry U e.column = true
    · obtain ⟨x, hx, _⟩ := at_index_of_lt cd r h0 (by omega)
      obtain ⟨cd1, h1, h2⟩ := ih (r + 1)
        (cd.set r.toNat { x with score_unitarian := x.score_unitarian + 1 }) (by omega)
        (by simp only [List.length_set]; omega)
      refine ⟨cd1, ?_, by rw [h2, List.length_set]⟩
      simp only [find_unitarian_rows_loop, hu, if_true, hx, h1, unitarian_rows, List.map_cons,
        positions_from, decide_True]
    · obtain ⟨cd1, h1, h2⟩ := ih (r + 1) cd (by omega) (by omega)
      refine ⟨cd1, ?_, h2⟩
      simp only [find_unitarian_rows_loop, hu, if_false, h1, unitarian_rows, List.map_cons,
        positions_from, Bool.false_eq_true]
      simp

theorem find_unitarian_rows_ok (m : Matrix) (hm : matrix_wf m) (U : List Int)
    (c_data : List ExemplarData) (hc : m.num_rows ≤ (c_data.length : Int)) :
    ∃ c_data1, find_unitarian_rows m U c_data =
        Except.ok (unitarian_rows U m.rowlist 0, c_data1) ∧
      c_data1.length = c_data.length := by
  have hl := hm.1
  obtain ⟨cd1, h1, h2⟩ := find_unitarian_rows_loop_spec U m.rowlist 0 c_data (le_refl _)
    (by omega)
  exact ⟨cd1, by simp only [find_unitarian_rows, visited_rows_ok m hm, h1], h2⟩

theorem mem_unitarian_rows (m : Matrix) (U : List Int) (x : Int) :
    x ∈ unitarian_rows U m.rowlist 0 ↔
      ∃ e, row_at m x = some e ∧ has_unitarian_entry U e.column = true := by
  simp only [unitarian_rows, mem_positions_from, zero_add]
  constructor
  · rintro ⟨i, v, h1, h2, h3⟩
    rw [List.getElem?_map] at h1
    cases he : m.rowlist[i]? with
    | none => rw [he] at h1; cases h1
    | some e =>
      rw [he] at h1
      simp only [Option.map_some', Option.some.injEq] at h1
      refine ⟨e, by simp [row_at, h3, he], ?_⟩
      by_contra hc
      simp [hc] at h1
      subst h1
      simp at h2
  · rintro ⟨e, he, hu⟩
    obtain ⟨_, h0, _, _⟩ := row_at_mem m x e he
    simp only [row_at, not_lt.mpr h0, if_false] at he
    exact ⟨x.toNat, 1, by simp [List.getElem?_map, he, hu], by simp, by omega⟩

theorem unitarian_rows_nodup (U : List Int) (rows : List RowElem) (r : Int) :
    (unitarian_rows U rows r).Nodup :=
  (positions_from_sorted _ _ _).imp (fun h => ne_of_lt h)

theorem unitarian_rows_range (m : Matrix) (hm : matrix_wf m) (U : List Int) :
    ∀ x ∈ unitarian_rows U m.rowlist 0, 0 ≤ x ∧ x < m.num_rows := by
  intro x hx
  obtain ⟨e, he, _⟩ := (mem_unitarian_rows m U x).mp hx
  obtain ⟨_, h0, h1, _⟩ := row_at_mem m x e he
  have := hm.1
  omega

theorem column_count_pos_iff (rows : List RowElem) (c : Int) :
    0 < column_count rows c ↔ ∃ e ∈ rows, c ∈ live e.column := by
  induction rows with
  | nil => simp [column_count]
  | cons e rest ih =>
    have hnn : 0 ≤ column_count rest c := by
      simp only [column_count]
      apply List.sum_nonneg
      intro x hx
      obtain ⟨_, _, rfl⟩ := List.mem_map.mp hx
      exact Int.natCast_nonneg _
    have hsplit : column_count (e :: rest) c =
        ((live e.column).count c : Int) + column_count rest c := by
      simp [column_count]
    rw [hsplit]
    constructor
    · intro h
      by_cases hc : c ∈ live e.column
      · exact ⟨e, List.mem_cons_self _ _, hc⟩
      · have : ((live e.column).count c : Int) = 0 := by
          exact_mod_cast List.count_eq_zero_of_not_mem hc
        obtain ⟨e', he', hc'⟩ := ih.mp (by omega)
        exact ⟨e', List.mem_cons_of_mem _ he', hc'⟩
    · rintro ⟨e', he', hc'⟩
      rcases List.mem_cons.mp he' with h | h
      · subst h
        have : 0 < (live e'.column).count c := List.count_pos_iff.mpr hc'
        omega
      · have := ih.mpr ⟨e', h, hc'⟩
        have : 0 ≤ ((live e.column).count c : Int) := Int.natCast_nonneg _
        omega

theorem unitarian_rows_ne_nil (m : Matrix)
    (h : unity_columns (column_sums m.num_cols.toNat m.rowlist) 0 ≠ []) :
    unitarian_rows (unity_columns (column_sums m.num_cols.toNat m.rowlist) 0) m.rowlist 0 ≠ [] := by
  obtain ⟨c, hc⟩ := List.exists_mem_of_ne_nil _ h
  have hc' := (mem_unity_columns _ _ c).mp hc
  obtain ⟨e, he, hce⟩ := (column_count_pos_iff m.rowlist c).mp (by omega)
  obtain ⟨i, hi⟩ := List.mem_iff_getElem?.mp he
  have hrow : row_at m (i : Int) = some e := by simp [row_at, hi]
  have : (i : Int) ∈ unitarian_rows (unity_columns (column_sums m.num_cols.toNat m.rowlist) 0)
      m.rowlist 0 := by
    rw [mem_unitarian_rows]
    refine ⟨e, hrow, ?_⟩
    simp only [has_unitarian_entry, List.any_eq_true, Bool.and_eq_true, decide_eq_true_eq]
    exact ⟨c, (mem_live.mp hce).1, (mem_live.mp hce).2, hc⟩
  intro hnil
  rw [hnil] at this
  cases this

/-! ### Elimination of row unitarians and the greedy selector -/

theorem reduced_num_rows (m : Matrix) (rowset : List Int) :
    (reduced m rowset).num_rows ≤ m.num_rows - (rowset.length : Int) := by
  simp only [reduced, delete_rows, relocate_matrix]
  omega

theorem reduced_num_cols (m : Matrix) (rowset : List Int) :
    (reduced m rowset).num_cols =
      m.num_cols - ((dedup (projected_columns m rowset)).length : Int) := by
  simp only [reduced, delete_rows, relocate_matrix]

theorem reduced_num_cols_orig (m : Matrix) (rowset : List Int) :
    (reduced m rowset).num_cols_orig = m.num_cols_orig := rfl

theorem eliminate_row_unitarians_ok (fs : FileSystem) (m : Matrix) (hm : matrix_wf m)
    (S : Solution) (cd : List ExemplarData) (hc : m.num_rows ≤ (cd.length : Int)) :
    ∃ cd1, cd1.length = cd.length ∧
      eliminate_row_unitarians fs m S cd = Except.ok
        (if m.num_rows = 0 ∨ m.num_cols = 0 ∨
            unity_columns (column_sums m.num_cols.toNat m.rowlist) 0 = [] then
          (false, m, S, cd)
        else
          (true,
            reduced m
              (unitarian_rows (unity_columns (column_sums m.num_cols.toNat m.rowlist) 0)
                m.rowlist 0),
            add_all fs true S (selected_rows m
              (unitarian_rows (unity_columns (column_sums m.num_cols.toNat m.rowlist) 0)
                m.rowlist 0)),
            cd1)) := by
  by_cases h0 : m.num_rows = 0 ∨ m.num_cols = 0
  · refine ⟨cd, rfl, ?_⟩
    have : m.num_rows = 0 ∨ m.num_cols = 0 ∨
        unity_columns (column_sums m.num_cols.toNat m.rowlist) 0 = [] := by
      rcases h0 with h | h
      · exact Or.inl h
      · exact Or.inr (Or.inl h)
    simp only [eliminate_row_unitarians, if_pos h0, if_pos this]
  · by_cases hU : unity_columns (column_sums m.num_cols.toNat m.rowlist) 0 = []
    · refine ⟨cd, rfl, ?_⟩
      simp only [eliminate_row_unitarians, if_neg h0, get_column_sum_ok m hm, hU]
      simp
    · obtain ⟨cd1, hf, hlen⟩ := find_unitarian_rows_ok m hm
        (unity_columns (column_sums m.num_cols.toNat m.rowlist) 0) cd hc
      have hr := unitarian_rows_range m hm
        (unity_columns (column_sums m.num_cols.toNat m.rowlist) 0)
      have hadd := add_rows_to_solution_ok fs m hm true _ S hr
      have hred := (reduce_ok m hm _ (unitarian_rows_nodup _ _ _) hr).1
      refine ⟨cd1, hlen, ?_⟩
      have hcond : ¬ (m.num_rows = 0 ∨ m.num_cols = 0 ∨
          unity_columns (column_sums m.num_cols.toNat m.rowlist) 0 = []) := by
        rintro (h | h | h)
        · exact h0 (Or.inl h)
        · exact h0 (Or.inr h)
        · exact hU h
      have hpos : (unity_columns (column_sums m.num_cols.toNat m.rowlist) 0).length > 0 :=
        List.length_pos.mpr hU
      simp only [eliminate_row_unitarians, if_neg h0, get_column_sum_ok m hm, if_pos hpos, hf,
        hadd, hred, if_neg hcond]

/-! ### The greedy selector -/

theorem sort_by_perm {α : Type} (before : α → α → Bool) (l : List α) :
    (sort_by before l).Perm l := List.perm_insertionSort _ l

theorem mem_score_pairs (l : List ℚ) :
    ∀ (i : Int) (p : ℚ × Int), p ∈ score_pairs l i → i ≤ p.2 ∧ p.2 < i + (l.length : Int) := by
  induction l with
  | nil => intro i p h; simp [score_pairs] at h
  | cons s rest ih =>
    intro i p h
    simp only [score_pairs, List.mem_cons] at h
    rcases h with h | h
    · subst h; simp
    · have := ih (i + 1) p h
      simp only [List.length_cons, Nat.cast_succ]
      omega

theorem score_pairs_length (l : List ℚ) : ∀ i : Int, (score_pairs l i).length = l.length := by
  induction l with
  | nil => intro i; rfl
  | cons s rest ih => intro i; simp [score_pairs, ih]

theorem deterministic_compare_ok (m : Matrix) (hm : matrix_wf m) (r1 r2 : Int) (e1 e2 : RowElem)
    (h1 : row_at m r1 = some e1) (h2 : row_at m r2 = some e2) :
    deterministic_compare m r1 r2 = Except.ok (string_compare e1.file_path e2.file_path) := by
  simp only [deterministic_compare, get_row_exemplar_ok m hm r1 e1 h1,
    get_row_exemplar_ok m hm r2 e2 h2]

theorem deterministic_select_loop_ok (m : Matrix) (hm : matrix_wf m) (scores : List (ℚ × Int))
    (hs : ∀ p ∈ scores, 0 ≤ p.2 ∧ p.2 < m.num_rows) (first : ℚ) (rest : List (ℚ × Int)) :
    ∀ (i best : Int), (∀ p ∈ rest, p ∈ scores) → 0 ≤ best → best < (scores.length : Int) →
      0 ≤ i → i + (rest.length : Int) = (scores.length : Int) →
      ∃ k, deterministic_select_loop m scores first rest i best = Except.ok k ∧
        0 ≤ k ∧ k < (scores.length : Int) := by
  induction rest with
  | nil => intro i best _ hb0 hb1 _ _; exact ⟨best, rfl, hb0, hb1⟩
  | cons s rest ih =>
    intro i best hsub hb0 hb1 hi0 hi
    simp only [List.length_cons, Nat.cast_succ] at hi
    by_cases hf : s.1 = first
    · obtain ⟨b, hb, hbget⟩ := at_index_of_lt scores best hb0 hb1
      have hbm : b ∈ scores := List.getElem?_mem hbget
      have hsm : s ∈ scores := hsub s (List.mem_cons_self _ _)
      obtain ⟨e1, he1, _, _⟩ := row_at_some m hm b.2 (hs b hbm).1 (hs b hbm).2
      obtain ⟨e2, he2, _, _⟩ := row_at_some m hm s.2 (hs s hsm).1 (hs s hsm).2
      simp only [deterministic_select_loop, hf, if_true, hb,
        deterministic_compare_ok m hm b.2 s.2 e1 e2 he1 he2]
      apply ih
      · exact fun p hp => hsub p (List.mem_cons_of_mem _ hp)
      · split <;> omega
      · split <;> omega
      · omega
      · omega
    · exact ⟨best, by simp only [deterministic_select_loop, hf, if_false], hb0, hb1⟩

theorem deterministic_select_ok (m : Matrix) (hm : matrix_wf m) (scores : List (ℚ × Int))
    (hs : ∀ p ∈ scores, 0 ≤ p.2 ∧ p.2 < m.num_rows) (hne : scores ≠ []) :
    ∃ k, deterministic_select m scores = Except.ok k ∧ 0 ≤ k ∧ k < (scores.length : Int) := by
  cases scores with
  | nil => exact absurd rfl hne
  | cons s0 rest =>
    simp only [deterministic_select]
    apply deterministic_select_loop_ok m hm (s0 :: rest) hs s0.1 rest 1 0
    · exact fun p hp => List.mem_cons_of_mem _ hp
    · exact le_refl _
    · simp only [List.length_cons, Nat.cast_succ]; omega
    · omega
    · simp only [List.length_cons, Nat.cast_succ]; omega

theorem score_rows_ok (m : Matrix) (hm : matrix_wf m) :
    score_rows m = Except.ok (m.rowlist.map (fun e => (e.row_sum : ℚ) / e.weight)) := by
  have h1 := hm.1
  simp only [score_rows, visited_rows_ok m hm]
  rw [if_neg (by omega)]

theorem eliminate_max_score_ok (fs : FileSystem) (m : Matrix) (hm : matrix_wf m) (S : Solution)
    (hr : m.num_rows ≠ 0) :
    ∃ (row : Int) (e : RowElem), row_at m row = some e ∧
      eliminate_max_score fs m S = Except.ok
        (true, reduced m [row],
          S.add_to_soln (filename e.file_path) (get_exemplar_data fs e.file_path) e.weight
            false) := by
  have hl := hm.1
  have hperm := sort_by_perm score_pair_greater
    (score_pairs (m.rowlist.map (fun e => (e.row_sum : ℚ) / e.weight)) 0)
  have hs : ∀ p ∈ sort_by score_pair_greater
      (score_pairs (m.rowlist.map (fun e => (e.row_sum : ℚ) / e.weight)) 0),
      0 ≤ p.2 ∧ p.2 < m.num_rows := by
    intro p hp
    have := mem_score_pairs _ 0 p (hperm.mem_iff.mp hp)
    simp only [List.length_map] at this
    omega
  have hlen : (sort_by score_pair_greater
      (score_pairs (m.rowlist.map (fun e => (e.row_sum : ℚ) / e.weight)) 0)).length =
      m.rowlist.length := by
    rw [hperm.length_eq, score_pairs_length, List.length_map]
  have hne : sort_by score_pair_greater
      (score_pairs (m.rowlist.map (fun e => (e.row_sum : ℚ) / e.weight)) 0) ≠ [] := by
    intro h
    rw [h] at hlen
    simp at hlen
    omega
  obtain ⟨k, hk, hk0, hk1⟩ := deterministic_select_ok m hm _ hs hne
  obtain ⟨chosen, hch, hchget⟩ := at_index_of_lt _ k hk0 hk1
  have hcm := hs chosen (List.getElem?_mem hchget)
  obtain ⟨e, he, _, _⟩ := row_at_some m hm chosen.2 hcm.1 hcm.2
  refine ⟨chosen.2, e, he, ?_⟩
  have hnull : chosen.2 ≠ NULL_INDEX := by simp only [NULL_INDEX]; omega
  have hred := (reduce_ok m hm [chosen.2] (List.nodup_singleton _) (by
    intro r hr'
    rw [List.mem_singleton] at hr'
    subst hr'
    exact hcm)).1
  simp only [eliminate_max_score, score_rows_ok m hm, hk, hch, if_neg hnull,
    add_to_solution_ok fs m hm S chosen.2 false e he, hred]

/-! ### Subset rows: domination and the sorted order -/

theorem dominates_trans (m : Matrix) {a b c : Int} (h1 : dominates m a b)
    (h2 : dominates m b c) : dominates m a c := by
  obtain ⟨ea, eb, ha, hb, hsub, hw⟩ := h1
  obtain ⟨eb', ec, hb', hc, hsub', hw'⟩ := h2
  rw [hb] at hb'
  injection hb' with hb'
  subst hb'
  exact ⟨ea, ec, ha, hc, fun v hv => hsub v (hsub' v hv), le_trans hw hw'⟩

theorem deletion_sound_cons (m : Matrix) (del : List Int) (d x : Int)
    (h : deletion_sound m del) (hd : d ∉ del) (hdx : d ≠ x) (hdom : dominates m d x) :
    deletion_sound m (x :: del) := by
  intro b hb
  rcases List.mem_cons.mp hb with hbx | hbd
  · subst hbx
    exact ⟨d, by simp [hd, hdx], hdom⟩
  · obtain ⟨a, ha, hab⟩ := h b hbd
    by_cases hax : a = x
    · subst hax
      exact ⟨d, by simp [hd, hdx], dominates_trans m hdom hab⟩
    · exact ⟨a, by simp [ha, hax], hab⟩

theorem deletion_sound_nil (m : Matrix) : deletion_sound m [] := by
  intro b hb; cases hb

theorem deletion_sound_congr (m : Matrix) {d1 d2 : List Int} (h : ∀ x, x ∈ d1 ↔ x ∈ d2)
    (hs : deletion_sound m d1) : deletion_sound m d2 := by
  intro b hb
  obtain ⟨a, ha, hab⟩ := hs b ((h b).mpr hb)
  exact ⟨a, fun hc => ha ((h a).mpr hc), hab⟩

theorem sort_by_sorted {α : Type} (before : α → α → Bool) (P : α → Prop)
    (htot : ∀ a b, P a → P b → before a b = false ∨ before b a = false)
    (htrans : ∀ a b c, P a → P b → P c → before b a = false → before c b = false →
      before c a = false) (l : List α) (hP : ∀ x ∈ l, P x) :
    (sort_by before l).Pairwise (fun a b => before b a = false) := by
  induction l with
  | nil => simp [sort_by]
  | cons a l ih =>
    have ihl := ih (fun x hx => hP x (List.mem_cons_of_mem _ hx))
    have hPa := hP a (List.mem_cons_self _ _)
    have hPs : ∀ x ∈ sort_by before l, P x := fun x hx =>
      hP x (List.mem_cons_of_mem _ ((sort_by_perm before l).mem_iff.mp hx))
    simp only [sort_by, List.insertionSort] at ihl ⊢
    simp only [sort_by] at hPs
    generalize l.insertionSort (fun a b => before b a = false) = s at ihl hPs
    induction s with
    | nil => simp [List.orderedInsert]
    | cons b s ihs =>
      have hp := List.pairwise_cons.mp ihl
      have hPb := hPs b (List.mem_cons_self _ _)
      simp only [List.orderedInsert]
      split
      · rename_i hab
        rw [List.pairwise_cons]
        refine ⟨?_, ihl⟩
        intro x hx
        rcases List.mem_cons.mp hx with h | h
        · subst h; exact hab
        · exact htrans a b x hPa hPb (hPs x (List.mem_cons_of_mem _ h)) hab (hp.1 x h)
      · rename_i hab
        have hba : before a b = false := by
          rcases htot a b hPa hPb with h | h
          · exact h
          · exact absurd h hab
        rw [List.pairwise_cons]
        refine ⟨?_, ihs hp.2 (fun x hx => hPs x (List.mem_cons_of_mem _ hx))⟩
        intro x hx
        rcases (List.mem_orderedInsert _).mp hx with h | h
        · subst h; exact hba
        · exact hp.1 x h

theorem dense_mem_iff (W : Nat) (L1 L2 : List Int) (h : dense W L1 = dense W L2) (v : Int)
    (h0 : 0 ≤ v) (h1 : v < (W : Int)) : v ∈ L1 ↔ v ∈ L2 := by
  have hi : v.toNat < W := by omega
  have e1 := dense_getElem? W L1 v.toNat
  have e2 := dense_getElem? W L2 v.toNat
  rw [h, e2] at e1
  simp only [hi, if_true, Option.some.injEq, Int.toNat_of_nonneg h0] at e1
  by_cases hv1 : v ∈ L1 <;> by_cases hv2 : v ∈ L2 <;> simp [hv1, hv2] at e1 ⊢

theorem rows_find_cons (rows : List (List Int × Int)) (k : List Int) (i : Int) (key : List Int) :
    rows_find ((k, i) :: rows) key = if k = key then some i else rows_find rows key := by
  simp only [rows_find, List.find?_cons]
  by_cases h : k = key <;> simp [h]

theorem row_metas_spec (rows : List RowElem) :
    ∀ (i : Int) (it : RowMeta), it ∈ row_metas rows i →
      ∃ (k : Nat) (e : RowElem), rows[k]? = some e ∧ it.index = i + (k : Int) ∧
        it.rowsum = e.row_sum ∧ it.weight = e.weight := by
  induction rows with
  | nil => intro i it h; simp [row_metas] at h
  | cons e rest ih =>
    intro i it h
    simp only [row_metas, List.mem_cons] at h
    rcases h with h | h
    · subst h
      exact ⟨0, e, by simp, by simp, rfl, rfl⟩
    · obtain ⟨k, e', h1, h2, h3, h4⟩ := ih (i + 1) it h
      exact ⟨k + 1, e', by simpa using h1, by push_cast; omega, h3, h4⟩

theorem row_metas_index_sorted (rows : List RowElem) :
    ∀ i : Int, ((row_metas rows i).map (fun it => it.index)).Pairwise (fun a b => a < b) := by
  induction rows with
  | nil => intro i; simp [row_metas]
  | cons e rest ih =>
    intro i
    simp only [row_metas, List.map_cons, List.pairwise_cons]
    refine ⟨?_, ih (i + 1)⟩
    intro x hx
    obtain ⟨it, hit, rfl⟩ := List.mem_map.mp hx
    obtain ⟨k, _, _, h2, _, _⟩ := row_metas_spec rest (i + 1) it hit
    omega

theorem row_metas_length (rows : List RowElem) : ∀ i : Int, (row_metas rows i).length = rows.length := by
  induction rows with
  | nil => intro i; rfl
  | cons e rest ih => intro i; simp [row_metas, ih]

theorem row_metas_ok (m : Matrix) : ∀ it ∈ row_metas m.rowlist 0, meta_ok m it := by
  intro it hit
  obtain ⟨k, e, h1, h2, h3, h4⟩ := row_metas_spec m.rowlist 0 it hit
  refine ⟨e, ?_, h3, h4⟩
  simp only [zero_add] at h2
  simp [row_at, h2, h1]

theorem string_compare_pos (a b : String) : string_compare a b > 0 ↔ b < a := by
  simp only [string_compare]
  by_cases h1 : a < b
  · have : ¬ b < a := lt_asymm h1
    simp [h1, this]
  · by_cases h2 : b < a
    · simp [h1, h2]
    · simp [h1, h2]

theorem lex_key_lt_iff (r1 r2 : Int) (w1 w2 : ℚ) (p1 p2 : String) :
    (toLex (-r1, toLex (w1, OrderDual.toDual p1)) : Lex (Int × Lex (ℚ × Stringᵒᵈ))) <
      toLex (-r2, toLex (w2, OrderDual.toDual p2)) ↔
    r1 > r2 ∨ (r1 = r2 ∧ (w1 < w2 ∨ (w1 = w2 ∧ p2 < p1))) := by
  rw [Prod.Lex.lt_iff]
  simp only [ofLex_toLex]
  rw [Prod.Lex.lt_iff]
  simp only [ofLex_toLex, OrderDual.toDual_lt_toDual, neg_lt_neg_iff, neg_inj]

theorem row_meta_before_iff (m : Matrix) (hm : matrix_wf m) (a b : RowMeta) (ha : meta_ok m a)
    (hb : meta_ok m b) : row_meta_before m a b = true ↔ meta_key m a < meta_key m b := by
  obtain ⟨ea, hea, _, _⟩ := ha
  obtain ⟨eb, heb, _, _⟩ := hb
  have hcmp := deterministic_compare_ok m hm a.index b.index ea eb hea heb
  have hpa : meta_path m a = ea.file_path := by simp [meta_path, hea]
  have hpb : meta_path m b = eb.file_path := by simp [meta_path, heb]
  simp only [meta_key, lex_key_lt_iff, hpa, hpb, row_meta_before, hcmp]
  by_cases h1 : a.rowsum > b.rowsum
  · simp only [h1, if_true, true_or]
  · by_cases h2 : a.rowsum < b.rowsum
    · have hne : ¬ a.rowsum = b.rowsum := by omega
      simp only [h1, h2, if_false, if_true, Bool.false_eq_true, hne, false_and, or_self]
    · have heq : a.rowsum = b.rowsum := by omega
      simp only [h1, h2, if_false, false_or]
      simp only [heq, true_and]
      by_cases h3 : a.weight < b.weight
      · simp only [h3, if_true, true_or]
      · by_cases h4 : a.weight > b.weight
        · have hne : ¬ a.weight = b.weight := fun h => by rw [h] at h4; exact lt_irrefl _ h4
          simp only [h3, h4, if_false, if_true, Bool.false_eq_true, hne, false_and, or_self]
        · have hweq : a.weight = b.weight := le_antisymm (not_lt.mp h4) (not_lt.mp h3)
          simp only [h3, h4, if_false, decide_eq_true_eq, string_compare_pos, false_or]
          simp only [hweq, true_and]

theorem row_meta_before_false_iff (m : Matrix) (hm : matrix_wf m) (a b : RowMeta)
    (ha : meta_ok m a) (hb : meta_ok m b) :
    row_meta_before m a b = false ↔ meta_key m b ≤ meta_key m a := by
  rw [← not_lt, ← row_meta_before_iff m hm a b ha hb]
  simp

theorem sorted_rows_sorted (m : Matrix) (hm : matrix_wf m) (l : List RowMeta)
    (hl : ∀ it ∈ l, meta_ok m it) :
    (sort_by (row_meta_before m) l).Pairwise (fun a b => row_meta_before m b a = false) := by
  apply sort_by_sorted (row_meta_before m) (meta_ok m) _ _ l hl
  · intro a b ha hb
    rw [row_meta_before_false_iff m hm a b ha hb, row_meta_before_false_iff m hm b a hb ha]
    exact le_total _ _
  · intro a b c ha hb hc h1 h2
    rw [row_meta_before_false_iff m hm _ _ hb ha] at h1
    rw [row_meta_before_false_iff m hm _ _ hc hb] at h2
    rw [row_meta_before_false_iff m hm _ _ hc ha]
    exact le_trans h1 h2

theorem live_eq_of_dense_eq (W : Int) (hW : 0 ≤ W) (e1 e2 : RowElem) (h1 : row_wf W e1)
    (h2 : row_wf W e2)
    (hd : dense W.toNat (live e1.column) = dense W.toNat (live e2.column)) :
    (∀ v, v ∈ live e1.column ↔ v ∈ live e2.column) ∧ e1.row_sum = e2.row_sum := by
  have hiff : ∀ v, v ∈ live e1.column ↔ v ∈ live e2.column := by
    intro v
    constructor
    · intro hv
      have hb := h1.2.2 v hv
      exact (dense_mem_iff _ _ _ hd v hb.1 (by omega)).mp hv
    · intro hv
      have hb := h2.2.2 v hv
      exact (dense_mem_iff _ _ _ hd v hb.1 (by omega)).mpr hv
  refine ⟨hiff, ?_⟩
  have hn1 : (live e1.column).Nodup := h1.2.1.imp (fun h => ne_of_lt h)
  have hn2 : (live e2.column).Nodup := h2.2.1.imp (fun h => ne_of_lt h)
  have l1 := (List.Nodup.subperm hn1 (fun v hv => (hiff v).mp hv)).length_le
  have l2 := (List.Nodup.subperm hn2 (fun v hv => (hiff v).mpr hv)).length_le
  rw [h1.1, h2.1, live_count_eq, live_count_eq]
  omega

theorem find_duplicate_rows_spec (m : Matrix) (hm : matrix_wf m) (rest : List RowMeta) :
    ∀ (cur : Int) (rows : List (List Int × Int)) (del : List Int),
      (∀ it ∈ rest, meta_ok m it) →
      (rest.map (fun it => it.index)).Nodup →
      rest.Pairwise (fun a b => row_meta_before m b a = false) →
      (∀ key idx, rows_find rows key = some idx →
        idx ∉ del ∧ idx ∉ rest.map (fun it => it.index) ∧
        ∃ e, row_at m idx = some e ∧ key = dense m.num_cols.toNat (live e.column) ∧
          ∀ it ∈ rest,
            row_meta_before m it { index := idx, rowsum := e.row_sum, weight := e.weight } =
              false) →
      deletion_sound m del →
      (∀ b ∈ del, b ∉ rest.map (fun it => it.index)) →
      ∃ del1, find_duplicate_rows m rest cur rows del = Except.ok del1 ∧
        deletion_sound m del1 := by
  induction rest with
  | nil =>
    intro cur rows del _ _ _ _ hs _
    exact ⟨del, rfl, hs⟩
  | cons it rest ih =>
    intro cur rows del hok hnd hsorted hmap hs hdel
    obtain ⟨e, he, hrs, hwt⟩ := hok it (List.mem_cons_self _ _)
    have hmem_e : e ∈ m.rowlist := (row_at_mem m _ e he).1
    have hrest_ok : ∀ it' ∈ rest, meta_ok m it' := fun x hx => hok x (List.mem_cons_of_mem _ hx)
    have hnd' : it.index ∉ rest.map (fun it => it.index) ∧
        (rest.map (fun it => it.index)).Nodup := by
      rw [List.map_cons] at hnd
      exact List.nodup_cons.mp hnd
    have hsorted' := List.pairwise_cons.mp hsorted
    have hit_del : it.index ∉ del := fun h => hdel _ h (by simp)
    have hdel' : ∀ b ∈ del, b ∉ rest.map (fun it => it.index) := fun b hb hc =>
      hdel b hb (List.mem_cons_of_mem _ hc)
    have hit_eta : ({ index := it.index, rowsum := e.row_sum, weight := e.weight } : RowMeta) =
        it := by
      cases it
      simp only at hrs hwt
      simp [hrs, hwt]
    -- the map after the possible `rows.clear()`
    have hmap1 : ∀ key idx,
        rows_find (if cur ≠ it.rowsum then [] else rows) key = some idx →
        idx ∉ del ∧ idx ∉ (it :: rest).map (fun it => it.index) ∧
        ∃ e, row_at m idx = some e ∧ key = dense m.num_cols.toNat (live e.column) ∧
          ∀ it' ∈ it :: rest,
            row_meta_before m it' { index := idx, rowsum := e.row_sum, weight := e.weight } =
              false := by
      intro key idx h
      by_cases hc : cur ≠ it.rowsum
      · rw [if_pos hc] at h
        simp [rows_find] at h
      · rw [if_neg hc] at h
        exact hmap key idx h
    -- the invariant of the map after binding the current row
    have hmap_new : ∀ (del' : List Int), it.index ∉ del' →
        (∀ key idx, rows_find (if cur ≠ it.rowsum then [] else rows) key = some idx →
          key ≠ dense m.num_cols.toNat (live e.column) → idx ∉ del') →
        ∀ key idx,
          rows_find ((dense m.num_cols.toNat (live e.column), it.index) ::
            (if cur ≠ it.rowsum then [] else rows)) key = some idx →
          idx ∉ del' ∧ idx ∉ rest.map (fun it => it.index) ∧
          ∃ e, row_at m idx = some e ∧ key = dense m.num_cols.toNat (live e.column) ∧
            ∀ it' ∈ rest,
              row_meta_before m it' { index := idx, rowsum := e.row_sum, weight := e.weight } =
                false := by
      intro del' hnot hold key idx h
      rw [rows_find_cons] at h
      by_cases hk : dense m.num_cols.toNat (live e.column) = key
      · rw [if_pos hk] at h
        injection h with h
        subst h
        refine ⟨hnot, hnd'.1, e, he, hk.symm, ?_⟩
        intro it' hit'
        rw [hit_eta]
        exact hsorted'.1 it' hit'
      · rw [if_neg hk] at h
        obtain ⟨_, h2, e', h3, h4, h5⟩ := hmap1 key idx h
        refine ⟨hold key idx h (fun hc => hk hc.symm), fun hc => h2 (List.mem_cons_of_mem _ hc),
          e', h3, h4, fun it' hit' => h5 it' (List.mem_cons_of_mem _ hit')⟩
    have hg := get_row_at m hm it.index e he
    simp only [find_duplicate_rows, hg]
    cases hfind : rows_find (if cur ≠ it.rowsum then [] else rows)
        (dense m.num_cols.toNat (live e.column)) with
    | none =>
      simp only
      apply ih _ _ _ hrest_ok hnd'.2 hsorted'.2 _ hs hdel'
      exact hmap_new del hit_del (fun key idx h _ => (hmap1 key idx h).1)
    | some mi =>
      obtain ⟨hmi_del, hmi_rest, em, hem, hkey, hbefore⟩ := hmap1 _ mi hfind
      have hmi_ne : mi ≠ it.index := fun h => hmi_rest (by simp [h])
      have hmem_em : em ∈ m.rowlist := (row_at_mem m _ em hem).1
      obtain ⟨hlive, hsum⟩ := live_eq_of_dense_eq m.num_cols hm.2.1 e em
        (hm.2.2.2 e hmem_e) (hm.2.2.2 em hmem_em) hkey
      have hw := get_row_weight_ok m hm mi em hem
      have hcmp := deterministic_compare_ok m hm mi it.index em e hem he
      -- the current row is deleted: the matched row dominates it
      have hdel_it : em.weight ≤ e.weight → deletion_sound m (it.index :: del) := by
        intro hle
        exact deletion_sound_cons m del mi it.index hs hmi_del hmi_ne
          ⟨em, e, hem, he, fun v hv => (hlive v).mp hv, hle⟩
      have hmap_it : ∀ key idx,
          rows_find (if cur ≠ it.rowsum then [] else rows) key = some idx →
          (idx ∉ it.index :: del) ∧ idx ∉ rest.map (fun it => it.index) ∧
          ∃ e, row_at m idx = some e ∧ key = dense m.num_cols.toNat (live e.column) ∧
            ∀ it' ∈ rest,
              row_meta_before m it' { index := idx, rowsum := e.row_sum, weight := e.weight } =
                false := by
        intro key idx h
        obtain ⟨h1, h2, e', h3, h4, h5⟩ := hmap1 key idx h
        refine ⟨?_, fun hc => h2 (List.mem_cons_of_mem _ hc), e', h3, h4,
          fun it' hit' => h5 it' (List.mem_cons_of_mem _ hit')⟩
        intro hc
        rcases List.mem_cons.mp hc with hc | hc
        · exact h2 (by simp [hc])
        · exact h1 hc
      have hdel_it' : ∀ b ∈ it.index :: del, b ∉ rest.map (fun it => it.index) := by
        intro b hb
        rcases List.mem_cons.mp hb with hb | hb
        · subst hb; exact hnd'.1
        · exact hdel' b hb
      simp only [hw]
      by_cases hweq : it.weight = em.weight
      · simp only [hweq, if_true, hcmp]
        by_cases hc : string_compare em.file_path e.file_path > 0
        · simp only [hc, if_true]
          apply ih _ _ _ hrest_ok hnd'.2 hsorted'.2
          · apply hmap_new (mi :: del)
            · intro h
              rcases List.mem_cons.mp h with h | h
              · exact hmi_ne h.symm
              · exact hit_del h
            · intro key idx h hk hc'
              rcases List.mem_cons.mp hc' with hc' | hc'
              · subst hc'
                obtain ⟨_, _, e', h3, h4, _⟩ := hmap1 key idx h
                rw [hem] at h3
                injection h3 with h3
                subst h3
                exact hk (by rw [h4, hkey])
              · exact (hmap1 key idx h).1 hc'
          · exact deletion_sound_cons m del it.index mi hs hit_del (fun h => hmi_ne h.symm)
              ⟨e, em, he, hem, fun v hv => (hlive v).mpr hv, by rw [← hwt, hweq]⟩
          · intro b hb
            rcases List.mem_cons.mp hb with hb | hb
            · subst hb; exact fun hc => hmi_rest (List.mem_cons_of_mem _ hc)
            · exact hdel' b hb
        · simp only [hc, if_false]
          exact ih _ _ _ hrest_ok hnd'.2 hsorted'.2 hmap_it
            (hdel_it (by rw [← hwt, hweq])) hdel_it'
      · simp only [hweq, if_false]
        refine ih _ _ _ hrest_ok hnd'.2 hsorted'.2 hmap_it (hdel_it ?_) hdel_it'
        have hb := hbefore it (List.mem_cons_self _ _)
        have hmeta_em : meta_ok m { index := mi, rowsum := em.row_sum, weight := em.weight } :=
          ⟨em, hem, rfl, rfl⟩
        rw [row_meta_before_false_iff m hm _ _ (hok it (List.mem_cons_self _ _)) hmeta_em] at hb
        by_contra hlt
        have hlt' : e.weight < em.weight := not_le.mp hlt
        have : meta_key m it <
            meta_key m ({ index := mi, rowsum := em.row_sum, weight := em.weight } : RowMeta) := by
          simp only [meta_key, lex_key_lt_iff]
          right
          exact ⟨by rw [hrs, hsum], Or.inl (by rw [hwt]; exact hlt')⟩
        exact absurd hb (not_le.mpr this)

theorem find_subsets_of_spec (m : Matrix) (hm : matrix_wf m) (it1 : RowMeta)
    (h1 : meta_ok m it1) (rest : List RowMeta) :
    ∀ del : List Int, (∀ it ∈ rest, meta_ok m it) →
      it1.index ∉ rest.map (fun it => it.index) → it1.index ∉ del →
      deletion_sound m del →
      ∃ del1, find_subsets_of m it1 rest del = Except.ok del1 ∧ deletion_sound m del1 ∧
        it1.index ∉ del1 := by
  induction rest with
  | nil => intro del _ _ hd hs; exact ⟨del, rfl, hs, hd⟩
  | cons it2 rest ih =>
    intro del hok hnot hd hs
    have hrest_ok : ∀ it' ∈ rest, meta_ok m it' := fun x hx => hok x (List.mem_cons_of_mem _ hx)
    have hne : it1.index ≠ it2.index := fun h => hnot (by simp [h])
    have hnot' : it1.index ∉ rest.map (fun it => it.index) := fun h =>
      hnot (List.mem_cons_of_mem _ h)
    simp only [find_subsets_of]
    by_cases hin : it2.index ∈ del
    · simp only [hin, if_true]
      exact ih del hrest_ok hnot' hd hs
    · simp only [hin, if_false]
      by_cases hw : it1.weight > it2.weight
      · simp only [hw, if_true]
        exact ih del hrest_ok hnot' hd hs
      · obtain ⟨e1, he1, _, hwt1⟩ := h1
        obtain ⟨e2, he2, hrs2, hwt2⟩ := hok it2 (List.mem_cons_self _ _)
        simp only [hw, if_false, get_overlap_ok m hm _ _ e1 e2 he1 he2]
        by_cases hov : it2.rowsum = overlap_count e1.column e2.column
        · simp only [hov, if_true]
          apply ih _ hrest_ok hnot'
          · intro h
            rcases List.mem_cons.mp h with h | h
            · exact hne h
            · exact hd h
          · have hw1 := hm.2.2.2 e1 (row_at_mem m _ e1 he1).1
            have hw2 := hm.2.2.2 e2 (row_at_mem m _ e2 he2).1
            have hnd1 : (live e1.column).Nodup := hw1.2.1.imp (fun h => ne_of_lt h)
            have hsub := subset_of_overlap_count_eq e1.column e2.column hnd1
              (by rw [← hov, hrs2, hw2.1])
            exact deletion_sound_cons m del it1.index it2.index hs hd hne
              ⟨e1, e2, he1, he2, hsub, by rw [← hwt1, ← hwt2]; exact not_lt.mp hw⟩
        · simp only [hov, if_false]
          exact ih del hrest_ok hnot' hd hs

theorem find_strict_subsets_spec (m : Matrix) (hm : matrix_wf m) (rest : List RowMeta) :
    ∀ del : List Int, (∀ it ∈ rest, meta_ok m it) →
      (rest.map (fun it => it.index)).Nodup → deletion_sound m del →
      ∃ del1, find_strict_subsets m rest del = Except.ok del1 ∧ deletion_sound m del1 := by
  induction rest with
  | nil => intro del _ _ hs; exact ⟨del, rfl, hs⟩
  | cons it1 rest ih =>
    intro del hok hnd hs
    have hrest_ok : ∀ it' ∈ rest, meta_ok m it' := fun x hx => hok x (List.mem_cons_of_mem _ hx)
    have hnd' : it1.index ∉ rest.map (fun it => it.index) ∧
        (rest.map (fun it => it.index)).Nodup := by
      rw [List.map_cons] at hnd
      exact List.nodup_cons.mp hnd
    simp only [find_strict_subsets]
    by_cases hin : it1.index ∈ del
    · simp only [hin, if_true]
      exact ih del hrest_ok hnd'.2 hs
    · simp only [hin, if_false]
      obtain ⟨del1, h1, h2, _⟩ := find_subsets_of_spec m hm it1 (hok it1 (List.mem_cons_self _ _))
        rest del hrest_ok hnd'.1 hin hs
      simp only [h1]
      exact ih del1 hrest_ok hnd'.2 h2

theorem sorted_row_metas_ok (m : Matrix) : ∀ it ∈ sorted_row_metas m, meta_ok m it := by
  intro it hit
  exact row_metas_ok m it ((sort_by_perm _ _).mem_iff.mp hit)

theorem sorted_row_metas_nodup (m : Matrix) :
    ((sorted_row_metas m).map (fun it => it.index)).Nodup := by
  have hp := (sort_by_perm (row_meta_before m) (row_metas m.rowlist 0)).map (fun it => it.index)
  exact hp.nodup_iff.mpr ((row_metas_index_sorted m.rowlist 0).imp (fun h => ne_of_lt h))

theorem find_subset_rows_ok (m : Matrix) (hm : matrix_wf m) :
    ∃ result, find_subset_rows m = Except.ok result ∧ deletion_sound m result ∧
      result.Nodup ∧ (∀ b ∈ result, 0 ≤ b ∧ b < m.num_rows) := by
  have hrange : ∀ result, deletion_sound m result → ∀ b ∈ result, 0 ≤ b ∧ b < m.num_rows := by
    intro result hs b hb
    obtain ⟨_, _, _, eb, _, heb, _, _⟩ := hs b hb
    obtain ⟨_, h0, h1, _⟩ := row_at_mem m b eb heb
    have := hm.1
    omega
  by_cases h0 : m.num_rows = 0
  · refine ⟨[], by simp only [find_subset_rows, h0, if_true], deletion_sound_nil m,
      List.nodup_nil, ?_⟩
    intro b hb; cases hb
  · have hl := hm.1
    have hlen : (sorted_row_metas m).length = m.rowlist.length := by
      rw [sorted_row_metas, (sort_by_perm _ _).length_eq, row_metas_length]
    obtain ⟨first, hfirst, _⟩ := at_index_of_lt (sorted_row_metas m) 0 (le_refl _) (by
      rw [hlen]; omega)
    obtain ⟨del, hdel, hs⟩ := find_duplicate_rows_spec m hm (sorted_row_metas m) first.rowsum [] []
      (sorted_row_metas_ok m) (sorted_row_metas_nodup m)
      (sorted_rows_sorted m hm _ (row_metas_ok m))
      (by intro key idx h; simp [rows_find] at h) (deletion_sound_nil m)
      (by intro b hb; cases hb)
    obtain ⟨del1, hdel1, hs1⟩ := find_strict_subsets_spec m hm (sorted_row_metas m) del
      (sorted_row_metas_ok m) (sorted_row_metas_nodup m) hs
    have hsound := deletion_sound_congr m (fun x => (mem_index_set del1 x).symm) hs1
    refine ⟨index_set del1, ?_, hsound, index_set_nodup _, hrange _ hsound⟩
    simp only [sorted_row_metas] at hfirst hdel hdel1
    simp only [find_subset_rows, if_neg h0, get_row_sum_ok m hm, visited_rows_ok m hm, hfirst,
      hdel, hdel1]

theorem eliminate_subset_rows_ok (m : Matrix) (hm : matrix_wf m) :
    ∃ result, find_subset_rows m = Except.ok result ∧ deletion_sound m result ∧
      result.Nodup ∧ (∀ b ∈ result, 0 ≤ b ∧ b < m.num_rows) ∧
      eliminate_subset_rows m = Except.ok
        (if result = [] then (false, m) else (true, delete_rows result m)) ∧
      matrix_wf (delete_rows result m) := by
  obtain ⟨result, h1, h2, h3, h4⟩ := find_subset_rows_ok m hm
  obtain ⟨h5, h6⟩ := remove_rows_eq_delete_rows m result hm h3 h4
  refine ⟨result, h1, h2, h3, h4, ?_, h6⟩
  simp only [eliminate_subset_rows, h1]
  by_cases hr : result = []
  · subst hr; simp
  · have : result.length > 0 := List.length_pos.mpr hr
    simp only [this, if_true, h5, if_neg hr]

/-! ### Superset columns -/

theorem column_within_trans (columns : List (List Int)) {a b c : Int}
    (h1 : column_within columns a b) (h2 : column_within columns b c) :
    column_within columns a c := by
  obtain ⟨la, lb, ha, hb, hne, hsub⟩ := h1
  obtain ⟨lb', lc, hb', hc, _, hsub'⟩ := h2
  rw [hb] at hb'
  injection hb' with hb'
  subst hb'
  exact ⟨la, lc, ha, hc, hne, fun x hx => hsub' x (hsub x hx)⟩

theorem superset_sound_cons (columns : List (List Int)) (sup : List Int) (d x : Int)
    (h : superset_sound columns sup) (hd : d ∉ sup) (hdx : d ≠ x)
    (hdom : column_within columns d x) : superset_sound columns (x :: sup) := by
  intro b hb
  rcases List.mem_cons.mp hb with hbx | hbd
  · subst hbx
    exact ⟨d, by simp [hd, hdx], hdom⟩
  · obtain ⟨a, ha, hab⟩ := h b hbd
    by_cases hax : a = x
    · subst hax
      exact ⟨d, by simp [hd, hdx], column_within_trans columns hdom hab⟩
    · exact ⟨a, by simp [ha, hax], hab⟩

theorem push_row_entries_spec (W : Nat) (r : Int) (vs : List Int) :
    ∀ f : Nat → List Int, (∀ v ∈ live vs, 0 ≤ v ∧ v < (W : Int)) →
      push_row_entries r ((List.range W).map f) vs =
        Except.ok ((List.range W).map
          (fun c : Nat => f c ++ List.replicate ((live vs).count (c : Int)) r)) := by
  induction vs with
  | nil => intro f _; simp [push_row_entries, live]
  | cons v vs ih =>
    intro f h
    have hrest : ∀ u ∈ live vs, 0 ≤ u ∧ u < (W : Int) := fun u hu => h u (by
      rw [mem_live] at hu ⊢
      exact ⟨List.mem_cons_of_mem _ hu.1, hu.2⟩)
    by_cases hv : v = DELETED
    · subst hv
      simp only [push_row_entries, ne_eq, not_true_eq_false, if_false, live_cons_deleted]
      exact ih f hrest
    · have hb := h v (by rw [mem_live]; exact ⟨List.mem_cons_self _ _, hv⟩)
      have hat := at_index_map_range f W v hb.1 hb.2
      simp only [push_row_entries, ne_eq, hv, not_false_eq_true, if_true, hat,
        live_cons_live v vs hv]
      have hset : ((List.range W).map f).set v.toNat (f v.toNat ++ [r]) =
          (List.range W).map (fun c : Nat => if c = v.toNat then f c ++ [r] else f c) := by
        apply List.ext_getElem?
        intro i
        rw [List.getElem?_set]
        by_cases hi : i < W
        · by_cases hvi : v.toNat = i
          · subst hvi
            simp [List.getElem?_map, List.getElem?_range hi, hi]
          · have : ¬ i = v.toNat := fun h => hvi h.symm
            simp [List.getElem?_map, List.getElem?_range hi, hvi, this]
        · have h1 : ((List.range W).map f).length ≤ i := by simp; omega
          have h2 : ((List.range W).map
              (fun c : Nat => if c = v.toNat then f c ++ [r] else f c)).length ≤ i := by
            simp; omega
          rw [List.getElem?_eq_none h1, List.getElem?_eq_none h2]
          by_cases hvi : v.toNat = i
          · subst hvi; simp; omega
          · simp [hvi]
      rw [hset, ih _ hrest]
      congr 1
      apply List.map_congr_left
      intro c _
      by_cases hc : c = v.toNat
      · have hcv : (c : Int) = v := by omega
        simp only [if_pos hc]
        rw [hcv, List.count_cons_self, List.replicate_succ, List.append_assoc]
        rfl
      · have hcv : ¬ (c : Int) = v := by omega
        simp only [if_neg hc]
        rw [List.count_cons_of_ne hcv]

theorem build_columns_spec (W : Nat) (rows : List RowElem) :
    ∀ (f : Nat → List Int) (r : Int),
      (∀ e ∈ rows, ∀ v ∈ live e.column, 0 ≤ v ∧ v < (W : Int)) →
      build_columns ((List.range W).map f) rows r =
        Except.ok ((List.range W).map (fun c : Nat => f c ++ column_rows rows r (c : Int))) := by
  induction rows with
  | nil => intro f r _; simp [build_columns, column_rows]
  | cons e rest ih =>
    intro f r h
    have h1 := push_row_entries_spec W r e.column f (h e (List.mem_cons_self _ _))
    simp only [build_columns, h1]
    rw [ih _ _ (fun e' he' => h e' (List.mem_cons_of_mem _ he'))]
    congr 1
    apply List.map_congr_left
    intro c _
    simp only [column_rows, List.append_assoc]

theorem mem_column_rows (rows : List RowElem) :
    ∀ (r c x : Int), x ∈ column_rows rows r c ↔
      ∃ (k : Nat) (e : RowElem), rows[k]? = some e ∧ x = r + (k : Int) ∧ c ∈ live e.column := by
  induction rows with
  | nil => intro r c x; simp [column_rows]
  | cons e rest ih =>
    intro r c x
    simp only [column_rows, List.mem_append, ih, List.mem_replicate]
    constructor
    · rintro (⟨h1, h2⟩ | ⟨k, e', h1, h2, h3⟩)
      · exact ⟨0, e, by simp, by simp [h2], List.count_pos_iff.mp (Nat.pos_of_ne_zero h1)⟩
      · exact ⟨k + 1, e', by simpa using h1, by push_cast; omega, h3⟩
    · rintro ⟨k, e', h1, h2, h3⟩
      cases k with
      | zero =>
        simp at h1
        subst h1
        left
        exact ⟨Nat.pos_iff_ne_zero.mp (List.count_pos_iff.mpr h3), by simpa using h2⟩
      | succ k =>
        right
        exact ⟨k, e', by simpa using h1, by push_cast at h2; omega, h3⟩

theorem column_rows_sorted (rows : List RowElem) :
    ∀ (r c : Int), (∀ e ∈ rows, (live e.column).Nodup) →
      (column_rows rows r c).Pairwise (fun a b => a < b) := by
  induction rows with
  | nil => intro r c _; simp [column_rows]
  | cons e rest ih =>
    intro r c h
    have hn := h e (List.mem_cons_self _ _)
    have hcount : (live e.column).count c ≤ 1 := List.nodup_iff_count_le_one.mp hn c
    have ihr := ih (r + 1) c (fun e' he' => h e' (List.mem_cons_of_mem _ he'))
    have hgt : ∀ x ∈ column_rows rest (r + 1) c, r < x := by
      intro x hx
      obtain ⟨k, _, _, h2, _⟩ := (mem_column_rows rest (r + 1) c x).mp hx
      omega
    simp only [column_rows]
    rcases Nat.le_one_iff_eq_zero_or_eq_one.mp hcount with h0 | h1
    · rw [h0]; simpa using ihr
    · rw [h1]
      simp only [List.replicate_one, List.singleton_append, List.pairwise_cons]
      exact ⟨hgt, ihr⟩

theorem superset_test_spec (fuel : Nat) :
    ∀ (l1 l2 : List Int) (s1 s2 : Bool), l1.length + l2.length < fuel →
      l1.Pairwise (fun a b => a < b) → l2.Pairwise (fun a b => a < b) →
      ((superset_test fuel l1 l2 s1 s2).1 = true ↔ (s1 = true ∧ ∀ x ∈ l2, x ∈ l1)) ∧
      ((superset_test fuel l1 l2 s1 s2).2 = true ↔ (s2 = true ∧ ∀ x ∈ l1, x ∈ l2)) := by
  induction fuel with
  | zero => intro l1 l2 s1 s2 h; omega
  | succ fuel ih =>
    intro l1 l2 s1 s2 hf hp1 hp2
    simp only [superset_test]
    by_cases hs : (s1 || s2) = true
    · simp only [hs, if_true]
      cases l1 with
      | nil =>
        cases l2 with
        | nil => simp
        | cons b rest2 =>
          simp
          intro _
          exact ⟨b, fun h => absurd rfl h⟩
      | cons a rest1 =>
        cases l2 with
        | nil =>
          simp
          intro _
          exact ⟨a, fun h => absurd rfl h⟩
        | cons b rest2 =>
          have hq1 := List.pairwise_cons.mp hp1
          have hq2 := List.pairwise_cons.mp hp2
          simp only [List.length_cons] at hf
          simp only
          by_cases hab : a < b
          · simp only [hab, if_true]
            obtain ⟨i1, i2⟩ := ih rest1 (b :: rest2) s1 false
              (by simp only [List.length_cons]; omega) hq1.2 hp2
            have hanot : a ∉ b :: rest2 := by
              intro h
              rcases List.mem_cons.mp h with h | h
              · omega
              · have := hq2.1 a h; omega
            constructor
            · rw [i1]
              constructor
              · rintro ⟨h1, h2⟩
                exact ⟨h1, fun x hx => List.mem_cons_of_mem _ (h2 x hx)⟩
              · rintro ⟨h1, h2⟩
                refine ⟨h1, fun x hx => ?_⟩
                rcases List.mem_cons.mp (h2 x hx) with h | h
                · subst h; exact absurd hx hanot
                · exact h
            · rw [i2]
              constructor
              · rintro ⟨h1, _⟩; cases h1
              · rintro ⟨_, h2⟩
                exact absurd (h2 a (List.mem_cons_self _ _)) hanot
          · by_cases hba : a > b
            · simp only [hab, hba, if_false, if_true]
              obtain ⟨i1, i2⟩ := ih (a :: rest1) rest2 false s2
                (by simp only [List.length_cons]; omega) hp1 hq2.2
              have hbnot : b ∉ a :: rest1 := by
                intro h
                rcases List.mem_cons.mp h with h | h
                · omega
                · have := hq1.1 b h; omega
              constructor
              · rw [i1]
                constructor
                · rintro ⟨h1, _⟩; cases h1
                · rintro ⟨_, h2⟩
                  exact absurd (h2 b (List.mem_cons_self _ _)) hbnot
              · rw [i2]
                constructor
                · rintro ⟨h1, h2⟩
                  exact ⟨h1, fun x hx => List.mem_cons_of_mem _ (h2 x hx)⟩
                · rintro ⟨h1, h2⟩
                  refine ⟨h1, fun x hx => ?_⟩
                  rcases List.mem_cons.mp (h2 x hx) with h | h
                  · subst h; exact absurd hx hbnot
                  · exact h
            · have heq : a = b := by omega
              subst heq
              simp only [hab, hba, if_false]
              obtain ⟨i1, i2⟩ := ih rest1 rest2 s1 s2 (by omega) hq1.2 hq2.2
              have hcore : ∀ (r1 r2 : List Int), (∀ x ∈ r2, a < x) →
                  ((∀ x ∈ r2, x ∈ r1) ↔ ∀ x ∈ a :: r2, x ∈ a :: r1) := by
                intro r1 r2 hgt
                constructor
                · intro h x hx
                  rcases List.mem_cons.mp hx with hx | hx
                  · subst hx; exact List.mem_cons_self _ _
                  · exact List.mem_cons_of_mem _ (h x hx)
                · intro h x hx
                  rcases List.mem_cons.mp (h x (List.mem_cons_of_mem _ hx)) with h' | h'
                  · have := hgt x hx; omega
                  · exact h'
              constructor
              · rw [i1, hcore rest1 rest2 hq2.1]
              · rw [i2, hcore rest2 rest1 hq1.1]
    · have h1 : s1 = false := by
        cases s1 <;> simp_all
      have h2 : s2 = false := by
        cases s2 <;> simp_all
      subst h1 h2
      simp

theorem find_supersets_of_spec (columns : List (List Int))
    (hsorted : ∀ l ∈ columns, l.Pairwise (fun a b => a < b)) (c1 : Int) (col1 : List Int)
    (hc1 : at_index columns c1 = Except.ok col1) (hne1 : col1 ≠ []) (rest : List Int) :
    ∀ sup : List Int, (∀ c2 ∈ rest, 0 ≤ c2 ∧ c2 < (columns.length : Int)) →
      c1 ∉ rest → c1 ∉ sup → superset_sound columns sup →
      ∃ sup1, find_supersets_of columns c1 col1 rest sup = Except.ok sup1 ∧
        superset_sound columns sup1 := by
  have hs1 : col1.Pairwise (fun a b => a < b) :=
    hsorted col1 (List.getElem?_mem ((at_index_eq_ok _ _ _).mp hc1).2)
  induction rest with
  | nil => intro sup _ _ _ hs; exact ⟨sup, rfl, hs⟩
  | cons c2 rest ih =>
    intro sup hr hnot hsup hs
    have hr' : ∀ c ∈ rest, 0 ≤ c ∧ c < (columns.length : Int) := fun c hc =>
      hr c (List.mem_cons_of_mem _ hc)
    have hnot' : c1 ∉ rest := fun h => hnot (List.mem_cons_of_mem _ h)
    have hne : c1 ≠ c2 := fun h => hnot (by simp [h])
    simp only [find_supersets_of]
    by_cases hin : c2 ∈ sup
    · simp only [hin, if_true]
      exact ih sup hr' hnot' hsup hs
    · obtain ⟨col2, hc2, hget2⟩ := at_index_of_lt columns c2 (hr c2 (List.mem_cons_self _ _)).1
        (hr c2 (List.mem_cons_self _ _)).2
      have hs2 : col2.Pairwise (fun a b => a < b) := hsorted col2 (List.getElem?_mem hget2)
      simp only [hin, if_false, hc2]
      by_cases hemp : col2.length = 0
      · simp only [hemp, if_true]
        exact ih sup hr' hnot' hsup hs
      · have hne2 : col2 ≠ [] := fun h => hemp (by simp [h])
        obtain ⟨t1, t2⟩ := superset_test_spec (col1.length + col2.length + 1) col1 col2 true true
          (by omega) hs1 hs2
        simp only [hemp, if_false]
        by_cases ht1 : (superset_test (col1.length + col2.length + 1) col1 col2 true true).1 = true
        · simp only [ht1, if_true]
          refine ⟨c1 :: sup, rfl, ?_⟩
          exact superset_sound_cons columns sup c2 c1 hs hin (fun h => hne h.symm)
            ⟨col2, col1, hc2, hc1, hne2, (t1.mp ht1).2⟩
        · simp only [ht1, if_false, Bool.false_eq_true]
          by_cases ht2 : (superset_test (col1.length + col2.length + 1) col1 col2 true true).2 = true
          · simp only [ht2, if_true]
            apply ih _ hr' hnot'
            · intro h
              rcases List.mem_cons.mp h with h | h
              · exact hne h
              · exact hsup h
            · exact superset_sound_cons columns sup c1 c2 hs hsup hne
                ⟨col1, col2, hc1, hc2, hne1, (t2.mp ht2).2⟩
          · simp only [ht2, if_false, Bool.false_eq_true]
            exact ih sup hr' hnot' hsup hs

theorem find_supersets_spec (columns : List (List Int))
    (hsorted : ∀ l ∈ columns, l.Pairwise (fun a b => a < b)) (rest : List Int) :
    ∀ sup : List Int, (∀ c ∈ rest, 0 ≤ c ∧ c < (columns.length : Int)) → rest.Nodup →
      superset_sound columns sup →
      ∃ sup1, find_supersets columns rest sup = Except.ok sup1 ∧ superset_sound columns sup1 := by
  induction rest with
  | nil => intro sup _ _ hs; exact ⟨sup, rfl, hs⟩
  | cons c1 rest ih =>
    intro sup hr hnd hs
    have hr' : ∀ c ∈ rest, 0 ≤ c ∧ c < (columns.length : Int) := fun c hc =>
      hr c (List.mem_cons_of_mem _ hc)
    have hnd' := List.nodup_cons.mp hnd
    simp only [find_supersets]
    by_cases hin : c1 ∈ sup
    · simp only [hin, if_true]
      exact ih sup hr' hnd'.2 hs
    · obtain ⟨col1, hc1, _⟩ := at_index_of_lt columns c1 (hr c1 (List.mem_cons_self _ _)).1
        (hr c1 (List.mem_cons_self _ _)).2
      simp only [hin, if_false, hc1]
      by_cases hemp : col1.length = 0
      · simp only [hemp, if_true]
        exact ih sup hr' hnd'.2 hs
      · have hne1 : col1 ≠ [] := fun h => hemp (by simp [h])
        obtain ⟨sup1, h1, h2⟩ := find_supersets_of_spec columns hsorted c1 col1 hc1 hne1 rest sup
          hr' hnd'.1 hin hs
        simp only [hemp, if_false, h1]
        exact ih sup1 hr' hnd'.2 h2

theorem find_superset_cols_ok (m : Matrix) (hm : matrix_wf m) :
    ∃ result, find_superset_cols m = Except.ok result ∧ result.Nodup ∧
      (∀ c ∈ result, 0 ≤ c ∧ c < m.num_cols) ∧
      (∀ c ∈ result, ∃ a, a ∉ result ∧ column_subset m a c) := by
  obtain ⟨h1, h2, _, h4⟩ := hm
  have hwf : matrix_wf m := ⟨h1, h2, by assumption, h4⟩
  have hrep : List.replicate m.num_cols.toNat ([] : List Int) =
      (List.range m.num_cols.toNat).map (fun _ => ([] : List Int)) := by
    apply List.ext_getElem?
    intro i
    by_cases hi : i < m.num_cols.toNat
    · simp [List.getElem?_replicate, hi, List.getElem?_map, List.getElem?_range hi]
    · rw [List.getElem?_eq_none (by simp; omega), List.getElem?_eq_none (by simp; omega)]
  have hbuild := build_columns_spec m.num_cols.toNat m.rowlist (fun _ => []) 0 (by
    intro e he v hv
    rw [Int.toNat_of_nonneg h2]
    exact (h4 e he).2.2 v hv)
  simp only [List.nil_append] at hbuild
  have hcols_len : ((List.range m.num_cols.toNat).map
      (fun c : Nat => column_rows m.rowlist 0 (c : Int))).length = m.num_cols.toNat := by simp
  have hcols_at : ∀ c l, at_index ((List.range m.num_cols.toNat).map
      (fun c : Nat => column_rows m.rowlist 0 (c : Int))) c = Except.ok l →
      0 ≤ c ∧ c < m.num_cols ∧ l = column_rows m.rowlist 0 c := by
    intro c l h
    obtain ⟨hc0, hget⟩ := (at_index_eq_ok _ _ _).mp h
    have hlt : c.toNat < m.num_cols.toNat := by
      by_contra hc
      rw [List.getElem?_eq_none (by rw [hcols_len]; omega)] at hget
      cases hget
    rw [List.getElem?_map, List.getElem?_range hlt] at hget
    simp only [Option.map_some', Option.some.injEq, Int.toNat_of_nonneg hc0] at hget
    exact ⟨hc0, by omega, hget.symm⟩
  have hsorted : ∀ l ∈ (List.range m.num_cols.toNat).map
      (fun c : Nat => column_rows m.rowlist 0 (c : Int)), l.Pairwise (fun a b => a < b) := by
    intro l hl
    obtain ⟨c, _, rfl⟩ := List.mem_map.mp hl
    exact column_rows_sorted _ _ _ (fun e he => (h4 e he).2.1.imp (fun h => ne_of_lt h))
  obtain ⟨sup, hsup, hsound⟩ := find_supersets_spec _ hsorted
    ((List.range m.num_cols.toNat).map Int.ofNat) [] (by
      intro c hc
      obtain ⟨n, hn, rfl⟩ := List.mem_map.mp hc
      rw [hcols_len]
      have := List.mem_range.mp hn
      simp only [Int.ofNat_eq_coe]
      omega) (by
      apply List.Nodup.map
      · intro a b h; exact Int.ofNat.inj h
      · exact List.nodup_range _) (by intro b hb; cases hb)
  have hsem : ∀ c ∈ index_set sup, (0 ≤ c ∧ c < m.num_cols) ∧
      ∃ a, a ∉ index_set sup ∧ column_subset m a c := by
    intro c hc
    rw [mem_index_set] at hc
    obtain ⟨a, ha, la, lc, hla, hlc, hne, hsub⟩ := hsound c hc
    obtain ⟨ha0, ha1, hla'⟩ := hcols_at a la hla
    obtain ⟨hc0, hc1, hlc'⟩ := hcols_at c lc hlc
    subst hla' hlc'
    refine ⟨⟨hc0, hc1⟩, a, fun h => ha ((mem_index_set _ _).mp h), ha0, ha1, ?_, ?_⟩
    · obtain ⟨x, hx⟩ := List.exists_mem_of_ne_nil _ hne
      obtain ⟨k, e, hk, _, hlive⟩ := (mem_column_rows _ _ _ _).mp hx
      exact ⟨e, List.getElem?_mem hk, hlive⟩
    · intro e he hlive
      obtain ⟨k, hk⟩ := List.mem_iff_getElem?.mp he
      have hx : (0 : Int) + (k : Int) ∈ column_rows m.rowlist 0 a :=
        (mem_column_rows _ _ _ _).mpr ⟨k, e, hk, rfl, hlive⟩
      obtain ⟨k', e', hk', hkk, hlive'⟩ := (mem_column_rows _ _ _ _).mp (hsub _ hx)
      have : k' = k := by omega
      subst this
      rw [hk] at hk'
      injection hk' with hk'
      subst hk'
      exact hlive'
  refine ⟨index_set sup, ?_, index_set_nodup _, fun c hc => (hsem c hc).1,
    fun c hc => (hsem c hc).2⟩
  simp only [find_superset_cols, if_neg (not_lt.mpr h2), visited_rows_ok m hwf, hrep, hbuild,
    hsup]

theorem eliminate_superset_cols_ok (m : Matrix) (hm : matrix_wf m) :
    ∃ result, find_superset_cols m = Except.ok result ∧ result.Nodup ∧
      (∀ c ∈ result, 0 ≤ c ∧ c < m.num_cols) ∧
      (∀ c ∈ result, ∃ a, a ∉ result ∧ column_subset m a c) ∧
      eliminate_superset_cols m = Except.ok
        (if result = [] then (false, m) else (true, relocate_matrix result m)) ∧
      matrix_wf (relocate_matrix result m) := by
  obtain ⟨result, h1, h2, h3, h4⟩ := find_superset_cols_ok m hm
  have h5 := remove_cols_ok m result hm h2 h3
  refine ⟨result, h1, h2, h3, h4, ?_, relocate_matrix_wf m result hm h2 h3⟩
  simp only [eliminate_superset_cols, h1]
  by_cases hr : result = []
  · subst hr; simp
  · have : result.length > 0 := List.length_pos.mpr hr
    simp only [this, if_true, h5, if_neg hr]

/-! ### The solve loop: progress and termination -/

theorem loop_flags_le (st : LoopState) : loop_flags st ≤ 3 := by
  simp only [loop_flags]
  split <;> split <;> split <;> omega

theorem solve_step_progress (fs : FileSystem) (greedy : Bool) (st : LoopState)
    (hok : loop_ok st) (hr : st.data.num_rows ≠ 0) (hc : st.data.num_cols ≠ 0) :
    ∃ st1, solve_step fs greedy st = Except.ok st1 ∧ loop_ok st1 ∧
      (loop_size st1 < loop_size st ∨
        (loop_size st1 = loop_size st ∧ loop_flags st1 < loop_flags st)) := by
  obtain ⟨hwf, hcd⟩ := hok
  have hrows : 0 ≤ st.data.num_rows := by rw [hwf.1]; exact Int.natCast_nonneg _
  have hcols : 0 ≤ st.data.num_cols := hwf.2.1
  by_cases h0 : greedy = false ∧ st.option0 = true
  · obtain ⟨cd1, hlen, hel⟩ := eliminate_row_unitarians_ok fs st.data hwf st.solution
      st.corpus_data hcd
    simp only [solve_step, if_pos h0, hel]
    by_cases hU : unity_columns (column_sums st.data.num_cols.toNat st.data.rowlist) 0 = []
    · have hcond : st.data.num_rows = 0 ∨ st.data.num_cols = 0 ∨
          unity_columns (column_sums st.data.num_cols.toNat st.data.rowlist) 0 = [] :=
        Or.inr (Or.inr hU)
      simp only [if_pos hcond]
      refine ⟨_, rfl, ⟨hwf, hcd⟩, Or.inr ⟨rfl, ?_⟩⟩
      simp only [loop_flags, h0.2, Bool.false_eq_true, if_false, if_true]
      omega
    · have hcond : ¬ (st.data.num_rows = 0 ∨ st.data.num_cols = 0 ∨
          unity_columns (column_sums st.data.num_cols.toNat st.data.rowlist) 0 = []) := by
        rintro (h | h | h)
        · exact hr h
        · exact hc h
        · exact hU h
      simp only [if_neg hcond]
      have hne := unitarian_rows_ne_nil st.data hU
      have hnd := unitarian_rows_nodup
        (unity_columns (column_sums st.data.num_cols.toNat st.data.rowlist) 0) st.data.rowlist 0
      have hrg := unitarian_rows_range st.data hwf
        (unity_columns (column_sums st.data.num_cols.toNat st.data.rowlist) 0)
      generalize unitarian_rows (unity_columns
        (column_sums st.data.num_cols.toNat st.data.rowlist) 0) st.data.rowlist 0 = UR
        at hne hnd hrg
      have hwf1 := (reduce_ok st.data hwf UR hnd hrg).2
      have hnr := reduced_num_rows st.data UR
      have hnc := reduced_num_cols st.data UR
      have hpos := List.length_pos.mpr hne
      have hrows1 : 0 ≤ (reduced st.data UR).num_rows := by
        rw [hwf1.1]; exact Int.natCast_nonneg _
      refine ⟨_, rfl, ⟨hwf1, ?_⟩, Or.inl ?_⟩
      · simp only [hlen]; omega
      · simp only [loop_size]
        have := hwf1.2.1
        omega
  · by_cases h1 : greedy = false ∧ st.option1 = true
    · obtain ⟨result, _, _, _, _, hel, hwf1⟩ := eliminate_subset_rows_ok st.data hwf
      simp only [solve_step, if_neg h0, if_pos h1, hel]
      by_cases hres : result = []
      · simp only [if_pos hres]
        refine ⟨_, rfl, ⟨hwf, hcd⟩, Or.inr ⟨rfl, ?_⟩⟩
        simp only [loop_flags, h1.2, Bool.false_eq_true, if_false, if_true]
        omega
      · simp only [if_neg hres]
        have hpos := List.length_pos.mpr hres
        have hrows1 : 0 ≤ (delete_rows result st.data).num_rows := by
          rw [hwf1.1]; exact Int.natCast_nonneg _
        refine ⟨_, rfl, ⟨hwf1, ?_⟩, Or.inl ?_⟩
        · simp only [delete_rows]; omega
        · simp only [loop_size]
          simp only [delete_rows] at hrows1 ⊢
          omega
    · by_cases h2 : greedy = false ∧ st.option2 = true
      · obtain ⟨result, _, _, _, _, hel, hwf1⟩ := eliminate_superset_cols_ok st.data hwf
        simp only [solve_step, if_neg h0, if_neg h1, if_pos h2, hel]
        by_cases hres : result = []
        · simp only [if_pos hres]
          refine ⟨_, rfl, ⟨hwf, hcd⟩, Or.inr ⟨rfl, ?_⟩⟩
          simp only [loop_flags, h2.2, Bool.false_eq_true, if_false, if_true]
          omega
        · simp only [if_neg hres]
          have hpos := List.length_pos.mpr hres
          have hcols1 := hwf1.2.1
          refine ⟨_, rfl, ⟨hwf1, ?_⟩, Or.inl ?_⟩
          · simp only [relocate_matrix]; exact hcd
          · simp only [loop_size]
            simp only [relocate_matrix] at hcols1 ⊢
            omega
      · obtain ⟨row, e, he, hel⟩ := eliminate_max_score_ok fs st.data hwf st.solution hr
        simp only [solve_step, if_neg h0, if_neg h1, if_neg h2, hel]
        have hrange : ∀ r ∈ [row], 0 ≤ r ∧ r < st.data.num_rows := by
          intro r hr'
          rw [List.mem_singleton] at hr'
          subst hr'
          obtain ⟨_, h0', h1', _⟩ := row_at_mem st.data r e he
          have := hwf.1
          omega
        have hwf1 := (reduce_ok st.data hwf [row] (List.nodup_singleton _) hrange).2
        have hnr := reduced_num_rows st.data [row]
        have hnc := reduced_num_cols st.data [row]
        have hrows1 : 0 ≤ (reduced st.data [row]).num_rows := by
          rw [hwf1.1]; exact Int.natCast_nonneg _
        refine ⟨_, rfl, ⟨hwf1, ?_⟩, Or.inl ?_⟩
        · simp only [List.length_singleton] at hnr
          simp only
          omega
        · simp only [loop_size]
          simp only [List.length_singleton] at hnr
          have := hwf1.2.1
          omega

theorem solve_step_measure (fs : FileSystem) (greedy : Bool) (st : LoopState)
    (hok : loop_ok st) (hr : st.data.num_rows ≠ 0) (hc : st.data.num_cols ≠ 0) :
    ∃ st1, solve_step fs greedy st = Except.ok st1 ∧ loop_ok st1 ∧
      loop_measure st1 < loop_measure st := by
  obtain ⟨st1, h1, h2, h3⟩ := solve_step_progress fs greedy st hok hr hc
  refine ⟨st1, h1, h2, ?_⟩
  have f1 := loop_flags_le st1
  simp only [loop_measure]
  rcases h3 with h | ⟨h, h'⟩ <;> omega

theorem solve_loop_invariant (fs : FileSystem) (greedy : Bool) (Inv : LoopState → Prop)
    (hok : ∀ st, Inv st → loop_ok st)
    (hstep : ∀ st st1, Inv st → st.data.num_rows ≠ 0 → st.data.num_cols ≠ 0 →
      solve_step fs greedy st = Except.ok st1 → Inv st1) :
    ∀ (n : Nat) (st : LoopState), loop_measure st ≤ n → Inv st →
      ∃ st1, (∀ fuel, n ≤ fuel → solve_loop fs greedy fuel st = Except.ok (some st1)) ∧
        Inv st1 ∧ (st1.data.num_rows = 0 ∨ st1.data.num_cols = 0) := by
  intro n
  induction n with
  | zero =>
    intro st hn hinv
    by_cases hcond : st.data.num_rows ≠ 0 ∧ st.data.num_cols ≠ 0
    · obtain ⟨_, _, _, hlt⟩ := solve_step_measure fs greedy st (hok st hinv) hcond.1 hcond.2
      omega
    · refine ⟨st, ?_, hinv, by
        by_contra h
        exact hcond ⟨fun h1 => h (Or.inl h1), fun h2 => h (Or.inr h2)⟩⟩
      intro fuel _
      unfold solve_loop
      rw [if_neg hcond]
  | succ n ih =>
    intro st hn hinv
    by_cases hcond : st.data.num_rows ≠ 0 ∧ st.data.num_cols ≠ 0
    · obtain ⟨st1, h1, _, hlt⟩ := solve_step_measure fs greedy st (hok st hinv) hcond.1 hcond.2
      have hinv1 := hstep st st1 hinv hcond.1 hcond.2 h1
      obtain ⟨st2, h2, h3, h4⟩ := ih st1 (by omega) hinv1
      refine ⟨st2, ?_, h3, h4⟩
      intro fuel hfuel
      cases fuel with
      | zero => omega
      | succ fuel =>
        unfold solve_loop
        rw [if_pos hcond]
        simp only [h1]
        exact h2 fuel (by omega)
    · refine ⟨st, ?_, hinv, by
        by_contra h
        exact hcond ⟨fun h1 => h (Or.inl h1), fun h2 => h (Or.inr h2)⟩⟩
      intro fuel _
      unfold solve_loop
      rw [if_neg hcond]

/-- C5. Termination: for every matrix satisfying the matrix invariants (with an
analytics entry for every row) and for both values of the greedy flag, the
rule-scheduling loop of `solve_oscp` ends, without failure, in a state with
zero rows or zero columns once it is given `loop_measure` passes or more; and
every pass succeeds, keeps the invariants and either strictly decreases the
number of rows plus columns or leaves it unchanged and disables a rule flag. -/
theorem solve_loop_terminates (fs : FileSystem) (greedy : Bool) (st : LoopState)
    (hwf : matrix_wf st.data) (hcd : st.data.num_rows ≤ (st.corpus_data.length : Int)) :
    (∃ st1, (∀ fuel, loop_measure st ≤ fuel →
        solve_loop fs greedy fuel st = Except.ok (some st1)) ∧
      (st1.data.num_rows = 0 ∨ st1.data.num_cols = 0)) ∧
    (st.data.num_rows ≠ 0 → st.data.num_cols ≠ 0 →
      ∃ st1, solve_step fs greedy st = Except.ok st1 ∧ matrix_wf st1.data ∧
        st1.data.num_rows ≤ (st1.corpus_data.length : Int) ∧
        (st1.data.num_rows + st1.data.num_cols < st.data.num_rows + st.data.num_cols ∨
          (st1.data.num_rows + st1.data.num_cols = st.data.num_rows + st.data.num_cols ∧
            loop_flags st1 < loop_flags st))) := by
  constructor
  · obtain ⟨st1, h1, _, h3⟩ := solve_loop_invariant fs greedy loop_ok (fun _ h => h)
      (fun s s1 hs hr hc hstep => by
        obtain ⟨s2, e2, ok2, _⟩ := solve_step_progress fs greedy s hs hr hc
        rw [hstep] at e2
        injection e2 with e2
        subst e2
        exact ok2) (loop_measure st) st (le_refl _) ⟨hwf, hcd⟩
    exact ⟨st1, h1, h3⟩
  · intro hr hc
    obtain ⟨st1, h1, h2, h3⟩ := solve_step_progress fs greedy st ⟨hwf, hcd⟩ hr hc
    refine ⟨st1, h1, h2.1, h2.2, ?_⟩
    have a1 : 0 ≤ st.data.num_rows := by rw [hwf.1]; exact Int.natCast_nonneg _
    have a2 := hwf.2.1
    have b1 : 0 ≤ st1.data.num_rows := by rw [h2.1.1]; exact Int.natCast_nonneg _
    have b2 := h2.1.2.1
    simp only [loop_size] at h3
    rcases h3 with h | ⟨h, h'⟩
    · left; omega
    · right; exact ⟨by omega, h'⟩

/-- Witness for C5: the loop on the example matrix, reduction rules enabled. -/
theorem solve_loop_terminates_witness :
    (∃ st1, (∀ fuel, loop_measure example_state ≤ fuel →
        solve_loop (fun _ => []) false fuel example_state = Except.ok (some st1)) ∧
      (st1.data.num_rows = 0 ∨ st1.data.num_cols = 0)) ∧
    (example_state.data.num_rows ≠ 0 → example_state.data.num_cols ≠ 0 →
      ∃ st1, solve_step (fun _ => []) false example_state = Except.ok st1 ∧
        matrix_wf st1.data ∧ st1.data.num_rows ≤ (st1.corpus_data.length : Int) ∧
        (st1.data.num_rows + st1.data.num_cols <
            example_state.data.num_rows + example_state.data.num_cols ∨
          (st1.data.num_rows + st1.data.num_cols =
              example_state.data.num_rows + example_state.data.num_cols ∧
            loop_flags st1 < loop_flags example_state))) :=
  solve_loop_terminates (fun _ => []) false example_state (by decide) (by decide)

/-! ### Rows and columns after a reduction step -/

theorem filename_eq (p : String) : filename p = p := rfl

theorem mem_live_relocate_row (D : List Int) (hnd : D.Nodup) (hD : ∀ d ∈ D, 0 ≤ d)
    (e : RowElem) (he : ∀ v ∈ live e.column, 0 ≤ v) (j : Int) :
    j ∈ live (relocate_row D e).column ↔
      ∃ a ∈ live e.column, a ∉ D ∧ transform_value D a = j := by
  have hl := live_map_relocate D hnd hD e.column he
  have hcol : (relocate_row D e).column = e.column.map (relocate D) := rfl
  rw [hcol, hl, List.mem_map]
  constructor
  · rintro ⟨a, ha, rfl⟩
    have ha' := List.mem_filter.mp ha
    exact ⟨a, ha'.1, by simpa using ha'.2, rfl⟩
  · rintro ⟨a, ha, haD, rfl⟩
    exact ⟨a, List.mem_filter.mpr ⟨ha, by simpa using haD⟩, rfl⟩

theorem transform_value_inj (D : List Int) (hnd : D.Nodup) (hD : ∀ d ∈ D, 0 ≤ d) {a b : Int}
    (ha : 0 ≤ a) (hb : 0 ≤ b) (haD : a ∉ D) (hbD : b ∉ D)
    (h : transform_value D a = transform_value D b) : a = b := by
  rcases lt_trichotomy a b with h1 | h1 | h1
  · have := transform_value_lt D hnd hD ha haD hbD h1; omega
  · exact h1
  · have := transform_value_lt D hnd hD hb hbD haD h1; omega

theorem transform_value_surj (D : List Int) (hnd : D.Nodup) (W : Int) (hW : 0 ≤ W)
    (hD : ∀ d ∈ D, 0 ≤ d ∧ d < W) (j : Int) (h0 : 0 ≤ j) (h1 : j < W - (D.length : Int)) :
    ∃ a, 0 ≤ a ∧ a < W ∧ a ∉ D ∧ transform_value D a = j := by
  have htot := kept_before_total D hnd W.toNat (by rw [Int.toNat_of_nonneg hW]; exact hD)
  obtain ⟨i, hi1, hi2, hi3⟩ := kept_before_surj D W.toNat j.toNat (by omega)
  refine ⟨(i : Int), by omega, by omega, hi2, ?_⟩
  rw [transform_value_kept D hnd (fun d hd => (hD d hd).1) i hi2, hi3]
  omega

theorem relocate_row_fields (D : List Int) (e : RowElem) :
    (relocate_row D e).file_path = e.file_path ∧ (relocate_row D e).weight = e.weight ∧
      (relocate_row D e).file_size = e.file_size := ⟨rfl, rfl, rfl⟩

theorem mem_reduced_rowlist (m : Matrix) (rowset : List Int) (e1 : RowElem)
    (h : e1 ∈ (reduced m rowset).rowlist) :
    ∃ (i : Nat) (e : RowElem), m.rowlist[i]? = some e ∧ (i : Int) ∉ rowset ∧
      e1 = relocate_row (dedup (projected_columns m rowset)) e ∧ e1.row_sum ≠ 0 := by
  simp only [reduced, delete_rows, relocate_matrix] at h
  obtain ⟨k, hk, hget⟩ := (mem_delete_positions _ _ _).mp h
  have hmem2 := List.getElem?_mem hget
  obtain ⟨i, hi, hgeti⟩ := (mem_delete_positions _ _ _).mp hmem2
  rw [List.getElem?_map] at hgeti
  cases hrow : m.rowlist[i]? with
  | none => rw [hrow] at hgeti; cases hgeti
  | some e =>
    rw [hrow] at hgeti
    simp only [Option.map_some', Option.some.injEq] at hgeti
    refine ⟨i, e, hrow, hi, hgeti.symm, ?_⟩
    intro hz
    apply hk
    simp only [get_singular_rows, singular_positions_eq]
    rw [mem_positions_from]
    exact ⟨k, e1.row_sum, by simp [List.getElem?_map, hget], by simpa using hz, by simp⟩

theorem reduced_rowlist_mem (m : Matrix) (rowset : List Int) (i : Nat) (e : RowElem)
    (hrow : m.rowlist[i]? = some e) (hi : (i : Int) ∉ rowset)
    (hsum : (relocate_row (dedup (projected_columns m rowset)) e).row_sum ≠ 0) :
    relocate_row (dedup (projected_columns m rowset)) e ∈ (reduced m rowset).rowlist := by
  simp only [reduced, delete_rows, relocate_matrix]
  have h1 : relocate_row (dedup (projected_columns m rowset)) e ∈
      delete_positions rowset (m.rowlist.map (relocate_row (dedup (projected_columns m rowset)))) :=
    (mem_delete_positions _ _ _).mpr ⟨i, hi, by simp [List.getElem?_map, hrow]⟩
  obtain ⟨k, hk⟩ := List.mem_iff_getElem?.mp h1
  refine (mem_delete_positions _ _ _).mpr ⟨k, ?_, hk⟩
  intro hz
  simp only [get_singular_rows, singular_positions_eq] at hz
  obtain ⟨k', v, h1', h2', h3'⟩ := (mem_positions_from _ _ _ _).mp hz
  have : k' = k := by omega
  subst this
  rw [List.getElem?_map, hk] at h1'
  simp only [Option.map_some', Option.some.injEq] at h1'
  rw [← h1'] at h2'
  exact hsum (by simpa using h2')

theorem mem_delete_rows_rowlist (m : Matrix) (D : List Int) (e : RowElem) :
    e ∈ (delete_rows D m).rowlist ↔ ∃ i : Nat, (i : Int) ∉ D ∧ m.rowlist[i]? = some e :=
  mem_delete_positions D m.rowlist e

theorem row_sum_ne_zero_iff (W : Int) (e : RowElem) (h : row_wf W e) :
    e.row_sum ≠ 0 ↔ ∃ v, v ∈ live e.column := by
  rw [h.1, live_count_eq]
  constructor
  · intro hne
    cases hl : live e.column with
    | nil => rw [hl] at hne; simp at hne
    | cons v vs => exact ⟨v, List.mem_cons_self _ _⟩
  · rintro ⟨v, hv⟩ hz
    have : (live e.column).length = 0 := by exact_mod_cast hz
    rw [List.length_eq_zero] at this
    rw [this] at hv
    cases hv

/-! ### The effect of one pass of the solve loop -/

theorem solve_step_effect (fs : FileSystem) (greedy : Bool) (st st1 : LoopState)
    (hok : loop_ok st) (hr : st.data.num_rows ≠ 0) (hc : st.data.num_cols ≠ 0)
    (hstep : solve_step fs greedy st = Except.ok st1) :
    step_effect fs st st1 ∧ st1.corpus_data.length = st.corpus_data.length := by
  obtain ⟨hwf, hcd⟩ := hok
  by_cases h0 : greedy = false ∧ st.option0 = true
  · obtain ⟨cd1, hlen, hel⟩ := eliminate_row_unitarians_ok fs st.data hwf st.solution
      st.corpus_data hcd
    simp only [solve_step, if_pos h0, hel] at hstep
    by_cases hU : unity_columns (column_sums st.data.num_cols.toNat st.data.rowlist) 0 = []
    · have hcond : st.data.num_rows = 0 ∨ st.data.num_cols = 0 ∨
          unity_columns (column_sums st.data.num_cols.toNat st.data.rowlist) 0 = [] :=
        Or.inr (Or.inr hU)
      simp only [if_pos hcond] at hstep
      injection hstep with hstep
      subst hstep
      exact ⟨Or.inl ⟨rfl, rfl⟩, rfl⟩
    · have hcond : ¬ (st.data.num_rows = 0 ∨ st.data.num_cols = 0 ∨
          unity_columns (column_sums st.data.num_cols.toNat st.data.rowlist) 0 = []) := by
        rintro (h | h | h)
        · exact hr h
        · exact hc h
        · exact hU h
      simp only [if_neg hcond] at hstep
      injection hstep with hstep
      subst hstep
      refine ⟨Or.inr (Or.inl ⟨forced_rows st.data, true, unitarian_rows_ne_nil st.data hU,
        unitarian_rows_nodup _ _ _, unitarian_rows_range st.data hwf _, fun _ => rfl, rfl,
        rfl⟩), hlen⟩
  · by_cases h1 : greedy = false ∧ st.option1 = true
    · obtain ⟨result, _, hs, hnd, hrg, hel, _⟩ := eliminate_subset_rows_ok st.data hwf
      simp only [solve_step, if_neg h0, if_pos h1, hel] at hstep
      by_cases hres : result = []
      · simp only [if_pos hres] at hstep
        injection hstep with hstep
        subst hstep
        exact ⟨Or.inl ⟨rfl, rfl⟩, rfl⟩
      · simp only [if_neg hres] at hstep
        injection hstep with hstep
        subst hstep
        exact ⟨Or.inr (Or.inr (Or.inl ⟨result, hres, hnd, hrg, hs, rfl, rfl⟩)), rfl⟩
    · by_cases h2 : greedy = false ∧ st.option2 = true
      · obtain ⟨result, _, hnd, hrg, hs, hel, _⟩ := eliminate_superset_cols_ok st.data hwf
        simp only [solve_step, if_neg h0, if_neg h1, if_pos h2, hel] at hstep
        by_cases hres : result = []
        · simp only [if_pos hres] at hstep
          injection hstep with hstep
          subst hstep
          exact ⟨Or.inl ⟨rfl, rfl⟩, rfl⟩
        · simp only [if_neg hres] at hstep
          injection hstep with hstep
          subst hstep
          exact ⟨Or.inr (Or.inr (Or.inr ⟨result, hres, hnd, hrg, hs, rfl, rfl⟩)), rfl⟩
      · obtain ⟨row, e, he, hel⟩ := eliminate_max_score_ok fs st.data hwf st.solution hr
        simp only [solve_step, if_neg h0, if_neg h1, if_neg h2, hel] at hstep
        injection hstep with hstep
        subst hstep
        have hrange : ∀ r ∈ [row], 0 ≤ r ∧ r < st.data.num_rows := by
          intro r hr'
          rw [List.mem_singleton] at hr'
          subst hr'
          obtain ⟨_, h0', h1', _⟩ := row_at_mem st.data r e he
          have := hwf.1
          omega
        refine ⟨Or.inr (Or.inl ⟨[row], false, by simp, List.nodup_singleton _, hrange,
          (fun h => by cases h), rfl, ?_⟩), rfl⟩
        simp [selected_rows, add_all, he]

/-! ### The invariant behind the cover property -/

theorem col_witness_relocate (fs : FileSystem) (m m1 : Matrix) (hm : matrix_wf m)
    (D : List Int) (hnd : D.Nodup) (hD : ∀ d ∈ D, 0 ≤ d ∧ d < m.num_cols)
    (hrel : rows_relocated D m m1) (c j : Int) (hj : col_witness fs m c j) (hjD : j ∉ D) :
    col_witness fs m1 c (transform_value D j) := by
  obtain ⟨hj0, hj1, hjw⟩ := hj
  have hD0 : ∀ d ∈ D, 0 ≤ d := fun d hd => (hD d hd).1
  have hr := transform_value_range D hnd m.num_cols hD hj0 hj1 hjD
  refine ⟨hr.1, by rw [hrel.1]; exact hr.2, ?_⟩
  intro e1 he1 hlive
  obtain ⟨e, he, rfl⟩ := hrel.2 e1 he1
  have hw := hm.2.2.2 e he
  obtain ⟨a, ha, haD, hta⟩ := (mem_live_relocate_row D hnd hD0 e
    (fun v hv => (hw.2.2 v hv).1) _).mp hlive
  have := transform_value_inj D hnd hD0 (hw.2.2 a ha).1 hj0 haD hjD hta
  subst this
  exact hjw e he ha

theorem nonempty_relocate (m : Matrix) (hm : matrix_wf m) (D : List Int) (hnd : D.Nodup)
    (hD : ∀ d ∈ D, 0 ≤ d ∧ d < m.num_cols)
    (hne : ∀ j, 0 ≤ j → j < m.num_cols → ∃ e ∈ m.rowlist, j ∈ live e.column)
    (j1 : Int) (h0 : 0 ≤ j1) (h1 : j1 < m.num_cols - (D.length : Int)) :
    ∃ (a : Int) (i : Nat) (e : RowElem), a ∉ D ∧ m.rowlist[i]? = some e ∧ a ∈ live e.column ∧
      j1 ∈ live (relocate_row D e).column := by
  have hD0 : ∀ d ∈ D, 0 ≤ d := fun d hd => (hD d hd).1
  obtain ⟨a, ha0, ha1, haD, hta⟩ := transform_value_surj D hnd m.num_cols hm.2.1 hD j1 h0 h1
  obtain ⟨e, he, hlive⟩ := hne a ha0 ha1
  obtain ⟨i, hi⟩ := List.mem_iff_getElem?.mp he
  have hw := hm.2.2.2 e he
  exact ⟨a, i, e, haD, hi, hlive, (mem_live_relocate_row D hnd hD0 e
    (fun v hv => (hw.2.2 v hv).1) _).mpr ⟨a, hlive, haD, hta⟩⟩

theorem reduced_rows_relocated (m : Matrix) (rowset : List Int) :
    rows_relocated (dedup (projected_columns m rowset)) m (reduced m rowset) := by
  refine ⟨reduced_num_cols m rowset, ?_⟩
  intro e1 he1
  obtain ⟨i, e, hi, _, h, _⟩ := mem_reduced_rowlist m rowset e1 he1
  exact ⟨e, List.getElem?_mem hi, h⟩

theorem relocate_matrix_rows_relocated (D : List Int) (m : Matrix) :
    rows_relocated D m (relocate_matrix D m) := by
  refine ⟨rfl, ?_⟩
  intro e1 he1
  simp only [relocate_matrix] at he1
  obtain ⟨e, he, rfl⟩ := List.mem_map.mp he1
  exact ⟨e, he, rfl⟩

theorem mem_selected_rows (m : Matrix) (rows : List Int) (e : RowElem) :
    e ∈ selected_rows m rows ↔ ∃ r ∈ rows, row_at m r = some e := by
  simp [selected_rows, List.mem_filterMap]

theorem covered_append_left (rd rd1 : List (List Int)) (c : Int) (h : covered rd c) :
    covered (rd ++ rd1) c := by
  obtain ⟨row, hrow, h⟩ := h
  exact ⟨row, List.mem_append_left _ hrow, h⟩

theorem cover_inv_reduce (fs : FileSystem) (W0 : Int) (m : Matrix) (S : Solution)
    (hm : matrix_wf m) (rows : List Int) (optimal : Bool) (h : cover_inv fs W0 m S) :
    cover_inv fs W0 (reduced m rows) (add_all fs optimal S (selected_rows m rows)) := by
  obtain ⟨h1, h2, h3, h4, h5, h6⟩ := h
  obtain ⟨f1, f2, _, f4, _⟩ := add_all_fields fs optimal (selected_rows m rows) S
  have hcn : (dedup (projected_columns m rows)).Nodup := index_set_nodup _
  have hcr := projected_columns_range m hm rows
  have hcr0 : ∀ d ∈ dedup (projected_columns m rows), 0 ≤ d := fun d hd => (hcr d hd).1
  have hrel := reduced_rows_relocated m rows
  refine ⟨h1, ?_, ?_, ?_, ?_, ?_⟩
  · intro c hc0 hc1
    rcases h2 c hc0 hc1 with hs | hcov | ⟨j, hj⟩
    · left; rw [f4]; exact hs
    · right; left; rw [f2]; exact covered_append_left _ _ c hcov
    · by_cases hjD : j ∈ dedup (projected_columns m rows)
      · right; left
        rw [dedup, mem_index_set, mem_projected_columns m hm] at hjD
        obtain ⟨r, hr, e, he, hlive⟩ := hjD
        have hraw := hj.2.2 e (row_at_mem m r e he).1 hlive
        rw [f2]
        exact ⟨get_exemplar_data fs e.file_path, List.mem_append_right _
          (List.mem_map.mpr ⟨e, (mem_selected_rows m rows e).mpr ⟨r, hr, he⟩, rfl⟩), hraw⟩
      · right; right
        exact ⟨_, col_witness_relocate fs m _ hm _ hcn hcr hrel c j hj hjD⟩
  · intro j1 hj0 hj1
    rw [reduced_num_cols] at hj1
    obtain ⟨a, i, e, haD, hi, hlive, hlive1⟩ := nonempty_relocate m hm _ hcn hcr h3 j1 hj0 hj1
    have hinot : (i : Int) ∉ rows := by
      intro hin
      apply haD
      rw [dedup, mem_index_set, mem_projected_columns m hm]
      exact ⟨(i : Int), hin, e, by simp [row_at, hi], hlive⟩
    have hwf1 := relocate_row_wf _ hcn m.num_cols hcr e (hm.2.2.2 e (List.getElem?_mem hi))
    have hsum : (relocate_row (dedup (projected_columns m rows)) e).row_sum ≠ 0 :=
      (row_sum_ne_zero_iff _ _ hwf1).mpr ⟨j1, hlive1⟩
    exact ⟨_, reduced_rowlist_mem m rows i e hi hinot hsum, hlive1⟩
  · intro e1 he1
    obtain ⟨e, he, rfl⟩ := hrel.2 e1 he1
    exact h4 e he
  · rw [f1, f2, h5, List.map_append, List.map_map]
    congr 1
  · intro row hrow
    rw [f2] at hrow
    rcases List.mem_append.mp hrow with hrow | hrow
    · exact h6 row hrow
    · obtain ⟨e, he, rfl⟩ := List.mem_map.mp hrow
      obtain ⟨r, _, hr⟩ := (mem_selected_rows m rows e).mp he
      exact h4 e (row_at_mem m r e hr).1

theorem cover_inv_delete_rows (fs : FileSystem) (W0 : Int) (m : Matrix) (S : Solution)
    (result : List Int) (hs : deletion_sound m result) (h : cover_inv fs W0 m S) :
    cover_inv fs W0 (delete_rows result m) S := by
  obtain ⟨h1, h2, h3, h4, h5, h6⟩ := h
  have hsub : ∀ e ∈ (delete_rows result m).rowlist, e ∈ m.rowlist :=
    fun e he => delete_positions_subset result m.rowlist e he
  refine ⟨h1, ?_, ?_, fun e he => h4 e (hsub e he), h5, h6⟩
  · intro c hc0 hc1
    rcases h2 c hc0 hc1 with hs | hcov | ⟨j, hj0, hj1, hjw⟩
    · exact Or.inl hs
    · exact Or.inr (Or.inl hcov)
    · exact Or.inr (Or.inr ⟨j, hj0, hj1, fun e he hl => hjw e (hsub e he) hl⟩)
  · intro j hj0 hj1
    obtain ⟨e, he, hlive⟩ := h3 j hj0 hj1
    obtain ⟨i, hi⟩ := List.mem_iff_getElem?.mp he
    by_cases hin : (i : Int) ∈ result
    · obtain ⟨a, ha, ea, eb, hea, heb, hsubset, _⟩ := hs _ hin
      have : eb = e := by
        have : row_at m (i : Int) = some e := by simp [row_at, hi]
        rw [this] at heb
        injection heb with heb
        exact heb.symm
      subst this
      obtain ⟨_, ha0, _, _⟩ := row_at_mem m a ea hea
      refine ⟨ea, (mem_delete_rows_rowlist m result ea).mpr ⟨a.toNat, ?_, ?_⟩, hsubset j hlive⟩
      · rw [Int.toNat_of_nonneg ha0]; exact ha
      · simpa [row_at, not_lt.mpr ha0] using hea
    · exact ⟨e, (mem_delete_rows_rowlist m result e).mpr ⟨i, hin, hi⟩, hlive⟩

theorem cover_inv_relocate (fs : FileSystem) (W0 : Int) (m : Matrix) (S : Solution)
    (hm : matrix_wf m) (result : List Int) (hnd : result.Nodup)
    (hrg : ∀ c ∈ result, 0 ≤ c ∧ c < m.num_cols)
    (hs : ∀ c ∈ result, ∃ a, a ∉ result ∧ column_subset m a c) (h : cover_inv fs W0 m S) :
    cover_inv fs W0 (relocate_matrix result m) S := by
  obtain ⟨h1, h2, h3, h4, h5, h6⟩ := h
  have hrel := relocate_matrix_rows_relocated result m
  refine ⟨h1, ?_, ?_, ?_, h5, h6⟩
  · intro c hc0 hc1
    rcases h2 c hc0 hc1 with hs' | hcov | ⟨j, hj⟩
    · exact Or.inl hs'
    · exact Or.inr (Or.inl hcov)
    · right; right
      by_cases hjD : j ∈ result
      · obtain ⟨a, ha, ha0, ha1, _, hsubset⟩ := hs j hjD
        have hja : col_witness fs m c a :=
          ⟨ha0, ha1, fun e he hl => hj.2.2 e he (hsubset e he hl)⟩
        exact ⟨_, col_witness_relocate fs m _ hm _ hnd hrg hrel c a hja ha⟩
      · exact ⟨_, col_witness_relocate fs m _ hm _ hnd hrg hrel c j hj hjD⟩
  · intro j1 hj0 hj1
    obtain ⟨a, i, e, _, hi, _, hlive1⟩ := nonempty_relocate m hm _ hnd hrg h3 j1 hj0 hj1
    refine ⟨relocate_row result e, ?_, hlive1⟩
    simp only [relocate_matrix]
    exact List.mem_map.mpr ⟨e, List.getElem?_mem hi, rfl⟩
  · intro e1 he1
    obtain ⟨e, he, rfl⟩ := hrel.2 e1 he1
    exact h4 e he

theorem cover_inv_step (fs : FileSystem) (W0 : Int) (st st1 : LoopState)
    (hm : matrix_wf st.data) (heff : step_effect fs st st1)
    (h : cover_inv fs W0 st.data st.solution) : cover_inv fs W0 st1.data st1.solution := by
  rcases heff with ⟨e1, e2⟩ | ⟨rows, optimal, _, _, _, _, e1, e2⟩ |
    ⟨result, _, _, _, hs, e1, e2⟩ | ⟨result, _, hnd, hrg, hs, e1, e2⟩
  · rw [e1, e2]; exact h
  · rw [e1, e2]; exact cover_inv_reduce fs W0 _ _ hm rows optimal h
  · rw [e1, e2]; exact cover_inv_delete_rows fs W0 _ _ result hs h
  · rw [e1, e2]; exact cover_inv_relocate fs W0 _ _ hm result hnd hrg hs h

/-! ### The weight law and the verification of a solution -/

theorem soln_col_sum_add_spec : ∀ (row colsum : List Int) (n : Nat),
    n + row.length ≤ colsum.length →
    ∃ cs, soln_col_sum_add colsum row (n : Int) = Except.ok cs ∧ cs.length = colsum.length ∧
      ∀ (k : Nat) (x : Int), colsum[k]? = some x → ∃ y : Int, cs[k]? = some y ∧ x ≤ y ∧
        ∀ i : Nat, k = n + i → row[i]? = some (1 : Int) → x < y := by
  intro row
  induction row with
  | nil =>
    intro colsum n _
    exact ⟨colsum, rfl, rfl, fun k x hk => ⟨x, hk, le_refl _, fun i _ hi => by simp at hi⟩⟩
  | cons v rest ih =>
    intro colsum n hlen
    simp only [List.length_cons] at hlen
    have hcast : ((n : Int) + 1) = ((n + 1 : Nat) : Int) := by push_cast; rfl
    by_cases hv : v = 1
    · have hn : n < colsum.length := by omega
      have hat := at_index_of_getElem? colsum n colsum[n] (List.getElem?_eq_getElem hn)
      simp only [soln_col_sum_add, if_pos hv, hat, Int.toNat_ofNat, hcast]
      obtain ⟨cs, hcs, hl, hsp⟩ := ih (colsum.set n (colsum[n] + 1)) (n + 1) (by
        rw [List.length_set]; omega)
      refine ⟨cs, hcs, by rw [hl, List.length_set], ?_⟩
      intro k x hk
      by_cases hkn : k = n
      · subst hkn
        have hx : x = colsum[k] := by
          rw [List.getElem?_eq_getElem hn] at hk; injection hk with hk; exact hk.symm
        obtain ⟨y, hy, hle, _⟩ := hsp k (x + 1) (by
          rw [List.getElem?_set_self hn, hx])
        exact ⟨y, hy, by omega, fun _ _ _ => by omega⟩
      · obtain ⟨y, hy, hle, hlt⟩ := hsp k x (by
          rw [List.getElem?_set_ne (Ne.symm hkn)]; exact hk)
        refine ⟨y, hy, hle, ?_⟩
        intro i hki hi
        cases i with
        | zero => exact absurd hki hkn
        | succ j =>
          rw [List.getElem?_cons_succ] at hi
          exact hlt j (by omega) hi
    · simp only [soln_col_sum_add, if_neg hv, hcast]
      obtain ⟨cs, hcs, hl, hsp⟩ := ih colsum (n + 1) (by omega)
      refine ⟨cs, hcs, hl, ?_⟩
      intro k x hk
      obtain ⟨y, hy, hle, hlt⟩ := hsp k x hk
      refine ⟨y, hy, hle, ?_⟩
      intro i hki hi
      cases i with
      | zero =>
        simp only [List.getElem?_cons_zero, Option.some.injEq] at hi
        exact absurd hi hv
      | succ j =>
        rw [List.getElem?_cons_succ] at hi
        exact hlt j (by omega) hi

theorem soln_col_sum_rows_spec : ∀ (rows : List (List Int)) (colsum : List Int),
    (∀ row ∈ rows, row.length ≤ colsum.length) →
    ∃ cs, soln_col_sum_rows colsum rows = Except.ok cs ∧ cs.length = colsum.length ∧
      ∀ (k : Nat) (x : Int), colsum[k]? = some x → ∃ y : Int, cs[k]? = some y ∧ x ≤ y ∧
        ∀ row ∈ rows, row[k]? = some (1 : Int) → x < y := by
  intro rows
  induction rows with
  | nil =>
    intro colsum _
    exact ⟨colsum, rfl, rfl, fun k x hk => ⟨x, hk, le_refl _, fun row hrow => by simp at hrow⟩⟩
  | cons row rest ih =>
    intro colsum hlen
    obtain ⟨cs1, hcs1, hl1, hsp1⟩ := soln_col_sum_add_spec row colsum 0 (by
      have := hlen row (List.mem_cons_self _ _); omega)
    obtain ⟨cs, hcs, hl, hsp⟩ := ih cs1 (by
      intro r hr; rw [hl1]; exact hlen r (List.mem_cons_of_mem _ hr))
    have hcs1' : soln_col_sum_add colsum row 0 = Except.ok cs1 := hcs1
    simp only [soln_col_sum_rows, hcs1', hcs]
    refine ⟨cs, rfl, by rw [hl, hl1], ?_⟩
    intro k x hk
    obtain ⟨y1, hy1, hle1, hlt1⟩ := hsp1 k x hk
    obtain ⟨y, hy, hle, hlt⟩ := hsp k y1 hy1
    refine ⟨y, hy, le_trans hle1 hle, ?_⟩
    intro r hr hbit
    rcases List.mem_cons.mp hr with rfl | hr
    · exact lt_of_lt_of_le (hlt1 k (by omega) hbit) hle
    · exact lt_of_le_of_lt hle1 (hlt r hr hbit)

theorem calc_soln_col_sum_ok (data : Matrix) (S : Solution) (h0 : 0 ≤ data.num_cols_orig)
    (hlen : ∀ row ∈ S.rowdata, (row.length : Int) ≤ data.num_cols_orig) :
    ∃ cs, calc_soln_col_sum data S = Except.ok cs ∧ cs.length = data.num_cols_orig.toNat ∧
      ∀ k : Nat, k < cs.length → covered S.rowdata (k : Int) → ∃ y, cs[k]? = some y ∧ 0 < y := by
  obtain ⟨cs, hcs, hl, hsp⟩ := soln_col_sum_rows_spec S.rowdata
    (List.replicate data.num_cols_orig.toNat 0) (by
      intro row hrow
      have := hlen row hrow
      rw [List.length_replicate]; omega)
  rw [List.length_replicate] at hl
  refine ⟨cs, by simp only [calc_soln_col_sum, if_neg (not_lt.mpr h0), hcs], hl, ?_⟩
  intro k hk hcov
  obtain ⟨row, hrow, _, hbit⟩ := hcov
  obtain ⟨y, hy, _, hlt⟩ := hsp k 0 (by
    rw [List.getElem?_replicate, if_pos (by omega)])
  exact ⟨y, hy, hlt row hrow (by simpa using hbit)⟩

theorem entry_columns_nodup (m : Matrix) : (entry_columns m).Nodup :=
  get_singular_rows_nodup _

theorem mem_entry_columns (m : Matrix) (hm : matrix_wf m) (x : Int) :
    x ∈ entry_columns m ↔ 0 ≤ x ∧ x < m.num_cols ∧ column_count m.rowlist x = 0 := by
  rw [entry_columns, mem_get_singular_columns, Int.toNat_of_nonneg hm.2.1]

theorem entry_matrix_wf (m : Matrix) (hm : matrix_wf m) : matrix_wf (entry_matrix m) := by
  simp only [entry_matrix]
  split
  · exact hm
  · exact relocate_matrix_wf m _ hm (entry_columns_nodup m)
      (fun d hd => ⟨((mem_entry_columns m hm d).mp hd).1, ((mem_entry_columns m hm d).mp hd).2.1⟩)

theorem entry_matrix_fields (m : Matrix) :
    (entry_matrix m).num_rows = m.num_rows ∧ (entry_matrix m).num_cols_orig = m.num_cols_orig ∧
      (entry_matrix m).num_cols ≤ m.num_cols := by
  simp only [entry_matrix]
  split
  · exact ⟨rfl, rfl, le_refl _⟩
  · refine ⟨rfl, rfl, ?_⟩
    simp only [relocate_matrix]
    omega

theorem eliminate_column_singularities_ok (m : Matrix) (hm : matrix_wf m) (S : Solution) :
    ∃ b, eliminate_column_singularities m S =
      Except.ok (b, entry_matrix m, entry_solution m S) := by
  have hg := get_column_sum_ok m hm
  simp only [eliminate_column_singularities, hg]
  by_cases hs : is_column_singular (column_sums m.num_cols.toNat m.rowlist) = true
  · have hne : entry_columns m ≠ [] := (is_column_singular_iff _).mp hs
    have hrc := remove_cols_ok m (entry_columns m) hm (entry_columns_nodup m)
      (fun d hd => ⟨((mem_entry_columns m hm d).mp hd).1, ((mem_entry_columns m hm d).mp hd).2.1⟩)
    have hrc' : remove_cols m (get_singular_columns (column_sums m.num_cols.toNat m.rowlist)) =
      Except.ok (relocate_matrix (entry_columns m) m) := hrc
    simp only [hs, if_true, hrc', entry_matrix, entry_solution, if_neg hne]
    exact ⟨true, by split <;> rfl⟩
  · have he : entry_columns m = [] := by
      by_contra hne
      exact hs ((is_column_singular_iff _).mpr hne)
    simp only [hs, entry_matrix, entry_solution, if_pos he]
    exact ⟨false, rfl⟩

theorem len_inv_step (fs : FileSystem) (W0 : Int) (st st1 : LoopState)
    (heff : step_effect fs st st1) (h : len_inv fs W0 st.data st.solution) :
    len_inv fs W0 st1.data st1.solution := by
  obtain ⟨h1, h2, h3⟩ := h
  rcases heff with ⟨e1, e2⟩ | ⟨rows, optimal, _, _, _, _, e1, e2⟩ |
    ⟨result, _, _, _, _, e1, e2⟩ | ⟨result, _, _, _, _, e1, e2⟩
  · rw [e1, e2]; exact ⟨h1, h2, h3⟩
  · rw [e1, e2]
    obtain ⟨_, f2, _, _, _⟩ := add_all_fields fs optimal (selected_rows st.data rows) st.solution
    refine ⟨h1, ?_, ?_⟩
    · intro e he
      obtain ⟨e0, he0, rfl⟩ := (reduced_rows_relocated st.data rows).2 e he
      exact h2 e0 he0
    · intro row hrow
      rw [f2] at hrow
      rcases List.mem_append.mp hrow with hrow | hrow
      · exact h3 row hrow
      · obtain ⟨e, he, rfl⟩ := List.mem_map.mp hrow
        obtain ⟨r, _, hr⟩ := (mem_selected_rows st.data rows e).mp he
        exact h2 e (row_at_mem st.data r e hr).1
  · rw [e1, e2]
    exact ⟨h1, fun e he => h2 e (delete_positions_subset result st.data.rowlist e he), h3⟩
  · rw [e1, e2]
    refine ⟨h1, ?_, h3⟩
    intro e he
    obtain ⟨e0, he0, rfl⟩ := (relocate_matrix_rows_relocated result st.data).2 e he
    exact h2 e0 he0

theorem verify_solution_total (data : Matrix) (S : Solution) (weight_file : WeightFile)
    (h0 : 0 ≤ data.num_cols_orig)
    (hlen : ∀ row ∈ S.rowdata, (row.length : Int) ≤ data.num_cols_orig) :
    ∃ v, verify_solution data (print_solution S) weight_file = Except.ok v := by
  obtain ⟨cs, hcs, _, _⟩ := calc_soln_col_sum_ok data S h0 hlen
  have hcs' : calc_soln_col_sum data (print_solution S) = Except.ok cs := hcs
  simp only [verify_solution, hcs']
  split
  · exact ⟨false, rfl⟩
  · cases weight_file with
    | none => simp only []; split <;> exact ⟨_, rfl⟩
    | some records => simp only []; split <;> exact ⟨_, rfl⟩

/-- A run of `solve_oscp` from a well-formed matrix returns, and every
property that holds when the loop is entered and is kept by each pass of the
loop holds for the final matrix and the solution before it is printed. -/
theorem solve_oscp_run (fs : FileSystem) (greedy : Bool) (S0 : Solution) (m : Matrix)
    (cd : List ExemplarData) (name : String) (weight_file : WeightFile)
    (Inv : Matrix → Solution → Prop)
    (hm : matrix_wf m) (hcd : m.num_rows ≤ (cd.length : Int))
    (hlen : len_inv fs m.num_cols_orig m S0) (h0 : 0 ≤ m.num_cols_orig)
    (hinit : Inv (entry_matrix m) (entry_solution m (labelled S0 m name greedy)))
    (hstep : ∀ st st1, loop_ok st → Inv st.data st.solution → step_effect fs st st1 →
      Inv st1.data st1.solution) :
    ∃ st v, (∀ fuel, 4 * (m.num_rows + m.num_cols).toNat + 3 ≤ fuel →
        solve_oscp fs fuel S0 m cd name greedy weight_file =
          Except.ok (some { solution := print_solution st.solution, data := st.data,
                            corpus_data := st.corpus_data, verified := v })) ∧
      verify_solution st.data (print_solution st.solution) weight_file = Except.ok v ∧
      Inv st.data st.solution ∧ loop_ok st ∧ len_inv fs m.num_cols_orig st.data st.solution ∧
      (st.data.num_rows = 0 ∨ st.data.num_cols = 0) := by
  obtain ⟨b, hel⟩ := eliminate_column_singularities_ok m hm (labelled S0 m name greedy)
  have hfields := entry_matrix_fields m
  have hwf1 := entry_matrix_wf m hm
  let st0 : LoopState :=
    { data := entry_matrix m, solution := entry_solution m (labelled S0 m name greedy),
      corpus_data := cd, option0 := true, option1 := true, option2 := true, non_optimal := 0 }
  have hok0 : loop_ok st0 := ⟨hwf1, by show (entry_matrix m).num_rows ≤ _; rw [hfields.1]; exact hcd⟩
  have hlen0 : len_inv fs m.num_cols_orig st0.data st0.solution := by
    obtain ⟨_, h2, h3⟩ := hlen
    refine ⟨hfields.2.1, ?_, ?_⟩
    · intro e he
      show ((get_exemplar_data fs e.file_path).length : Int) ≤ _
      have he' : e ∈ (entry_matrix m).rowlist := he
      simp only [entry_matrix] at he'
      split at he'
      · exact h2 e he'
      · obtain ⟨e0, he0, rfl⟩ := (relocate_matrix_rows_relocated _ m).2 e he'
        exact h2 e0 he0
    · intro row hrow
      have hrow' : row ∈ (entry_solution m (labelled S0 m name greedy)).rowdata := hrow
      have : (entry_solution m (labelled S0 m name greedy)).rowdata = S0.rowdata := by
        simp only [entry_solution, labelled]
        split
        · rfl
        · split <;> rfl
      rw [this] at hrow'
      exact h3 row hrow'
  have hmeas : loop_measure st0 ≤ 4 * (m.num_rows + m.num_cols).toNat + 3 := by
    have hf := loop_flags_le st0
    have h2 := hfields.2.2
    have h3 := hwf1.2.1
    have h4 : 0 ≤ m.num_rows := by rw [hm.1]; exact Int.natCast_nonneg _
    simp only [loop_measure, loop_size]
    rw [hfields.1]
    omega
  obtain ⟨st, hrun, ⟨hok, hinv, hl⟩, hfin⟩ := solve_loop_invariant fs greedy
    (fun st => loop_ok st ∧ Inv st.data st.solution ∧ len_inv fs m.num_cols_orig st.data st.solution)
    (fun st h => h.1)
    (fun st st1 h hr hc hs => by
      obtain ⟨st2, hs2, hok2, _⟩ := solve_step_progress fs greedy st h.1 hr hc
      rw [hs] at hs2
      injection hs2 with hs2
      subst hs2
      have heff := (solve_step_effect fs greedy st st1 h.1 hr hc hs).1
      exact ⟨hok2, hstep st st1 h.1 h.2.1 heff, len_inv_step fs _ st st1 heff h.2.2⟩)
    (4 * (m.num_rows + m.num_cols).toNat + 3) st0 hmeas ⟨hok0, hinit, hlen0⟩
  obtain ⟨v, hv⟩ := verify_solution_total st.data st.solution weight_file
    (by rw [hl.1]; exact h0) (by rw [hl.1]; exact hl.2.2)
  refine ⟨st, v, ?_, hv, hinv, hok, hl, hfin⟩
  intro fuel hfuel
  have hrun' := hrun fuel hfuel
  have hg := get_column_sum_ok m hm
  have hel' : eliminate_column_singularities m
      { S0 with
          scorelabel := if greedy then "Greedy heuristic" else "Milford-Hayes reduction",
          corpusname := name, num_rows := m.num_rows, num_columns := m.num_cols_orig } =
      Except.ok (b, entry_matrix m, entry_solution m (labelled S0 m name greedy)) := hel
  simp only [solve_oscp, hg, hel']
  have hrun2 : solve_loop fs greedy fuel
      { data := entry_matrix m, solution := entry_solution m (labelled S0 m name greedy),
        corpus_data := cd, option0 := true, option1 := true, option2 := true,
        non_optimal := 0 } = Except.ok (some st) := hrun'
  simp only [hrun2, hv]

/-! ### Rows built from exemplar files -/

theorem transform_value_ne_deleted (D : List Int) (hnd : D.Nodup) (hD : ∀ d ∈ D, 0 ≤ d)
    (a : Int) (ha : 0 ≤ a) (haD : a ∉ D) : transform_value D a ≠ DELETED := by
  have h1 := transform_value_kept D hnd hD a.toNat (by rw [Int.toNat_of_nonneg ha]; exact haD)
  rw [Int.toNat_of_nonneg ha] at h1
  rw [h1]
  simp only [DELETED]
  omega

theorem transform_value_deleted (D : List Int) (a : Int) (haD : a ∈ D) :
    transform_value D a = DELETED := by
  simp [transform_value, haD]

theorem row_entries_spec (D : List Int) (hnd : D.Nodup) (W : Nat)
    (hD : ∀ d ∈ D, 0 ≤ d) : ∀ (raw : List Int) (n : Nat), n + raw.length ≤ W →
    row_entries ((List.range W).map (fun j : Nat => transform_value D (j : Int))) raw (n : Int) =
      Except.ok (((nonzero_positions raw (n : Int)).filter (fun c => decide (c ∉ D))).map
        (transform_value D)) := by
  intro raw
  induction raw with
  | nil => intro n _; rfl
  | cons v rest ih =>
    intro n hlen
    simp only [List.length_cons] at hlen
    have hcast : ((n : Int) + 1) = ((n + 1 : Nat) : Int) := by push_cast; rfl
    have ih1 := ih (n + 1) (by omega)
    by_cases hv : v ≠ 0
    · have hat := at_index_map_range (fun j : Nat => transform_value D (j : Int)) W (n : Int)
        (Int.natCast_nonneg _) (by omega)
      simp only [Int.toNat_ofNat] at hat
      simp only [row_entries, nonzero_positions, if_pos hv, hat, hcast, ih1]
      by_cases hn : (n : Int) ∈ D
      · have := transform_value_deleted D (n : Int) hn
        simp [this, hn]
      · have := transform_value_ne_deleted D hnd hD (n : Int) (Int.natCast_nonneg _) hn
        simp [this, hn]
    · simp only [row_entries, nonzero_positions, if_neg hv, hcast, ih1]

theorem row_from_file_ok (fs : FileSystem) (D : List Int) (hnd : D.Nodup) (W : Nat)
    (hD : ∀ d ∈ D, 0 ≤ d) (exemplar : String)
    (hlen : (get_exemplar_data fs exemplar).length ≤ W) :
    row_from_file fs exemplar ((List.range W).map (fun j : Nat => transform_value D (j : Int))) =
      Except.ok { file_path := exemplar, file_size := ((fs exemplar).length : Int),
                  row_sum := ((file_entries D (get_exemplar_data fs exemplar)).length : Int),
                  column := file_entries D (get_exemplar_data fs exemplar), weight := 1 } := by
  have h := row_entries_spec D hnd W hD (get_exemplar_data fs exemplar) 0 (by omega)
  have h' : row_entries ((List.range W).map (fun j : Nat => transform_value D (j : Int)))
      (get_exemplar_data fs exemplar) 0 = Except.ok (file_entries D (get_exemplar_data fs exemplar)) := h
  simp only [row_from_file, h']

theorem mem_nonzero_positions (raw : List Int) (x : Int) :
    x ∈ nonzero_positions raw 0 ↔ 0 ≤ x ∧ ∃ v, raw[x.toNat]? = some v ∧ v ≠ 0 := by
  rw [nonzero_positions_eq, mem_positions_from]
  constructor
  · rintro ⟨i, v, h1, h2, h3⟩
    rw [zero_add] at h3
    subst h3
    exact ⟨Int.natCast_nonneg _, v, by simpa using h1, by simpa using h2⟩
  · rintro ⟨h0, v, h1, h2⟩
    exact ⟨x.toNat, v, h1, by simpa using h2, by omega⟩

theorem mem_file_entries (D : List Int) (raw : List Int) (j : Int) :
    j ∈ file_entries D raw ↔
      ∃ c, (0 ≤ c ∧ ∃ v, raw[c.toNat]? = some v ∧ v ≠ 0) ∧ c ∉ D ∧ transform_value D c = j := by
  simp only [file_entries, List.mem_map, List.mem_filter, mem_nonzero_positions,
    decide_eq_true_eq, and_assoc]

theorem live_file_entries (D : List Int) (hnd : D.Nodup) (hD : ∀ d ∈ D, 0 ≤ d)
    (raw : List Int) : live (file_entries D raw) = file_entries D raw := by
  simp only [live]
  apply List.filter_eq_self.mpr
  intro j hj
  obtain ⟨c, ⟨hc0, _⟩, hcD, rfl⟩ := (mem_file_entries D raw j).mp hj
  simpa using transform_value_ne_deleted D hnd hD c hc0 hcD

theorem file_entries_sorted (D : List Int) (hnd : D.Nodup) (hD : ∀ d ∈ D, 0 ≤ d)
    (raw : List Int) : (file_entries D raw).Pairwise (fun a b => a < b) := by
  simp only [file_entries]
  rw [List.pairwise_map]
  have hs : (nonzero_positions raw 0).Pairwise (fun a b => a < b) := by
    rw [nonzero_positions_eq]; exact positions_from_sorted _ _ _
  have hs2 := hs.filter (fun c => decide (c ∉ D))
  have hmem : ∀ a ∈ (nonzero_positions raw 0).filter (fun c => decide (c ∉ D)),
      0 ≤ a ∧ a ∉ D := by
    intro a ha
    have := List.mem_filter.mp ha
    exact ⟨((mem_nonzero_positions raw a).mp this.1).1, by simpa using this.2⟩
  generalize (nonzero_positions raw 0).filter (fun c => decide (c ∉ D)) = L at hs2 hmem
  induction L with
  | nil => exact List.Pairwise.nil
  | cons a rest ih =>
    rw [List.pairwise_cons] at hs2 ⊢
    refine ⟨?_, ih hs2.2 (fun x hx => hmem x (List.mem_cons_of_mem _ hx))⟩
    intro b hb
    exact transform_value_lt D hnd hD (hmem a (List.mem_cons_self _ _)).1
      (hmem a (List.mem_cons_self _ _)).2 (hmem b (List.mem_cons_of_mem _ hb)).2 (hs2.1 b hb)

theorem file_row_wf (fs : FileSystem) (D : List Int) (hnd : D.Nodup) (W : Int)
    (hD : ∀ d ∈ D, 0 ≤ d ∧ d < W) (e : RowElem) (p : String)
    (hlen : ((get_exemplar_data fs p).length : Int) ≤ W)
    (hcol : e.column = file_entries D (get_exemplar_data fs p))
    (hsum : e.row_sum = ((file_entries D (get_exemplar_data fs p)).length : Int)) :
    row_wf (W - (D.length : Int)) e := by
  have hD0 : ∀ d ∈ D, 0 ≤ d := fun d hd => (hD d hd).1
  have hlive := live_file_entries D hnd hD0 (get_exemplar_data fs p)
  refine ⟨?_, ?_, ?_⟩
  · rw [hsum, live_count_eq, hcol, hlive]
  · rw [hcol, hlive]; exact file_entries_sorted D hnd hD0 _
  · intro v hv
    rw [hcol, hlive] at hv
    obtain ⟨c, ⟨hc0, x, hx, _⟩, hcD, rfl⟩ := (mem_file_entries D _ v).mp hv
    have hc1 : c.toNat < (get_exemplar_data fs p).length := by
      by_contra hcon
      rw [List.getElem?_eq_none (by omega)] at hx
      exact Option.noConfusion hx
    exact transform_value_range D hnd W hD hc0 (by omega) hcD

theorem byte_bits_values (datum : Nat) : ∀ v ∈ byte_bits datum, v = 0 ∨ v = 1 := by
  intro v hv
  simp only [byte_bits, List.mem_map] at hv
  obtain ⟨i, _, rfl⟩ := hv
  split
  · exact Or.inr rfl
  · exact Or.inl rfl

theorem byte_bits_length (datum : Nat) : (byte_bits datum).length = 8 := by
  simp [byte_bits]

theorem get_exemplar_data_values (fs : FileSystem) (p : String) :
    ∀ v ∈ get_exemplar_data fs p, v = 0 ∨ v = 1 := by
  intro v hv
  simp only [get_exemplar_data, List.mem_flatMap] at hv
  obtain ⟨d, _, hd⟩ := hv
  exact byte_bits_values d v hd

theorem get_exemplar_data_length (fs : FileSystem) (p : String) :
    (get_exemplar_data fs p).length = 8 * (fs p).length := by
  simp only [get_exemplar_data]
  induction fs p with
  | nil => rfl
  | cons d rest ih =>
    rw [List.flatMap_cons, List.length_append, ih, byte_bits_length, List.length_cons]
    ring

theorem mem_live_file_row (fs : FileSystem) (D : List Int) (hnd : D.Nodup)
    (hD : ∀ d ∈ D, 0 ≤ d) (p : String) (j : Int) :
    j ∈ live (file_entries D (get_exemplar_data fs p)) ↔
      ∃ c, raw_bit fs p c ∧ c ∉ D ∧ transform_value D c = j := by
  rw [live_file_entries D hnd hD, mem_file_entries]
  constructor
  · rintro ⟨c, ⟨hc0, v, hv, hv0⟩, hcD, hj⟩
    refine ⟨c, ⟨hc0, ?_⟩, hcD, hj⟩
    rcases get_exemplar_data_values fs p v (List.getElem?_mem hv) with h | h
    · exact absurd h hv0
    · rw [hv, h]
  · rintro ⟨c, ⟨hc0, hv⟩, hcD, hj⟩
    exact ⟨c, ⟨hc0, 1, hv, by decide⟩, hcD, hj⟩

/-! ### The matrix built from a corpus -/

theorem weight_lookup_filter (n name : String) (w : ℚ) : ∀ records : List (String × ℚ),
    weight_lookup (records.filter (fun p => decide (p.1 ≠ n))) name = some w →
    weight_lookup records name = some w := by
  intro records
  induction records with
  | nil => intro h; exact h
  | cons p rest ih =>
    intro h
    by_cases hp : p.1 = name
    · by_cases hn : p.1 = n
      · have hf : (p :: rest).filter (fun p => decide (p.1 ≠ n)) =
            rest.filter (fun p => decide (p.1 ≠ n)) := by simp [List.filter_cons, hn]
        rw [hf] at h
        exfalso
        simp only [weight_lookup] at h
        cases hfind : (rest.filter (fun p => decide (p.1 ≠ n))).find? (fun p => decide (p.1 = name)) with
        | none => rw [hfind] at h; cases h
        | some q =>
          have h1 := List.find?_some hfind
          have h2 := List.mem_of_find?_eq_some hfind
          have h3 := (List.mem_filter.mp h2).2
          simp only [decide_eq_true_eq] at h1 h3
          exact h3 (by rw [h1, ← hp, hn])
      · have hf : (p :: rest).filter (fun p => decide (p.1 ≠ n)) =
            p :: rest.filter (fun p => decide (p.1 ≠ n)) := by simp [List.filter_cons, hn]
        rw [hf] at h
        simpa [weight_lookup, List.find?_cons, hp] using h
    · have hstep : weight_lookup (p :: rest) name = weight_lookup rest name := by
        simp [weight_lookup, List.find?_cons, hp]
      rw [hstep]
      apply ih
      by_cases hn : p.1 = n
      · have hf : (p :: rest).filter (fun p => decide (p.1 ≠ n)) =
            rest.filter (fun p => decide (p.1 ≠ n)) := by simp [List.filter_cons, hn]
        rw [hf] at h; exact h
      · have hf : (p :: rest).filter (fun p => decide (p.1 ≠ n)) =
            p :: rest.filter (fun p => decide (p.1 ≠ n)) := by simp [List.filter_cons, hn]
        rw [hf] at h
        simpa [weight_lookup, List.find?_cons, hp] using h

theorem insert_corpus_rows_unweighted (fs : FileSystem) (D : List Int) (hnd : D.Nodup) (W : Nat)
    (hD : ∀ d ∈ D, 0 ≤ d) : ∀ (files : List CorpusFile) (m : Matrix),
    (∀ f ∈ files, (get_exemplar_data fs f.file_path).length ≤ W) →
    ∃ m1 new, insert_corpus_rows fs
        ((List.range W).map (fun j : Nat => transform_value D (j : Int))) files none m =
          Except.ok (m1, none) ∧
      m1.rowlist = m.rowlist ++ new ∧ m1.num_rows = m.num_rows + (new.length : Int) ∧
      m1.num_elems = m.num_elems + total_row_sum new ∧ m1.num_cols = m.num_cols ∧
      m1.num_cols_orig = m.num_cols_orig ∧
      ∀ e ∈ new, (∃ f ∈ files, e.file_path = f.file_path) ∧
        e.column = file_entries D (get_exemplar_data fs e.file_path) ∧
        e.row_sum = ((file_entries D (get_exemplar_data fs e.file_path)).length : Int) ∧
        e.weight = 1 := by
  intro files
  induction files with
  | nil =>
    intro m _
    exact ⟨m, [], rfl, by simp, by simp, by simp [total_row_sum], rfl, rfl, by simp⟩
  | cons f rest ih =>
    intro m hlen
    obtain ⟨row, hrow, hrp, hrc, hrs, hrw⟩ : ∃ row, row_from_file fs f.file_path
        ((List.range W).map (fun j : Nat => transform_value D (j : Int))) = Except.ok row ∧
        row.file_path = f.file_path ∧
        row.column = file_entries D (get_exemplar_data fs row.file_path) ∧
        row.row_sum = ((file_entries D (get_exemplar_data fs row.file_path)).length : Int) ∧
        row.weight = 1 :=
      ⟨_, row_from_file_ok fs D hnd W hD f.file_path (hlen f (List.mem_cons_self _ _)),
        rfl, rfl, rfl, rfl⟩
    obtain ⟨m1, new, h1, h2, h3, h4, h5, h6, h7⟩ := ih (insert_row m row)
      (fun g hg => hlen g (List.mem_cons_of_mem _ hg))
    refine ⟨m1, row :: new, ?_, ?_, ?_, ?_, h5, h6, ?_⟩
    · simp only [insert_corpus_rows, hrow]
      exact h1
    · rw [h2]; simp [insert_row]
    · rw [h3]; simp only [insert_row, List.length_cons]; push_cast; ring
    · rw [h4]; simp only [insert_row, total_row_sum, List.map_cons, List.sum_cons]; ring
    · intro e he
      rcases List.mem_cons.mp he with rfl | he
      · exact ⟨⟨f, List.mem_cons_self _ _, hrp⟩, hrc, hrs, hrw⟩
      · obtain ⟨⟨g, hg, hp⟩, r2, r3, r4⟩ := h7 e he
        exact ⟨⟨g, List.mem_cons_of_mem _ hg, hp⟩, r2, r3, r4⟩

theorem insert_corpus_rows_weighted (fs : FileSystem) (D : List Int) (hnd : D.Nodup) (W : Nat)
    (hD : ∀ d ∈ D, 0 ≤ d) : ∀ (files : List CorpusFile) (records : List (String × ℚ))
      (m : Matrix),
    (∀ f ∈ files, (get_exemplar_data fs f.file_path).length ≤ W) →
    ∃ m1 records1 new, insert_corpus_rows fs
        ((List.range W).map (fun j : Nat => transform_value D (j : Int))) files (some records) m =
          Except.ok (m1, some records1) ∧
      m1.rowlist = m.rowlist ++ new ∧ m1.num_rows = m.num_rows + (new.length : Int) ∧
      m1.num_elems = m.num_elems + total_row_sum new ∧ m1.num_cols = m.num_cols ∧
      m1.num_cols_orig = m.num_cols_orig ∧
      (∀ e ∈ new, (∃ f ∈ files, e.file_path = f.file_path) ∧
        e.column = file_entries D (get_exemplar_data fs e.file_path) ∧
        e.row_sum = ((file_entries D (get_exemplar_data fs e.file_path)).length : Int) ∧
        weight_lookup records (filename e.file_path) = some e.weight ∧ 0 < e.weight) ∧
      ∀ p ∈ records1, p ∈ records ∧ ∀ f ∈ files, p.1 ≠ filename f.file_path := by
  intro files
  induction files with
  | nil =>
    intro records m _
    exact ⟨m, records, [], rfl, by simp, by simp, by simp [total_row_sum], rfl, rfl, by simp,
      fun p hp => ⟨hp, by simp⟩⟩
  | cons f rest ih =>
    intro records m hlen
    obtain ⟨row, hrow, hrp, hrc, hrs⟩ : ∃ row, row_from_file fs f.file_path
        ((List.range W).map (fun j : Nat => transform_value D (j : Int))) = Except.ok row ∧
        row.file_path = f.file_path ∧
        row.column = file_entries D (get_exemplar_data fs row.file_path) ∧
        row.row_sum = ((file_entries D (get_exemplar_data fs row.file_path)).length : Int) :=
      ⟨_, row_from_file_ok fs D hnd W hD f.file_path (hlen f (List.mem_cons_self _ _)),
        rfl, rfl, rfl⟩
    have hmemf : ∃ g ∈ f :: rest, row.file_path = g.file_path := ⟨f, List.mem_cons_self _ _, hrp⟩
    have hlen' : ∀ g ∈ rest, (get_exemplar_data fs g.file_path).length ≤ W :=
      fun g hg => hlen g (List.mem_cons_of_mem _ hg)
    cases hlook : weight_lookup records (filename row.file_path) with
    | none =>
      obtain ⟨m1, records1, new, h1, h2, h3, h4, h5, h6, h7, h8⟩ := ih records m hlen'
      refine ⟨m1, records1, new, ?_, h2, h3, h4, h5, h6, ?_, ?_⟩
      · simp only [insert_corpus_rows, hrow, hlook]
        exact h1
      · intro e he
        obtain ⟨⟨g, hg, hp⟩, r⟩ := h7 e he
        exact ⟨⟨g, List.mem_cons_of_mem _ hg, hp⟩, r⟩
      · intro p hp
        obtain ⟨q1, q2⟩ := h8 p hp
        refine ⟨q1, ?_⟩
        intro g hg
        rcases List.mem_cons.mp hg with rfl | hg
        · intro hpn
          rw [← hrp] at hpn
          simp only [weight_lookup] at hlook
          cases hfind : records.find? (fun p => decide (p.1 = filename row.file_path)) with
          | none =>
            have := List.find?_eq_none.mp hfind p q1
            simp only [decide_eq_true_eq] at this
            exact this hpn
          | some q => rw [hfind] at hlook; cases hlook
        · exact q2 g hg
    | some w =>
      have hleft : ∀ (m2 : Matrix) (m1 : Matrix) (records1 : List (String × ℚ))
          (new : List RowElem),
          (∀ e ∈ new, (∃ g ∈ rest, e.file_path = g.file_path) ∧
            e.column = file_entries D (get_exemplar_data fs e.file_path) ∧
            e.row_sum = ((file_entries D (get_exemplar_data fs e.file_path)).length : Int) ∧
            weight_lookup (records.filter (fun p => decide (p.1 ≠ filename row.file_path)))
              (filename e.file_path) = some e.weight ∧ 0 < e.weight) →
          (∀ p ∈ records1, p ∈ records.filter (fun p => decide (p.1 ≠ filename row.file_path)) ∧
            ∀ g ∈ rest, p.1 ≠ filename g.file_path) →
          (∀ e ∈ new, (∃ g ∈ f :: rest, e.file_path = g.file_path) ∧
            e.column = file_entries D (get_exemplar_data fs e.file_path) ∧
            e.row_sum = ((file_entries D (get_exemplar_data fs e.file_path)).length : Int) ∧
            weight_lookup records (filename e.file_path) = some e.weight ∧ 0 < e.weight) ∧
          (∀ p ∈ records1, p ∈ records ∧ ∀ g ∈ f :: rest, p.1 ≠ filename g.file_path) := by
        intro _ _ records1 new h7 h8
        refine ⟨?_, ?_⟩
        · intro e he
          obtain ⟨⟨g, hg, hp⟩, r2, r3, r4, r5⟩ := h7 e he
          exact ⟨⟨g, List.mem_cons_of_mem _ hg, hp⟩, r2, r3,
            weight_lookup_filter _ _ _ records r4, r5⟩
        · intro p hp
          obtain ⟨q1, q2⟩ := h8 p hp
          have q3 := List.mem_filter.mp q1
          refine ⟨q3.1, ?_⟩
          intro g hg
          rcases List.mem_cons.mp hg with rfl | hg
          · rw [← hrp]; simpa using q3.2
          · exact q2 g hg
      by_cases hw : w > 0
      · obtain ⟨m1, records1, new, h1, h2, h3, h4, h5, h6, h7, h8⟩ :=
          ih (records.filter (fun p => decide (p.1 ≠ filename row.file_path)))
            (insert_row m { row with weight := w }) hlen'
        obtain ⟨g7, g8⟩ := hleft m m1 records1 new h7 h8
        refine ⟨m1, records1, { row with weight := w } :: new, ?_, ?_, ?_, ?_, h5, h6, ?_, g8⟩
        · simp only [insert_corpus_rows, hrow, hlook, if_pos hw]
          exact h1
        · rw [h2]; simp [insert_row]
        · rw [h3]; simp only [insert_row, List.length_cons]; push_cast; ring
        · rw [h4]; simp only [insert_row, total_row_sum, List.map_cons, List.sum_cons]; ring
        · intro e he
          rcases List.mem_cons.mp he with rfl | he
          · exact ⟨hmemf, hrc, hrs, hlook, hw⟩
          · exact g7 e he
      · obtain ⟨m1, records1, new, h1, h2, h3, h4, h5, h6, h7, h8⟩ :=
          ih (records.filter (fun p => decide (p.1 ≠ filename row.file_path))) m hlen'
        obtain ⟨g7, g8⟩ := hleft m m1 records1 new h7 h8
        refine ⟨m1, records1, new, ?_, h2, h3, h4, h5, h6, g7, g8⟩
        simp only [insert_corpus_rows, hrow, hlook, if_neg hw]
        exact h1

theorem corpus_sorted_head (fs : FileSystem) (names : List String) (hne : names ≠ []) :
    ∃ first rest, sort_by corpus_file_greater (get_file_list fs names) = first :: rest ∧
      corpus_width fs names = 8 * first.file_size ∧
      ∀ f ∈ first :: rest, f.file_path ∈ names ∧ f.file_size = ((fs f.file_path).length : Int) ∧
        f.file_size ≤ first.file_size := by
  have hperm := sort_by_perm corpus_file_greater (get_file_list fs names)
  have hsorted := sort_by_sorted corpus_file_greater (fun _ => True)
    (fun a b _ _ => by
      simp only [corpus_file_greater, decide_eq_false_iff_not, not_lt, gt_iff_lt]
      exact le_total _ _)
    (fun a b c _ _ _ h1 h2 => by
      simp only [corpus_file_greater, decide_eq_false_iff_not, not_lt, gt_iff_lt] at h1 h2 ⊢
      omega)
    (get_file_list fs names) (fun _ _ => trivial)
  have hmem : ∀ f ∈ sort_by corpus_file_greater (get_file_list fs names),
      f.file_path ∈ names ∧ f.file_size = ((fs f.file_path).length : Int) := by
    intro f hf
    have := hperm.mem_iff.mp hf
    simp only [get_file_list, List.mem_map] at this
    obtain ⟨n, hn, rfl⟩ := this
    exact ⟨hn, rfl⟩
  cases hc : sort_by corpus_file_greater (get_file_list fs names) with
  | nil =>
    exfalso
    have := hperm.length_eq
    rw [hc] at this
    simp only [get_file_list, List.length_map, List.length_nil] at this
    exact hne (List.length_eq_zero.mp this.symm)
  | cons first rest =>
    rw [hc] at hsorted hmem
    refine ⟨first, rest, rfl, by simp only [corpus_width, hc], ?_⟩
    intro f hf
    refine ⟨(hmem f hf).1, (hmem f hf).2, ?_⟩
    rcases List.mem_cons.mp hf with rfl | hf
    · exact le_refl _
    · have := (List.pairwise_cons.mp hsorted).1 f hf
      simpa [corpus_file_greater] using this

theorem corpus_width_nonneg (fs : FileSystem) (names : List String) :
    0 ≤ corpus_width fs names := by
  by_cases hne : names = []
  · subst hne; simp [corpus_width, get_file_list, sort_by]
  · obtain ⟨first, rest, _, hw, hall⟩ := corpus_sorted_head fs names hne
    have := (hall first (List.mem_cons_self _ _)).2.1
    rw [hw, this]
    omega

theorem raw_length_le_width (fs : FileSystem) (names : List String) (n : String)
    (hn : n ∈ names) : ((get_exemplar_data fs n).length : Int) ≤ corpus_width fs names := by
  have hne : names ≠ [] := List.ne_nil_of_mem hn
  obtain ⟨first, rest, hc, hw, hall⟩ := corpus_sorted_head fs names hne
  have hperm := sort_by_perm corpus_file_greater (get_file_list fs names)
  have hin : ({ file_path := n, file_size := ((fs n).length : Int) } : CorpusFile) ∈
      first :: rest := by
    rw [← hc]
    apply hperm.mem_iff.mpr
    simp only [get_file_list, List.mem_map]
    exact ⟨n, hn, rfl⟩
  have := (hall _ hin).2.2
  simp only at this
  rw [get_exemplar_data_length, hw]
  push_cast
  omega

/-- The corpus constructor on a non-empty corpus: the matrix it has built when
it checks that no weight record is left over. -/
theorem matrix_from_corpus_shape (fs : FileSystem) (names : List String)
    (weight_file : WeightFile) (D : List Int) (hne : names ≠ []) (hnd : D.Nodup)
    (hD : ∀ d ∈ D, 0 ≤ d ∧ d < corpus_width fs names) :
    ∃ (m : Matrix) (left : Option (List (String × ℚ))),
      matrix_from_corpus fs names weight_file D =
        (match left with
         | some (_ :: _) => Except.error Err.assert_failed
         | _ => Except.ok m) ∧
      (∀ p records1, left = some records1 → p ∈ records1 →
        ∃ records, weight_file = some records ∧ p ∈ records ∧ p.1 ∉ names) ∧
      matrix_wf m ∧ m.num_cols_orig = corpus_width fs names ∧
      m.num_cols = corpus_width fs names - (D.length : Int) ∧
      ∀ e ∈ m.rowlist, corpus_row fs weight_file D names e := by
  obtain ⟨first, rest, hc, hw, hall⟩ := corpus_sorted_head fs names hne
  have hW0 := corpus_width_nonneg fs names
  have hD0 : ∀ d ∈ D, 0 ≤ d := fun d hd => (hD d hd).1
  have hT := transform_index_ok (corpus_width fs names) D hW0 hnd hD
  rw [hw] at hT
  have hlen : ∀ f ∈ first :: rest,
      (get_exemplar_data fs f.file_path).length ≤ (8 * first.file_size).toNat := by
    intro f hf
    have := raw_length_le_width fs names f.file_path (hall f hf).1
    rw [hw] at this
    omega
  have hwf_of : ∀ (m1 : Matrix) (new : List RowElem),
      m1.rowlist = [] ++ new → m1.num_rows = 0 + (new.length : Int) →
      m1.num_elems = 0 + total_row_sum new → m1.num_cols_orig = 8 * first.file_size →
      (∀ e ∈ new, (∃ f ∈ first :: rest, e.file_path = f.file_path) ∧
        e.column = file_entries D (get_exemplar_data fs e.file_path) ∧
        e.row_sum = ((file_entries D (get_exemplar_data fs e.file_path)).length : Int)) →
      matrix_wf { m1 with num_cols := m1.num_cols_orig - (D.length : Int) } := by
    intro m1 new h2 h3 h4 h6 h7
    rw [List.nil_append] at h2
    refine ⟨by simp only [h3, h2, zero_add], ?_, by simp only [h4, h2, zero_add], ?_⟩
    · have := kept_before_total D hnd (corpus_width fs names).toNat (by
        rw [Int.toNat_of_nonneg hW0]; exact hD)
      simp only [h6, ← hw]
      omega
    · intro e he
      rw [h2] at he
      obtain ⟨⟨f, hf, hp⟩, r2, r3⟩ := h7 e he
      simp only [h6, ← hw]
      exact file_row_wf fs D hnd _ hD e e.file_path
        (by rw [hp]; exact raw_length_le_width fs names f.file_path (hall f hf).1) r2 r3
  cases weight_file with
  | none =>
    obtain ⟨m1, new, h1, h2, h3, h4, h5, h6, h7⟩ := insert_corpus_rows_unweighted fs D hnd
      (8 * first.file_size).toNat hD0 (first :: rest)
      { num_rows := 0, num_cols := 0, num_cols_orig := 8 * first.file_size, num_elems := 0,
        rowlist := [] } hlen
    refine ⟨{ m1 with num_cols := m1.num_cols_orig - (D.length : Int) }, none, ?_, ?_, ?_, ?_, ?_, ?_⟩
    · simp only [matrix_from_corpus, hc, hT, h1]
    · intro p records1 h; cases h
    · exact hwf_of m1 new h2 h3 h4 h6 (fun e he => ⟨(h7 e he).1, (h7 e he).2.1, (h7 e he).2.2.1⟩)
    · simp only [h6, hw]
    · simp only [h6, hw]
    · intro e he
      have he' : e ∈ m1.rowlist := he
      rw [h2, List.nil_append] at he'
      obtain ⟨⟨f, hf, hp⟩, r2, r3, r4⟩ := h7 e he'
      exact ⟨by rw [hp]; exact (hall f hf).1, r2, r3, r4, by rw [r4]; exact zero_lt_one⟩
  | some records =>
    obtain ⟨m1, records1, new, h1, h2, h3, h4, h5, h6, h7, h8⟩ := insert_corpus_rows_weighted fs D
      hnd (8 * first.file_size).toNat hD0 (first :: rest) records
      { num_rows := 0, num_cols := 0, num_cols_orig := 8 * first.file_size, num_elems := 0,
        rowlist := [] } hlen
    refine ⟨{ m1 with num_cols := m1.num_cols_orig - (D.length : Int) }, some records1,
      ?_, ?_, ?_, ?_, ?_, ?_⟩
    · simp only [matrix_from_corpus, hc, hT, h1]
    · intro p r1 h hp
      injection h with h
      subst h
      obtain ⟨q1, q2⟩ := h8 p hp
      refine ⟨records, rfl, q1, ?_⟩
      intro hn
      have hperm := sort_by_perm corpus_file_greater (get_file_list fs names)
      have hin : ({ file_path := p.1, file_size := ((fs p.1).length : Int) } : CorpusFile) ∈
          first :: rest := by
        rw [← hc]
        apply hperm.mem_iff.mpr
        simp only [get_file_list, List.mem_map]
        exact ⟨p.1, hn, rfl⟩
      exact q2 _ hin rfl
    · exact hwf_of m1 new h2 h3 h4 h6 (fun e he => ⟨(h7 e he).1, (h7 e he).2.1, (h7 e he).2.2.1⟩)
    · simp only [h6, hw]
    · simp only [h6, hw]
    · intro e he
      have he' : e ∈ m1.rowlist := he
      rw [h2, List.nil_append] at he'
      obtain ⟨⟨f, hf, hp⟩, r2, r3, r4, r5⟩ := h7 e he'
      refine ⟨by rw [hp]; exact (hall f hf).1, r2, r3, ?_, r5⟩
      simp only [weight_of, weight_map_at, r4]

theorem matrix_from_corpus_ok (fs : FileSystem) (names : List String)
    (weight_file : WeightFile) (D : List Int) (hne : names ≠ []) (hnd : D.Nodup)
    (hD : ∀ d ∈ D, 0 ≤ d ∧ d < corpus_width fs names)
    (hrec : ∀ records, weight_file = some records → ∀ p ∈ records, p.1 ∈ names) :
    ∃ m, matrix_from_corpus fs names weight_file D = Except.ok m ∧
      matrix_wf m ∧ m.num_cols_orig = corpus_width fs names ∧
      m.num_cols = corpus_width fs names - (D.length : Int) ∧
      ∀ e ∈ m.rowlist, corpus_row fs weight_file D names e := by
  obtain ⟨m, left, h1, h2, h3⟩ := matrix_from_corpus_shape fs names weight_file D hne hnd hD
  refine ⟨m, ?_, h3⟩
  rw [h1]
  cases left with
  | none => rfl
  | some l =>
    cases l with
    | nil => rfl
    | cons p rest =>
      exfalso
      obtain ⟨records, hr, hp, hn⟩ := h2 p (p :: rest) rfl (List.mem_cons_self _ _)
      exact hn (hrec records hr p hp)

theorem matrix_from_corpus_spec (fs : FileSystem) (names : List String)
    (weight_file : WeightFile) (D : List Int) (hnd : D.Nodup)
    (hD : ∀ d ∈ D, 0 ≤ d ∧ d < corpus_width fs names) (m : Matrix)
    (h : matrix_from_corpus fs names weight_file D = Except.ok m) :
    matrix_wf m ∧ m.num_cols_orig = corpus_width fs names ∧
      m.num_cols = corpus_width fs names - (D.length : Int) ∧
      ∀ e ∈ m.rowlist, corpus_row fs weight_file D names e := by
  by_cases hne : names = []
  · subst hne
    simp [matrix_from_corpus, get_file_list, sort_by] at h
  · obtain ⟨m1, left, h1, _, h3⟩ := matrix_from_corpus_shape fs names weight_file D hne hnd hD
    rw [h1] at h
    cases left with
    | none => injection h with h; subst h; exact h3
    | some l =>
      cases l with
      | nil => injection h with h; subst h; exact h3
      | cons p rest => cases h

/-! ### The cover property of `solve_oscp` -/

theorem column_count_nonneg (rows : List RowElem) (c : Int) : 0 ≤ column_count rows c := by
  simp only [column_count]
  apply List.sum_nonneg
  intro x hx
  obtain ⟨_, _, rfl⟩ := List.mem_map.mp hx
  exact Int.natCast_nonneg _

theorem entry_solution_fields (m : Matrix) (S : Solution) :
    (entry_solution m S).rowdata = S.rowdata ∧ (entry_solution m S).solution = S.solution ∧
      (entry_solution m S).weight = S.weight ∧
      (entry_solution m S).num_non_optimal = S.num_non_optimal := by
  simp only [entry_solution]
  split
  · exact ⟨rfl, rfl, rfl, rfl⟩
  · split <;> exact ⟨rfl, rfl, rfl, rfl⟩

theorem entry_matrix_rows (m : Matrix) (e1 : RowElem) (h : e1 ∈ (entry_matrix m).rowlist) :
    ∃ e ∈ m.rowlist, e1.file_path = e.file_path ∧ e1.weight = e.weight := by
  simp only [entry_matrix] at h
  split at h
  · exact ⟨e1, h, rfl, rfl⟩
  · obtain ⟨e, he, rfl⟩ := (relocate_matrix_rows_relocated _ m).2 e1 h
    exact ⟨e, he, rfl, rfl⟩

theorem cover_inv_entry (fs : FileSystem) (W0 : Int) (m : Matrix) (S : Solution)
    (hm : matrix_wf m) (hW : m.num_cols_orig = W0) (hstart : start_ok fs W0 m S)
    (hrows : ∀ e ∈ m.rowlist, ((get_exemplar_data fs e.file_path).length : Int) ≤ W0)
    (hrd : S.rowdata = S.solution.map (get_exemplar_data fs))
    (hlen : ∀ row ∈ S.rowdata, (row.length : Int) ≤ W0) :
    cover_inv fs W0 (entry_matrix m) (entry_solution m S) := by
  obtain ⟨f1, f2, _, _⟩ := entry_solution_fields m S
  have hE := mem_entry_columns m hm
  have hnd := entry_columns_nodup m
  have hrg : ∀ d ∈ entry_columns m, 0 ≤ d ∧ d < m.num_cols :=
    fun d hd => ⟨((hE d).mp hd).1, ((hE d).mp hd).2.1⟩
  have hD0 : ∀ d ∈ entry_columns m, 0 ≤ d := fun d hd => (hrg d hd).1
  refine ⟨by rw [(entry_matrix_fields m).2.1, hW], ?_, ?_, ?_, by rw [f1, f2, hrd],
    by rw [f1]; exact hlen⟩
  · intro c hc0 hc1
    rcases hstart c hc0 hc1 with hs | hcov | ⟨j, hj, hz⟩
    · left
      have hne : ¬ S.initial_singularities.length = 0 := by
        intro h0
        rw [List.length_eq_zero.mp h0] at hs
        exact List.not_mem_nil _ hs
      simp only [entry_solution, if_neg hne]
      split <;> exact hs
    · right; left; rw [f1]; exact hcov
    · by_cases hcnt : column_count m.rowlist j = 0
      · obtain ⟨hnil, rfl⟩ := hz hcnt
        left
        have hin : j ∈ entry_columns m := (hE j).mpr ⟨hj.1, hj.2.1, hcnt⟩
        have hne : entry_columns m ≠ [] := List.ne_nil_of_mem hin
        simp only [entry_solution, if_neg hne, hnil, List.length_nil, if_true]
        exact hin
      · right; right
        have hjE : j ∉ entry_columns m := fun h => hcnt ((hE j).mp h).2.2
        simp only [entry_matrix]
        split
        · exact ⟨j, hj⟩
        · exact ⟨_, col_witness_relocate fs m _ hm _ hnd hrg
            (relocate_matrix_rows_relocated _ m) c j hj hjE⟩
  · intro j1 hj0 hj1
    have hpos : ∀ a, 0 ≤ a → a < m.num_cols → a ∉ entry_columns m →
        ∃ e ∈ m.rowlist, a ∈ live e.column := by
      intro a ha0 ha1 haE
      apply (column_count_pos_iff m.rowlist a).mp
      have h1 := column_count_nonneg m.rowlist a
      have h2 : column_count m.rowlist a ≠ 0 := fun h => haE ((hE a).mpr ⟨ha0, ha1, h⟩)
      omega
    by_cases he : entry_columns m = []
    · simp only [entry_matrix, if_pos he] at hj1 ⊢
      exact hpos j1 hj0 hj1 (by rw [he]; exact List.not_mem_nil _)
    · simp only [entry_matrix, if_neg he] at hj1 ⊢
      obtain ⟨a, ha0, ha1, haE, hta⟩ := transform_value_surj _ hnd m.num_cols hm.2.1 hrg j1 hj0 hj1
      obtain ⟨e, hemem, hlive⟩ := hpos a ha0 ha1 haE
      have hw := hm.2.2.2 e hemem
      refine ⟨relocate_row (entry_columns m) e, ?_, ?_⟩
      · simp only [relocate_matrix]
        exact List.mem_map.mpr ⟨e, hemem, rfl⟩
      · exact (mem_live_relocate_row _ hnd hD0 e (fun v hv => (hw.2.2 v hv).1) _).mpr
          ⟨a, hlive, haE, hta⟩
  · intro e1 he1
    obtain ⟨e, he, hp, _⟩ := entry_matrix_rows m e1 he1
    rw [hp]; exact hrows e he

theorem col_freq_add_spec : ∀ (row col_freq : List Int) (n : Nat),
    n + row.length ≤ col_freq.length →
    ∃ cf, col_freq_add col_freq row (n : Int) = Except.ok cf ∧ cf.length = col_freq.length ∧
      ∀ (k : Nat) (x : Int), col_freq[k]? = some x → ∃ y : Int, cf[k]? = some y ∧
        (y ≠ x → ∃ (i : Nat) (v : Int), k = n + i ∧ row[i]? = some v ∧ v ≠ 0) := by
  intro row
  induction row with
  | nil =>
    intro col_freq n _
    exact ⟨col_freq, rfl, rfl, fun k x hk => ⟨x, hk, fun h => absurd rfl h⟩⟩
  | cons v rest ih =>
    intro col_freq n hlen
    simp only [List.length_cons] at hlen
    have hcast : ((n : Int) + 1) = ((n + 1 : Nat) : Int) := by push_cast; rfl
    have hn : n < col_freq.length := by omega
    have hat := at_index_of_getElem? col_freq n col_freq[n] (List.getElem?_eq_getElem hn)
    simp only [col_freq_add, hat, Int.toNat_ofNat, hcast]
    obtain ⟨cf, hcf, hl, hsp⟩ := ih (col_freq.set n (col_freq[n] + v)) (n + 1) (by
      rw [List.length_set]; omega)
    refine ⟨cf, hcf, by rw [hl, List.length_set], ?_⟩
    intro k x hk
    by_cases hkn : k = n
    · subst hkn
      have hx : x = col_freq[k] := by
        rw [List.getElem?_eq_getElem hn] at hk; injection hk with hk; exact hk.symm
      obtain ⟨y, hy, hne⟩ := hsp k (x + v) (by rw [List.getElem?_set_self hn, hx])
      refine ⟨y, hy, ?_⟩
      intro hyx
      by_cases hv : v = 0
      · obtain ⟨i, _, hki, _⟩ := hne (by rw [hv, add_zero]; exact hyx)
        omega
      · exact ⟨0, v, rfl, by simp, hv⟩
    · obtain ⟨y, hy, hne⟩ := hsp k x (by
        rw [List.getElem?_set_ne (Ne.symm hkn)]; exact hk)
      refine ⟨y, hy, ?_⟩
      intro hyx
      obtain ⟨i, w, hki, hw, hw0⟩ := hne hyx
      exact ⟨i + 1, w, by omega, by rw [List.getElem?_cons_succ]; exact hw, hw0⟩

theorem count_column_frequencies_spec (fs : FileSystem) (weight_file : WeightFile)
    (num_cols : Int) : ∀ (files : List CorpusFile) (col_freq : List Int),
    num_cols = (col_freq.length : Int) →
    (∀ f ∈ files, ((get_exemplar_data fs f.file_path).length : Int) ≤ num_cols) →
    ∃ cf, count_column_frequencies fs weight_file num_cols files col_freq = Except.ok cf ∧
      cf.length = col_freq.length ∧
      ∀ (k : Nat) (x : Int), col_freq[k]? = some x → ∃ y : Int, cf[k]? = some y ∧
        (y ≠ x → ∃ f ∈ files, skipped weight_file f = false ∧ raw_bit fs f.file_path (k : Int)) := by
  intro files
  induction files with
  | nil =>
    intro col_freq _ _
    exact ⟨col_freq, rfl, rfl, fun k x hk => ⟨x, hk, fun h => absurd rfl h⟩⟩
  | cons f rest ih =>
    intro col_freq hW hlen
    have hlen' : ∀ g ∈ rest, ((get_exemplar_data fs g.file_path).length : Int) ≤ num_cols :=
      fun g hg => hlen g (List.mem_cons_of_mem _ hg)
    by_cases hs : skipped weight_file f = true
    · obtain ⟨cf, hcf, hl, hsp⟩ := ih col_freq hW hlen'
      refine ⟨cf, by simp only [count_column_frequencies, hs, if_true]; exact hcf, hl, ?_⟩
      intro k x hk
      obtain ⟨y, hy, hne⟩ := hsp k x hk
      refine ⟨y, hy, fun h => ?_⟩
      obtain ⟨g, hg, r⟩ := hne h
      exact ⟨g, List.mem_cons_of_mem _ hg, r⟩
    · have hf := hlen f (List.mem_cons_self _ _)
      obtain ⟨cf1, hcf1, hl1, hsp1⟩ := col_freq_add_spec (get_exemplar_data fs f.file_path)
        col_freq 0 (by omega)
      have hcf1' : col_freq_add col_freq (get_exemplar_data fs f.file_path) 0 = Except.ok cf1 := hcf1
      obtain ⟨cf, hcf, hl, hsp⟩ := ih cf1 (by rw [hl1]; exact hW) hlen'
      refine ⟨cf, ?_, by rw [hl, hl1], ?_⟩
      · simp only [count_column_frequencies, hs, ge_iff_le, hf, if_true, hcf1']
        exact hcf
      · intro k x hk
        obtain ⟨y1, hy1, hne1⟩ := hsp1 k x hk
        obtain ⟨y, hy, hne⟩ := hsp k y1 hy1
        refine ⟨y, hy, fun h => ?_⟩
        by_cases h1 : y1 = x
        · obtain ⟨g, hg, r⟩ := hne (by rw [h1]; exact h)
          exact ⟨g, List.mem_cons_of_mem _ hg, r⟩
        · obtain ⟨i, v, hki, hv, hv0⟩ := hne1 h1
          rw [zero_add] at hki
          subst hki
          refine ⟨f, List.mem_cons_self _ _, by simpa using hs, Int.natCast_nonneg _, ?_⟩
          rcases get_exemplar_data_values fs f.file_path v (List.getElem?_mem hv) with h0 | h0
          · exact absurd h0 hv0
          · rw [Int.toNat_ofNat, hv, h0]

theorem is_unitarian_row_total (col_freq : List Int) : ∀ (row : List Int) (n : Nat),
    n + row.length ≤ col_freq.length →
    ∃ b, is_unitarian_row col_freq row (n : Int) = Except.ok b := by
  intro row
  induction row with
  | nil => intro n _; exact ⟨false, rfl⟩
  | cons v rest ih =>
    intro n hlen
    simp only [List.length_cons] at hlen
    have hcast : ((n : Int) + 1) = ((n + 1 : Nat) : Int) := by push_cast; rfl
    have hn : n < col_freq.length := by omega
    have hat := at_index_of_getElem? col_freq n col_freq[n] (List.getElem?_eq_getElem hn)
    obtain ⟨b, hb⟩ := ih (n + 1) (by omega)
    simp only [is_unitarian_row, hat, hcast, hb]
    split
    · split
      · exact ⟨true, rfl⟩
      · exact ⟨b, rfl⟩
    · exact ⟨b, rfl⟩

theorem with_exemplar_fields (fs : FileSystem) (weight_file : WeightFile) (S : Solution)
    (p : String) :
    (with_exemplar fs weight_file S p).solution = S.solution ++ [p] ∧
    (with_exemplar fs weight_file S p).rowdata = S.rowdata ++ [get_exemplar_data fs p] ∧
    (with_exemplar fs weight_file S p).weight = S.weight + weight_of weight_file p ∧
    (with_exemplar fs weight_file S p).initial_singularities = S.initial_singularities ∧
    (with_exemplar fs weight_file S p).num_non_optimal = S.num_non_optimal := by
  cases weight_file with
  | none => simp [with_exemplar, Solution.add_to_soln, filename, weight_of]
  | some records => simp [with_exemplar, Solution.add_to_soln, filename, weight_of]

theorem ignore_unitarian_rows_selected (fs : FileSystem) (weight_file : WeightFile)
    (num_cols : Int) (col_freq : List Int) (f : CorpusFile) (rest : List CorpusFile)
    (S : Solution) (cols : List Int) (hs : ¬ skipped weight_file f = true)
    (hf : ((get_exemplar_data fs f.file_path).length : Int) ≤ num_cols)
    (hb : is_unitarian_row col_freq (get_exemplar_data fs f.file_path) 0 = Except.ok true) :
    ignore_unitarian_rows fs weight_file num_cols col_freq (f :: rest) S cols =
      ignore_unitarian_rows fs weight_file num_cols col_freq rest
        (with_exemplar fs weight_file S f.file_path)
        (cols ++ nonzero_positions (get_exemplar_data fs f.file_path) 0) := by
  simp only [ignore_unitarian_rows, hs, ge_iff_le, hf, if_true, hb]
  cases weight_file <;> rfl

/-- The exemplars selected by the large-data pass keep the weight law, and
the columns it ignores beyond the given ones are columns set in a selected
exemplar. -/
theorem ignore_unitarian_rows_spec (fs : FileSystem) (weight_file : WeightFile)
    (num_cols : Int) (col_freq : List Int) (hW : num_cols = (col_freq.length : Int)) :
    ∀ (files : List CorpusFile) (S : Solution) (cols : List Int),
    (∀ f ∈ files, ((get_exemplar_data fs f.file_path).length : Int) ≤ num_cols) →
    ∃ (S1 : Solution) (sel : List String),
      ignore_unitarian_rows fs weight_file num_cols col_freq files S cols =
        Except.ok (S1, cols ++ sel.flatMap (fun p => nonzero_positions (get_exemplar_data fs p) 0)) ∧
      (∀ p ∈ sel, ∃ f ∈ files, f.file_path = p) ∧
      S1.solution = S.solution ++ sel ∧
      S1.rowdata = S.rowdata ++ sel.map (get_exemplar_data fs) ∧
      S1.weight = S.weight + (sel.map (weight_of weight_file)).sum ∧
      S1.initial_singularities = S.initial_singularities ∧
      S1.num_non_optimal = S.num_non_optimal := by
  intro files
  induction files with
  | nil =>
    intro S cols _
    exact ⟨S, [], by simp [ignore_unitarian_rows], by simp, by simp, by simp, by simp, rfl, rfl⟩
  | cons f rest ih =>
    intro S cols hlen
    have hlen' : ∀ g ∈ rest, ((get_exemplar_data fs g.file_path).length : Int) ≤ num_cols :=
      fun g hg => hlen g (List.mem_cons_of_mem _ hg)
    have hlift : ∀ sel : List String, (∀ p ∈ sel, ∃ g ∈ rest, g.file_path = p) →
        ∀ p ∈ sel, ∃ g ∈ f :: rest, g.file_path = p := by
      intro sel h p hp
      obtain ⟨g, hg, r⟩ := h p hp
      exact ⟨g, List.mem_cons_of_mem _ hg, r⟩
    by_cases hs : skipped weight_file f = true
    · obtain ⟨S1, sel, h1, h2, h3⟩ := ih S cols hlen'
      exact ⟨S1, sel, by simp only [ignore_unitarian_rows, hs, if_true]; exact h1,
        hlift sel h2, h3⟩
    · have hf := hlen f (List.mem_cons_self _ _)
      obtain ⟨b, hb⟩ := is_unitarian_row_total col_freq (get_exemplar_data fs f.file_path) 0
        (by omega)
      have hb' : is_unitarian_row col_freq (get_exemplar_data fs f.file_path) 0 = Except.ok b := hb
      cases b with
      | false =>
        obtain ⟨S1, sel, h1, h2, h3⟩ := ih S cols hlen'
        refine ⟨S1, sel, ?_, hlift sel h2, h3⟩
        simp only [ignore_unitarian_rows, hs, ge_iff_le, hf, if_true, hb']
        exact h1
      | true =>
        obtain ⟨g1, g2, g3, g4, g5⟩ := with_exemplar_fields fs weight_file S f.file_path
        obtain ⟨S1, sel, h1, h2, h3, h4, h5, h6, h7⟩ := ih (with_exemplar fs weight_file S f.file_path)
          (cols ++ nonzero_positions (get_exemplar_data fs f.file_path) 0) hlen'
        refine ⟨S1, f.file_path :: sel, ?_, ?_, ?_, ?_, ?_, by rw [h6, g4], by rw [h7, g5]⟩
        · rw [ignore_unitarian_rows_selected fs weight_file num_cols col_freq f rest S cols hs hf
            hb', h1]
          simp [List.append_assoc]
        · intro p hp
          rcases List.mem_cons.mp hp with rfl | hp
          · exact ⟨f, List.mem_cons_self _ _, rfl⟩
          · exact hlift sel h2 p hp
        · rw [h3, g1]; simp
        · rw [h4, g2]; simp
        · rw [h5, g3]; simp only [List.map_cons, List.sum_cons]; ring

theorem weight_lookup_cons_pos (p : String × ℚ) (l : List (String × ℚ)) (name : String)
    (h : p.1 = name) : weight_lookup (p :: l) name = some p.2 := by
  simp [weight_lookup, List.find?_cons, h]

theorem weight_lookup_cons_neg (p : String × ℚ) (l : List (String × ℚ)) (name : String)
    (h : ¬ p.1 = name) : weight_lookup (p :: l) name = weight_lookup l name := by
  simp [weight_lookup, List.find?_cons, h]

theorem weight_lookup_filter_ne (n name : String) (hne : name ≠ n) :
    ∀ records : List (String × ℚ),
      weight_lookup (records.filter (fun p => decide (p.1 ≠ n))) name =
        weight_lookup records name := by
  intro records
  induction records with
  | nil => rfl
  | cons p rest ih =>
    by_cases hn : p.1 = n
    · rw [List.filter_cons_of_neg (by simpa using hn),
        weight_lookup_cons_neg p rest name (fun h => hne (by rw [← h, hn])), ih]
    · rw [List.filter_cons_of_pos (by simpa using hn)]
      by_cases hp : p.1 = name
      · rw [weight_lookup_cons_pos p _ name hp, weight_lookup_cons_pos p _ name hp]
      · rw [weight_lookup_cons_neg p _ name hp, weight_lookup_cons_neg p _ name hp, ih]

theorem row_from_file_path (fs : FileSystem) (exemplar : String) (T : List Int) (row : RowElem)
    (h : row_from_file fs exemplar T = Except.ok row) : row.file_path = exemplar := by
  simp only [row_from_file] at h
  split at h
  · cases h
  · injection h with h; subst h; rfl

theorem skipped_false_iff (records : List (String × ℚ)) (f : CorpusFile) :
    skipped (some records) f = false ↔
      ∃ w, weight_lookup records (filename f.file_path) = some w ∧ 0 < w := by
  simp only [skipped, weight_map_at, decide_eq_false_iff_not, not_le]
  cases weight_lookup records (filename f.file_path) with
  | none => simp
  | some w => simp

theorem insert_row_rowlist (m : Matrix) (row : RowElem) :
    (insert_row m row).rowlist = m.rowlist ++ [row] := rfl

/-- Every exemplar that is not skipped gets a row in the matrix. -/
theorem insert_corpus_rows_covers (fs : FileSystem) (T : List Int) :
    ∀ (files : List CorpusFile) (wm : Option (List (String × ℚ))) (m m1 : Matrix)
      (wm1 : Option (List (String × ℚ))),
    insert_corpus_rows fs T files wm m = Except.ok (m1, wm1) →
    (∀ e ∈ m.rowlist, e ∈ m1.rowlist) ∧
      ∀ f ∈ files, skipped wm f = false → ∃ e ∈ m1.rowlist, e.file_path = f.file_path := by
  intro files
  induction files with
  | nil =>
    intro wm m m1 wm1 h
    simp only [insert_corpus_rows] at h
    injection h with h
    injection h with h1 h2
    subst h1
    exact ⟨fun e he => he, fun f hf => absurd hf (List.not_mem_nil _)⟩
  | cons f0 rest ih =>
    intro wm m m1 wm1 h
    cases hrow : row_from_file fs f0.file_path T with
    | error err => simp only [insert_corpus_rows, hrow] at h; cases h
    | ok row =>
      have hpath := row_from_file_path fs f0.file_path T row hrow
      cases wm with
      | none =>
        simp only [insert_corpus_rows, hrow] at h
        obtain ⟨i1, i2⟩ := ih none (insert_row m row) m1 wm1 h
        have hin : row ∈ m1.rowlist := i1 row (by rw [insert_row_rowlist]; simp)
        refine ⟨fun e he => i1 e (by rw [insert_row_rowlist]; exact List.mem_append_left _ he), ?_⟩
        intro f hf hs
        rcases List.mem_cons.mp hf with rfl | hf
        · exact ⟨row, hin, hpath⟩
        · exact i2 f hf hs
      | some records =>
        cases hlook : weight_lookup records (filename row.file_path) with
        | none =>
          simp only [insert_corpus_rows, hrow, hlook] at h
          obtain ⟨i1, i2⟩ := ih (some records) m m1 wm1 h
          refine ⟨i1, ?_⟩
          intro f hf hs
          rcases List.mem_cons.mp hf with rfl | hf
          · exfalso
            obtain ⟨w, hw, _⟩ := (skipped_false_iff records f).mp hs
            rw [← hpath, hlook] at hw
            cases hw
          · exact i2 f hf hs
        | some w =>
          have hrest : ∀ f ∈ rest, f.file_path ≠ f0.file_path →
              skipped (some records) f = false →
              skipped (some (records.filter (fun p => decide (p.1 ≠ filename row.file_path)))) f
                = false := by
            intro f _ hne hs
            obtain ⟨w1, hw1, hpos⟩ := (skipped_false_iff records f).mp hs
            apply (skipped_false_iff _ f).mpr
            refine ⟨w1, ?_, hpos⟩
            rw [weight_lookup_filter_ne _ _ (by
              simp only [filename]; rw [hpath]; exact hne)]
            exact hw1
          by_cases hw : w > 0
          · simp only [insert_corpus_rows, hrow, hlook, if_pos hw] at h
            obtain ⟨i1, i2⟩ := ih _ _ m1 wm1 h
            have hin : ({ row with weight := w } : RowElem) ∈ m1.rowlist :=
              i1 _ (by rw [insert_row_rowlist]; simp)
            refine ⟨fun e he => i1 e (by rw [insert_row_rowlist]; exact List.mem_append_left _ he), ?_⟩
            intro f hf hs
            by_cases hsame : f.file_path = f0.file_path
            · exact ⟨_, hin, by rw [hsame]; exact hpath⟩
            · rcases List.mem_cons.mp hf with rfl | hf
              · exact absurd rfl hsame
              · exact i2 f hf (hrest f hf hsame hs)
          · simp only [insert_corpus_rows, hrow, hlook, if_neg hw] at h
            obtain ⟨i1, i2⟩ := ih _ _ m1 wm1 h
            refine ⟨i1, ?_⟩
            intro f hf hs
            by_cases hsame : f.file_path = f0.file_path
            · exfalso
              obtain ⟨w1, hw1, hpos⟩ := (skipped_false_iff records f).mp hs
              rw [hsame, ← hpath, hlook] at hw1
              injection hw1 with hw1
              subst hw1
              exact hw hpos
            · rcases List.mem_cons.mp hf with rfl | hf
              · exact absurd rfl hsame
              · exact i2 f hf (hrest f hf hsame hs)

theorem matrix_from_corpus_covers (fs : FileSystem) (names : List String)
    (weight_file : WeightFile) (D : List Int) (m : Matrix)
    (h : matrix_from_corpus fs names weight_file D = Except.ok m) (f : CorpusFile)
    (hf : f.file_path ∈ names) (hs : skipped weight_file f = false) :
    ∃ e ∈ m.rowlist, e.file_path = f.file_path := by
  have hperm := sort_by_perm corpus_file_greater (get_file_list fs names)
  have hin : ({ file_path := f.file_path, file_size := ((fs f.file_path).length : Int) } :
      CorpusFile) ∈ sort_by corpus_file_greater (get_file_list fs names) := by
    apply hperm.mem_iff.mpr
    simp only [get_file_list, List.mem_map]
    exact ⟨f.file_path, hf, rfl⟩
  have hs' : skipped weight_file
      ({ file_path := f.file_path, file_size := ((fs f.file_path).length : Int) } : CorpusFile)
        = false := by
    cases weight_file <;> exact hs
  simp only [matrix_from_corpus] at h
  cases hc : sort_by corpus_file_greater (get_file_list fs names) with
  | nil => rw [hc] at h; cases h
  | cons first rest =>
    rw [hc] at h hin
    simp only at h
    cases hT : transform_index (8 * first.file_size) D with
    | error err => rw [hT] at h; cases h
    | ok T =>
      rw [hT] at h
      simp only at h
      cases hins : insert_corpus_rows fs T (first :: rest) weight_file
          { num_rows := 0, num_cols := 0, num_cols_orig := 8 * first.file_size, num_elems := 0,
            rowlist := [] } with
      | error err => rw [hins] at h; cases h
      | ok res =>
        obtain ⟨m1, wm1⟩ := res
        rw [hins] at h
        obtain ⟨_, i2⟩ := insert_corpus_rows_covers fs T _ _ _ m1 wm1 hins
        obtain ⟨e, he, hp⟩ := i2 _ hin hs'
        have hm : m.rowlist = m1.rowlist := by
          simp only at h
          split at h
          · cases h
          · injection h with h; subst h; rfl
        exact ⟨e, by rw [hm]; exact he, hp⟩

/-- The large-data pass on a non-empty corpus returns; the columns to ignore
are distinct columns of the corpus, each one recorded as a singularity or set
in a selected exemplar, and every other column is set in an exemplar that is
not skipped; the solution satisfies the weight law. -/
theorem calc_cols_to_ignore_ok (fs : FileSystem) (names : List String)
    (weight_file : WeightFile) (hne : names ≠ []) :
    ∃ (D : List Int) (S : Solution),
      calc_cols_to_ignore fs names weight_file Solution.empty = Except.ok (D, S) ∧
      D.Nodup ∧ (∀ d ∈ D, 0 ≤ d ∧ d < corpus_width fs names) ∧
      S.rowdata = S.solution.map (get_exemplar_data fs) ∧
      (∀ p ∈ S.solution, p ∈ names) ∧
      S.weight = (S.solution.map (weight_of weight_file)).sum ∧
      S.num_non_optimal = 0 ∧
      (∀ c ∈ D, c ∈ S.initial_singularities ∨ covered S.rowdata c) ∧
      (∀ c, 0 ≤ c → c < corpus_width fs names → c ∉ D →
        ∃ f : CorpusFile, f.file_path ∈ names ∧ skipped weight_file f = false ∧
          raw_bit fs f.file_path c) := by
  obtain ⟨first, rest, hc, hw, hall⟩ := corpus_sorted_head fs names hne
  have hW0 := corpus_width_nonneg fs names
  have hlen : ∀ f ∈ first :: rest,
      ((get_exemplar_data fs f.file_path).length : Int) ≤ 8 * first.file_size := by
    intro f hf
    rw [← hw]
    exact raw_length_le_width fs names f.file_path (hall f hf).1
  have hrep : 8 * first.file_size =
      ((List.replicate (8 * first.file_size).toNat (0 : Int)).length : Int) := by
    rw [List.length_replicate]; omega
  obtain ⟨cf, hcf, hcl, hcsp⟩ := count_column_frequencies_spec fs weight_file
    (8 * first.file_size) (first :: rest) (List.replicate (8 * first.file_size).toNat 0) hrep hlen
  rw [List.length_replicate] at hcl
  obtain ⟨S1, sel, h1, h2, h3, h4, h5, h6, h7⟩ := ignore_unitarian_rows_spec fs weight_file
    (8 * first.file_size) cf (by rw [hcl]; omega) (first :: rest)
    { Solution.empty with initial_singularities := index_set (get_singular_columns cf) }
    (get_singular_columns cf) hlen
  have hsing : ∀ c ∈ get_singular_columns cf, 0 ≤ c ∧ c < corpus_width fs names ∧
      cf[c.toNat]? = some 0 := by
    intro c hcm
    simp only [get_singular_columns, singular_positions_eq] at hcm
    obtain ⟨i, v, hi, hv, hci⟩ := (mem_positions_from _ _ _ _).mp hcm
    rw [zero_add] at hci
    subst hci
    have hi1 : i < cf.length := by
      by_contra hcon
      rw [List.getElem?_eq_none (by omega)] at hi
      exact Option.noConfusion hi
    simp only [decide_eq_true_eq] at hv
    subst hv
    exact ⟨Int.natCast_nonneg _, by rw [hw]; omega, by simpa using hi⟩
  have hsel : ∀ p ∈ sel, p ∈ names := by
    intro p hp
    obtain ⟨f, hf, rfl⟩ := h2 p hp
    exact (hall f hf).1
  refine ⟨index_set (get_singular_columns cf ++
    sel.flatMap (fun p => nonzero_positions (get_exemplar_data fs p) 0)), S1, ?_,
    index_set_nodup _, ?_, ?_, ?_, ?_, ?_, ?_, ?_⟩
  · simp only [calc_cols_to_ignore, hc, hcf, h1]
  · intro d hd
    rw [mem_index_set] at hd
    rcases List.mem_append.mp hd with hd | hd
    · exact ⟨(hsing d hd).1, (hsing d hd).2.1⟩
    · obtain ⟨p, hp, hdp⟩ := List.mem_flatMap.mp hd
      obtain ⟨hd0, v, hv, _⟩ := (mem_nonzero_positions _ d).mp hdp
      have hlt : d.toNat < (get_exemplar_data fs p).length := by
        by_contra hcon
        rw [List.getElem?_eq_none (by omega)] at hv
        exact Option.noConfusion hv
      have := raw_length_le_width fs names p (hsel p hp)
      exact ⟨hd0, by omega⟩
  · rw [h3, h4]; simp [Solution.empty]
  · intro p hp
    rw [h3] at hp
    simp only [Solution.empty, List.nil_append] at hp
    exact hsel p hp
  · rw [h5, h3]; simp [Solution.empty]
  · rw [h7]; rfl
  · intro c hcD
    rw [mem_index_set] at hcD
    rcases List.mem_append.mp hcD with hd | hd
    · left
      rw [h6]
      exact (mem_index_set _ c).mpr hd
    · right
      obtain ⟨p, hp, hdp⟩ := List.mem_flatMap.mp hd
      obtain ⟨hd0, v, hv, hv0⟩ := (mem_nonzero_positions _ c).mp hdp
      refine ⟨get_exemplar_data fs p, ?_, hd0, ?_⟩
      · rw [h4]
        exact List.mem_append_right _ (List.mem_map.mpr ⟨p, hp, rfl⟩)
      · rcases get_exemplar_data_values fs p v (List.getElem?_mem hv) with h0 | h0
        · exact absurd h0 hv0
        · rw [hv, h0]
  · intro c hc0 hc1 hcD
    have hlt : c.toNat < (8 * first.file_size).toNat := by rw [← hw]; omega
    obtain ⟨y, hy, hne0⟩ := hcsp c.toNat 0 (by
      rw [List.getElem?_replicate, if_pos hlt])
    have hy0 : y ≠ 0 := by
      intro hy0
      apply hcD
      rw [mem_index_set]
      apply List.mem_append_left
      simp only [get_singular_columns, singular_positions_eq]
      apply (mem_positions_from _ _ _ _).mpr
      exact ⟨c.toNat, y, hy, by simpa using hy0, by omega⟩
    obtain ⟨f, hf, hs, hbit⟩ := hne0 hy0
    rw [Int.toNat_of_nonneg hc0] at hbit
    exact ⟨f, (hall f hf).1, hs, hbit⟩

/-! ### The cover property of a run on a corpus -/

theorem transform_value_nil (c : Int) : transform_value [] c = c := by
  simp [transform_value, count_below]

/-- The matrix built from a corpus and the solution of the pass before it
satisfy what `solve_oscp` needs for the cover property. -/
theorem corpus_start (fs : FileSystem) (names : List String) (weight_file : WeightFile)
    (D : List Int) (S0 : Solution) (m : Matrix)
    (hmat : matrix_from_corpus fs names weight_file D = Except.ok m)
    (hnd : D.Nodup) (hD : ∀ d ∈ D, 0 ≤ d ∧ d < corpus_width fs names)
    (hrd : S0.rowdata = S0.solution.map (get_exemplar_data fs))
    (hsol : ∀ p ∈ S0.solution, p ∈ names)
    (hw : S0.weight = (S0.solution.map (weight_of weight_file)).sum)
    (hcov : ∀ c ∈ D, c ∈ S0.initial_singularities ∨ covered S0.rowdata c)
    (hrest : ∀ c, 0 ≤ c → c < corpus_width fs names → c ∉ D →
      (∃ f : CorpusFile, f.file_path ∈ names ∧ skipped weight_file f = false ∧
        raw_bit fs f.file_path c) ∨
      (S0.initial_singularities = [] ∧ transform_value D c = c)) :
    matrix_wf m ∧ m.num_rows ≤ ((initialise_corpus_data m).length : Int) ∧
      len_inv fs m.num_cols_orig m S0 ∧ 0 ≤ m.num_cols_orig ∧
      start_ok fs m.num_cols_orig m S0 ∧ weight_inv weight_file m S0 ∧
      m.num_cols_orig = corpus_width fs names := by
  obtain ⟨hm, hW, hcols, hrows⟩ := matrix_from_corpus_spec fs names weight_file D hnd hD m hmat
  have hD0 : ∀ d ∈ D, 0 ≤ d := fun d hd => (hD d hd).1
  have hlive : ∀ e ∈ m.rowlist, ∀ j, j ∈ live e.column ↔
      ∃ c, raw_bit fs e.file_path c ∧ c ∉ D ∧ transform_value D c = j := by
    intro e he j
    rw [(hrows e he).2.1]
    exact mem_live_file_row fs D hnd hD0 e.file_path j
  refine ⟨hm, ?_, ⟨rfl, ?_, ?_⟩, by rw [hW]; exact corpus_width_nonneg fs names, ?_, ⟨?_, hw⟩, hW⟩
  · rw [hm.1]; simp [initialise_corpus_data]
  · intro e he
    rw [hW]; exact raw_length_le_width fs names e.file_path (hrows e he).1
  · intro row hrow
    rw [hrd] at hrow
    obtain ⟨p, hp, rfl⟩ := List.mem_map.mp hrow
    rw [hW]; exact raw_length_le_width fs names p (hsol p hp)
  · intro c hc0 hc1
    rw [hW] at hc1
    by_cases hcD : c ∈ D
    · rcases hcov c hcD with h | h
      · exact Or.inl h
      · exact Or.inr (Or.inl h)
    · right; right
      have hr := transform_value_range D hnd _ hD hc0 hc1 hcD
      refine ⟨transform_value D c, ⟨hr.1, by rw [hcols]; exact hr.2, ?_⟩, ?_⟩
      · intro e he hl
        obtain ⟨c1, hbit, hc1D, ht⟩ := (hlive e he _).mp hl
        have := transform_value_inj D hnd hD0 hbit.1 hc0 hc1D hcD ht
        rw [← this]; exact hbit
      · intro hzero
        rcases hrest c hc0 hc1 hcD with ⟨f, hf, hs, hbit⟩ | h
        · exfalso
          obtain ⟨e, he, hp⟩ := matrix_from_corpus_covers fs names weight_file D m hmat f hf hs
          have hl : transform_value D c ∈ live e.column :=
            (hlive e he _).mpr ⟨c, by rw [hp]; exact hbit, hcD, rfl⟩
          have := (column_count_pos_iff m.rowlist _).mpr ⟨e, he, hl⟩
          omega
        · exact h
  · intro e he
    exact (hrows e he).2.2.2.1

/-- The pass before the matrix is built: the large-data pass when it is
asked for and the reduction rules are used, nothing otherwise. -/
theorem pre_pass_ok (fs : FileSystem) (names : List String) (weight_file : WeightFile)
    (large_data greedy : Bool) (hne : names ≠ []) :
    ∃ (D : List Int) (S0 : Solution),
      (if large_data = true ∧ greedy = false then
          calc_cols_to_ignore fs names weight_file Solution.empty
        else Except.ok ([], Solution.empty)) = Except.ok (D, S0) ∧
      D.Nodup ∧ (∀ d ∈ D, 0 ≤ d ∧ d < corpus_width fs names) ∧
      S0.rowdata = S0.solution.map (get_exemplar_data fs) ∧
      (∀ p ∈ S0.solution, p ∈ names) ∧
      S0.weight = (S0.solution.map (weight_of weight_file)).sum ∧
      (∀ c ∈ D, c ∈ S0.initial_singularities ∨ covered S0.rowdata c) ∧
      (∀ c, 0 ≤ c → c < corpus_width fs names → c ∉ D →
        (∃ f : CorpusFile, f.file_path ∈ names ∧ skipped weight_file f = false ∧
          raw_bit fs f.file_path c) ∨
        (S0.initial_singularities = [] ∧ transform_value D c = c)) := by
  by_cases hl : large_data = true ∧ greedy = false
  · obtain ⟨D, S, h1, h2, h3, h4, h5, h6, _, h8, h9⟩ :=
      calc_cols_to_ignore_ok fs names weight_file hne
    exact ⟨D, S, by rw [if_pos hl]; exact h1, h2, h3, h4, h5, h6, h8,
      fun c hc0 hc1 hcD => Or.inl (h9 c hc0 hc1 hcD)⟩
  · refine ⟨[], Solution.empty, by rw [if_neg hl], List.nodup_nil, by simp, rfl, by
      simp [Solution.empty], by simp [Solution.empty], by simp, ?_⟩
    intro c _ _ _
    exact Or.inr ⟨rfl, transform_value_nil c⟩

/-- C11 (the code departs from the claim). `remove_col 1` on the example
matrix hands the list `[0]` to `remove_cols`, so column 0 is removed instead
of column 1: row `b`, whose dense view is `[0, 1, 0, 0, 1]`, becomes
`[1, 0, 0, 1]` where column 1 deleted gives `[0, 0, 0, 1]`.  `remove_col 0`
removes nothing, and `remove_col 2` hands on `[0, 0]` and stops at the
assertion of `transform_index`. -/
theorem remove_col_removes_leading_column :
    remove_col example_matrix 1 = Except.ok (relocate_matrix [0] example_matrix) ∧
      get_row (relocate_matrix [0] example_matrix) 1 = Except.ok [1, 0, 0, 1] ∧
      get_row example_matrix 1 = Except.ok [0, 1, 0, 0, 1] ∧
      delete_positions [1] [(0 : Int), 1, 0, 0, 1] = [0, 0, 0, 1] ∧
      remove_col example_matrix 0 = Except.ok example_matrix ∧
      remove_col example_matrix 2 = Except.error Err.assert_failed :=
  ⟨rfl, rfl, rfl, rfl, rfl, rfl⟩

theorem remove_rows_loop_not_out_of_range :
    ∀ (l : List Int) (m : Matrix), remove_rows_loop m l ≠ Except.error Err.out_of_range := by
  intro l
  induction l with
  | nil => intro m h; cases h
  | cons r rs ih =>
    intro m h
    simp only [remove_rows_loop] at h
    cases hat : at_index m.rowlist r with
    | error e =>
      rw [hat] at h
      simp only [at_index] at hat
      split at hat
      · injection hat with hat; subst hat; cases h
      · split at hat
        · cases hat
        · injection hat with hat; subst hat; cases h
    | ok row =>
      rw [hat] at h
      simp only at h
      split at h
      · exact ih _ h
      · cases h

/-- C12 (the code departs from the claim). `remove_rows` fails with the
out-of-range error exactly when some index is negative or greater than
`num_rows`: the index `num_rows` itself passes the check (`r > num_rows`), and
the erase loop then reads past the end of the row list, as `remove_rows [3]`
on the three-row example matrix shows. -/
theorem remove_rows_range_check_off_by_one (m : Matrix) (D : List Int) :
    (remove_rows m D = Except.error Err.out_of_range ↔ ∃ r ∈ D, r < 0 ∨ r > m.num_rows) ∧
      remove_rows example_matrix [3] = Except.error Err.undefined ∧
      example_matrix.num_rows = 3 := by
  refine ⟨?_, rfl, rfl⟩
  simp only [remove_rows]
  by_cases h : D.any (fun r => decide (r < 0) || decide (r > m.num_rows)) = true
  · rw [if_pos h]
    simp only [List.any_eq_true, Bool.or_eq_true, decide_eq_true_eq] at h
    exact ⟨fun _ => h, fun _ => rfl⟩
  · rw [if_neg h]
    constructor
    · intro hc
      exact absurd hc (remove_rows_loop_not_out_of_range _ m)
    · intro hc
      exfalso
      apply h
      simp only [List.any_eq_true, Bool.or_eq_true, decide_eq_true_eq]
      exact hc

/-! ### Overlap, row sums and the dense view -/

theorem length_filter_range (W : Nat) (L : List Int) (hnd : L.Nodup)
    (hL : ∀ v ∈ L, 0 ≤ v ∧ v < (W : Int)) (p : Int → Bool) :
    (L.filter p).length =
      ((List.range W).filter (fun c : Nat => decide ((c : Int) ∈ L) && p (c : Int))).length := by
  have h1 : (L.filter p).Nodup := hnd.filter _
  have h2 : (((List.range W).filter
      (fun c : Nat => decide ((c : Int) ∈ L) && p (c : Int))).map (fun c : Nat => (c : Int))).Nodup := by
    apply List.Nodup.map
    · intro a b h; exact Int.ofNat_inj.mp h
    · exact (List.nodup_range W).filter _
  have hperm := (List.perm_ext_iff_of_nodup h1 h2).mpr (by
    intro v
    simp only [List.mem_filter, List.mem_map, List.mem_range, Bool.and_eq_true, decide_eq_true_eq]
    constructor
    · rintro ⟨hv, hp⟩
      have := hL v hv
      refine ⟨v.toNat, ⟨by omega, ?_, ?_⟩, by omega⟩
      · rw [Int.toNat_of_nonneg this.1]; exact hv
      · rw [Int.toNat_of_nonneg this.1]; exact hp
    · rintro ⟨c, ⟨_, hc, hp⟩, rfl⟩
      exact ⟨hc, hp⟩)
  rw [hperm.length_eq, List.length_map]

theorem dense_count_one (W : Nat) (L : List Int) (hnd : L.Nodup)
    (hL : ∀ v ∈ L, 0 ≤ v ∧ v < (W : Int)) : (dense W L).count 1 = L.length := by
  have h := length_filter_range W L hnd hL (fun _ => true)
  rw [List.filter_true] at h
  rw [h]
  simp only [dense, List.count, List.countP_map, List.countP_eq_length_filter]
  have hf : List.filter ((fun x => x == (1 : Int)) ∘ fun c : Nat => if (c : Int) ∈ L then (1 : Int) else 0)
      (List.range W) =
      List.filter (fun c : Nat => decide ((c : Int) ∈ L) && true) (List.range W) := by
    apply List.filter_congr
    intro c _
    by_cases hc : (c : Int) ∈ L <;> simp [hc]
  rw [List.filter_map, List.length_map, hf]

theorem row_live_facts (m : Matrix) (hm : matrix_wf m) (e : RowElem) (he : e ∈ m.rowlist) :
    (live e.column).Nodup ∧ (∀ v ∈ live e.column, 0 ≤ v ∧ v < ((m.num_cols.toNat : Nat) : Int)) ∧
      e.row_sum = ((live e.column).length : Int) := by
  have hw := hm.2.2.2 e he
  refine ⟨hw.2.1.imp (fun h => ne_of_lt h), ?_, by rw [hw.1, live_count_eq]⟩
  intro v hv
  rw [Int.toNat_of_nonneg hm.2.1]
  exact hw.2.2 v hv

theorem row_sum_getElem? (m : Matrix) (r : Int) (e : RowElem) (h : row_at m r = some e) :
    (m.rowlist.map (fun e => e.row_sum))[r.toNat]? = some e.row_sum := by
  obtain ⟨_, h0, _, _⟩ := row_at_mem m r e h
  simp only [row_at, if_neg (not_lt.mpr h0)] at h
  rw [List.getElem?_map, h]
  rfl

/-- C13. For every matrix satisfying the invariants (tombstones anywhere in
the rows) and `r1`, `r2` in `[0, num_rows)`, `get_overlap r1 r2` returns the
number of columns `c` with `get_row(r1)[c] == 1` and `get_row(r2)[c] == 1`;
it is at most the row sums of both rows, so that the closing assertion of
`get_overlap` does not fail. -/
theorem get_overlap_intersection_count (m : Matrix) (hm : matrix_wf m) (r1 r2 : Int)
    (h1 : 0 ≤ r1 ∧ r1 < m.num_rows) (h2 : 0 ≤ r2 ∧ r2 < m.num_rows) :
    ∃ (d1 d2 rs : List Int) (s1 s2 : Int),
      get_row m r1 = Except.ok d1 ∧ get_row m r2 = Except.ok d2 ∧
      get_row_sum m = Except.ok rs ∧ rs[r1.toNat]? = some s1 ∧ rs[r2.toNat]? = some s2 ∧
      get_overlap m r1 r2 = Except.ok
        (((List.range m.num_cols.toNat).filter
          (fun c : Nat => decide (d1[c]? = some 1 ∧ d2[c]? = some 1))).length : Int) ∧
      (((List.range m.num_cols.toNat).filter
          (fun c : Nat => decide (d1[c]? = some 1 ∧ d2[c]? = some 1))).length : Int) ≤ min s1 s2 := by
  obtain ⟨e1, he1, hmem1, _⟩ := row_at_some m hm r1 h1.1 h1.2
  obtain ⟨e2, he2, hmem2, _⟩ := row_at_some m hm r2 h2.1 h2.2
  obtain ⟨hnd1, hr1, hs1⟩ := row_live_facts m hm e1 hmem1
  have hov := get_overlap_ok m hm r1 r2 e1 e2 he1 he2
  have hcount : overlap_count e1.column e2.column =
      (((List.range m.num_cols.toNat).filter
        (fun c : Nat => decide ((dense m.num_cols.toNat (live e1.column))[c]? = some 1 ∧
          (dense m.num_cols.toNat (live e2.column))[c]? = some 1))).length : Int) := by
    simp only [overlap_count]
    rw [length_filter_range m.num_cols.toNat (live e1.column) hnd1 hr1]
    congr 2
    apply List.filter_congr
    intro c hc
    have hc' : c < m.num_cols.toNat := List.mem_range.mp hc
    rw [dense_getElem?, dense_getElem?]
    simp only [hc', if_true]
    by_cases ha : (c : Int) ∈ live e1.column <;> by_cases hb : (c : Int) ∈ live e2.column <;>
      simp [ha, hb]
  refine ⟨_, _, _, e1.row_sum, e2.row_sum, get_row_at m hm r1 e1 he1, get_row_at m hm r2 e2 he2,
    get_row_sum_ok m hm, row_sum_getElem? m r1 e1 he1, row_sum_getElem? m r2 e2 he2, ?_, ?_⟩
  · rw [hov, hcount]
  · rw [← hcount]
    have hl := overlap_count_le_left e1.column e2.column
    have hr := overlap_count_le_right e1.column e2.column hnd1
    rw [(hm.2.2.2 e1 hmem1).1, (hm.2.2.2 e2 hmem2).1]
    exact le_min hl hr

/-- Witness for C13: rows `a` and `b` of the example matrix share one column. -/
theorem get_overlap_intersection_count_witness :
    ∃ (d1 d2 rs : List Int) (s1 s2 : Int),
      get_row example_matrix 0 = Except.ok d1 ∧ get_row example_matrix 1 = Except.ok d2 ∧
      get_row_sum example_matrix = Except.ok rs ∧ rs[(0 : Int).toNat]? = some s1 ∧
      rs[(1 : Int).toNat]? = some s2 ∧
      get_overlap example_matrix 0 1 = Except.ok
        (((List.range example_matrix.num_cols.toNat).filter
          (fun c : Nat => decide (d1[c]? = some 1 ∧ d2[c]? = some 1))).length : Int) ∧
      (((List.range example_matrix.num_cols.toNat).filter
          (fun c : Nat => decide (d1[c]? = some 1 ∧ d2[c]? = some 1))).length : Int) ≤ min s1 s2 :=
  get_overlap_intersection_count example_matrix (by decide) 0 1 (by decide) (by decide)

/-- C15. Self-overlap: for every matrix satisfying the invariants (rows may
hold tombstones) and every `r` in `[0, num_rows)`, `get_overlap r r` returns
the row sum of row `r`, as `get_row_sum()[r]` and as `get_row_sum(r)`. -/
theorem get_overlap_self (m : Matrix) (hm : matrix_wf m) (r : Int)
    (h : 0 ≤ r ∧ r < m.num_rows) :
    ∃ (rs : List Int) (s : Int), get_row_sum m = Except.ok rs ∧ rs[r.toNat]? = some s ∧
      get_row_sum_at m r = Except.ok s ∧ get_overlap m r r = Except.ok s := by
  obtain ⟨e, he, hmem, _⟩ := row_at_some m hm r h.1 h.2
  refine ⟨_, e.row_sum, get_row_sum_ok m hm, row_sum_getElem? m r e he,
    get_row_sum_at_ok m hm r e he, ?_⟩
  rw [get_overlap_ok m hm r r e e he he, (hm.2.2.2 e hmem).1, live_count_eq]
  simp only [overlap_count]
  have hf : (live e.column).filter (fun v => decide (v ∈ live e.column)) = live e.column := by
    apply List.filter_eq_self.mpr
    intro v hv
    simpa using hv
  rw [hf]

/-- Witness for C15: row `a` of the example matrix after column 1 is removed,
so that the row holds a tombstone. -/
theorem get_overlap_self_witness :
    ∃ (rs : List Int) (s : Int),
      get_row_sum (relocate_matrix [1] example_matrix) = Except.ok rs ∧
      rs[(0 : Int).toNat]? = some s ∧
      get_row_sum_at (relocate_matrix [1] example_matrix) 0 = Except.ok s ∧
      get_overlap (relocate_matrix [1] example_matrix) 0 0 = Except.ok s :=
  get_overlap_self (relocate_matrix [1] example_matrix) (by decide) 0 (by decide)

/-- C16. Row sums match the dense view: for every matrix satisfying the
invariants (which `remove_rows` and `remove_cols` preserve) and every `r` in
`[0, num_rows)`, `get_row_sum()[r]` is the number of entries `1` of
`get_row(r)`, and `get_row(r)` has length `num_cols`. -/
theorem row_sum_matches_dense_view (m : Matrix) (hm : matrix_wf m) (r : Int)
    (h : 0 ≤ r ∧ r < m.num_rows) :
    ∃ (rs d : List Int), get_row_sum m = Except.ok rs ∧ get_row m r = Except.ok d ∧
      rs[r.toNat]? = some ((d.count 1 : Nat) : Int) ∧ (d.length : Int) = m.num_cols := by
  obtain ⟨e, he, hmem, _⟩ := row_at_some m hm r h.1 h.2
  obtain ⟨hnd, hr, hs⟩ := row_live_facts m hm e hmem
  refine ⟨_, _, get_row_sum_ok m hm, get_row_at m hm r e he, ?_, ?_⟩
  · rw [row_sum_getElem? m r e he, dense_count_one _ _ hnd hr, hs]
  · rw [dense_length, Int.toNat_of_nonneg hm.2.1]

/-- Witness for C16: row `a` of the example matrix after the removal of
column 1 and of row `c`. -/
theorem row_sum_matches_dense_view_witness :
    ∃ (rs d : List Int),
      get_row_sum (delete_rows [2] (relocate_matrix [1] example_matrix)) = Except.ok rs ∧
      get_row (delete_rows [2] (relocate_matrix [1] example_matrix)) 0 = Except.ok d ∧
      rs[(0 : Int).toNat]? = some ((d.count 1 : Nat) : Int) ∧
      (d.length : Int) = (delete_rows [2] (relocate_matrix [1] example_matrix)).num_cols :=
  row_sum_matches_dense_view (delete_rows [2] (relocate_matrix [1] example_matrix)) (by decide) 0
    (by decide)

/-! ### The initial singularities -/

theorem get_row_relocate (m : Matrix) (D : List Int) (hm : matrix_wf m) (hnd : D.Nodup)
    (hD : ∀ d ∈ D, 0 ≤ d ∧ d < m.num_cols) (r : Int) (hr0 : 0 ≤ r) (hr1 : r < m.num_rows) :
    ∃ row, get_row m r = Except.ok row ∧
      get_row (relocate_matrix D m) r = Except.ok (delete_positions D row) := by
  have hwf1 := relocate_matrix_wf m D hm hnd hD
  obtain ⟨h1, h2, h3, h4⟩ := hm
  have hrn : r.toNat < m.rowlist.length := by omega
  have hget : m.rowlist[r.toNat]? = some (m.rowlist[r.toNat]) := List.getElem?_eq_getElem hrn
  have hget1 : (relocate_matrix D m).rowlist[r.toNat]? =
      some (relocate_row D (m.rowlist[r.toNat])) := by
    simp [relocate_matrix, List.getElem?_map, hget]
  have hmem : m.rowlist[r.toNat] ∈ m.rowlist := List.getElem_mem hrn
  have hrow := h4 _ hmem
  have g0 := get_row_ok m ⟨h1, h2, h3, h4⟩ r.toNat _ hget
  have g1 := get_row_ok _ hwf1 r.toNat _ hget1
  rw [Int.toNat_of_nonneg hr0] at g0 g1
  refine ⟨_, g0, ?_⟩
  rw [g1]
  have hD0 : ∀ d ∈ D, 0 ≤ d := fun d hd => (hD d hd).1
  have hl := live_map_relocate D hnd hD0 (m.rowlist[r.toNat]).column
    (fun v hv => (hrow.2.2 v hv).1)
  have htot := kept_before_total D hnd m.num_cols.toNat (by
    rw [Int.toNat_of_nonneg h2]; exact hD)
  have hW : (relocate_matrix D m).num_cols.toNat = kept_before D m.num_cols.toNat := by
    simp only [relocate_matrix]; omega
  have hcol : (relocate_row D (m.rowlist[r.toNat])).column =
      (m.rowlist[r.toNat]).column.map (relocate D) := rfl
  rw [hW, hcol, hl]
  congr 1
  exact dense_relocate D hnd m.num_cols.toNat (by
    rw [Int.toNat_of_nonneg h2]; exact hD) _ (fun v hv => (hrow.2.2 v hv).1)

theorem eliminate_column_singularities_eq (m : Matrix) (hm : matrix_wf m) (S : Solution) :
    eliminate_column_singularities m S =
      Except.ok (if entry_columns m = [] then false else true, entry_matrix m,
        entry_solution m S) := by
  obtain ⟨b, hb⟩ := eliminate_column_singularities_ok m hm S
  have hg := get_column_sum_ok m hm
  by_cases he : entry_columns m = []
  · have hs : ¬ is_column_singular (column_sums m.num_cols.toNat m.rowlist) = true := by
      intro h
      exact (is_column_singular_iff _).mp h he
    rw [if_pos he]
    simp only [eliminate_column_singularities, hg, hs] at hb ⊢
    simp only [entry_matrix, entry_solution, if_pos he]
    rfl
  · have hs : is_column_singular (column_sums m.num_cols.toNat m.rowlist) = true :=
      (is_column_singular_iff _).mpr he
    rw [if_neg he]
    simp only [eliminate_column_singularities, hg, hs, if_true] at hb ⊢
    cases hr : remove_cols m (get_singular_columns (column_sums m.num_cols.toNat m.rowlist)) with
    | error e => rw [hr] at hb; cases hb
    | ok m1 =>
      rw [hr] at hb
      simp only at hb ⊢
      injection hb with hb
      injection hb with _ hb
      rw [hb]

theorem entry_matrix_nonempty (m : Matrix) (hm : matrix_wf m) (j : Int) (hj0 : 0 ≤ j)
    (hj1 : j < (entry_matrix m).num_cols) : ∃ e ∈ (entry_matrix m).rowlist, j ∈ live e.column := by
  have hE := mem_entry_columns m hm
  have hnd := entry_columns_nodup m
  have hrg : ∀ d ∈ entry_columns m, 0 ≤ d ∧ d < m.num_cols :=
    fun d hd => ⟨((hE d).mp hd).1, ((hE d).mp hd).2.1⟩
  have hD0 : ∀ d ∈ entry_columns m, 0 ≤ d := fun d hd => (hrg d hd).1
  have hpos : ∀ a, 0 ≤ a → a < m.num_cols → a ∉ entry_columns m →
      ∃ e ∈ m.rowlist, a ∈ live e.column := by
    intro a ha0 ha1 haE
    apply (column_count_pos_iff m.rowlist a).mp
    have h1 := column_count_nonneg m.rowlist a
    have h2 : column_count m.rowlist a ≠ 0 := fun h => haE ((hE a).mpr ⟨ha0, ha1, h⟩)
    omega
  by_cases he : entry_columns m = []
  · simp only [entry_matrix, if_pos he] at hj1 ⊢
    exact hpos j hj0 hj1 (by rw [he]; exact List.not_mem_nil _)
  · simp only [entry_matrix, if_neg he] at hj1 ⊢
    obtain ⟨a, ha0, ha1, haE, hta⟩ := transform_value_surj _ hnd m.num_cols hm.2.1 hrg j hj0 hj1
    obtain ⟨e, hemem, hlive⟩ := hpos a ha0 ha1 haE
    have hw := hm.2.2.2 e hemem
    refine ⟨relocate_row (entry_columns m) e, ?_, ?_⟩
    · simp only [relocate_matrix]
      exact List.mem_map.mpr ⟨e, hemem, rfl⟩
    · exact (mem_live_relocate_row _ hnd hD0 e (fun v hv => (hw.2.2 v hv).1) _).mpr
        ⟨a, hlive, haE, hta⟩

/-- C14. Initial singularities: for every matrix satisfying the invariants
(its column indices are the original ones when no column was ignored) and a
solution whose `initial_singularities` is empty,
`eliminate_column_singularities` succeeds; afterwards `initial_singularities`
is the strictly ascending list of the column indices whose column sum is
zero, `num_cols` has dropped by their number and every dense row is the
former one with these positions deleted, no column sum of the new matrix is
zero, and the function returns true iff there was such a column. -/
theorem initial_singularities_recorded (m : Matrix) (S : Solution) (hm : matrix_wf m)
    (hS : S.initial_singularities = []) :
    ∃ (cs cs1 : List Int) (changed : Bool) (m1 : Matrix) (S1 : Solution),
      get_column_sum m = Except.ok cs ∧
      eliminate_column_singularities m S = Except.ok (changed, m1, S1) ∧
      S1.initial_singularities.Pairwise (fun a b => a < b) ∧
      (∀ c : Int, c ∈ S1.initial_singularities ↔ 0 ≤ c ∧ cs[c.toNat]? = some 0) ∧
      m1.num_cols = m.num_cols - (S1.initial_singularities.length : Int) ∧
      m1.num_rows = m.num_rows ∧
      (∀ r : Int, 0 ≤ r → r < m.num_rows →
        ∃ row, get_row m r = Except.ok row ∧
          get_row m1 r = Except.ok (delete_positions S1.initial_singularities row)) ∧
      get_column_sum m1 = Except.ok cs1 ∧ (∀ v ∈ cs1, v ≠ 0) ∧
      (changed = true ↔ ∃ c : Int, 0 ≤ c ∧ cs[c.toNat]? = some 0) ∧
      S1.solution = S.solution ∧ S1.weight = S.weight := by
  have hE := mem_entry_columns m hm
  have hnd := entry_columns_nodup m
  have hrg : ∀ d ∈ entry_columns m, 0 ≤ d ∧ d < m.num_cols :=
    fun d hd => ⟨((hE d).mp hd).1, ((hE d).mp hd).2.1⟩
  have hwf1 := entry_matrix_wf m hm
  have hsing : (entry_solution m S).initial_singularities = entry_columns m := by
    simp only [entry_solution]
    split
    · rename_i he; rw [hS, he]
    · rw [if_pos (by rw [hS]; rfl)]
  have hmem : ∀ c, c ∈ entry_columns m ↔
      0 ≤ c ∧ (column_sums m.num_cols.toNat m.rowlist)[c.toNat]? = some 0 := by
    intro c
    simp only [entry_columns, get_singular_columns, singular_positions_eq, mem_positions_from]
    constructor
    · rintro ⟨i, v, hi, hv, hc⟩
      rw [zero_add] at hc
      subst hc
      simp only [decide_eq_true_eq] at hv
      subst hv
      exact ⟨Int.natCast_nonneg _, by simpa using hi⟩
    · rintro ⟨h0, hc⟩
      exact ⟨c.toNat, 0, hc, by simp, by omega⟩
  obtain ⟨_, f2, f3, _⟩ := entry_solution_fields m S
  refine ⟨_, _, _, _, _, get_column_sum_ok m hm, eliminate_column_singularities_eq m hm S,
    ?_, ?_, ?_, (entry_matrix_fields m).1, ?_, get_column_sum_ok _ hwf1, ?_, ?_, f2, f3⟩
  · rw [hsing]
    simp only [entry_columns, get_singular_columns, singular_positions_eq]
    exact positions_from_sorted _ _ _
  · intro c; rw [hsing]; exact hmem c
  · rw [hsing]
    simp only [entry_matrix]
    split
    · rename_i he; rw [he]; simp
    · rfl
  · intro r hr0 hr1
    rw [hsing]
    by_cases he : entry_columns m = []
    · obtain ⟨e, he1, _, _⟩ := row_at_some m hm r hr0 hr1
      refine ⟨_, get_row_at m hm r e he1, ?_⟩
      simp only [entry_matrix, if_pos he]
      rw [he, delete_positions_nil]
      exact get_row_at m hm r e he1
    · simp only [entry_matrix, if_neg he]
      exact get_row_relocate m _ hm hnd hrg r hr0 hr1
  · intro v hv
    simp only [column_sums, List.mem_map, List.mem_range] at hv
    obtain ⟨j, hj, rfl⟩ := hv
    have hj1 : (j : Int) < (entry_matrix m).num_cols := by
      have := hwf1.2.1
      omega
    have := (column_count_pos_iff _ _).mpr
      (entry_matrix_nonempty m hm (j : Int) (Int.natCast_nonneg _) hj1)
    omega
  · constructor
    · intro hc
      by_cases he : entry_columns m = []
      · rw [if_pos he] at hc; cases hc
      · obtain ⟨c, hcm⟩ := List.exists_mem_of_ne_nil _ he
        exact ⟨c, (hmem c).mp hcm⟩
    · rintro ⟨c, hc⟩
      have hin := (hmem c).mpr hc
      rw [if_neg (List.ne_nil_of_mem hin)]

/-- Witness for C14: one file holding the byte `0b10000000` gives the seven
singularities 1 to 7. -/
theorem initial_singularities_recorded_witness :
    (∃ (cs cs1 : List Int) (changed : Bool) (m1 : Matrix) (S1 : Solution),
      get_column_sum example_single = Except.ok cs ∧
      eliminate_column_singularities example_single Solution.empty =
        Except.ok (changed, m1, S1) ∧
      S1.initial_singularities.Pairwise (fun a b => a < b) ∧
      (∀ c : Int, c ∈ S1.initial_singularities ↔ 0 ≤ c ∧ cs[c.toNat]? = some 0) ∧
      m1.num_cols = example_single.num_cols - (S1.initial_singularities.length : Int) ∧
      m1.num_rows = example_single.num_rows ∧
      (∀ r : Int, 0 ≤ r → r < example_single.num_rows →
        ∃ row, get_row example_single r = Except.ok row ∧
          get_row m1 r = Except.ok (delete_positions S1.initial_singularities row)) ∧
      get_column_sum m1 = Except.ok cs1 ∧ (∀ v ∈ cs1, v ≠ 0) ∧
      (changed = true ↔ ∃ c : Int, 0 ≤ c ∧ cs[c.toNat]? = some 0) ∧
      S1.solution = Solution.empty.solution ∧ S1.weight = Solution.empty.weight) ∧
    eliminate_column_singularities example_single Solution.empty =
      Except.ok (true, relocate_matrix [1, 2, 3, 4, 5, 6, 7] example_single,
        { Solution.empty with initial_singularities := [1, 2, 3, 4, 5, 6, 7] }) :=
  ⟨initial_singularities_recorded example_single Solution.empty (by decide) rfl, rfl⟩

/-! ### The three element accessors -/

theorem scan_for_column_iff (c : Int) : ∀ column : List Int,
    (live column).Pairwise (fun a b => a < b) →
    (scan_for_column column c = true ↔ c ∈ live column) := by
  intro column
  induction column with
  | nil => intro _; simp [scan_for_column, live]
  | cons v rest ih =>
    intro hp
    by_cases hv : v = DELETED
    · rw [hv, live_cons_deleted] at hp ⊢
      simp only [scan_for_column, or_true, if_true]
      exact ih hp
    · rw [live_cons_live v rest hv] at hp ⊢
      have hp' := List.pairwise_cons.mp hp
      by_cases hlt : v < c
      · simp only [scan_for_column, hlt, true_or, if_true]
        rw [ih hp'.2]
        constructor
        · intro h; exact List.mem_cons_of_mem _ h
        · intro h
          rcases List.mem_cons.mp h with h | h
          · omega
          · exact h
      · simp only [scan_for_column, hlt, hv, or_self, if_false, decide_eq_true_eq]
        constructor
        · intro h; rw [h]; exact List.mem_cons_self _ _
        · intro h
          rcases List.mem_cons.mp h with h | h
          · exact h.symm
          · have := hp'.1 c h
            omega

/-- C17. The three element accessors agree: for every matrix satisfying the
invariants (rows may hold tombstones), every `r` in `[0, num_rows)` and every
`c` in `[0, num_cols)`, `is_row_column_set r c` is true iff `get_row(r)[c]` is
`1` iff `get_col(c)[r]` is `1`; and `get_col(c)` has length `num_rows`. -/
theorem accessors_agree (m : Matrix) (hm : matrix_wf m) (r c : Int)
    (hr : 0 ≤ r ∧ r < m.num_rows) (hc : 0 ≤ c ∧ c < m.num_cols) :
    ∃ (b : Bool) (d col : List Int),
      is_row_column_set m r c = Except.ok b ∧ get_row m r = Except.ok d ∧
      get_col m c = Except.ok col ∧ (col.length : Int) = m.num_rows ∧
      (b = true ↔ d[c.toNat]? = some 1) ∧ (d[c.toNat]? = some 1 ↔ col[r.toNat]? = some 1) := by
  obtain ⟨e, he, hmem, hat⟩ := row_at_some m hm r hr.1 hr.2
  have hw := hm.2.2.2 e hmem
  have hl := hm.1
  have hscan := scan_for_column_iff c e.column hw.2.1
  have hget : m.rowlist[r.toNat]? = some e := by
    simpa [row_at, not_lt.mpr hr.1] using he
  have hdense : (dense m.num_cols.toNat (live e.column))[c.toNat]? = some 1 ↔
      c ∈ live e.column := by
    rw [dense_getElem?, if_pos (by omega), Int.toNat_of_nonneg hc.1]
    by_cases h : c ∈ live e.column <;> simp [h]
  refine ⟨scan_for_column e.column c, _,
    (m.rowlist.take m.num_rows.toNat).map
      (fun element => if scan_for_column element.column c then 1 else 0),
    ?_, get_row_at m hm r e he, ?_, ?_, ?_, ?_⟩
  · simp only [is_row_column_set, hat]
    rw [if_neg (by omega)]
  · simp only [get_col]
    rw [if_neg (by omega), if_neg (by omega), if_pos (by omega)]
  · rw [List.length_map, List.length_take]
    omega
  · rw [hdense]; exact hscan
  · rw [hdense, List.getElem?_map, List.getElem?_take_of_lt (by omega), hget]
    simp only [Option.map_some']
    rw [← hscan]
    by_cases h : scan_for_column e.column c = true <;> simp [h]

/-- Witness for C17: row `a` and column 1 of the example matrix after
column 0 is removed, so that the row starts with a tombstone. -/
theorem accessors_agree_witness :
    ∃ (b : Bool) (d col : List Int),
      is_row_column_set (relocate_matrix [0] example_matrix) 0 1 = Except.ok b ∧
      get_row (relocate_matrix [0] example_matrix) 0 = Except.ok d ∧
      get_col (relocate_matrix [0] example_matrix) 1 = Except.ok col ∧
      (col.length : Int) = (relocate_matrix [0] example_matrix).num_rows ∧
      (b = true ↔ d[(1 : Int).toNat]? = some 1) ∧
      (d[(1 : Int).toNat]? = some 1 ↔ col[(0 : Int).toNat]? = some 1) :=
  accessors_agree (relocate_matrix [0] example_matrix) (by decide) 0 1 (by decide) (by decide)

/-! ### The subset-row rule -/

theorem find_subset_rows_sorted (m : Matrix) (result : List Int)
    (h : find_subset_rows m = Except.ok result) : result.Pairwise (fun a b => a < b) := by
  unfold find_subset_rows at h
  by_cases h0 : m.num_rows = 0
  · rw [if_pos h0] at h
    injection h with h; subst h; exact List.Pairwise.nil
  · rw [if_neg h0] at h
    cases hrs : get_row_sum m with
    | error e => rw [hrs] at h; simp at h
    | ok rs =>
      cases hv : visited_rows m with
      | error e => rw [hrs, hv] at h; simp at h
      | ok rows =>
        rw [hrs, hv] at h
        simp only at h
        cases hf : at_index (sort_by (row_meta_before m) (row_metas rows 0)) 0 with
        | error e => rw [hf] at h; cases h
        | ok first =>
          rw [hf] at h
          simp only at h
          cases hd : find_duplicate_rows m (sort_by (row_meta_before m) (row_metas rows 0))
              first.rowsum [] [] with
          | error e => rw [hd] at h; cases h
          | ok del =>
            rw [hd] at h
            simp only at h
            cases hs : find_strict_subsets m (sort_by (row_meta_before m) (row_metas rows 0))
                del with
            | error e => rw [hs] at h; cases h
            | ok del1 =>
              rw [hs] at h
              injection h with h; subst h; exact index_set_sorted _

/-- C18. The subset-row rule is sound: for every matrix satisfying the
invariants `find_subset_rows` returns a strictly increasing list of indices
of `[0, num_rows)`, and for every returned index `b` there is an index `a`
that is not returned such that every column of row `b` is a column of row `a`
and the weight of `a` is at most the weight of `b`; when the matrix has rows,
some row is not returned. -/
theorem subset_rows_sound (m : Matrix) (hm : matrix_wf m) :
    ∃ result, find_subset_rows m = Except.ok result ∧
      result.Pairwise (fun a b => a < b) ∧
      (∀ b ∈ result, 0 ≤ b ∧ b < m.num_rows) ∧
      (∀ b ∈ result, ∃ a, a ∉ result ∧ ∃ ea eb, row_at m a = some ea ∧ row_at m b = some eb ∧
        (∀ v ∈ live eb.column, v ∈ live ea.column) ∧ ea.weight ≤ eb.weight) ∧
      (m.num_rows ≠ 0 → ∃ a, 0 ≤ a ∧ a < m.num_rows ∧ a ∉ result) := by
  obtain ⟨result, h1, h2, _, h4⟩ := find_subset_rows_ok m hm
  refine ⟨result, h1, find_subset_rows_sorted m result h1, h4, h2, ?_⟩
  intro hne
  have hl := hm.1
  cases hres : result with
  | nil => exact ⟨0, le_refl _, by omega, List.not_mem_nil _⟩
  | cons b rest =>
    obtain ⟨a, ha, ea, _, hea, _⟩ := h2 b (by rw [hres]; exact List.mem_cons_self _ _)
    obtain ⟨_, h0, hlt, _⟩ := row_at_mem m a ea hea
    exact ⟨a, h0, by omega, by rw [← hres]; exact ha⟩

/-- Witness for C18: the example matrix. -/
theorem subset_rows_sound_witness :
    ∃ result, find_subset_rows example_matrix = Except.ok result ∧
      result.Pairwise (fun a b => a < b) ∧
      (∀ b ∈ result, 0 ≤ b ∧ b < example_matrix.num_rows) ∧
      (∀ b ∈ result, ∃ a, a ∉ result ∧ ∃ ea eb, row_at example_matrix a = some ea ∧
        row_at example_matrix b = some eb ∧
        (∀ v ∈ live eb.column, v ∈ live ea.column) ∧ ea.weight ≤ eb.weight) ∧
      (example_matrix.num_rows ≠ 0 → ∃ a, 0 ≤ a ∧ a < example_matrix.num_rows ∧ a ∉ result) :=
  subset_rows_sound example_matrix (by decide)

/-! ### Duplicates in the subset-row rule -/

theorem same_columns_symm (m : Matrix) {a b : Int} (h : same_columns m a b) :
    same_columns m b a := by
  obtain ⟨ea, eb, h1, h2, h3⟩ := h
  exact ⟨eb, ea, h2, h1, fun v => (h3 v).symm⟩

theorem same_columns_trans (m : Matrix) {a b c : Int} (h1 : same_columns m a b)
    (h2 : same_columns m b c) : same_columns m a c := by
  obtain ⟨ea, eb, g1, g2, g3⟩ := h1
  obtain ⟨eb', ec, k1, k2, k3⟩ := h2
  rw [g2] at k1
  injection k1 with k1
  subst k1
  exact ⟨ea, ec, g1, k2, fun v => (g3 v).trans (k3 v)⟩

theorem same_columns_refl (m : Matrix) (a : Int) (e : RowElem) (h : row_at m a = some e) :
    same_columns m a a := ⟨e, e, h, h, fun _ => Iff.rfl⟩

theorem keeps_before_refl (m : Matrix) (a : Int) (e : RowElem) (h : row_at m a = some e) :
    keeps_before m a a := ⟨e, e, h, h, le_refl _, fun _ => le_refl _⟩

theorem keeps_before_trans (m : Matrix) {a b c : Int} (h1 : keeps_before m a b)
    (h2 : keeps_before m b c) : keeps_before m a c := by
  obtain ⟨ea, eb, g1, g2, g3, g4⟩ := h1
  obtain ⟨eb', ec, k1, k2, k3, k4⟩ := h2
  rw [g2] at k1
  injection k1 with k1
  subst k1
  refine ⟨ea, ec, g1, k2, le_trans g3 k3, ?_⟩
  intro hw
  have e1 : ea.weight = eb.weight := le_antisymm g3 (by rw [hw]; exact k3)
  have e2 : eb.weight = ec.weight := by rw [← e1]; exact hw
  exact le_trans (g4 e1) (k4 e2)

theorem dup_inv_add_new (m : Matrix) (P del : List Int) (it : Int) (e : RowElem)
    (h : dup_inv m P del) (hdel : ∀ b ∈ del, b ∈ P) (hit : it ∉ P)
    (he : row_at m it = some e) (hnew : ∀ x ∈ P, ¬ same_columns m x it) :
    dup_inv m (it :: P) del := by
  obtain ⟨j1, j2, j3⟩ := h
  have hitd : it ∉ del := fun hc => hit (hdel it hc)
  refine ⟨?_, ?_, ?_⟩
  · intro x hx y hy hne hs
    rcases List.mem_cons.mp hx with ex | hx'
    · rcases List.mem_cons.mp hy with ey | hy'
      · exact absurd (ex.trans ey.symm) hne
      · rw [ex] at hs
        exact absurd (same_columns_symm m hs) (hnew y hy')
    · rcases List.mem_cons.mp hy with ey | hy'
      · rw [ey] at hs
        exact absurd hs (hnew x hx')
      · exact j1 x hx' y hy' hne hs
  · intro x hx hxd y hy hs
    rcases List.mem_cons.mp hx with ex | hx'
    · rcases List.mem_cons.mp hy with ey | hy'
      · rw [ex, ey]; exact keeps_before_refl m _ e he
      · rw [ex] at hs
        exact absurd (same_columns_symm m hs) (hnew y hy')
    · rcases List.mem_cons.mp hy with ey | hy'
      · rw [ey] at hs
        exact absurd hs (hnew x hx')
      · exact j2 x hx' hxd y hy' hs
  · intro x hx
    rcases List.mem_cons.mp hx with ex | hx'
    · rw [ex]
      exact ⟨it, List.mem_cons_self _ _, hitd, same_columns_refl m _ e he⟩
    · obtain ⟨z, hz, hzd, hzs⟩ := j3 x hx'
      exact ⟨z, List.mem_cons_of_mem _ hz, hzd, hzs⟩

theorem dup_inv_replace (m : Matrix) (P del : List Int) (it z : Int)
    (h : dup_inv m P del) (hdel : ∀ b ∈ del, b ∈ P) (hit : it ∉ P) (hz : z ∈ P) (hzd : z ∉ del)
    (hs : same_columns m z it) (hk : keeps_before m it z) :
    dup_inv m (it :: P) (z :: del) := by
  obtain ⟨j1, j2, j3⟩ := h
  have hitd : it ∉ del := fun hc => hit (hdel it hc)
  have hne : it ≠ z := fun hc => hit (hc ▸ hz)
  have hitd' : it ∉ z :: del := by
    intro hc
    rcases List.mem_cons.mp hc with hc | hc
    · exact hne hc
    · exact hitd hc
  obtain ⟨eit, heit⟩ : ∃ eit, row_at m it = some eit := by
    obtain ⟨_, eit, _, heit, _⟩ := hs
    exact ⟨eit, heit⟩
  have hmark : ∀ y ∈ P, y ≠ z → same_columns m it y → y ∈ del := by
    intro y hy hyz hsy
    rcases j1 z hz y hy (Ne.symm hyz) (same_columns_trans m hs hsy) with h | h
    · exact absurd h hzd
    · exact h
  refine ⟨?_, ?_, ?_⟩
  · intro x hx y hy hxy hsxy
    rcases List.mem_cons.mp hx with ex | hx'
    · rcases List.mem_cons.mp hy with ey | hy'
      · exact absurd (ex.trans ey.symm) hxy
      · rw [ex] at hsxy
        by_cases hyz : y = z
        · right; rw [hyz]; exact List.mem_cons_self _ _
        · right; exact List.mem_cons_of_mem _ (hmark y hy' hyz hsxy)
    · rcases List.mem_cons.mp hy with ey | hy'
      · rw [ey] at hsxy
        by_cases hxz : x = z
        · left; rw [hxz]; exact List.mem_cons_self _ _
        · left; exact List.mem_cons_of_mem _ (hmark x hx' hxz (same_columns_symm m hsxy))
      · rcases j1 x hx' y hy' hxy hsxy with h | h
        · exact Or.inl (List.mem_cons_of_mem _ h)
        · exact Or.inr (List.mem_cons_of_mem _ h)
  · intro x hx hxd y hy hsxy
    have hxz : x ≠ z := fun hc => hxd (hc ▸ List.mem_cons_self _ _)
    have hxd' : x ∉ del := fun hc => hxd (List.mem_cons_of_mem _ hc)
    rcases List.mem_cons.mp hx with ex | hx'
    · rcases List.mem_cons.mp hy with ey | hy'
      · rw [ex, ey]; exact keeps_before_refl m _ eit heit
      · rw [ex] at hsxy ⊢
        exact keeps_before_trans m hk (j2 z hz hzd y hy' (same_columns_trans m hs hsxy))
    · rcases List.mem_cons.mp hy with ey | hy'
      · rw [ey] at hsxy
        exact absurd (hmark x hx' hxz (same_columns_symm m hsxy)) hxd'
      · exact j2 x hx' hxd' y hy' hsxy
  · intro x hx
    rcases List.mem_cons.mp hx with ex | hx'
    · rw [ex]
      exact ⟨it, List.mem_cons_self _ _, hitd', same_columns_refl m _ eit heit⟩
    · obtain ⟨z0, hz0, hz0d, hz0s⟩ := j3 x hx'
      by_cases hzz : z0 = z
      · rw [hzz] at hz0s
        exact ⟨it, List.mem_cons_self _ _, hitd',
          same_columns_trans m (same_columns_symm m hs) hz0s⟩
      · refine ⟨z0, List.mem_cons_of_mem _ hz0, ?_, hz0s⟩
        intro hc
        rcases List.mem_cons.mp hc with hc | hc
        · exact hzz hc
        · exact hz0d hc

theorem dup_inv_delete_new (m : Matrix) (P del : List Int) (it z : Int)
    (h : dup_inv m P del) (hit : it ∉ P) (hz : z ∈ P) (hzd : z ∉ del)
    (hs : same_columns m z it) (hk : keeps_before m z it) :
    dup_inv m (it :: P) (it :: del) := by
  obtain ⟨j1, j2, j3⟩ := h
  have hne : z ≠ it := fun hc => hit (hc ▸ hz)
  refine ⟨?_, ?_, ?_⟩
  · intro x hx y hy hxy hsxy
    rcases List.mem_cons.mp hx with ex | hx'
    · left; rw [ex]; exact List.mem_cons_self _ _
    · rcases List.mem_cons.mp hy with ey | hy'
      · right; rw [ey]; exact List.mem_cons_self _ _
      · rcases j1 x hx' y hy' hxy hsxy with h | h
        · exact Or.inl (List.mem_cons_of_mem _ h)
        · exact Or.inr (List.mem_cons_of_mem _ h)
  · intro x hx hxd y hy hsxy
    have hxi : x ≠ it := fun hc => hxd (hc ▸ List.mem_cons_self _ _)
    have hxd' : x ∉ del := fun hc => hxd (List.mem_cons_of_mem _ hc)
    rcases List.mem_cons.mp hx with ex | hx'
    · exact absurd ex hxi
    · rcases List.mem_cons.mp hy with ey | hy'
      · rw [ey] at hsxy ⊢
        have hxz : x = z := by
          by_contra hxz
          rcases j1 x hx' z hz hxz (same_columns_trans m hsxy (same_columns_symm m hs)) with h | h
          · exact hxd' h
          · exact hzd h
        rw [hxz]; exact hk
      · exact j2 x hx' hxd' y hy' hsxy
  · intro x hx
    rcases List.mem_cons.mp hx with ex | hx'
    · rw [ex]
      refine ⟨z, List.mem_cons_of_mem _ hz, ?_, hs⟩
      intro hc
      rcases List.mem_cons.mp hc with hc | hc
      · exact hne hc
      · exact hzd hc
    · obtain ⟨z0, hz0, hz0d, hz0s⟩ := j3 x hx'
      refine ⟨z0, List.mem_cons_of_mem _ hz0, ?_, hz0s⟩
      intro hc
      rcases List.mem_cons.mp hc with hc | hc
      · exact hit (hc ▸ hz0)
      · exact hz0d hc

theorem before_false_facts (m : Matrix) (hm : matrix_wf m) (it : RowMeta) (z : Int)
    (e ez : RowElem) (hit : row_at m it.index = some e) (hrs : it.rowsum = e.row_sum)
    (hwt : it.weight = e.weight) (hz : row_at m z = some ez)
    (h : row_meta_before m it { index := z, rowsum := ez.row_sum, weight := ez.weight } = false) :
    e.row_sum ≤ ez.row_sum ∧
      (e.row_sum = ez.row_sum → ez.weight ≤ e.weight ∧
        (e.weight = ez.weight → e.file_path ≤ ez.file_path)) := by
  have hcmp := deterministic_compare_ok m hm it.index z e ez hit hz
  simp only [row_meta_before, hrs, hwt, hcmp] at h
  by_cases h1 : e.row_sum > ez.row_sum
  · simp [h1] at h
  · refine ⟨not_lt.mp h1, ?_⟩
    intro heq
    have h2 : ¬ e.row_sum < ez.row_sum := by omega
    simp only [h1, h2, if_false] at h
    by_cases h3 : e.weight < ez.weight
    · simp [h3] at h
    · refine ⟨not_lt.mp h3, ?_⟩
      intro hweq
      have h4 : ¬ e.weight > ez.weight := by rw [hweq]; exact lt_irrefl _
      simp only [h3, h4, if_false, decide_eq_false_iff_not] at h
      rw [string_compare_pos] at h
      exact not_lt.mp h

theorem same_columns_of_dense (m : Matrix) (hm : matrix_wf m) (a b : Int) (ea eb : RowElem)
    (ha : row_at m a = some ea) (hb : row_at m b = some eb) :
    dense m.num_cols.toNat (live ea.column) = dense m.num_cols.toNat (live eb.column) ↔
      same_columns m a b := by
  have ma := (row_at_mem m a ea ha).1
  have mb := (row_at_mem m b eb hb).1
  constructor
  · intro hd
    exact ⟨ea, eb, ha, hb, (live_eq_of_dense_eq m.num_cols hm.2.1 ea eb (hm.2.2.2 ea ma)
      (hm.2.2.2 eb mb) hd).1⟩
  · rintro ⟨ea', eb', ha', hb', hiff⟩
    rw [ha] at ha'
    rw [hb] at hb'
    injection ha' with ha'
    injection hb' with hb'
    subst ha' hb'
    simp only [dense]
    apply List.map_congr_left
    intro c _
    by_cases h1 : (c : Int) ∈ live ea.column
    · rw [if_pos h1, if_pos ((hiff _).mp h1)]
    · rw [if_neg h1, if_neg (fun h2 => h1 ((hiff _).mpr h2))]

theorem same_columns_row_sum (m : Matrix) (hm : matrix_wf m) (a b : Int) (ea eb : RowElem)
    (ha : row_at m a = some ea) (hb : row_at m b = some eb) (h : same_columns m a b) :
    ea.row_sum = eb.row_sum := by
  have ma := (row_at_mem m a ea ha).1
  have mb := (row_at_mem m b eb hb).1
  exact (live_eq_of_dense_eq m.num_cols hm.2.1 ea eb (hm.2.2.2 ea ma) (hm.2.2.2 eb mb)
    ((same_columns_of_dense m hm a b ea eb ha hb).mpr h)).2

/-- The duplicate pass of `find_subset_rows` is complete: when it returns,
of two duplicate rows one is marked, and a row that is not marked is kept
before each of its duplicates. -/
theorem find_duplicate_rows_complete (m : Matrix) (hm : matrix_wf m) :
    ∀ (rest : List RowMeta) (cur : Int) (rows : List (List Int × Int)) (del P del1 : List Int),
      (∀ it ∈ rest, meta_ok m it) →
      rest.Pairwise (fun a b => row_meta_before m b a = false) →
      (rest.map (fun it => it.index)).Nodup →
      (∀ x ∈ P, ∃ e, row_at m x = some e ∧ cur ≤ e.row_sum ∧ ∀ it ∈ rest,
        row_meta_before m it { index := x, rowsum := e.row_sum, weight := e.weight } = false) →
      (∀ it ∈ rest, it.index ∉ P ∧ it.rowsum ≤ cur) →
      (∀ b ∈ del, b ∈ P) →
      (∀ key idx, rows_find rows key = some idx → idx ∈ P ∧ idx ∉ del ∧
        ∃ e, row_at m idx = some e ∧ key = dense m.num_cols.toNat (live e.column)) →
      (∀ x ∈ P, x ∉ del → ∀ e, row_at m x = some e → e.row_sum = cur →
        rows_find rows (dense m.num_cols.toNat (live e.column)) = some x) →
      dup_inv m P del →
      find_duplicate_rows m rest cur rows del = Except.ok del1 →
      dup_inv m ((rest.reverse.map (fun it => it.index)) ++ P) del1 ∧ ∀ b ∈ del, b ∈ del1 := by
  intro rest
  induction rest with
  | nil =>
    intro cur rows del P del1 _ _ _ _ _ _ _ _ hinv hrun
    simp only [find_duplicate_rows] at hrun
    injection hrun with hrun
    subst hrun
    exact ⟨by simpa using hinv, fun b hb => hb⟩
  | cons it rest ih =>
    intro cur rows del P del1 hok hsorted hnd hP hrest hdel hmap hJ4 hinv hrun
    obtain ⟨e, he, hrs, hwt⟩ := hok it (List.mem_cons_self _ _)
    have hrest_ok : ∀ it' ∈ rest, meta_ok m it' := fun x hx => hok x (List.mem_cons_of_mem _ hx)
    have hnd' : it.index ∉ rest.map (fun it => it.index) ∧
        (rest.map (fun it => it.index)).Nodup := by
      rw [List.map_cons] at hnd
      exact List.nodup_cons.mp hnd
    have hsorted' := List.pairwise_cons.mp hsorted
    have hitP : it.index ∉ P := (hrest it (List.mem_cons_self _ _)).1
    have hitcur : it.rowsum ≤ cur := (hrest it (List.mem_cons_self _ _)).2
    have hit_eta : ({ index := it.index, rowsum := e.row_sum, weight := e.weight } : RowMeta) =
        it := by
      cases it
      simp only at hrs hwt
      simp [hrs, hwt]
    have hlist : ((it :: rest).reverse.map (fun it => it.index)) ++ P =
        (rest.reverse.map (fun it => it.index)) ++ (it.index :: P) := by simp
    rw [hlist]
    have hcur1 : (if cur ≠ it.rowsum then it.rowsum else cur) = it.rowsum := by
      by_cases hc : cur ≠ it.rowsum
      · rw [if_pos hc]
      · rw [if_neg hc]; exact not_not.mp hc
    -- the processed rows after this step, and the rest
    have hP' : ∀ x ∈ it.index :: P, ∃ e, row_at m x = some e ∧ it.rowsum ≤ e.row_sum ∧
        ∀ it' ∈ rest,
          row_meta_before m it' { index := x, rowsum := e.row_sum, weight := e.weight } =
            false := by
      intro x hx
      rcases List.mem_cons.mp hx with ex | hx'
      · rw [ex]
        refine ⟨e, he, by rw [hrs], ?_⟩
        intro it' hit'
        rw [hit_eta]
        exact hsorted'.1 it' hit'
      · obtain ⟨ex, h1, h2, h3⟩ := hP x hx'
        exact ⟨ex, h1, le_trans hitcur h2, fun it' hit' => h3 it' (List.mem_cons_of_mem _ hit')⟩
    have hrest' : ∀ it' ∈ rest, it'.index ∉ it.index :: P ∧ it'.rowsum ≤ it.rowsum := by
      intro it' hit'
      refine ⟨?_, ?_⟩
      · intro hc
        rcases List.mem_cons.mp hc with hc | hc
        · exact hnd'.1 (List.mem_map.mpr ⟨it', hit', hc⟩)
        · exact (hrest it' (List.mem_cons_of_mem _ hit')).1 hc
      · obtain ⟨e', he', hrs', hwt'⟩ := hrest_ok it' hit'
        have hb := hsorted'.1 it' hit'
        rw [← hit_eta] at hb
        have := (before_false_facts m hm it' it.index e' e he' hrs' hwt' he hb).1
        rw [hrs', hrs]; exact this
    -- the map after the possible `rows.clear()`
    have hmap1 : ∀ key idx,
        rows_find (if cur ≠ it.rowsum then [] else rows) key = some idx →
        idx ∈ P ∧ idx ∉ del ∧
          ∃ e, row_at m idx = some e ∧ key = dense m.num_cols.toNat (live e.column) := by
      intro key idx h
      by_cases hc : cur ≠ it.rowsum
      · rw [if_pos hc] at h
        simp [rows_find] at h
      · rw [if_neg hc] at h
        exact hmap key idx h
    have hJ41 : ∀ x ∈ P, x ∉ del → ∀ ex, row_at m x = some ex → ex.row_sum = it.rowsum →
        rows_find (if cur ≠ it.rowsum then [] else rows)
          (dense m.num_cols.toNat (live ex.column)) = some x := by
      intro x hx hxd ex hex hsum
      by_cases hc : cur ≠ it.rowsum
      · exfalso
        obtain ⟨ex', h1, h2, _⟩ := hP x hx
        rw [hex] at h1
        injection h1 with h1
        subst h1
        have : cur = it.rowsum := le_antisymm (by rw [← hsum]; exact h2) hitcur
        exact hc this
      · rw [if_neg hc]
        exact hJ4 x hx hxd ex hex (by rw [hsum]; exact (not_not.mp hc).symm)
    have hg := get_row_at m hm it.index e he
    simp only [find_duplicate_rows, hg, hcur1] at hrun
    -- the map after binding the current row
    have hmap_new : ∀ (del' : List Int), it.index ∉ del' → (∀ b ∈ del', b ∈ it.index :: P) →
        (∀ key idx, rows_find (if cur ≠ it.rowsum then [] else rows) key = some idx →
          key ≠ dense m.num_cols.toNat (live e.column) → idx ∉ del') →
        ∀ key idx,
          rows_find ((dense m.num_cols.toNat (live e.column), it.index) ::
            (if cur ≠ it.rowsum then [] else rows)) key = some idx →
          idx ∈ it.index :: P ∧ idx ∉ del' ∧
            ∃ e, row_at m idx = some e ∧ key = dense m.num_cols.toNat (live e.column) := by
      intro del' hnot _ hold key idx h
      rw [rows_find_cons] at h
      by_cases hk : dense m.num_cols.toNat (live e.column) = key
      · rw [if_pos hk] at h
        injection h with h
        subst h
        exact ⟨List.mem_cons_self _ _, hnot, e, he, hk.symm⟩
      · rw [if_neg hk] at h
        obtain ⟨h1, _, e', h3, h4⟩ := hmap1 key idx h
        exact ⟨List.mem_cons_of_mem _ h1, hold key idx h (fun hc => hk hc.symm), e', h3, h4⟩
    have hJ4_new : ∀ (del' : List Int), (∀ x ∈ P, x ∉ del' → x ∉ del) →
        (∀ x ∈ P, x ∉ del' → ¬ same_columns m x it.index) →
        ∀ x ∈ it.index :: P, x ∉ del' → ∀ ex, row_at m x = some ex → ex.row_sum = it.rowsum →
          rows_find ((dense m.num_cols.toNat (live e.column), it.index) ::
            (if cur ≠ it.rowsum then [] else rows))
            (dense m.num_cols.toNat (live ex.column)) = some x := by
      intro del' hsub hno x hx hxd ex hex hsum
      rw [rows_find_cons]
      rcases List.mem_cons.mp hx with hxe | hx'
      · rw [hxe] at hex
        rw [he] at hex
        injection hex with hex
        subst hex
        rw [if_pos rfl, hxe]
      · have hns := hno x hx' hxd
        rw [if_neg (fun hc => hns ((same_columns_of_dense m hm x it.index ex e hex he).mp hc.symm))]
        exact hJ41 x hx' (hsub x hx' hxd) ex hex hsum
    cases hfind : rows_find (if cur ≠ it.rowsum then [] else rows)
        (dense m.num_cols.toNat (live e.column)) with
    | none =>
      rw [hfind] at hrun
      simp only at hrun
      -- no processed row is a duplicate of the current one
      have hnew : ∀ x ∈ P, ¬ same_columns m x it.index := by
        intro x hx hs
        obtain ⟨z, hz, hzd, hzs⟩ := hinv.2.2 x hx
        have hzi := same_columns_trans m hzs hs
        obtain ⟨ez, hez⟩ : ∃ ez, row_at m z = some ez := by
          obtain ⟨ez, _, hez, _, _⟩ := hzi
          exact ⟨ez, hez⟩
        have hsum := same_columns_row_sum m hm z it.index ez e hez he hzi
        have := hJ41 z hz hzd ez hez (by rw [hsum, hrs])
        rw [(same_columns_of_dense m hm z it.index ez e hez he).mpr hzi, hfind] at this
        cases this
      have hdel' : ∀ b ∈ del, b ∈ it.index :: P := fun b hb => List.mem_cons_of_mem _ (hdel b hb)
      have hres := ih it.rowsum _ del (it.index :: P) del1 hrest_ok hsorted'.2 hnd'.2 hP' hrest'
        hdel'
        (hmap_new del (fun hc => hitP (hdel _ hc)) hdel' (fun key idx h _ => (hmap1 key idx h).2.1))
        (hJ4_new del (fun x _ hxd => hxd) (fun x hx _ => hnew x hx))
        (dup_inv_add_new m P del it.index e hinv hdel hitP he hnew) hrun
      exact hres
    | some mi =>
      rw [hfind] at hrun
      simp only at hrun
      obtain ⟨hmiP, hmid, em, hem, hkey⟩ := hmap1 _ mi hfind
      have hmi_ne : mi ≠ it.index := fun h => hitP (h ▸ hmiP)
      have hsame : same_columns m mi it.index :=
        (same_columns_of_dense m hm mi it.index em e hem he).mp hkey.symm
      have hsum : em.row_sum = e.row_sum := same_columns_row_sum m hm mi it.index em e hem he hsame
      have hw := get_row_weight_ok m hm mi em hem
      have hcmp := deterministic_compare_ok m hm mi it.index em e hem he
      -- the matched row was processed before the current one
      obtain ⟨em', hem', _, hbef⟩ := hP mi hmiP
      rw [hem] at hem'
      injection hem' with hem'
      subst hem'
      have hfacts := (before_false_facts m hm it mi e em he hrs hwt hem
        (hbef it (List.mem_cons_self _ _))).2 hsum.symm
      simp only [hw, hcmp] at hrun
      -- the branch in which the current row is marked
      have hmark : keeps_before m mi it.index →
          find_duplicate_rows m rest it.rowsum (if cur ≠ it.rowsum then [] else rows)
            (it.index :: del) = Except.ok del1 →
          dup_inv m ((rest.reverse.map (fun it => it.index)) ++ (it.index :: P)) del1 ∧
            ∀ b ∈ del, b ∈ del1 := by
        intro hk hrun'
        have hres := ih it.rowsum _ (it.index :: del) (it.index :: P) del1 hrest_ok hsorted'.2
          hnd'.2 hP' hrest'
          (by
            intro b hb
            rcases List.mem_cons.mp hb with hb | hb
            · rw [hb]; exact List.mem_cons_self _ _
            · exact List.mem_cons_of_mem _ (hdel b hb))
          (by
            intro key idx h
            obtain ⟨h1, h2, h3⟩ := hmap1 key idx h
            refine ⟨List.mem_cons_of_mem _ h1, ?_, h3⟩
            intro hc
            rcases List.mem_cons.mp hc with hc | hc
            · exact hitP (hc ▸ h1)
            · exact h2 hc)
          (by
            intro x hx hxd ex hex hsum'
            have hxi : x ≠ it.index := fun hc => hxd (hc ▸ List.mem_cons_self _ _)
            rcases List.mem_cons.mp hx with hx' | hx'
            · exact absurd hx' hxi
            · exact hJ41 x hx' (fun hc => hxd (List.mem_cons_of_mem _ hc)) ex hex hsum')
          (dup_inv_delete_new m P del it.index mi hinv hitP hmiP hmid hsame hk) hrun'
        exact ⟨hres.1, fun b hb => hres.2 b (List.mem_cons_of_mem _ hb)⟩
      by_cases hweq : it.weight = em.weight
      · rw [if_pos hweq] at hrun
        by_cases hc : string_compare em.file_path e.file_path > 0
        · rw [if_pos hc] at hrun
          have hk : keeps_before m it.index mi :=
            ⟨e, em, he, hem, by rw [← hwt, hweq], fun _ =>
              le_of_lt ((string_compare_pos _ _).mp hc)⟩
          have hdel' : ∀ b ∈ mi :: del, b ∈ it.index :: P := by
            intro b hb
            rcases List.mem_cons.mp hb with hb | hb
            · rw [hb]; exact List.mem_cons_of_mem _ hmiP
            · exact List.mem_cons_of_mem _ (hdel b hb)
          have hitd' : it.index ∉ mi :: del := by
            intro hc'
            rcases List.mem_cons.mp hc' with hc' | hc'
            · exact hmi_ne hc'.symm
            · exact hitP (hdel _ hc')
          have hclass : ∀ x ∈ P, x ∉ mi :: del → ¬ same_columns m x it.index := by
            intro x hx hxd hs
            have hxm : x ≠ mi := fun hc' => hxd (hc' ▸ List.mem_cons_self _ _)
            rcases hinv.1 x hx mi hmiP hxm
              (same_columns_trans m hs (same_columns_symm m hsame)) with h | h
            · exact hxd (List.mem_cons_of_mem _ h)
            · exact hmid h
          have hres := ih it.rowsum _ (mi :: del) (it.index :: P) del1 hrest_ok hsorted'.2
            hnd'.2 hP' hrest' hdel'
            (hmap_new (mi :: del) hitd' hdel' (by
              intro key idx h hk' hc'
              rcases List.mem_cons.mp hc' with hc' | hc'
              · obtain ⟨_, _, e', h3, h4⟩ := hmap1 key idx h
                rw [hc', hem] at h3
                injection h3 with h3
                subst h3
                exact hk' (by rw [h4, hkey])
              · exact (hmap1 key idx h).2.1 hc'))
            (hJ4_new (mi :: del) (fun x _ hxd hc' => hxd (List.mem_cons_of_mem _ hc')) hclass)
            (dup_inv_replace m P del it.index mi hinv hdel hitP hmiP hmid hsame hk) hrun
          exact ⟨hres.1, fun b hb => hres.2 b (List.mem_cons_of_mem _ hb)⟩
        · rw [if_neg hc] at hrun
          refine hmark ⟨em, e, hem, he, hfacts.1, fun _ => ?_⟩ hrun
          rw [string_compare_pos] at hc
          exact not_lt.mp hc
      · rw [if_neg hweq] at hrun
        refine hmark ⟨em, e, hem, he, hfacts.1, fun hc => ?_⟩ hrun
        exact absurd (by rw [hwt, hc]) hweq

theorem overlap_count_of_subset (c1 c2 : List Int) (h1 : (live c1).Nodup)
    (h2 : (live c2).Nodup) (h : ∀ v ∈ live c2, v ∈ live c1) :
    overlap_count c1 c2 = live_count c2 := by
  simp only [overlap_count, live_count_eq]
  have hnd : ((live c1).filter (fun v => decide (v ∈ live c2))).Nodup := h1.filter _
  have hperm := (List.perm_ext_iff_of_nodup hnd h2).mpr (by
    intro v
    simp only [List.mem_filter, decide_eq_true_eq]
    exact ⟨fun hv => hv.2, fun hv => ⟨h v hv, hv⟩⟩)
  rw [hperm.length_eq]

theorem find_subsets_of_complete (m : Matrix) (hm : matrix_wf m) (it1 : RowMeta)
    (h1 : meta_ok m it1) :
    ∀ (rest : List RowMeta) (del del1 : List Int), (∀ it ∈ rest, meta_ok m it) →
      find_subsets_of m it1 rest del = Except.ok del1 →
      (∀ b ∈ del, b ∈ del1) ∧
        ∀ it2 ∈ rest, dominates m it1.index it2.index → it2.index ∈ del1 := by
  intro rest
  induction rest with
  | nil =>
    intro del del1 _ hrun
    simp only [find_subsets_of] at hrun
    injection hrun with hrun
    subst hrun
    exact ⟨fun b hb => hb, fun it2 h => absurd h (List.not_mem_nil _)⟩
  | cons it2 rest ih =>
    intro del del1 hok hrun
    have hrest_ok : ∀ it' ∈ rest, meta_ok m it' := fun x hx => hok x (List.mem_cons_of_mem _ hx)
    obtain ⟨e1, he1, hrs1, hwt1⟩ := h1
    obtain ⟨e2, he2, hrs2, hwt2⟩ := hok it2 (List.mem_cons_self _ _)
    simp only [find_subsets_of] at hrun
    have hstep : ∀ del', (∀ b ∈ del, b ∈ del') →
        (dominates m it1.index it2.index → it2.index ∈ del') →
        find_subsets_of m it1 rest del' = Except.ok del1 →
        (∀ b ∈ del, b ∈ del1) ∧
          ∀ it ∈ it2 :: rest, dominates m it1.index it.index → it.index ∈ del1 := by
      intro del' hsub hdom hrun'
      obtain ⟨i1, i2⟩ := ih del' del1 hrest_ok hrun'
      refine ⟨fun b hb => i1 b (hsub b hb), ?_⟩
      intro it hit hd
      rcases List.mem_cons.mp hit with hit | hit
      · rw [hit]; exact i1 _ (hdom (by rw [← hit]; exact hd))
      · exact i2 it hit hd
    by_cases hin : it2.index ∈ del
    · rw [if_pos hin] at hrun
      exact hstep del (fun b hb => hb) (fun _ => hin) hrun
    · rw [if_neg hin] at hrun
      by_cases hw : it1.weight > it2.weight
      · rw [if_pos hw] at hrun
        refine hstep del (fun b hb => hb) ?_ hrun
        rintro ⟨ea, eb, ha, hb, _, hle⟩
        rw [he1] at ha
        rw [he2] at hb
        injection ha with ha
        injection hb with hb
        subst ha hb
        rw [hwt1, hwt2] at hw
        exact absurd hle (not_le.mpr hw)
      · rw [if_neg hw] at hrun
        have hov := get_overlap_ok m hm it1.index it2.index e1 e2 he1 he2
        rw [hov] at hrun
        simp only at hrun
        by_cases hs : it2.rowsum = overlap_count e1.column e2.column
        · rw [if_pos hs] at hrun
          exact hstep (it2.index :: del) (fun b hb => List.mem_cons_of_mem _ hb)
            (fun _ => List.mem_cons_self _ _) hrun
        · rw [if_neg hs] at hrun
          refine hstep del (fun b hb => hb) ?_ hrun
          rintro ⟨ea, eb, ha, hb, hsub, _⟩
          rw [he1] at ha
          rw [he2] at hb
          injection ha with ha
          injection hb with hb
          subst ha hb
          exfalso
          apply hs
          have m1 := (row_at_mem m _ e1 he1).1
          have m2 := (row_at_mem m _ e2 he2).1
          rw [hrs2, (hm.2.2.2 e2 m2).1]
          exact (overlap_count_of_subset e1.column e2.column
            ((hm.2.2.2 e1 m1).2.1.imp (fun h => ne_of_lt h))
            ((hm.2.2.2 e2 m2).2.1.imp (fun h => ne_of_lt h)) hsub).symm

theorem find_strict_subsets_complete (m : Matrix) (hm : matrix_wf m) :
    ∀ (rest : List RowMeta) (del del1 : List Int), (∀ it ∈ rest, meta_ok m it) →
      find_strict_subsets m rest del = Except.ok del1 →
      (∀ b ∈ del, b ∈ del1) ∧
        rest.Pairwise (fun a b => a.index ∉ del1 → dominates m a.index b.index →
          b.index ∈ del1) := by
  intro rest
  induction rest with
  | nil =>
    intro del del1 _ hrun
    simp only [find_strict_subsets] at hrun
    injection hrun with hrun
    subst hrun
    exact ⟨fun b hb => hb, List.Pairwise.nil⟩
  | cons it1 rest ih =>
    intro del del1 hok hrun
    have hrest_ok : ∀ it' ∈ rest, meta_ok m it' := fun x hx => hok x (List.mem_cons_of_mem _ hx)
    simp only [find_strict_subsets] at hrun
    by_cases hin : it1.index ∈ del
    · rw [if_pos hin] at hrun
      obtain ⟨i1, i2⟩ := ih del del1 hrest_ok hrun
      refine ⟨i1, List.pairwise_cons.mpr ⟨?_, i2⟩⟩
      intro b _ hnot
      exact absurd (i1 _ hin) hnot
    · rw [if_neg hin] at hrun
      cases hsub : find_subsets_of m it1 rest del with
      | error err => rw [hsub] at hrun; cases hrun
      | ok del' =>
        rw [hsub] at hrun
        simp only at hrun
        obtain ⟨s1, s2⟩ := find_subsets_of_complete m hm it1 (hok it1 (List.mem_cons_self _ _))
          rest del del' hrest_ok hsub
        obtain ⟨i1, i2⟩ := ih del' del1 hrest_ok hrun
        refine ⟨fun b hb => i1 b (s1 b hb), List.pairwise_cons.mpr ⟨?_, i2⟩⟩
        intro b hb _ hd
        exact i1 _ (s2 b hb hd)

theorem pairwise_mem_cases {α : Type} (R : α → α → Prop) :
    ∀ (l : List α), l.Pairwise R → ∀ x ∈ l, ∀ y ∈ l, x ≠ y → R x y ∨ R y x := by
  intro l
  induction l with
  | nil => intro _ x hx; cases hx
  | cons a l ih =>
    intro hp x hx y hy hne
    obtain ⟨h1, h2⟩ := List.pairwise_cons.mp hp
    rcases List.mem_cons.mp hx with ex | hx'
    · rcases List.mem_cons.mp hy with ey | hy'
      · exact absurd (ex.trans ey.symm) hne
      · left; rw [ex]; exact h1 y hy'
    · rcases List.mem_cons.mp hy with ey | hy'
      · right; rw [ey]; exact h1 x hx'
      · exact ih h2 x hx' y hy' hne

theorem row_metas_mem (rows : List RowElem) :
    ∀ (i : Int) (k : Nat) (e : RowElem), rows[k]? = some e →
      ({ index := i + (k : Int), rowsum := e.row_sum, weight := e.weight } : RowMeta) ∈
        row_metas rows i := by
  induction rows with
  | nil => intro i k e h; simp at h
  | cons e0 rest ih =>
    intro i k e h
    cases k with
    | zero =>
      simp only [List.getElem?_cons_zero, Option.some.injEq] at h
      subst h
      simp [row_metas]
    | succ k =>
      rw [List.getElem?_cons_succ] at h
      have := ih (i + 1) k e h
      simp only [row_metas, List.mem_cons]
      right
      have e1 : i + ((k + 1 : Nat) : Int) = i + 1 + (k : Int) := by push_cast; ring
      rw [e1]; exact this

theorem sorted_row_metas_mem (m : Matrix) (a : Int) (e : RowElem) (h : row_at m a = some e) :
    ({ index := a, rowsum := e.row_sum, weight := e.weight } : RowMeta) ∈ sorted_row_metas m := by
  obtain ⟨_, h0, _, _⟩ := row_at_mem m a e h
  have hget : m.rowlist[a.toNat]? = some e := by
    simpa [row_at, not_lt.mpr h0] using h
  have := row_metas_mem m.rowlist 0 a.toNat e hget
  rw [zero_add, Int.toNat_of_nonneg h0] at this
  exact (sort_by_perm _ _).mem_iff.mpr this

theorem live_superset_of_length (c1 c2 : List Int)
    (h2 : (live c2).Nodup) (h : ∀ v ∈ live c2, v ∈ live c1)
    (hlen : (live c1).length ≤ (live c2).length) : ∀ v, v ∈ live c2 ↔ v ∈ live c1 := by
  have hperm := (List.Nodup.subperm h2 (fun v hv => h v hv)).perm_of_length_le hlen
  intro v
  exact hperm.mem_iff

theorem before_false_rowsum (m : Matrix) (a b : RowMeta)
    (h : row_meta_before m a b = false) : a.rowsum ≤ b.rowsum := by
  by_contra hc
  have hgt : a.rowsum > b.rowsum := not_le.mp hc
  simp only [row_meta_before, hgt, if_true] at h
  cases h

/-- The subset-row rule is complete: of two distinct rows one of which
dominates the other, one is returned; and a duplicate that is not returned
is kept before each of its duplicates. -/
theorem find_subset_rows_complete (m : Matrix) (hm : matrix_wf m) (result : List Int)
    (h : find_subset_rows m = Except.ok result) :
    (∀ a b, a ≠ b → same_columns m a b → a ∈ result ∨ b ∈ result) ∧
    (∀ a, a ∉ result → ∀ b, same_columns m a b → keeps_before m a b) ∧
    (∀ a b, a ≠ b → dominates m a b → a ∈ result ∨ b ∈ result) := by
  by_cases h0 : m.num_rows = 0
  · have hnil : m.rowlist = [] := List.length_eq_zero.mp (by have := hm.1; omega)
    have hnone : ∀ a e, row_at m a = some e → False := by
      intro a e he
      have := (row_at_mem m a e he).1
      rw [hnil] at this
      exact List.not_mem_nil _ this
    refine ⟨?_, ?_, ?_⟩
    · rintro a b _ ⟨ea, _, ha, _⟩; exact (hnone a ea ha).elim
    · rintro a _ b ⟨ea, _, ha, _⟩; exact (hnone a ea ha).elim
    · rintro a b _ ⟨ea, _, ha, _⟩; exact (hnone a ea ha).elim
  · have hsorted := sorted_rows_sorted m hm (row_metas m.rowlist 0) (row_metas_ok m)
    have hok := sorted_row_metas_ok m
    have hnd := sorted_row_metas_nodup m
    simp only [find_subset_rows, if_neg h0, get_row_sum_ok m hm, visited_rows_ok m hm] at h
    have hS : sort_by (row_meta_before m) (row_metas m.rowlist 0) = sorted_row_metas m := rfl
    rw [hS] at h hsorted
    cases hf : at_index (sorted_row_metas m) 0 with
    | error e => rw [hf] at h; cases h
    | ok first =>
      rw [hf] at h
      simp only at h
      cases hd : find_duplicate_rows m (sorted_row_metas m) first.rowsum [] [] with
      | error e => rw [hd] at h; cases h
      | ok del =>
        rw [hd] at h
        simp only at h
        cases hs : find_strict_subsets m (sorted_row_metas m) del with
        | error e => rw [hs] at h; cases h
        | ok del1 =>
          rw [hs] at h
          injection h with h
          -- the first record has the greatest row sum
          have hfirst : ∀ it ∈ sorted_row_metas m, it.rowsum ≤ first.rowsum := by
            have hget := ((at_index_eq_ok _ _ _).mp hf).2
            intro it hit
            cases hl : sorted_row_metas m with
            | nil => rw [hl] at hit; cases hit
            | cons x rest =>
              rw [hl] at hget hit hsorted
              simp only [Int.toNat_zero, List.getElem?_cons_zero, Option.some.injEq] at hget
              subst hget
              rcases List.mem_cons.mp hit with e1 | hit'
              · rw [e1]
              · exact before_false_rowsum m it x ((List.pairwise_cons.mp hsorted).1 it hit')
          obtain ⟨hdup, _⟩ := find_duplicate_rows_complete m hm (sorted_row_metas m) first.rowsum
            [] [] [] del hok hsorted hnd (fun x hx => absurd hx (List.not_mem_nil _))
            (fun it hit => ⟨List.not_mem_nil _, hfirst it hit⟩)
            (fun b hb => absurd hb (List.not_mem_nil _))
            (fun key idx hk => by simp [rows_find] at hk)
            (fun x hx => absurd hx (List.not_mem_nil _))
            ⟨fun x hx => absurd hx (List.not_mem_nil _), fun x hx => absurd hx (List.not_mem_nil _),
              fun x hx => absurd hx (List.not_mem_nil _)⟩ hd
          obtain ⟨hsub, hstrict⟩ := find_strict_subsets_complete m hm (sorted_row_metas m) del del1
            hok hs
          have hall : ∀ a e, row_at m a = some e →
              a ∈ (sorted_row_metas m).reverse.map (fun it => it.index) ++ [] := by
            intro a e he
            rw [List.append_nil]
            apply List.mem_map.mpr
            exact ⟨_, List.mem_reverse.mpr (sorted_row_metas_mem m a e he), rfl⟩
          have hres : ∀ x, x ∈ result ↔ x ∈ del1 := by
            intro x; rw [← h]; exact mem_index_set del1 x
          have hA : ∀ a b, a ≠ b → same_columns m a b → a ∈ result ∨ b ∈ result := by
            intro a b hne hs'
            obtain ⟨ea, eb, ha, hb, _⟩ := hs'
            rcases hdup.1 a (hall a ea ha) b (hall b eb hb) hne ⟨ea, eb, ha, hb, by assumption⟩
              with h1 | h1
            · exact Or.inl ((hres a).mpr (hsub a h1))
            · exact Or.inr ((hres b).mpr (hsub b h1))
          refine ⟨hA, ?_, ?_⟩
          · intro a ha b hs'
            obtain ⟨ea, eb, hea, heb, hiff⟩ := hs'
            exact hdup.2.1 a (hall a ea hea) (fun hc => ha ((hres a).mpr (hsub a hc))) b
              (hall b eb heb) ⟨ea, eb, hea, heb, hiff⟩
          · intro a b hne hdom
            obtain ⟨ea, eb, hea, heb, hcols, hwle⟩ := hdom
            have ma := (row_at_mem m a ea hea).1
            have mb := (row_at_mem m b eb heb).1
            have hna : (live ea.column).Nodup := (hm.2.2.2 ea ma).2.1.imp (fun h => ne_of_lt h)
            have hnb : (live eb.column).Nodup := (hm.2.2.2 eb mb).2.1.imp (fun h => ne_of_lt h)
            by_cases hlen : (live ea.column).length ≤ (live eb.column).length
            · exact hA a b hne ⟨ea, eb, hea, heb,
                fun v => (live_superset_of_length ea.column eb.column hnb hcols hlen v).symm⟩
            · have hgt : ea.row_sum > eb.row_sum := by
                rw [(hm.2.2.2 ea ma).1, (hm.2.2.2 eb mb).1, live_count_eq, live_count_eq]
                omega
              have hboth := List.Pairwise.and hsorted hstrict
              have hmne : ({ index := a, rowsum := ea.row_sum, weight := ea.weight } : RowMeta) ≠
                  { index := b, rowsum := eb.row_sum, weight := eb.weight } := by
                intro hc
                injection hc with hc
                exact hne hc
              rcases pairwise_mem_cases _ _ hboth _ (sorted_row_metas_mem m a ea hea) _
                (sorted_row_metas_mem m b eb heb) hmne with h1 | h1
              · by_cases ha : a ∈ del1
                · exact Or.inl ((hres a).mpr ha)
                · exact Or.inr ((hres b).mpr (h1.2 ha ⟨ea, eb, hea, heb, hcols, hwle⟩))
              · exfalso
                have := h1.1
                simp only [row_meta_before, hgt, if_true] at this
                cases this

/-! ### Tie-break among duplicates and idempotence of the subset-row rule -/

theorem getElem?_delete_positions_from {α : Type} (D : List Int) :
    ∀ (xs : List α) (k j : Nat) (x : α), (delete_positions_from D k xs)[j]? = some x →
      ∃ i : Nat, ((k + i : Nat) : Int) ∉ D ∧ xs[i]? = some x ∧
        j = ((List.range' k i).filter (fun t : Nat => decide ((t : Int) ∉ D))).length := by
  intro xs
  induction xs with
  | nil => intro k j x h; simp [delete_positions_from] at h
  | cons y ys ih =>
    intro k j x h
    simp only [delete_positions_from] at h
    by_cases hk : (k : Int) ∈ D
    · rw [if_pos hk] at h
      obtain ⟨i, h1, h2, h3⟩ := ih (k + 1) j x h
      refine ⟨i + 1, by rw [show k + (i + 1) = k + 1 + i by omega]; exact h1, by simpa using h2, ?_⟩
      rw [List.range'_succ, List.filter_cons_of_neg (by simpa using hk)]
      exact h3
    · rw [if_neg hk] at h
      cases j with
      | zero =>
        simp only [List.getElem?_cons_zero, Option.some.injEq] at h
        exact ⟨0, by simpa using hk, by simp [h], by simp⟩
      | succ j =>
        rw [List.getElem?_cons_succ] at h
        obtain ⟨i, h1, h2, h3⟩ := ih (k + 1) j x h
        refine ⟨i + 1, by rw [show k + (i + 1) = k + 1 + i by omega]; exact h1, by simpa using h2, ?_⟩
        rw [List.range'_succ, List.filter_cons_of_pos (by simpa using hk), List.length_cons, h3]

theorem row_at_delete_rows (m : Matrix) (D : List Int) (a1 : Int) (e : RowElem)
    (h : row_at (delete_rows D m) a1 = some e) :
    ∃ i : Nat, (i : Int) ∉ D ∧ row_at m (i : Int) = some e ∧
      a1 = (((List.range' 0 i).filter (fun t : Nat => decide ((t : Int) ∉ D))).length : Int) := by
  obtain ⟨_, h0, _, _⟩ := row_at_mem _ a1 e h
  have hget : (delete_positions D m.rowlist)[a1.toNat]? = some e := by
    simpa [row_at, not_lt.mpr h0, delete_rows] using h
  obtain ⟨i, h1, h2, h3⟩ := getElem?_delete_positions_from D m.rowlist 0 a1.toNat e hget
  refine ⟨i, by simpa using h1, by simp [row_at, h2], ?_⟩
  rw [← h3, Int.toNat_of_nonneg h0]

/-- C19. Duplicate coalescing tie-break: for every matrix satisfying the
invariants whose exemplar paths are pairwise distinct, `find_subset_rows`
returns, of two distinct rows with the same dense bit pattern, at least one
(so that all rows of a group of duplicates but at most one are returned), and
a row that is not returned weighs less than each of its duplicates or weighs
the same and has the lexicographically smaller exemplar path. -/
theorem duplicate_tie_break (m : Matrix) (hm : matrix_wf m)
    (hpaths : (m.rowlist.map (fun e => e.file_path)).Nodup) :
    ∃ result, find_subset_rows m = Except.ok result ∧
      ∀ a b : Int, 0 ≤ a → a < m.num_rows → 0 ≤ b → b < m.num_rows → a ≠ b →
        get_row m a = get_row m b →
        (a ∈ result ∨ b ∈ result) ∧
        (a ∉ result → ∃ ea eb, row_at m a = some ea ∧ row_at m b = some eb ∧
          (ea.weight < eb.weight ∨ (ea.weight = eb.weight ∧ ea.file_path < eb.file_path))) := by
  obtain ⟨result, hres, _⟩ := find_subset_rows_ok m hm
  obtain ⟨hA, hB, _⟩ := find_subset_rows_complete m hm result hres
  refine ⟨result, hres, ?_⟩
  intro a b ha0 ha1 hb0 hb1 hne hrow
  obtain ⟨ea, hea, _, _⟩ := row_at_some m hm a ha0 ha1
  obtain ⟨eb, heb, _, _⟩ := row_at_some m hm b hb0 hb1
  rw [get_row_at m hm a ea hea, get_row_at m hm b eb heb] at hrow
  injection hrow with hrow
  have hsame := (same_columns_of_dense m hm a b ea eb hea heb).mp hrow
  refine ⟨hA a b hne hsame, ?_⟩
  intro hna
  obtain ⟨ea', eb', hea', heb', hle, hpath⟩ := hB a hna b hsame
  rw [hea] at hea'
  rw [heb] at heb'
  injection hea' with hea'
  injection heb' with heb'
  subst hea' heb'
  refine ⟨ea, eb, hea, heb, ?_⟩
  rcases lt_or_eq_of_le hle with hlt | heq
  · exact Or.inl hlt
  · right
    refine ⟨heq, lt_of_le_of_ne (hpath heq) ?_⟩
    intro hp
    apply hne
    have ga : (m.rowlist.map (fun e => e.file_path))[a.toNat]? = some ea.file_path := by
      have : m.rowlist[a.toNat]? = some ea := by simpa [row_at, not_lt.mpr ha0] using hea
      rw [List.getElem?_map, this]; rfl
    have gb : (m.rowlist.map (fun e => e.file_path))[b.toNat]? = some eb.file_path := by
      have : m.rowlist[b.toNat]? = some eb := by simpa [row_at, not_lt.mpr hb0] using heb
      rw [List.getElem?_map, this]; rfl
    have hl := hm.1
    have hla : a.toNat < (m.rowlist.map (fun e => e.file_path)).length := by
      rw [List.length_map]; omega
    have hlb : b.toNat < (m.rowlist.map (fun e => e.file_path)).length := by
      rw [List.length_map]; omega
    rw [List.getElem?_eq_getElem hla] at ga
    rw [List.getElem?_eq_getElem hlb] at gb
    injection ga with ga
    injection gb with gb
    have hidx : a.toNat = b.toNat :=
      (List.Nodup.getElem_inj_iff hpaths).mp (by rw [ga, gb]; exact hp)
    have e1 := Int.toNat_of_nonneg ha0
    have e2 := Int.toNat_of_nonneg hb0
    rw [← e1, ← e2, hidx]

/-- Witness for C19: the duplicates `y` and `x` of the example, of equal
weight. -/
theorem duplicate_tie_break_witness :
    ∃ result, find_subset_rows example_duplicates = Except.ok result ∧
      ∀ a b : Int, 0 ≤ a → a < example_duplicates.num_rows → 0 ≤ b →
        b < example_duplicates.num_rows → a ≠ b →
        get_row example_duplicates a = get_row example_duplicates b →
        (a ∈ result ∨ b ∈ result) ∧
        (a ∉ result → ∃ ea eb, row_at example_duplicates a = some ea ∧
          row_at example_duplicates b = some eb ∧
          (ea.weight < eb.weight ∨ (ea.weight = eb.weight ∧ ea.file_path < eb.file_path))) :=
  duplicate_tie_break example_duplicates (by decide) (by decide)

/-- C20. Idempotence of the subset-row reduction: for every matrix satisfying
the invariants, `remove_rows` of the list returned by `find_subset_rows`
succeeds, and on the matrix it leaves no row dominates another row (columns a
superset, weight not greater), `find_subset_rows` returns the empty list and
`eliminate_subset_rows` returns false with the matrix unchanged. -/
theorem subset_rows_idempotent (m : Matrix) (hm : matrix_wf m) :
    ∃ result m1, find_subset_rows m = Except.ok result ∧
      remove_rows m result = Except.ok m1 ∧
      (∀ a b, a ≠ b → ¬ dominates m1 a b) ∧
      find_subset_rows m1 = Except.ok [] ∧
      eliminate_subset_rows m1 = Except.ok (false, m1) := by
  obtain ⟨result, hres, _, hnd, hrg⟩ := find_subset_rows_ok m hm
  obtain ⟨_, _, hC⟩ := find_subset_rows_complete m hm result hres
  obtain ⟨hrem, hwf1⟩ := remove_rows_eq_delete_rows m result hm hnd hrg
  have hnodom : ∀ a b, a ≠ b → ¬ dominates (delete_rows result m) a b := by
    rintro a b hne ⟨ea, eb, hea, heb, hcols, hw⟩
    obtain ⟨ia, ha1, ha2, ha3⟩ := row_at_delete_rows m result a ea hea
    obtain ⟨ib, hb1, hb2, hb3⟩ := row_at_delete_rows m result b eb heb
    have hiab : (ia : Int) ≠ (ib : Int) := by
      intro hc
      have : ia = ib := by exact_mod_cast hc
      apply hne
      rw [ha3, hb3, this]
    rcases hC ia ib hiab ⟨ea, eb, ha2, hb2, hcols, hw⟩ with h | h
    · exact ha1 h
    · exact hb1 h
  obtain ⟨r2, h1, h2, _, _, h5, _⟩ := eliminate_subset_rows_ok _ hwf1
  have hr2 : r2 = [] := by
    cases hr : r2 with
    | nil => rfl
    | cons b rest =>
      exfalso
      obtain ⟨a, ha, hdom⟩ := h2 b (by rw [hr]; exact List.mem_cons_self _ _)
      have hab : a ≠ b := by
        intro hc
        apply ha
        rw [hc, hr]
        exact List.mem_cons_self _ _
      exact hnodom a b hab hdom
  subst hr2
  refine ⟨result, _, hres, hrem, hnodom, h1, ?_⟩
  rw [h5, if_pos rfl]

/-- Witness for C20: the example with two duplicate rows. -/
theorem subset_rows_idempotent_witness :
    ∃ result m1, find_subset_rows example_duplicates = Except.ok result ∧
      remove_rows example_duplicates result = Except.ok m1 ∧
      (∀ a b, a ≠ b → ¬ dominates m1 a b) ∧
      find_subset_rows m1 = Except.ok [] ∧
      eliminate_subset_rows m1 = Except.ok (false, m1) :=
  subset_rows_idempotent example_duplicates (by decide)

/-! ### Exemplars that must be selected -/

theorem col_marks_relocate (Q : String → Prop) (m m1 : Matrix) (hm : matrix_wf m)
    (D : List Int) (hnd : D.Nodup) (hD : ∀ d ∈ D, 0 ≤ d ∧ d < m.num_cols)
    (hrel : rows_relocated D m m1) (j : Int) (hj : col_marks Q m j) (hjD : j ∉ D)
    (hrow : ∀ e ∈ m.rowlist, j ∈ live e.column → relocate_row D e ∈ m1.rowlist) :
    col_marks Q m1 (transform_value D j) := by
  obtain ⟨hj0, hj1, ⟨e0, he0, hl0⟩, hjw⟩ := hj
  have hD0 : ∀ d ∈ D, 0 ≤ d := fun d hd => (hD d hd).1
  have hr := transform_value_range D hnd m.num_cols hD hj0 hj1 hjD
  refine ⟨hr.1, by rw [hrel.1]; exact hr.2, ?_, ?_⟩
  · have hw := hm.2.2.2 e0 he0
    exact ⟨relocate_row D e0, hrow e0 he0 hl0,
      (mem_live_relocate_row D hnd hD0 e0 (fun v hv => (hw.2.2 v hv).1) _).mpr ⟨j, hl0, hjD, rfl⟩⟩
  · intro e1 he1 hlive
    obtain ⟨e, he, rfl⟩ := hrel.2 e1 he1
    have hw := hm.2.2.2 e he
    obtain ⟨a, ha, haD, hta⟩ := (mem_live_relocate_row D hnd hD0 e
      (fun v hv => (hw.2.2 v hv).1) _).mp hlive
    have := transform_value_inj D hnd hD0 (hw.2.2 a ha).1 hj0 haD hjD hta
    subst this
    exact hjw e he ha

theorem mark_inv_reduce (fs : FileSystem) (Q : String → Prop) (m : Matrix) (S : Solution)
    (hm : matrix_wf m) (rows : List Int) (optimal : Bool) (h : mark_inv Q m S) :
    mark_inv Q (reduced m rows) (add_all fs optimal S (selected_rows m rows)) := by
  obtain ⟨f1, _, _, _, _⟩ := add_all_fields fs optimal (selected_rows m rows) S
  have hcn : (dedup (projected_columns m rows)).Nodup := index_set_nodup _
  have hcr := projected_columns_range m hm rows
  rcases h with ⟨p, hp, hq⟩ | ⟨j, hj⟩
  · left
    exact ⟨p, by rw [f1]; exact List.mem_append_left _ hp, hq⟩
  · by_cases hjD : j ∈ dedup (projected_columns m rows)
    · left
      rw [dedup, mem_index_set, mem_projected_columns m hm] at hjD
      obtain ⟨r, hr, e, he, hlive⟩ := hjD
      refine ⟨filename e.file_path, ?_, hj.2.2.2 e (row_at_mem m r e he).1 hlive⟩
      rw [f1]
      exact List.mem_append_right _
        (List.mem_map.mpr ⟨e, (mem_selected_rows m rows e).mpr ⟨r, hr, he⟩, rfl⟩)
    · right
      refine ⟨_, col_marks_relocate Q m _ hm _ hcn hcr (reduced_rows_relocated m rows) j hj hjD ?_⟩
      intro e he hlive
      obtain ⟨i, hi⟩ := List.mem_iff_getElem?.mp he
      have hinot : (i : Int) ∉ rows := by
        intro hin
        apply hjD
        rw [dedup, mem_index_set, mem_projected_columns m hm]
        exact ⟨(i : Int), hin, e, by simp [row_at, hi], hlive⟩
      have hw := hm.2.2.2 e he
      have hwf1 := relocate_row_wf _ hcn m.num_cols hcr e hw
      have hlive1 : transform_value (dedup (projected_columns m rows)) j ∈
          live (relocate_row (dedup (projected_columns m rows)) e).column :=
        (mem_live_relocate_row _ hcn (fun d hd => (hcr d hd).1) e
          (fun v hv => (hw.2.2 v hv).1) _).mpr ⟨j, hlive, hjD, rfl⟩
      exact reduced_rowlist_mem m rows i e hi hinot
        ((row_sum_ne_zero_iff _ _ hwf1).mpr ⟨_, hlive1⟩)

theorem mark_inv_delete_rows (Q : String → Prop) (m : Matrix) (S : Solution)
    (result : List Int) (hs : deletion_sound m result) (h : mark_inv Q m S) :
    mark_inv Q (delete_rows result m) S := by
  rcases h with hsol | ⟨j, hj0, hj1, ⟨e, he, hlive⟩, hjw⟩
  · exact Or.inl hsol
  · right
    refine ⟨j, hj0, hj1, ?_, fun e1 he1 hl =>
      hjw e1 (delete_positions_subset result m.rowlist e1 he1) hl⟩
    obtain ⟨i, hi⟩ := List.mem_iff_getElem?.mp he
    by_cases hin : (i : Int) ∈ result
    · obtain ⟨a, ha, ea, eb, hea, heb, hsubset, _⟩ := hs _ hin
      have : eb = e := by
        have : row_at m (i : Int) = some e := by simp [row_at, hi]
        rw [this] at heb
        injection heb with heb
        exact heb.symm
      subst this
      obtain ⟨_, ha0, _, _⟩ := row_at_mem m a ea hea
      refine ⟨ea, (mem_delete_rows_rowlist m result ea).mpr ⟨a.toNat, ?_, ?_⟩, hsubset j hlive⟩
      · rw [Int.toNat_of_nonneg ha0]; exact ha
      · simpa [row_at, not_lt.mpr ha0] using hea
    · exact ⟨e, (mem_delete_rows_rowlist m result e).mpr ⟨i, hin, hi⟩, hlive⟩

theorem mark_inv_relocate (Q : String → Prop) (m : Matrix) (S : Solution)
    (hm : matrix_wf m) (result : List Int) (hnd : result.Nodup)
    (hrg : ∀ c ∈ result, 0 ≤ c ∧ c < m.num_cols)
    (hs : ∀ c ∈ result, ∃ a, a ∉ result ∧ column_subset m a c) (h : mark_inv Q m S) :
    mark_inv Q (relocate_matrix result m) S := by
  have hrel := relocate_matrix_rows_relocated result m
  have hrow : ∀ e ∈ m.rowlist, relocate_row result e ∈ (relocate_matrix result m).rowlist := by
    intro e he
    simp only [relocate_matrix]
    exact List.mem_map.mpr ⟨e, he, rfl⟩
  rcases h with hsol | ⟨j, hj⟩
  · exact Or.inl hsol
  · right
    by_cases hjD : j ∈ result
    · obtain ⟨a, ha, ha0, ha1, hane, hsubset⟩ := hs j hjD
      have hja : col_marks Q m a :=
        ⟨ha0, ha1, hane, fun e he hl => hj.2.2.2 e he (hsubset e he hl)⟩
      exact ⟨_, col_marks_relocate Q m _ hm _ hnd hrg hrel a hja ha (fun e he _ => hrow e he)⟩
    · exact ⟨_, col_marks_relocate Q m _ hm _ hnd hrg hrel j hj hjD (fun e he _ => hrow e he)⟩

theorem mark_inv_step (fs : FileSystem) (Q : String → Prop) (st st1 : LoopState)
    (hm : matrix_wf st.data) (heff : step_effect fs st st1)
    (h : mark_inv Q st.data st.solution) : mark_inv Q st1.data st1.solution := by
  rcases heff with ⟨e1, e2⟩ | ⟨rows, optimal, _, _, _, _, e1, e2⟩ |
    ⟨result, _, _, _, hs, e1, e2⟩ | ⟨result, _, hnd, hrg, hs, e1, e2⟩
  · rw [e1, e2]; exact h
  · rw [e1, e2]; exact mark_inv_reduce fs Q _ _ hm rows optimal h
  · rw [e1, e2]; exact mark_inv_delete_rows Q _ _ result hs h
  · rw [e1, e2]; exact mark_inv_relocate Q _ _ hm result hnd hrg hs h

theorem mark_inv_entry (Q : String → Prop) (m : Matrix) (S : Solution) (hm : matrix_wf m)
    (c : Int) (hc : col_marks Q m c) : mark_inv Q (entry_matrix m) (entry_solution m S) := by
  right
  have hE := mem_entry_columns m hm
  have hnd := entry_columns_nodup m
  have hrg : ∀ d ∈ entry_columns m, 0 ≤ d ∧ d < m.num_cols :=
    fun d hd => ⟨((hE d).mp hd).1, ((hE d).mp hd).2.1⟩
  by_cases he : entry_columns m = []
  · simp only [entry_matrix, if_pos he]
    exact ⟨c, hc⟩
  · simp only [entry_matrix, if_neg he]
    have hcE : c ∉ entry_columns m := by
      intro hin
      have hz := ((hE c).mp hin).2.2
      have := (column_count_pos_iff m.rowlist c).mpr hc.2.2.1
      omega
    refine ⟨_, col_marks_relocate Q m _ hm _ hnd hrg (relocate_matrix_rows_relocated _ m) c hc hcE
      ?_⟩
    intro e he' _
    simp only [relocate_matrix]
    exact List.mem_map.mpr ⟨e, he', rfl⟩

/-- C3. Unitarian inclusion: for every matrix satisfying the invariants whose
exemplar files fit its original width, and every row `r` and column `c` such
that `r` is the only row with column `c`, a run of `solve_oscp`, with
`greedy` false or true, returns, and the exemplar of row `r` is in the
solution it returns. -/
theorem unitarian_inclusion (fs : FileSystem) (greedy : Bool) (S0 : Solution) (m : Matrix)
    (cd : List ExemplarData) (name : String) (weight_file : WeightFile)
    (hm : matrix_wf m) (hcd : m.num_rows ≤ (cd.length : Int))
    (hlen : len_inv fs m.num_cols_orig m S0) (h0 : 0 ≤ m.num_cols_orig)
    (r c : Int) (e : RowElem) (hr : row_at m r = some e) (hc : c ∈ live e.column)
    (huniq : ∀ r1 e1, row_at m r1 = some e1 → c ∈ live e1.column → r1 = r) :
    ∃ res : SolveResult,
      (∀ fuel, 4 * (m.num_rows + m.num_cols).toNat + 3 ≤ fuel →
        solve_oscp fs fuel S0 m cd name greedy weight_file = Except.ok (some res)) ∧
      filename e.file_path ∈ res.solution.solution := by
  have hmem := (row_at_mem m r e hr).1
  have hw := hm.2.2.2 e hmem
  have hmark : col_marks (fun p => p = filename e.file_path) m c := by
    refine ⟨(hw.2.2 c hc).1, (hw.2.2 c hc).2, ⟨e, hmem, hc⟩, ?_⟩
    intro e1 he1 hl1
    obtain ⟨i, hi⟩ := List.mem_iff_getElem?.mp he1
    have h1 : row_at m (i : Int) = some e1 := by simp [row_at, hi]
    have := huniq (i : Int) e1 h1 hl1
    rw [this, hr] at h1
    injection h1 with h1
    rw [← h1]; rfl
  obtain ⟨st, v, hrun, _, hinv, hok, _, hfin⟩ := solve_oscp_run fs greedy S0 m cd name
    weight_file (mark_inv (fun p => p = filename e.file_path)) hm hcd hlen h0
    (mark_inv_entry _ m (labelled S0 m name greedy) hm c hmark)
    (fun (st st1 : LoopState) hok h heff => mark_inv_step fs _ st st1 hok.1 heff h)
  refine ⟨_, hrun, ?_⟩
  rcases hinv with ⟨p, hp, hq⟩ | ⟨j, hj0, hj1, ⟨e1, he1, _⟩, _⟩
  · simp only [print_solution]
    rw [← hq]
    exact (List.perm_insertionSort _ _).mem_iff.mpr hp
  · exfalso
    rcases hfin with hz | hz
    · have := hok.1.1
      rw [hz] at this
      have hnil : st.data.rowlist = [] := List.length_eq_zero.mp (by omega)
      rw [hnil] at he1
      exact List.not_mem_nil _ he1
    · omega

/-- Witness for C3: row `c` of the example matrix is the only row with
column 3; reduction rules, no exemplar data on file. -/
theorem unitarian_inclusion_witness :
    ∃ res : SolveResult,
      (∀ fuel, 4 * (example_matrix.num_rows + example_matrix.num_cols).toNat + 3 ≤ fuel →
        solve_oscp (fun _ => []) fuel Solution.empty example_matrix
          (initialise_corpus_data example_matrix) "run" false none = Except.ok (some res)) ∧
      filename (example_row "c" [3]).file_path ∈ res.solution.solution :=
  unitarian_inclusion (fun _ => []) false Solution.empty example_matrix
    (initialise_corpus_data example_matrix) "run" none (by decide) (by decide)
    ⟨rfl, by intro e _; simp [get_exemplar_data, example_matrix],
      by intro row hrow; simp [Solution.empty] at hrow⟩
    (by decide) 2 3 (example_row "c" [3]) rfl (by decide)
    (by
      intro r1 e1 h1 hc1
      obtain ⟨_, h0, hlt, _⟩ := row_at_mem example_matrix r1 e1 h1
      have hcases : r1 = 0 ∨ r1 = 1 ∨ r1 = 2 := by
        have : (example_matrix.rowlist.length : Int) = 3 := rfl
        omega
      rcases hcases with rfl | rfl | rfl
      · exfalso
        have : e1 = example_row "a" [0, 1, 2] := by
          have h2 : row_at example_matrix 0 = some (example_row "a" [0, 1, 2]) := rfl
          rw [h2] at h1; injection h1 with h1; exact h1.symm
        subst this
        revert hc1; decide
      · exfalso
        have : e1 = example_row "b" [1, 4] := by
          have h2 : row_at example_matrix 1 = some (example_row "b" [1, 4]) := rfl
          rw [h2] at h1; injection h1 with h1; exact h1.symm
        subst this
        revert hc1; decide
      · rfl)

/-! ### Exactness of the reduction rules -/

theorem column_count_cons (e : RowElem) (rest : List RowElem) (c : Int) :
    column_count (e :: rest) c = ((live e.column).count c : Int) + column_count rest c := by
  simp [column_count]

theorem column_count_one_unique (c : Int) : ∀ (rows : List RowElem),
    column_count rows c = 1 → ∀ (i k : Nat) (e e1 : RowElem), rows[i]? = some e →
      c ∈ live e.column → rows[k]? = some e1 → c ∈ live e1.column → i = k := by
  intro rows
  induction rows with
  | nil => intro _ i k e e1 h; simp at h
  | cons e0 rest ih =>
    intro hcount i k e e1 hi hci hk hck
    rw [column_count_cons] at hcount
    have hnn := column_count_nonneg rest c
    have hrest : ∀ (j : Nat) (x : RowElem), rest[j]? = some x → c ∈ live x.column →
        1 ≤ column_count rest c := by
      intro j x hj hx
      have := (column_count_pos_iff rest c).mpr ⟨x, List.getElem?_mem hj, hx⟩
      omega
    have hhead : ∀ x : RowElem, (e0 :: rest)[0]? = some x → c ∈ live x.column →
        1 ≤ ((live e0.column).count c : Int) := by
      intro x hx hcx
      simp only [List.getElem?_cons_zero, Option.some.injEq] at hx
      subst hx
      have := List.count_pos_iff.mpr hcx
      omega
    cases i with
    | zero =>
      cases k with
      | zero => rfl
      | succ k =>
        rw [List.getElem?_cons_succ] at hk
        have h1 := hhead e hi hci
        have h2 := hrest k e1 hk hck
        omega
    | succ i =>
      rw [List.getElem?_cons_succ] at hi
      cases k with
      | zero =>
        have h1 := hhead e1 hk hck
        have h2 := hrest i e hi hci
        omega
      | succ k =>
        rw [List.getElem?_cons_succ] at hk
        have h2 := hrest i e hi hci
        have h0 : (0 : Int) ≤ ((live e0.column).count c : Int) := Int.natCast_nonneg _
        have := ih (by omega) i k e e1 hi hci hk hck
        omega

theorem sorted_ext (l1 l2 : List Int) (h1 : l1.Pairwise (fun a b => a < b))
    (h2 : l2.Pairwise (fun a b => a < b)) (h : ∀ x, x ∈ l1 ↔ x ∈ l2) : l1 = l2 := by
  have hp : l1.Perm l2 :=
    (List.perm_ext_iff_of_nodup (h1.imp (fun h => ne_of_lt h))
      (h2.imp (fun h => ne_of_lt h))).mpr h
  exact List.eq_of_perm_of_sorted hp h1 h2

theorem find_supersets_of_complete (columns : List (List Int))
    (hsorted : ∀ l ∈ columns, l.Pairwise (fun a b => a < b)) (c1 : Int) (col1 : List Int)
    (hc1 : at_index columns c1 = Except.ok col1) :
    ∀ (rest sup : List Int), rest.Pairwise (fun a b => a < b) → (∀ x ∈ rest, c1 < x) →
      c1 ∉ sup →
      (∀ a b, equal_columns columns a b → a < c1 → a ∈ sup) →
      (∀ a b, equal_columns columns a b → b ∈ sup → a ∈ sup) →
      (∀ b, equal_columns columns c1 b → b ∉ rest → False) →
      (∀ x l, c1 < x → at_index columns x = Except.ok l → l ≠ [] → (∀ y ∈ col1, y ∈ l) →
        x ∉ rest → x ∈ sup) →
      ∀ sup1, find_supersets_of columns c1 col1 rest sup = Except.ok sup1 →
        (∀ x ∈ sup, x ∈ sup1) ∧
        (∀ a b, equal_columns columns a b → b ∈ sup1 → a ∈ sup1) ∧
        (∀ b, equal_columns columns c1 b → c1 ∈ sup1) := by
  have hs1 : col1.Pairwise (fun a b => a < b) :=
    hsorted col1 (List.getElem?_mem ((at_index_eq_ok _ _ _).mp hc1).2)
  intro rest
  induction rest with
  | nil =>
    intro sup _ _ _ _ hJ hV _ sup1 h
    simp only [find_supersets_of] at h
    injection h with h
    subst h
    exact ⟨fun x hx => hx, hJ, fun b hb => (hV b hb (List.not_mem_nil _)).elim⟩
  | cons c2 rest ih =>
    intro sup hpw hgt hnot hI hJ hV hV2 sup1 h
    obtain ⟨hc2lt, hpw'⟩ := List.pairwise_cons.mp hpw
    have hgt' : ∀ x ∈ rest, c1 < x := fun x hx => hgt x (List.mem_cons_of_mem _ hx)
    have hc12 : c1 < c2 := hgt c2 (List.mem_cons_self _ _)
    have hnotin : ∀ x, x ∉ rest → x ≠ c2 → x ∉ c2 :: rest := by
      intro x hx hne hin
      rcases List.mem_cons.mp hin with h1 | h1
      · exact hne h1
      · exact hx h1
    simp only [find_supersets_of] at h
    by_cases hin : c2 ∈ sup
    · simp only [hin, if_true] at h
      refine ih sup hpw' hgt' hnot hI hJ ?_ ?_ sup1 h
      · intro b hb hbr
        by_cases hbc : b = c2
        · subst hbc
          exact hnot (hJ c1 b hb hin)
        · exact hV b hb (hnotin b hbr hbc)
      · intro x l hx hl hne hsub hxr
        by_cases hxc : x = c2
        · subst hxc; exact hin
        · exact hV2 x l hx hl hne hsub (hnotin x hxr hxc)
    · simp only [hin, if_false] at h
      cases hc2 : at_index columns c2 with
      | error e => rw [hc2] at h; cases h
      | ok col2 =>
        rw [hc2] at h
        simp only at h
        have hs2 : col2.Pairwise (fun a b => a < b) :=
          hsorted col2 (List.getElem?_mem ((at_index_eq_ok _ _ _).mp hc2).2)
        by_cases hemp : col2.length = 0
        · simp only [hemp, if_true] at h
          have hnil : col2 = [] := List.length_eq_zero.mp hemp
          refine ih sup hpw' hgt' hnot hI hJ ?_ ?_ sup1 h
          · intro b hb hbr
            by_cases hbc : b = c2
            · subst hbc
              obtain ⟨_, l, _, hl2, hne⟩ := hb
              rw [hc2] at hl2
              injection hl2 with hl2
              exact hne (hl2 ▸ hnil)
            · exact hV b hb (hnotin b hbr hbc)
          · intro x l hx hl hne hsub hxr
            by_cases hxc : x = c2
            · subst hxc
              rw [hc2] at hl
              injection hl with hl
              exact (hne (hl ▸ hnil)).elim
            · exact hV2 x l hx hl hne hsub (hnotin x hxr hxc)
        · obtain ⟨t1, t2⟩ := superset_test_spec (col1.length + col2.length + 1) col1 col2
            true true (by omega) hs1 hs2
          have hne2 : col2 ≠ [] := fun hz => hemp (by simp [hz])
          have heq_t1 : equal_columns columns c1 c2 →
              (superset_test (col1.length + col2.length + 1) col1 col2 true true).1 = true := by
            rintro ⟨_, l, hl1, hl2, _⟩
            rw [hc1] at hl1
            rw [hc2] at hl2
            injection hl1 with hl1
            injection hl2 with hl2
            exact t1.mpr ⟨rfl, fun x hx => by rw [hl1, ← hl2]; exact hx⟩
          simp only [hemp, if_false] at h
          by_cases ht1 : (superset_test (col1.length + col2.length + 1) col1 col2 true true).1
              = true
          · simp only [ht1, if_true] at h
            injection h with h
            subst h
            refine ⟨fun x hx => List.mem_cons_of_mem _ hx, ?_, fun b _ => List.mem_cons_self _ _⟩
            intro a b hab hb
            rcases List.mem_cons.mp hb with hb | hb
            · subst hb
              exact List.mem_cons_of_mem _ (hI a b hab hab.1)
            · exact List.mem_cons_of_mem _ (hJ a b hab hb)
          · simp only [ht1, if_false, Bool.false_eq_true] at h
            have hV' : ∀ b, equal_columns columns c1 b → b ∉ rest → False := by
              intro b hb hbr
              by_cases hbc : b = c2
              · subst hbc
                exact ht1 (heq_t1 hb)
              · exact hV b hb (hnotin b hbr hbc)
            by_cases ht2 : (superset_test (col1.length + col2.length + 1) col1 col2 true true).2
                = true
            · simp only [ht2, if_true] at h
              have hsub12 := (t2.mp ht2).2
              have hJ' : ∀ a b, equal_columns columns a b → b ∈ c2 :: sup → a ∈ c2 :: sup := by
                intro a b hab hb
                rcases List.mem_cons.mp hb with hb | hb
                · subst hb
                  rcases lt_trichotomy a c1 with hlt | heq | hgt1
                  · exact List.mem_cons_of_mem _ (hI a b hab hlt)
                  · subst heq
                    exact (ht1 (heq_t1 hab)).elim
                  · obtain ⟨hab1, l, hla, hlb, hne⟩ := hab
                    have hlc : l = col2 := by
                      rw [hc2] at hlb
                      injection hlb with hlb
                      exact hlb.symm
                    apply List.mem_cons_of_mem
                    refine hV2 a l hgt1 hla hne (by rw [hlc]; exact hsub12) ?_
                    intro hin2
                    rcases List.mem_cons.mp hin2 with h1 | h1
                    · omega
                    · have := hc2lt a h1
                      omega
                · exact List.mem_cons_of_mem _ (hJ a b hab hb)
              have hV2' : ∀ x l, c1 < x → at_index columns x = Except.ok l → l ≠ [] →
                  (∀ y ∈ col1, y ∈ l) → x ∉ rest → x ∈ c2 :: sup := by
                intro x l hx hl hne hsub hxr
                by_cases hxc : x = c2
                · subst hxc; exact List.mem_cons_self _ _
                · exact List.mem_cons_of_mem _ (hV2 x l hx hl hne hsub (hnotin x hxr hxc))
              have hnot' : c1 ∉ c2 :: sup := by
                intro hc
                rcases List.mem_cons.mp hc with hc | hc
                · omega
                · exact hnot hc
              obtain ⟨k1, k2, k3⟩ := ih (c2 :: sup) hpw' hgt' hnot'
                (fun a b hab ha => List.mem_cons_of_mem _ (hI a b hab ha)) hJ' hV' hV2' sup1 h
              exact ⟨fun x hx => k1 x (List.mem_cons_of_mem _ hx), k2, k3⟩
            · simp only [ht2, if_false, Bool.false_eq_true] at h
              refine ih sup hpw' hgt' hnot hI hJ hV' ?_ sup1 h
              intro x l hx hl hne hsub hxr
              by_cases hxc : x = c2
              · subst hxc
                rw [hc2] at hl
                injection hl with hl
                subst hl
                exact (ht2 (t2.mpr ⟨rfl, hsub⟩)).elim
              · exact hV2 x l hx hl hne hsub (hnotin x hxr hxc)

theorem find_supersets_complete (columns : List (List Int))
    (hsorted : ∀ l ∈ columns, l.Pairwise (fun a b => a < b)) :
    ∀ (rest sup : List Int), rest.Pairwise (fun a b => a < b) →
      (∀ b l, at_index columns b = Except.ok l → b ∉ rest → ∀ x ∈ rest, b < x) →
      (∀ a b, equal_columns columns a b → a ∉ rest → a ∈ sup) →
      (∀ a b, equal_columns columns a b → b ∈ sup → a ∈ sup) →
      ∀ sup1, find_supersets columns rest sup = Except.ok sup1 →
        ∀ a b, equal_columns columns a b → a ∈ sup1 := by
  intro rest
  induction rest with
  | nil =>
    intro sup _ _ hI _ sup1 h a b hab
    simp only [find_supersets] at h
    injection h with h
    subst h
    exact hI a b hab (List.not_mem_nil _)
  | cons c1 rest ih =>
    intro sup hpw hlow hI hJ sup1 h
    obtain ⟨hc1lt, hpw'⟩ := List.pairwise_cons.mp hpw
    have hlow' : ∀ b l, at_index columns b = Except.ok l → b ∉ rest → ∀ x ∈ rest, b < x := by
      intro b l hl hb x hx
      by_cases hbc : b = c1
      · subst hbc; exact hc1lt x hx
      · refine hlow b l hl ?_ x (List.mem_cons_of_mem _ hx)
        intro hin
        rcases List.mem_cons.mp hin with h1 | h1
        · exact hbc h1
        · exact hb h1
    have hnotin : ∀ x, x ∉ rest → x ≠ c1 → x ∉ c1 :: rest := by
      intro x hx hne hin
      rcases List.mem_cons.mp hin with h1 | h1
      · exact hne h1
      · exact hx h1
    have hlater : ∀ x l, c1 < x → at_index columns x = Except.ok l → x ∈ rest := by
      intro x l hx hl
      by_contra hxr
      have := hlow x l hl (hnotin x hxr (by omega)) c1 (List.mem_cons_self _ _)
      omega
    simp only [find_supersets] at h
    by_cases hin : c1 ∈ sup
    · simp only [hin, if_true] at h
      refine ih sup hpw' hlow' ?_ hJ sup1 h
      intro a b hab ha
      by_cases hac : a = c1
      · subst hac; exact hin
      · exact hI a b hab (hnotin a ha hac)
    · simp only [hin, if_false] at h
      cases hc1 : at_index columns c1 with
      | error e => rw [hc1] at h; cases h
      | ok col1 =>
        rw [hc1] at h
        simp only at h
        by_cases hemp : col1.length = 0
        · simp only [hemp, if_true] at h
          have hnil : col1 = [] := List.length_eq_zero.mp hemp
          refine ih sup hpw' hlow' ?_ hJ sup1 h
          intro a b hab ha
          by_cases hac : a = c1
          · subst hac
            obtain ⟨_, l, hl1, _, hne⟩ := hab
            rw [hc1] at hl1
            injection hl1 with hl1
            exact (hne (hl1 ▸ hnil)).elim
          · exact hI a b hab (hnotin a ha hac)
        · simp only [hemp, if_false] at h
          cases hinner : find_supersets_of columns c1 col1 rest sup with
          | error e => rw [hinner] at h; cases h
          | ok sup0 =>
            rw [hinner] at h
            simp only at h
            obtain ⟨k1, k2, k3⟩ := find_supersets_of_complete columns hsorted c1 col1 hc1
              rest sup hpw' hc1lt hin
              (by
                intro a b hab ha
                refine hI a b hab ?_
                intro hin2
                rcases List.mem_cons.mp hin2 with h1 | h1
                · omega
                · have := hc1lt a h1
                  omega)
              hJ
              (by
                rintro b ⟨hlt, l, _, hlb, _⟩ hbr
                exact hbr (hlater b l hlt hlb))
              (by
                intro x l hx hl _ _ hxr
                exact (hxr (hlater x l hx hl)).elim)
              sup0 hinner
            refine ih sup0 hpw' hlow' ?_ k2 sup1 h
            intro a b hab ha
            by_cases hac : a = c1
            · subst hac; exact k3 b hab
            · exact k1 a (hI a b hab (hnotin a ha hac))

theorem find_superset_cols_eq (m : Matrix) (hm : matrix_wf m) (result : List Int)
    (h : find_superset_cols m = Except.ok result) :
    ∃ sup, find_supersets (column_view m) ((List.range m.num_cols.toNat).map Int.ofNat) [] =
      Except.ok sup ∧ result = index_set sup := by
  have hrep : List.replicate m.num_cols.toNat ([] : List Int) =
      (List.range m.num_cols.toNat).map (fun _ => ([] : List Int)) := by
    apply List.ext_getElem?
    intro i
    by_cases hi : i < m.num_cols.toNat
    · simp [List.getElem?_replicate, hi, List.getElem?_map, List.getElem?_range hi]
    · rw [List.getElem?_eq_none (by simp; omega), List.getElem?_eq_none (by simp; omega)]
  have hbuild := build_columns_spec m.num_cols.toNat m.rowlist (fun _ => []) 0 (by
    intro e he v hv
    rw [Int.toNat_of_nonneg hm.2.1]
    exact (hm.2.2.2 e he).2.2 v hv)
  simp only [List.nil_append] at hbuild
  simp only [find_superset_cols, if_neg (not_lt.mpr hm.2.1), visited_rows_ok m hm, hrep,
    hbuild] at h
  cases hs : find_supersets (column_view m) ((List.range m.num_cols.toNat).map Int.ofNat) [] with
  | error e =>
    simp only [column_view] at hs
    rw [hs] at h
    cases h
  | ok sup =>
    refine ⟨sup, rfl, ?_⟩
    simp only [column_view] at hs
    rw [hs] at h
    injection h with h
    exact h.symm

theorem column_view_at (m : Matrix) (c : Int) (l : List Int) :
    at_index (column_view m) c = Except.ok l ↔
      0 ≤ c ∧ c < m.num_cols ∧ l = column_rows m.rowlist 0 c := by
  have hlen : (column_view m).length = m.num_cols.toNat := by simp [column_view]
  constructor
  · intro h
    obtain ⟨hc0, hget⟩ := (at_index_eq_ok _ _ _).mp h
    have hlt : c.toNat < m.num_cols.toNat := by
      by_contra hc
      rw [List.getElem?_eq_none (by rw [hlen]; omega)] at hget
      cases hget
    simp only [column_view] at hget
    rw [List.getElem?_map, List.getElem?_range hlt] at hget
    simp only [Option.map_some', Option.some.injEq, Int.toNat_of_nonneg hc0] at hget
    exact ⟨hc0, by omega, hget.symm⟩
  · rintro ⟨h0, h1, rfl⟩
    apply (at_index_eq_ok _ _ _).mpr
    refine ⟨h0, ?_⟩
    have hlt : c.toNat < m.num_cols.toNat := by omega
    simp only [column_view]
    rw [List.getElem?_map, List.getElem?_range hlt]
    simp only [Option.map_some', Int.toNat_of_nonneg h0]

theorem column_view_sorted (m : Matrix) (hm : matrix_wf m) :
    ∀ l ∈ column_view m, l.Pairwise (fun a b => a < b) := by
  intro l hl
  simp only [column_view] at hl
  obtain ⟨c, _, rfl⟩ := List.mem_map.mp hl
  exact column_rows_sorted _ _ _ (fun e he => (hm.2.2.2 e he).2.1.imp (fun h => ne_of_lt h))

theorem range_cast_sorted (W : Nat) :
    ((List.range W).map Int.ofNat).Pairwise (fun a b => a < b) := by
  rw [List.pairwise_map]
  exact (List.pairwise_lt_range W).imp (fun h => by simpa using h)

theorem mem_range_cast (W : Nat) (x : Int) :
    x ∈ (List.range W).map Int.ofNat ↔ 0 ≤ x ∧ x < (W : Int) := by
  constructor
  · intro h
    obtain ⟨n, hn, rfl⟩ := List.mem_map.mp h
    have := List.mem_range.mp hn
    simp only [Int.ofNat_eq_coe]
    omega
  · rintro ⟨h0, h1⟩
    exact List.mem_map.mpr ⟨x.toNat, List.mem_range.mpr (by omega), by simp [h0]⟩

theorem find_superset_cols_complete (m : Matrix) (hm : matrix_wf m) (result : List Int)
    (h : find_superset_cols m = Except.ok result) (c1 c2 : Int) (hlt : c1 < c2)
    (hne : column_nonempty m c1)
    (heq : ∀ r e, row_at m r = some e → (c1 ∈ live e.column ↔ c2 ∈ live e.column)) :
    c1 ∈ result := by
  obtain ⟨sup, hs, hres⟩ := find_superset_cols_eq m hm result h
  subst hres
  rw [mem_index_set]
  have hW : ((m.num_cols.toNat : Nat) : Int) = m.num_cols := Int.toNat_of_nonneg hm.2.1
  have hmem : ∀ (c x : Int), x ∈ column_rows m.rowlist 0 c ↔
      ∃ e, row_at m x = some e ∧ c ∈ live e.column := by
    intro c x
    rw [mem_column_rows]
    constructor
    · rintro ⟨k, e, hk, hx, hl⟩
      refine ⟨e, ?_, hl⟩
      have : x = (k : Int) := by omega
      subst this
      simp [row_at, hk]
    · rintro ⟨e, he, hl⟩
      obtain ⟨_, h0, _, _⟩ := row_at_mem m x e he
      refine ⟨x.toNat, e, by simpa [row_at, not_lt.mpr h0] using he, by omega, hl⟩
  obtain ⟨e1, he1, hl1⟩ := hne
  obtain ⟨i, hi⟩ := List.mem_iff_getElem?.mp he1
  have hrow : row_at m (i : Int) = some e1 := by simp [row_at, hi]
  have hw := hm.2.2.2 e1 he1
  have hr1 := hw.2.2 c1 hl1
  have hr2 := hw.2.2 c2 ((heq _ e1 hrow).mp hl1)
  have hcols : column_rows m.rowlist 0 c1 = column_rows m.rowlist 0 c2 := by
    apply sorted_ext
    · exact column_view_sorted m hm _
        (List.getElem?_mem ((at_index_eq_ok _ _ _).mp
          ((column_view_at m c1 _).mpr ⟨hr1.1, hr1.2, rfl⟩)).2)
    · exact column_view_sorted m hm _
        (List.getElem?_mem ((at_index_eq_ok _ _ _).mp
          ((column_view_at m c2 _).mpr ⟨hr2.1, hr2.2, rfl⟩)).2)
    · intro x
      rw [hmem, hmem]
      constructor
      · rintro ⟨e, he, hl⟩; exact ⟨e, he, (heq x e he).mp hl⟩
      · rintro ⟨e, he, hl⟩; exact ⟨e, he, (heq x e he).mpr hl⟩
  have hE : equal_columns (column_view m) c1 c2 := by
    refine ⟨hlt, column_rows m.rowlist 0 c1, (column_view_at m c1 _).mpr ⟨hr1.1, hr1.2, rfl⟩,
      (column_view_at m c2 _).mpr ⟨hr2.1, hr2.2, hcols⟩, ?_⟩
    intro hnil
    have : (i : Int) ∈ column_rows m.rowlist 0 c1 := (hmem c1 _).mpr ⟨e1, hrow, hl1⟩
    rw [hnil] at this
    cases this
  refine find_supersets_complete (column_view m) (column_view_sorted m hm) _ []
    (range_cast_sorted _) ?_ ?_ ?_ sup hs c1 c2 hE
  · intro b l hl hb
    exfalso
    apply hb
    obtain ⟨h0, h1, _⟩ := (column_view_at m b l).mp hl
    exact (mem_range_cast _ b).mpr ⟨h0, by omega⟩
  · rintro a b ⟨_, l, hla, _, _⟩ ha
    exfalso
    apply ha
    obtain ⟨h0, h1, _⟩ := (column_view_at m a l).mp hla
    exact (mem_range_cast _ a).mpr ⟨h0, by omega⟩
  · intro a b _ hb
    cases hb

/-- C21. The superset-column rule does not change the cover: for every
matrix satisfying the invariants, `find_superset_cols` returns a list such
that every column `c` of it has a column `c1` that is not in the list, has an
entry in some row, and whose rows all have column `c` too; hence a list of
rows covers every non-empty column iff it covers every non-empty column that
is not in the list. -/
theorem superset_cols_keep_cover (m : Matrix) (hm : matrix_wf m) :
    ∃ result, find_superset_cols m = Except.ok result ∧
      (∀ c ∈ result, ∃ c1, c1 ∉ result ∧ column_nonempty m c1 ∧
        ∀ r e, row_at m r = some e → c1 ∈ live e.column → c ∈ live e.column) ∧
      ∀ R : List Int,
        (∀ c, column_nonempty m c → rows_cover m R c) ↔
          (∀ c, c ∉ result → column_nonempty m c → rows_cover m R c) := by
  obtain ⟨result, h1, _, _, h4⟩ := find_superset_cols_ok m hm
  refine ⟨result, h1, ?_, ?_⟩
  · intro c hc
    obtain ⟨a, ha, _, _, hne, hsub⟩ := h4 c hc
    exact ⟨a, ha, hne, fun r e he hl => hsub e (row_at_mem m r e he).1 hl⟩
  · intro R
    constructor
    · intro h c _ hne
      exact h c hne
    · intro h c hne
      by_cases hc : c ∈ result
      · obtain ⟨a, ha, _, _, hane, hsub⟩ := h4 c hc
        obtain ⟨r, hr, e, he, hl⟩ := h a ha hane
        exact ⟨r, hr, e, he, hsub e (row_at_mem m r e he).1 hl⟩
      · exact h c hc hne

/-- Witness for C21: the example matrix. -/
theorem superset_cols_keep_cover_witness :
    ∃ result, find_superset_cols example_matrix = Except.ok result ∧
      (∀ c ∈ result, ∃ c1, c1 ∉ result ∧ column_nonempty example_matrix c1 ∧
        ∀ r e, row_at example_matrix r = some e → c1 ∈ live e.column → c ∈ live e.column) ∧
      ∀ R : List Int,
        (∀ c, column_nonempty example_matrix c → rows_cover example_matrix R c) ↔
          (∀ c, c ∉ result → column_nonempty example_matrix c → rows_cover example_matrix R c) :=
  superset_cols_keep_cover example_matrix (by decide)

/-- C22. Equal columns drop the lower index: for every matrix satisfying the
invariants, `find_superset_cols` returns a strictly increasing list without
any column that has no entry, and for every pair of columns `c1 < c2` with
the same non-empty set of rows, `c1` is in the list. -/
theorem equal_columns_drop_lower (m : Matrix) (hm : matrix_wf m) :
    ∃ result, find_superset_cols m = Except.ok result ∧
      result.Pairwise (fun a b => a < b) ∧
      (∀ c ∈ result, column_nonempty m c) ∧
      ∀ c1 c2, c1 < c2 → column_nonempty m c1 →
        (∀ r e, row_at m r = some e → (c1 ∈ live e.column ↔ c2 ∈ live e.column)) →
        c1 ∈ result := by
  obtain ⟨result, h1, _, _, h4⟩ := find_superset_cols_ok m hm
  refine ⟨result, h1, ?_, ?_, ?_⟩
  · obtain ⟨sup, _, hres⟩ := find_superset_cols_eq m hm result h1
    rw [hres]
    exact index_set_sorted sup
  · intro c hc
    obtain ⟨a, _, _, _, ⟨e, he, hl⟩, hsub⟩ := h4 c hc
    exact ⟨e, he, hsub e he hl⟩
  · intro c1 c2 hlt hne heq
    exact find_superset_cols_complete m hm result h1 c1 c2 hlt hne heq

/-- Witness for C22: the example matrix. -/
theorem equal_columns_drop_lower_witness :
    ∃ result, find_superset_cols example_matrix = Except.ok result ∧
      result.Pairwise (fun a b => a < b) ∧
      (∀ c ∈ result, column_nonempty example_matrix c) ∧
      ∀ c1 c2, c1 < c2 → column_nonempty example_matrix c1 →
        (∀ r e, row_at example_matrix r = some e →
          (c1 ∈ live e.column ↔ c2 ∈ live e.column)) →
        c1 ∈ result :=
  equal_columns_drop_lower example_matrix (by decide)

/-! ### The row-unitarian rule and the optimality counters -/

theorem add_all_counters (fs : FileSystem) (optimal : Bool) (es : List RowElem) :
    ∀ S : Solution,
      (add_all fs optimal S es).weight_non_optimal =
        S.weight_non_optimal + (if optimal then 0 else (es.map (fun e => e.weight)).sum) ∧
      (add_all fs optimal S es).scores = S.scores ++ List.replicate es.length 0 := by
  induction es with
  | nil => intro S; cases optimal <;> simp [add_all]
  | cons e rest ih =>
    intro S
    have h := ih (S.add_to_soln (filename e.file_path) (get_exemplar_data fs e.file_path)
      e.weight optimal)
    simp only [add_all, List.foldl_cons] at h ⊢
    obtain ⟨h1, h2⟩ := h
    refine ⟨?_, ?_⟩
    · rw [h1]
      cases optimal <;> simp [Solution.add_to_soln]
      ring
    · rw [h2]
      cases optimal <;> simp [Solution.add_to_soln, List.replicate_succ]

theorem selected_rows_length (m : Matrix) (hm : matrix_wf m) (rows : List Int)
    (h : ∀ r ∈ rows, 0 ≤ r ∧ r < m.num_rows) :
    (selected_rows m rows).length = rows.length := by
  induction rows with
  | nil => rfl
  | cons r rest ih =>
    obtain ⟨e, he, _, _⟩ := row_at_some m hm r (h r (List.mem_cons_self _ _)).1
      (h r (List.mem_cons_self _ _)).2
    simp only [selected_rows, List.filterMap_cons, he, List.length_cons]
    rw [← ih (fun r' hr' => h r' (List.mem_cons_of_mem _ hr'))]
    rfl

theorem column_sums_getElem? (W : Nat) (rows : List RowElem) (c : Int) (h0 : 0 ≤ c)
    (h1 : c < (W : Int)) : (column_sums W rows)[c.toNat]? = some (column_count rows c) := by
  have hlt : c.toNat < W := by omega
  simp only [column_sums]
  rw [List.getElem?_map, List.getElem?_range hlt]
  simp only [Option.map_some', Int.toNat_of_nonneg h0]

theorem one_mem_column_sums (W : Nat) (rows : List RowElem) :
    (1 : Int) ∈ column_sums W rows ↔ unity_columns (column_sums W rows) 0 ≠ [] := by
  constructor
  · intro h
    simp only [column_sums] at h
    obtain ⟨c, hc, hcount⟩ := List.mem_map.mp h
    have hlt := List.mem_range.mp hc
    have : (c : Int) ∈ unity_columns (column_sums W rows) 0 :=
      (mem_unity_columns W rows _).mpr ⟨by omega, by omega, hcount⟩
    intro hnil
    rw [hnil] at this
    cases this
  · intro h
    obtain ⟨c, hc⟩ := List.exists_mem_of_ne_nil _ h
    obtain ⟨h0, h1, h2⟩ := (mem_unity_columns W rows c).mp hc
    have := column_sums_getElem? W rows c h0 h1
    rw [h2] at this
    exact List.getElem?_mem this

theorem mem_forced_rows (m : Matrix) (hm : matrix_wf m) (r : Int) :
    r ∈ forced_rows m ↔
      ∃ e, row_at m r = some e ∧
        ∃ c ∈ live e.column,
          (column_sums m.num_cols.toNat m.rowlist)[c.toNat]? = some 1 := by
  have hW : ((m.num_cols.toNat : Nat) : Int) = m.num_cols := Int.toNat_of_nonneg hm.2.1
  simp only [forced_rows]
  rw [mem_unitarian_rows]
  constructor
  · rintro ⟨e, he, hu⟩
    refine ⟨e, he, ?_⟩
    simp only [has_unitarian_entry, List.any_eq_true, Bool.and_eq_true, decide_eq_true_eq] at hu
    obtain ⟨c, hc, hcd, hcU⟩ := hu
    obtain ⟨h0, h1, h2⟩ := (mem_unity_columns _ _ c).mp hcU
    refine ⟨c, mem_live.mpr ⟨hc, hcd⟩, ?_⟩
    rw [column_sums_getElem? _ _ c h0 h1, h2]
  · rintro ⟨e, he, c, hc, hsum⟩
    refine ⟨e, he, ?_⟩
    have hrg := (hm.2.2.2 e (row_at_mem m r e he).1).2.2 c hc
    rw [column_sums_getElem? _ _ c hrg.1 (by omega)] at hsum
    injection hsum with hsum
    simp only [has_unitarian_entry, List.any_eq_true, Bool.and_eq_true, decide_eq_true_eq]
    exact ⟨c, (mem_live.mp hc).1, (mem_live.mp hc).2,
      (mem_unity_columns _ _ c).mpr ⟨hrg.1, by omega, hsum⟩⟩

theorem forced_rows_eq_nil (m : Matrix)
    (h : m.num_rows = 0 ∨ m.num_cols = 0 ∨
      unity_columns (column_sums m.num_cols.toNat m.rowlist) 0 = []) (hm : matrix_wf m) :
    forced_rows m = [] := by
  have hU : unity_columns (column_sums m.num_cols.toNat m.rowlist) 0 = [] ∨ m.rowlist = [] := by
    rcases h with h | h | h
    · right
      have := hm.1
      exact List.length_eq_zero.mp (by omega)
    · left
      rw [h]
      rfl
    · exact Or.inl h
  apply List.eq_nil_iff_forall_not_mem.mpr
  intro r hr
  simp only [forced_rows] at hr
  obtain ⟨e, he, hu⟩ := (mem_unitarian_rows m _ r).mp hr
  rcases hU with hU | hU
  · rw [hU] at hu
    simp [has_unitarian_entry] at hu
  · have := (row_at_mem m r e he).1
    rw [hU] at this
    cases this

/-- C23. The row-unitarian rule selects exactly the forced rows: for every
matrix satisfying the invariants (with an analytics record for every row),
`eliminate_row_unitarians` returns true iff some column sum is 1; the rows it
adds to the solution are the rows at the indices `rows`, which are strictly
increasing and are exactly the rows with a non-tombstone entry in a column of
sum 1, each added once, as optimal selections: `num_non_optimal` and
`weight_non_optimal` do not change. -/
theorem row_unitarians_select_forced (fs : FileSystem) (m : Matrix) (hm : matrix_wf m)
    (S : Solution) (cd : List ExemplarData) (hc : m.num_rows ≤ (cd.length : Int)) :
    ∃ (sums : List Int) (changed : Bool) (m1 : Matrix) (S1 : Solution)
      (cd1 : List ExemplarData) (rows : List Int),
      get_column_sum m = Except.ok sums ∧
      eliminate_row_unitarians fs m S cd = Except.ok (changed, m1, S1, cd1) ∧
      (changed = true ↔ (1 : Int) ∈ sums) ∧
      rows.Pairwise (fun a b => a < b) ∧
      (∀ r, r ∈ rows ↔
        ∃ e, row_at m r = some e ∧ ∃ c ∈ live e.column, sums[c.toNat]? = some 1) ∧
      (selected_rows m rows).length = rows.length ∧
      S1.solution = S.solution ++ (selected_rows m rows).map (fun e => filename e.file_path) ∧
      S1.rowdata =
        S.rowdata ++ (selected_rows m rows).map (fun e => get_exemplar_data fs e.file_path) ∧
      S1.weight = S.weight + ((selected_rows m rows).map (fun e => e.weight)).sum ∧
      S1.num_non_optimal = S.num_non_optimal ∧
      S1.weight_non_optimal = S.weight_non_optimal := by
  obtain ⟨cd1, _, hel⟩ := eliminate_row_unitarians_ok fs m hm S cd hc
  obtain ⟨f1, f2, f3, _, f5⟩ := add_all_fields fs true (selected_rows m (forced_rows m)) S
  obtain ⟨f6, _⟩ := add_all_counters fs true (selected_rows m (forced_rows m)) S
  have hsorted : (forced_rows m).Pairwise (fun a b => a < b) := positions_from_sorted _ _ _
  have hlen := selected_rows_length m hm (forced_rows m) (unitarian_rows_range m hm _)
  by_cases hcond : m.num_rows = 0 ∨ m.num_cols = 0 ∨
      unity_columns (column_sums m.num_cols.toNat m.rowlist) 0 = []
  · rw [if_pos hcond] at hel
    have hnil := forced_rows_eq_nil m hcond hm
    refine ⟨_, false, m, S, cd, forced_rows m, get_column_sum_ok m hm, hel, ?_, hsorted,
      mem_forced_rows m hm, hlen, ?_, ?_, ?_, rfl, rfl⟩
    · rw [one_mem_column_sums]
      constructor
      · intro h; cases h
      · intro hne
        exfalso
        obtain ⟨c, hcm⟩ := List.exists_mem_of_ne_nil _ hne
        obtain ⟨h0, h1, h2⟩ := (mem_unity_columns _ _ c).mp hcm
        obtain ⟨e, he, _⟩ := (column_count_pos_iff m.rowlist c).mp (by omega)
        have hl := hm.1
        rcases hcond with h | h | h
        · have : m.rowlist = [] := List.length_eq_zero.mp (by omega)
          rw [this] at he
          cases he
        · omega
        · exact hne h
    · rw [hnil]; simp [selected_rows]
    · rw [hnil]; simp [selected_rows]
    · rw [hnil]; simp [selected_rows]
  · rw [if_neg hcond] at hel
    refine ⟨_, true, _, _, cd1, forced_rows m, get_column_sum_ok m hm, hel, ?_, hsorted,
      mem_forced_rows m hm, hlen, f1, f2, f3, by simpa using f5, by simpa using f6⟩
    rw [one_mem_column_sums]
    constructor
    · intro _ hnil
      exact hcond (Or.inr (Or.inr hnil))
    · intro _; rfl

/-- Witness for C23: the example matrix with its analytics records. -/
theorem row_unitarians_select_forced_witness :
    ∃ (sums : List Int) (changed : Bool) (m1 : Matrix) (S1 : Solution)
      (cd1 : List ExemplarData) (rows : List Int),
      get_column_sum example_matrix = Except.ok sums ∧
      eliminate_row_unitarians (fun _ => []) example_matrix Solution.empty
        (initialise_corpus_data example_matrix) = Except.ok (changed, m1, S1, cd1) ∧
      (changed = true ↔ (1 : Int) ∈ sums) ∧
      rows.Pairwise (fun a b => a < b) ∧
      (∀ r, r ∈ rows ↔
        ∃ e, row_at example_matrix r = some e ∧ ∃ c ∈ live e.column, sums[c.toNat]? = some 1) ∧
      (selected_rows example_matrix rows).length = rows.length ∧
      S1.solution = Solution.empty.solution ++
        (selected_rows example_matrix rows).map (fun e => filename e.file_path) ∧
      S1.rowdata = Solution.empty.rowdata ++
        (selected_rows example_matrix rows).map
          (fun e => get_exemplar_data (fun _ => []) e.file_path) ∧
      S1.weight = Solution.empty.weight +
        ((selected_rows example_matrix rows).map (fun e => e.weight)).sum ∧
      S1.num_non_optimal = Solution.empty.num_non_optimal ∧
      S1.weight_non_optimal = Solution.empty.weight_non_optimal :=
  row_unitarians_select_forced (fun _ => []) example_matrix (by decide) Solution.empty
    (initialise_corpus_data example_matrix) (by decide)

/-- C25. Optimality counters: on a matrix satisfying the invariants with at
least one row, `eliminate_max_score` selects a row `e`, appends its exemplar
to the solution and adds 1 to `num_non_optimal` and the weight of `e` to
`weight_non_optimal` and to `weight`; `add_to_soln` with `optimal` true
leaves `num_non_optimal` and `weight_non_optimal` unchanged; every
`add_to_soln` adds one entry to each of `solution`, `rowdata` and `scores`,
so that their lengths stay equal. -/
theorem optimality_counters (fs : FileSystem) (m : Matrix) (hm : matrix_wf m) (S : Solution)
    (hr : m.num_rows ≠ 0) :
    (∃ (e : RowElem) (m1 : Matrix) (S1 : Solution), e ∈ m.rowlist ∧
      eliminate_max_score fs m S = Except.ok (true, m1, S1) ∧
      S1.solution = S.solution ++ [filename e.file_path] ∧
      S1.num_non_optimal = S.num_non_optimal + 1 ∧
      S1.weight_non_optimal = S.weight_non_optimal + e.weight ∧
      S1.weight = S.weight + e.weight) ∧
    (∀ (f : String) (row : List Int) (w : ℚ),
      (S.add_to_soln f row w true).num_non_optimal = S.num_non_optimal ∧
      (S.add_to_soln f row w true).weight_non_optimal = S.weight_non_optimal) ∧
    (∀ (f : String) (row : List Int) (w : ℚ) (optimal : Bool),
      (S.add_to_soln f row w optimal).solution.length = S.solution.length + 1 ∧
      (S.add_to_soln f row w optimal).rowdata.length = S.rowdata.length + 1 ∧
      (S.add_to_soln f row w optimal).scores.length = S.scores.length + 1 ∧
      (S.solution.length = S.rowdata.length → S.rowdata.length = S.scores.length →
        (S.add_to_soln f row w optimal).solution.length =
          (S.add_to_soln f row w optimal).rowdata.length ∧
        (S.add_to_soln f row w optimal).rowdata.length =
          (S.add_to_soln f row w optimal).scores.length)) := by
  refine ⟨?_, ?_, ?_⟩
  · obtain ⟨row, e, he, hel⟩ := eliminate_max_score_ok fs m hm S hr
    obtain ⟨g1, _, g3, _, g5, g6⟩ := add_to_soln_fields S (filename e.file_path)
      (get_exemplar_data fs e.file_path) e.weight false
    exact ⟨e, _, _, (row_at_mem m row e he).1, hel, g1, by simpa using g5, by simpa using g6, g3⟩
  · intro f row w
    obtain ⟨_, _, _, _, g5, g6⟩ := add_to_soln_fields S f row w true
    exact ⟨by simpa using g5, by simpa using g6⟩
  · intro f row w optimal
    have h1 : (S.add_to_soln f row w optimal).solution.length = S.solution.length + 1 := by
      cases optimal <;> simp [Solution.add_to_soln]
    have h2 : (S.add_to_soln f row w optimal).rowdata.length = S.rowdata.length + 1 := by
      cases optimal <;> simp [Solution.add_to_soln]
    have h3 : (S.add_to_soln f row w optimal).scores.length = S.scores.length + 1 := by
      cases optimal <;> simp [Solution.add_to_soln]
    exact ⟨h1, h2, h3, fun e1 e2 => ⟨by omega, by omega⟩⟩

/-- Witness for C25: the example matrix and the empty solution. -/
theorem optimality_counters_witness :
    (∃ (e : RowElem) (m1 : Matrix) (S1 : Solution), e ∈ example_matrix.rowlist ∧
      eliminate_max_score (fun _ => []) example_matrix Solution.empty =
        Except.ok (true, m1, S1) ∧
      S1.solution = Solution.empty.solution ++ [filename e.file_path] ∧
      S1.num_non_optimal = Solution.empty.num_non_optimal + 1 ∧
      S1.weight_non_optimal = Solution.empty.weight_non_optimal + e.weight ∧
      S1.weight = Solution.empty.weight + e.weight) ∧
    (∀ (f : String) (row : List Int) (w : ℚ),
      (Solution.empty.add_to_soln f row w true).num_non_optimal =
        Solution.empty.num_non_optimal ∧
      (Solution.empty.add_to_soln f row w true).weight_non_optimal =
        Solution.empty.weight_non_optimal) ∧
    (∀ (f : String) (row : List Int) (w : ℚ) (optimal : Bool),
      (Solution.empty.add_to_soln f row w optimal).solution.length =
        Solution.empty.solution.length + 1 ∧
      (Solution.empty.add_to_soln f row w optimal).rowdata.length =
        Solution.empty.rowdata.length + 1 ∧
      (Solution.empty.add_to_soln f row w optimal).scores.length =
        Solution.empty.scores.length + 1 ∧
      (Solution.empty.solution.length = Solution.empty.rowdata.length →
        Solution.empty.rowdata.length = Solution.empty.scores.length →
        (Solution.empty.add_to_soln f row w optimal).solution.length =
          (Solution.empty.add_to_soln f row w optimal).rowdata.length ∧
        (Solution.empty.add_to_soln f row w optimal).rowdata.length =
          (Solution.empty.add_to_soln f row w optimal).scores.length)) :=
  optimality_counters (fun _ => []) example_matrix (by decide) Solution.empty (by decide)

/-- C26. The greedy selector on a matrix without rows: `deterministic_select`
returns `NULL_INDEX`, and `eliminate_max_score` reads `sorted_scores[-1]`
from the empty vector before it tests for `NULL_INDEX`: an access outside the
bounds. -/
theorem eliminate_max_score_reads_out_of_bounds (fs : FileSystem) (m : Matrix)
    (S : Solution) :
    deterministic_select { m with num_rows := 0 } [] = Except.ok NULL_INDEX ∧
      eliminate_max_score fs { m with num_rows := 0 } S = Except.error Err.undefined := by
  refine ⟨rfl, ?_⟩
  simp [eliminate_max_score, score_rows, visited_rows, score_pairs, sort_by,
    deterministic_select, NULL_INDEX, at_index]

/-! ### The greedy selector: maximum score and tie-break -/

theorem score_pairs_getElem (l : List ℚ) : ∀ (i : Int) (k : Nat) (s : ℚ),
    l[k]? = some s → (s, i + (k : Int)) ∈ score_pairs l i := by
  induction l with
  | nil => intro i k s h; simp at h
  | cons x rest ih =>
    intro i k s h
    cases k with
    | zero =>
      simp only [List.getElem?_cons_zero, Option.some.injEq] at h
      subst h
      simp [score_pairs]
    | succ k =>
      rw [List.getElem?_cons_succ] at h
      have := ih (i + 1) k s h
      simp only [score_pairs, List.mem_cons]
      right
      have he : i + ((k + 1 : Nat) : Int) = i + 1 + (k : Int) := by push_cast; ring
      rw [he]
      exact this

theorem score_pairs_value (l : List ℚ) : ∀ (i : Int) (p : ℚ × Int),
    p ∈ score_pairs l i → l[(p.2 - i).toNat]? = some p.1 := by
  induction l with
  | nil => intro i p h; simp [score_pairs] at h
  | cons x rest ih =>
    intro i p h
    simp only [score_pairs, List.mem_cons] at h
    rcases h with h | h
    · subst h; simp
    · have h1 := ih (i + 1) p h
      have h2 := mem_score_pairs rest (i + 1) p h
      have he : (p.2 - i).toNat = (p.2 - (i + 1)).toNat + 1 := by omega
      rw [he, List.getElem?_cons_succ]
      exact h1

theorem score_pair_sorted (l : List (ℚ × Int)) :
    (sort_by score_pair_greater l).Pairwise (fun a b => b.1 ≤ a.1) := by
  have h := sort_by_sorted score_pair_greater (fun _ => True)
    (by
      intro a b _ _
      simp only [score_pair_greater, Bool.or_eq_false_iff, Bool.and_eq_false_iff,
        decide_eq_false_iff_not]
      by_cases h1 : a.1 > b.1
      · right
        exact ⟨not_lt.mpr (le_of_lt h1), Or.inl (ne_of_lt h1)⟩
      · by_cases h2 : a.1 = b.1
        · by_cases h3 : a.2 > b.2
          · right
            exact ⟨by rw [h2]; exact lt_irrefl _, Or.inr (by omega)⟩
          · left
            exact ⟨h1, Or.inr h3⟩
        · left
          exact ⟨h1, Or.inl h2⟩)
    (by
      intro a b c _ _ _
      simp only [score_pair_greater, Bool.or_eq_false_iff, Bool.and_eq_false_iff,
        decide_eq_false_iff_not]
      rintro ⟨h1, h2⟩ ⟨h3, h4⟩
      have hba : b.1 ≤ a.1 := not_lt.mp h1
      have hcb : c.1 ≤ b.1 := not_lt.mp h3
      refine ⟨not_lt.mpr (le_trans hcb hba), ?_⟩
      by_cases hca : c.1 = a.1
      · right
        have hb : b.1 = a.1 := le_antisymm hba (hca ▸ hcb)
        have hcb' : c.1 = b.1 := by rw [hca, hb]
        rcases h2 with h2 | h2
        · exact (h2 hb).elim
        · rcases h4 with h4 | h4
          · exact (h4 hcb').elim
          · omega
      · exact Or.inl hca)
    l (fun _ _ => trivial)
  refine h.imp ?_
  intro a b hab
  simp only [score_pair_greater, Bool.or_eq_false_iff, decide_eq_false_iff_not] at hab
  exact not_lt.mp hab.1

theorem deterministic_select_loop_min (m : Matrix) (hm : matrix_wf m)
    (scores : List (ℚ × Int)) (hs : ∀ p ∈ scores, 0 ≤ p.2 ∧ p.2 < m.num_rows) (first : ℚ) :
    ∀ (rest pre : List (ℚ × Int)) (best : Int) (b : ℚ × Int), scores = pre ++ rest →
      (∀ p ∈ pre, p.1 = first) → at_index scores best = Except.ok b → b ∈ pre →
      (∀ p ∈ pre, row_path m b.2 ≤ row_path m p.2) →
      ∃ (k : Int) (pre1 rest1 : List (ℚ × Int)) (b1 : ℚ × Int),
        deterministic_select_loop m scores first rest (pre.length : Int) best = Except.ok k ∧
        scores = pre1 ++ rest1 ∧ (∀ p ∈ pre1, p.1 = first) ∧
        (∀ p, rest1.head? = some p → p.1 ≠ first) ∧
        at_index scores k = Except.ok b1 ∧ b1 ∈ pre1 ∧
        ∀ p ∈ pre1, row_path m b1.2 ≤ row_path m p.2 := by
  intro rest
  induction rest with
  | nil =>
    intro pre best b hsc hpre hb hbp hmin
    exact ⟨best, pre, [], b, rfl, hsc, hpre, by simp, hb, hbp, hmin⟩
  | cons s rest ih =>
    intro pre best b hsc hpre hb hbp hmin
    by_cases hf : s.1 = first
    · have hbm : b ∈ scores := by rw [hsc]; exact List.mem_append_left _ hbp
      have hsm : s ∈ scores := by rw [hsc]; simp
      obtain ⟨e1, he1, _, _⟩ := row_at_some m hm b.2 (hs b hbm).1 (hs b hbm).2
      obtain ⟨e2, he2, _, _⟩ := row_at_some m hm s.2 (hs s hsm).1 (hs s hsm).2
      have hpb : row_path m b.2 = e1.file_path := by simp [row_path, he1]
      have hps : row_path m s.2 = e2.file_path := by simp [row_path, he2]
      have hsc' : scores = (pre ++ [s]) ++ rest := by rw [hsc]; simp
      have hpre' : ∀ p ∈ pre ++ [s], p.1 = first := by
        intro p hp
        rcases List.mem_append.mp hp with hp | hp
        · exact hpre p hp
        · rw [List.mem_singleton] at hp
          rw [hp]; exact hf
      have hget : at_index scores (pre.length : Int) = Except.ok s := by
        apply (at_index_eq_ok _ _ _).mpr
        refine ⟨by omega, ?_⟩
        rw [hsc, Int.toNat_ofNat, List.getElem?_append_right (le_refl _)]
        simp
      have hlen : ((pre ++ [s]).length : Int) = (pre.length : Int) + 1 := by simp
      simp only [deterministic_select_loop, hf, if_true, hb,
        deterministic_compare_ok m hm b.2 s.2 e1 e2 he1 he2]
      rw [← hlen]
      by_cases hc : string_compare e1.file_path e2.file_path > 0
      · rw [if_pos hc]
        have hlt : e2.file_path < e1.file_path := (string_compare_pos _ _).mp hc
        apply ih (pre ++ [s]) _ s hsc' hpre' hget (by simp)
        intro p hp
        rcases List.mem_append.mp hp with hp | hp
        · have := hmin p hp
          rw [hps]
          rw [hpb] at this
          exact le_trans (le_of_lt hlt) this
        · rw [List.mem_singleton] at hp
          rw [hp]
      · rw [if_neg hc]
        have hle : e1.file_path ≤ e2.file_path :=
          not_lt.mp (fun h => hc ((string_compare_pos _ _).mpr h))
        apply ih (pre ++ [s]) _ b hsc' hpre' hb (List.mem_append_left _ hbp)
        intro p hp
        rcases List.mem_append.mp hp with hp | hp
        · exact hmin p hp
        · rw [List.mem_singleton] at hp
          rw [hp, hpb, hps]
          exact hle
    · refine ⟨best, pre, s :: rest, b, ?_, hsc, hpre, ?_, hb, hbp, hmin⟩
      · simp only [deterministic_select_loop, hf, if_false]
      · intro p hp
        simp only [List.head?_cons, Option.some.injEq] at hp
        rw [← hp]; exact hf

theorem eliminate_max_score_choice (fs : FileSystem) (m : Matrix) (hm : matrix_wf m)
    (S : Solution) (hr : m.num_rows ≠ 0)
    (hdist : ∀ r1 r2 e1 e2, row_at m r1 = some e1 → row_at m r2 = some e2 →
      e1.file_path = e2.file_path → r1 = r2) :
    ∃ (row : Int) (e : RowElem), row_at m row = some e ∧
      eliminate_max_score fs m S = Except.ok
        (true, reduced m [row],
          S.add_to_soln (filename e.file_path) (get_exemplar_data fs e.file_path) e.weight
            false) ∧
      (∀ e1 ∈ m.rowlist, row_score e1 ≤ row_score e) ∧
      (∀ r1 e1, row_at m r1 = some e1 → row_score e1 = row_score e →
        r1 = row ∨ e.file_path < e1.file_path) := by
  have hl := hm.1
  have hperm := sort_by_perm score_pair_greater
    (score_pairs (m.rowlist.map (fun e => (e.row_sum : ℚ) / e.weight)) 0)
  have hs : ∀ p ∈ sort_by score_pair_greater
      (score_pairs (m.rowlist.map (fun e => (e.row_sum : ℚ) / e.weight)) 0),
      0 ≤ p.2 ∧ p.2 < m.num_rows := by
    intro p hp
    have := mem_score_pairs _ 0 p (hperm.mem_iff.mp hp)
    simp only [List.length_map] at this
    omega
  have hsortedP := score_pair_sorted
    (score_pairs (m.rowlist.map (fun e => (e.row_sum : ℚ) / e.weight)) 0)
  have hval : ∀ p ∈ sort_by score_pair_greater
      (score_pairs (m.rowlist.map (fun e => (e.row_sum : ℚ) / e.weight)) 0),
      ∀ e, row_at m p.2 = some e → p.1 = row_score e := by
    intro p hp e he
    have h1 := score_pairs_value _ 0 p (hperm.mem_iff.mp hp)
    obtain ⟨_, h0, _, _⟩ := row_at_mem m p.2 e he
    simp only [row_at, not_lt.mpr h0, if_false] at he
    rw [sub_zero, List.getElem?_map, he] at h1
    simp only [Option.map_some', Option.some.injEq] at h1
    rw [← h1]; rfl
  have hin : ∀ r e, row_at m r = some e → (row_score e, r) ∈ sort_by score_pair_greater
      (score_pairs (m.rowlist.map (fun e => (e.row_sum : ℚ) / e.weight)) 0) := by
    intro r e he
    obtain ⟨_, h0, _, _⟩ := row_at_mem m r e he
    simp only [row_at, not_lt.mpr h0, if_false] at he
    apply hperm.mem_iff.mpr
    have := score_pairs_getElem (m.rowlist.map (fun e => (e.row_sum : ℚ) / e.weight)) 0
      r.toNat (row_score e) (by rw [List.getElem?_map, he]; rfl)
    rw [zero_add, Int.toNat_of_nonneg h0] at this
    exact this
  cases hsort : sort_by score_pair_greater
      (score_pairs (m.rowlist.map (fun e => (e.row_sum : ℚ) / e.weight)) 0) with
  | nil =>
    exfalso
    have hlen := hperm.length_eq
    rw [hsort, score_pairs_length, List.length_map] at hlen
    simp only [List.length_nil] at hlen
    omega
  | cons s0 rest =>
    rw [hsort] at hs hsortedP hval hin
    obtain ⟨hs0max, _⟩ := List.pairwise_cons.mp hsortedP
    have hget0 : at_index (s0 :: rest) 0 = Except.ok s0 := by simp [at_index]
    obtain ⟨k, pre1, rest1, b1, hk, hsplit, hpre1, hhead, hb1, hb1p, hmin⟩ :=
      deterministic_select_loop_min m hm (s0 :: rest) hs s0.1 rest [s0] 0 s0 rfl
        (by intro p hp; rw [List.mem_singleton] at hp; rw [hp]) hget0
        (List.mem_singleton_self _)
        (by intro p hp; rw [List.mem_singleton] at hp; rw [hp])
    simp only [List.length_singleton, Nat.cast_one] at hk
    have hb1m : b1 ∈ s0 :: rest := by rw [hsplit]; exact List.mem_append_left _ hb1p
    have hcm := hs b1 hb1m
    obtain ⟨e, he, _, _⟩ := row_at_some m hm b1.2 hcm.1 hcm.2
    have hscore : row_score e = s0.1 := by
      rw [← hval b1 hb1m e he]
      exact hpre1 b1 hb1p
    have hmax : ∀ p ∈ s0 :: rest, p.1 ≤ s0.1 := by
      intro p hp
      rcases List.mem_cons.mp hp with hp | hp
      · rw [hp]
      · exact hs0max p hp
    have hrest1 : ∀ p ∈ rest1, p.1 ≠ s0.1 := by
      intro p hp
      cases hr1 : rest1 with
      | nil => rw [hr1] at hp; cases hp
      | cons q rest2 =>
        rw [hr1] at hp hhead hsplit
        have hq : q.1 ≠ s0.1 := hhead q rfl
        have hqle : q.1 ≤ s0.1 := hmax q (by rw [hsplit]; simp)
        have hqlt : q.1 < s0.1 := lt_of_le_of_ne hqle hq
        rw [hsplit] at hsortedP
        have hpw := (List.pairwise_append.mp hsortedP).2.1
        rcases List.mem_cons.mp hp with hp | hp
        · rw [hp]; exact hq
        · have := (List.pairwise_cons.mp hpw).1 p hp
          exact ne_of_lt (lt_of_le_of_lt this hqlt)
    have hnull : b1.2 ≠ NULL_INDEX := by simp only [NULL_INDEX]; omega
    have hred := (reduce_ok m hm [b1.2] (List.nodup_singleton _) (by
      intro r hr'
      rw [List.mem_singleton] at hr'
      subst hr'
      exact hcm)).1
    refine ⟨b1.2, e, he, ?_, ?_, ?_⟩
    · simp only [eliminate_max_score, score_rows_ok m hm, hsort, deterministic_select, hk, hb1,
        if_neg hnull, add_to_solution_ok fs m hm S b1.2 false e he, hred]
    · intro e1 he1
      obtain ⟨i, hi⟩ := List.mem_iff_getElem?.mp he1
      have hrow : row_at m (i : Int) = some e1 := by simp [row_at, hi]
      rw [hscore]
      exact hmax _ (hin _ e1 hrow)
    · intro r1 e1 he1 heq
      by_cases hrr : r1 = b1.2
      · exact Or.inl hrr
      · right
        have hp := hin r1 e1 he1
        rw [hsplit] at hp
        rcases List.mem_append.mp hp with hp | hp
        · have hle := hmin _ hp
          simp only [row_path, he, he1] at hle
          rcases lt_or_eq_of_le hle with hlt | heq2
          · exact hlt
          · exact (hrr (hdist _ _ _ _ he1 he heq2.symm)).elim
        · exfalso
          exact hrest1 _ hp (by rw [← hscore]; exact heq)

theorem byte_bits_getElem? (datum i : Nat) (hi : i < 8) :
    (byte_bits datum)[i]? = some (if datum.testBit (7 - i) then (1 : Int) else 0) := by
  have h128 : Nat.shiftRight 128 i = 2 ^ (7 - i) := by
    interval_cases i <;> rfl
  have hland : Nat.land (datum % 256) (Nat.shiftRight 128 i) =
      (datum.testBit (7 - i)).toNat * 2 ^ (7 - i) := by
    rw [h128]
    show (datum % 256) &&& 2 ^ (7 - i) = _
    rw [Nat.and_two_pow]
    have : (256 : Nat) = 2 ^ 8 := by norm_num
    rw [this, Nat.testBit_mod_two_pow]
    have hlt : 7 - i < 8 := by omega
    simp [hlt]
  simp only [byte_bits]
  rw [List.getElem?_map, List.getElem?_range hi]
  simp only [Option.map_some', Option.some.injEq, hland]
  cases hb : datum.testBit (7 - i)
  · simp
  · simp

theorem flatMap_byte_bits_getElem? (bytes : List Nat) :
    ∀ (b i byte : Nat), bytes[b]? = some byte → i < 8 →
      (bytes.flatMap byte_bits)[8 * b + i]? = (byte_bits byte)[i]? := by
  induction bytes with
  | nil => intro b i byte h; simp at h
  | cons x rest ih =>
    intro b i byte h hi
    rw [List.flatMap_cons]
    cases b with
    | zero =>
      simp only [List.getElem?_cons_zero, Option.some.injEq] at h
      subst h
      rw [Nat.mul_zero, Nat.zero_add,
        List.getElem?_append_left (by rw [byte_bits_length]; exact hi)]
    | succ b =>
      rw [List.getElem?_cons_succ] at h
      rw [List.getElem?_append_right (by rw [byte_bits_length]; omega), byte_bits_length]
      have he : 8 * (b + 1) + i - 8 = 8 * b + i := by omega
      rw [he]
      exact ih b i byte h hi

theorem raw_set_iff (fs : FileSystem) (p : String) (i : Nat) :
    (∃ v, (get_exemplar_data fs p)[i]? = some v ∧ v ≠ 0) ↔
      (get_exemplar_data fs p)[i]? = some 1 := by
  constructor
  · rintro ⟨v, hv, hne⟩
    rcases get_exemplar_data_values fs p v (List.getElem?_mem hv) with h | h
    · exact (hne h).elim
    · rw [hv, h]
  · intro h
    exact ⟨1, h, by decide⟩

/-- C29. MSB-first bit expansion and row construction: for every file `p`,
`get_exemplar_data` yields a vector of length eight times the number of
bytes, whose entry `8 * b + i` (`i < 8`) is 1 when bit `7 - i` of byte `b` is
set and 0 otherwise; and for every duplicate-free list `D` of columns in
`[0, W)`, `W` being at least that length, `transform_index W D` returns a
transform `T` and the `RowElem` built from the file with `T` has a strictly
increasing column sequence without `DELETED`, whose members are exactly the
`T[i]` different from `DELETED` of the set bits `i`, and a `row_sum` equal to
the length of that sequence. -/
theorem bit_expansion_and_row (fs : FileSystem) (p : String) (W : Int) (D : List Int)
    (hnd : D.Nodup) (hD : ∀ d ∈ D, 0 ≤ d ∧ d < W)
    (hlen : ((get_exemplar_data fs p).length : Int) ≤ W) :
    ((get_exemplar_data fs p).length = 8 * (fs p).length ∧
      ∀ (b i byte : Nat), (fs p)[b]? = some byte → i < 8 →
        (get_exemplar_data fs p)[8 * b + i]? =
          some (if byte.testBit (7 - i) then (1 : Int) else 0)) ∧
    ∃ (T : List Int) (e : RowElem), transform_index W D = Except.ok T ∧
      row_from_file fs p T = Except.ok e ∧
      e.column.Pairwise (fun a b => a < b) ∧ DELETED ∉ e.column ∧
      (∀ j, j ∈ e.column ↔
        ∃ i : Nat, (get_exemplar_data fs p)[i]? = some 1 ∧ T[i]? = some j ∧ j ≠ DELETED) ∧
      e.row_sum = (e.column.length : Int) := by
  have hW : 0 ≤ W := le_trans (Int.natCast_nonneg _) hlen
  have hD0 : ∀ d ∈ D, 0 ≤ d := fun d hd => (hD d hd).1
  refine ⟨⟨get_exemplar_data_length fs p, ?_⟩, ?_⟩
  · intro b i byte hb hi
    simp only [get_exemplar_data]
    rw [flatMap_byte_bits_getElem? _ b i byte hb hi, byte_bits_getElem? byte i hi]
  · have hT := transform_index_ok W D hW hnd hD
    have hrow := row_from_file_ok fs D hnd W.toNat hD0 p (by omega)
    refine ⟨_, _, hT, hrow, file_entries_sorted D hnd hD0 _, ?_, ?_, rfl⟩
    · intro hdel
      have hl := live_file_entries D hnd hD0 (get_exemplar_data fs p)
      have hdel' : DELETED ∈ file_entries D (get_exemplar_data fs p) := hdel
      rw [← hl] at hdel'
      exact (mem_live.mp hdel').2 rfl
    · intro j
      show j ∈ file_entries D (get_exemplar_data fs p) ↔ _
      rw [mem_file_entries]
      constructor
      · rintro ⟨c, ⟨hc0, hv⟩, hcD, hcj⟩
        have hbit := (raw_set_iff fs p c.toNat).mp hv
        have hlt : c.toNat < (get_exemplar_data fs p).length := by
          by_contra hcon
          rw [List.getElem?_eq_none (by omega)] at hbit
          cases hbit
        refine ⟨c.toNat, hbit, ?_, ?_⟩
        · rw [List.getElem?_map, List.getElem?_range (by omega)]
          simp only [Option.map_some', Option.some.injEq, Int.toNat_of_nonneg hc0]
          exact hcj
        · rw [← hcj]
          exact transform_value_ne_deleted D hnd hD0 c hc0 hcD
      · rintro ⟨i, hbit, hTi, hne⟩
        have hlt : i < (get_exemplar_data fs p).length := by
          by_contra hcon
          rw [List.getElem?_eq_none (by omega)] at hbit
          cases hbit
        rw [List.getElem?_map, List.getElem?_range (by omega)] at hTi
        simp only [Option.map_some', Option.some.injEq] at hTi
        refine ⟨(i : Int), ⟨Int.natCast_nonneg _, (raw_set_iff fs p _).mpr (by simpa using hbit)⟩,
          ?_, hTi⟩
        intro hin
        rw [transform_value_deleted D _ hin] at hTi
        exact hne hTi.symm

/-- Witness for C29: the file `a` of the example corpus, the byte 192, with
column 0 deleted from a width of eight. -/
theorem bit_expansion_and_row_witness :
    ((get_exemplar_data example_files "a").length = 8 * (example_files "a").length ∧
      ∀ (b i byte : Nat), (example_files "a")[b]? = some byte → i < 8 →
        (get_exemplar_data example_files "a")[8 * b + i]? =
          some (if byte.testBit (7 - i) then (1 : Int) else 0)) ∧
    ∃ (T : List Int) (e : RowElem), transform_index 8 [0] = Except.ok T ∧
      row_from_file example_files "a" T = Except.ok e ∧
      e.column.Pairwise (fun a b => a < b) ∧ DELETED ∉ e.column ∧
      (∀ j, j ∈ e.column ↔
        ∃ i : Nat, (get_exemplar_data example_files "a")[i]? = some 1 ∧ T[i]? = some j ∧
          j ≠ DELETED) ∧
      e.row_sum = (e.column.length : Int) :=
  bit_expansion_and_row example_files "a" 8 [0] (by decide) (by decide) (by decide)

/-! ### The large-data pass: the columns to ignore -/

theorem col_freq_add_exact : ∀ (row col_freq : List Int) (n : Nat),
    n + row.length ≤ col_freq.length →
    ∃ cf, col_freq_add col_freq row (n : Int) = Except.ok cf ∧ cf.length = col_freq.length ∧
      ∀ (k : Nat) (x : Int), col_freq[k]? = some x →
        cf[k]? = some (x + (if n ≤ k then (row[k - n]?).getD 0 else 0)) := by
  intro row
  induction row with
  | nil =>
    intro col_freq n _
    refine ⟨col_freq, rfl, rfl, ?_⟩
    intro k x hk
    rw [hk]
    simp
  | cons v rest ih =>
    intro col_freq n hlen
    simp only [List.length_cons] at hlen
    have hcast : ((n : Int) + 1) = ((n + 1 : Nat) : Int) := by push_cast; rfl
    have hn : n < col_freq.length := by omega
    have hat := at_index_of_getElem? col_freq n col_freq[n] (List.getElem?_eq_getElem hn)
    simp only [col_freq_add, hat, Int.toNat_ofNat, hcast]
    obtain ⟨cf, hcf, hl, hsp⟩ := ih (col_freq.set n (col_freq[n] + v)) (n + 1) (by
      rw [List.length_set]; omega)
    refine ⟨cf, hcf, by rw [hl, List.length_set], ?_⟩
    intro k x hk
    by_cases hkn : k = n
    · subst hkn
      have hx : x = col_freq[k] := by
        rw [List.getElem?_eq_getElem hn] at hk; injection hk with hk; exact hk.symm
      rw [hsp k (x + v) (by rw [List.getElem?_set_self hn, hx])]
      simp
    · rw [hsp k x (by rw [List.getElem?_set_ne (Ne.symm hkn)]; exact hk)]
      by_cases hlt : n + 1 ≤ k
      · have hle : n ≤ k := by omega
        have he : k - n = (k - (n + 1)) + 1 := by omega
        rw [if_pos hlt, if_pos hle, he, List.getElem?_cons_succ]
      · have hle : ¬ n ≤ k := by omega
        rw [if_neg hlt, if_neg hle]

theorem count_column_frequencies_exact (fs : FileSystem) (weight_file : WeightFile)
    (num_cols : Int) : ∀ (files : List CorpusFile) (col_freq : List Int),
    num_cols = (col_freq.length : Int) →
    (∀ f ∈ files, ((get_exemplar_data fs f.file_path).length : Int) ≤ num_cols) →
    ∃ cf, count_column_frequencies fs weight_file num_cols files col_freq = Except.ok cf ∧
      cf.length = col_freq.length ∧
      ∀ (k : Nat) (x : Int), col_freq[k]? = some x →
        cf[k]? = some (x + corpus_frequency fs weight_file files (k : Int)) := by
  intro files
  induction files with
  | nil =>
    intro col_freq _ _
    refine ⟨col_freq, rfl, rfl, ?_⟩
    intro k x hk
    rw [hk]
    simp [corpus_frequency, unskipped]
  | cons f rest ih =>
    intro col_freq hW hlen
    have hlen' : ∀ g ∈ rest, ((get_exemplar_data fs g.file_path).length : Int) ≤ num_cols :=
      fun g hg => hlen g (List.mem_cons_of_mem _ hg)
    by_cases hs : skipped weight_file f = true
    · obtain ⟨cf, hcf, hl, hsp⟩ := ih col_freq hW hlen'
      refine ⟨cf, by simp only [count_column_frequencies, hs, if_true]; exact hcf, hl, ?_⟩
      intro k x hk
      rw [hsp k x hk]
      simp [corpus_frequency, unskipped, List.filter_cons, hs]
    · have hf := hlen f (List.mem_cons_self _ _)
      obtain ⟨cf1, hcf1, hl1, hsp1⟩ := col_freq_add_exact (get_exemplar_data fs f.file_path)
        col_freq 0 (by omega)
      have hcf1' : col_freq_add col_freq (get_exemplar_data fs f.file_path) 0 = Except.ok cf1 :=
        hcf1
      obtain ⟨cf, hcf, hl, hsp⟩ := ih cf1 (by rw [hl1]; exact hW) hlen'
      refine ⟨cf, ?_, by rw [hl, hl1], ?_⟩
      · simp only [count_column_frequencies, hs, ge_iff_le, hf, if_true, hcf1']
        exact hcf
      · intro k x hk
        rw [hsp k _ (hsp1 k x hk)]
        have hs' : skipped weight_file f = false := by simpa using hs
        have hval : ((get_exemplar_data fs f.file_path)[k]?).getD 0 =
            if (get_exemplar_data fs f.file_path)[k]? = some 1 then 1 else 0 := by
          cases hg : (get_exemplar_data fs f.file_path)[k]? with
          | none => simp
          | some v =>
            rcases get_exemplar_data_values fs f.file_path v (List.getElem?_mem hg) with h0 | h0
            · subst h0; simp
            · subst h0; simp
        simp only [Nat.zero_le, if_true, Nat.sub_zero, hval]
        simp only [corpus_frequency, unskipped, List.filter_cons, hs', Bool.not_false, if_true,
          Int.toNat_ofNat]
        by_cases hbit : (get_exemplar_data fs f.file_path)[k]? = some 1
        · simp only [hbit, if_true, decide_True, List.length_cons]
          push_cast
          congr 1
          omega
        · simp only [hbit, if_false, decide_False, Bool.false_eq_true]
          congr 1
          omega

theorem is_unitarian_row_exact (col_freq : List Int) : ∀ (row : List Int) (n : Nat),
    n + row.length ≤ col_freq.length →
    ∃ b, is_unitarian_row col_freq row (n : Int) = Except.ok b ∧
      (b = true ↔ ∃ i : Nat, row[i]? = some (1 : Int) ∧ col_freq[n + i]? = some (1 : Int)) := by
  intro row
  induction row with
  | nil =>
    intro n _
    exact ⟨false, rfl, by simp⟩
  | cons v rest ih =>
    intro n hlen
    simp only [List.length_cons] at hlen
    have hcast : ((n : Int) + 1) = ((n + 1 : Nat) : Int) := by push_cast; rfl
    have hn : n < col_freq.length := by omega
    have hget : col_freq[n]? = some col_freq[n] := List.getElem?_eq_getElem hn
    have hat := at_index_of_getElem? col_freq n col_freq[n] hget
    obtain ⟨b, hb, hiff⟩ := ih (n + 1) (by omega)
    have hshift : (∃ i : Nat, rest[i]? = some (1 : Int) ∧ col_freq[n + 1 + i]? = some (1 : Int)) →
        ∃ i : Nat, (v :: rest)[i]? = some (1 : Int) ∧ col_freq[n + i]? = some (1 : Int) := by
      rintro ⟨i, h1, h2⟩
      refine ⟨i + 1, by simpa using h1, ?_⟩
      have he : n + (i + 1) = n + 1 + i := by omega
      rw [he]; exact h2
    have hback : ∀ i : Nat, (v :: rest)[i]? = some (1 : Int) →
        col_freq[n + i]? = some (1 : Int) → i ≠ 0 →
        ∃ j : Nat, rest[j]? = some (1 : Int) ∧ col_freq[n + 1 + j]? = some (1 : Int) := by
      intro i h1 h2 hi
      obtain ⟨j, rfl⟩ := Nat.exists_eq_succ_of_ne_zero hi
      refine ⟨j, by simpa using h1, ?_⟩
      have he : n + 1 + j = n + (j + 1) := by omega
      rw [he]; exact h2
    by_cases hv : v = 1
    · by_cases hx : col_freq[n] = 1
      · refine ⟨true, by simp only [is_unitarian_row, if_pos hv, hat, if_pos hx], ?_⟩
        simp only [true_iff]
        exact ⟨0, by simp [hv], by simpa [hx] using hget⟩
      · refine ⟨b, by simp only [is_unitarian_row, if_pos hv, hat, if_neg hx, hcast]; exact hb,
          ?_⟩
        rw [hiff]
        constructor
        · exact hshift
        · rintro ⟨i, h1, h2⟩
          apply hback i h1 h2
          intro hi
          subst hi
          rw [Nat.add_zero, hget] at h2
          injection h2 with h2
          exact hx h2
    · refine ⟨b, by simp only [is_unitarian_row, if_neg hv, hcast]; exact hb, ?_⟩
      rw [hiff]
      constructor
      · exact hshift
      · rintro ⟨i, h1, h2⟩
        apply hback i h1 h2
        intro hi
        subst hi
        simp only [List.getElem?_cons_zero, Option.some.injEq] at h1
        exact hv h1

theorem ignore_unitarian_rows_exact (fs : FileSystem) (weight_file : WeightFile)
    (num_cols : Int) (col_freq : List Int) (hW : num_cols = (col_freq.length : Int)) :
    ∀ (files : List CorpusFile) (S : Solution) (cols : List Int),
    (∀ f ∈ files, ((get_exemplar_data fs f.file_path).length : Int) ≤ num_cols) →
    ∃ (S1 : Solution) (sel : List CorpusFile),
      ignore_unitarian_rows fs weight_file num_cols col_freq files S cols =
        Except.ok (S1, cols ++
          sel.flatMap (fun f => nonzero_positions (get_exemplar_data fs f.file_path) 0)) ∧
      sel.Sublist files ∧
      (∀ f, f ∈ sel ↔ f ∈ files ∧ skipped weight_file f = false ∧
        ∃ i : Nat, (get_exemplar_data fs f.file_path)[i]? = some (1 : Int) ∧
          col_freq[i]? = some (1 : Int)) ∧
      S1.solution = S.solution ++ sel.map (fun f => filename f.file_path) ∧
      S1.rowdata = S.rowdata ++ sel.map (fun f => get_exemplar_data fs f.file_path) ∧
      S1.weight = S.weight + (sel.map (fun f => weight_of weight_file f.file_path)).sum ∧
      S1.initial_singularities = S.initial_singularities ∧
      S1.num_non_optimal = S.num_non_optimal := by
  intro files
  induction files with
  | nil =>
    intro S cols _
    exact ⟨S, [], by simp [ignore_unitarian_rows], List.Sublist.slnil, by simp, by simp, by simp,
      by simp, rfl, rfl⟩
  | cons f rest ih =>
    intro S cols hlen
    have hlen' : ∀ g ∈ rest, ((get_exemplar_data fs g.file_path).length : Int) ≤ num_cols :=
      fun g hg => hlen g (List.mem_cons_of_mem _ hg)
    by_cases hs : skipped weight_file f = true
    · obtain ⟨S1, sel, h1, h2, h3, h4⟩ := ih S cols hlen'
      refine ⟨S1, sel, by simp only [ignore_unitarian_rows, hs, if_true]; exact h1,
        h2.cons f, ?_, h4⟩
      intro g
      rw [h3]
      constructor
      · rintro ⟨g1, g2⟩
        exact ⟨List.mem_cons_of_mem _ g1, g2⟩
      · rintro ⟨g1, g2, g3⟩
        rcases List.mem_cons.mp g1 with g1 | g1
        · subst g1
          rw [hs] at g2
          cases g2
        · exact ⟨g1, g2, g3⟩
    · have hf := hlen f (List.mem_cons_self _ _)
      have hs' : skipped weight_file f = false := by simpa using hs
      obtain ⟨b, hb, hbiff⟩ := is_unitarian_row_exact col_freq
        (get_exemplar_data fs f.file_path) 0 (by omega)
      have hb' : is_unitarian_row col_freq (get_exemplar_data fs f.file_path) 0 = Except.ok b :=
        hb
      simp only [Nat.zero_add] at hbiff
      cases b with
      | false =>
        obtain ⟨S1, sel, h1, h2, h3, h4⟩ := ih S cols hlen'
        refine ⟨S1, sel, ?_, h2.cons f, ?_, h4⟩
        · simp only [ignore_unitarian_rows, hs, ge_iff_le, hf, if_true, hb']
          exact h1
        · intro g
          rw [h3]
          constructor
          · rintro ⟨g1, g2⟩
            exact ⟨List.mem_cons_of_mem _ g1, g2⟩
          · rintro ⟨g1, g2, g3⟩
            rcases List.mem_cons.mp g1 with g1 | g1
            · subst g1
              have := hbiff.mpr g3
              cases this
            · exact ⟨g1, g2, g3⟩
      | true =>
        obtain ⟨g1, g2, g3, g4, g5⟩ := with_exemplar_fields fs weight_file S f.file_path
        obtain ⟨S1, sel, h1, h2, h3, h4, h5, h6, h7, h8⟩ :=
          ih (with_exemplar fs weight_file S f.file_path)
            (cols ++ nonzero_positions (get_exemplar_data fs f.file_path) 0) hlen'
        refine ⟨S1, f :: sel, ?_, h2.cons₂ f, ?_, ?_, ?_, ?_, by rw [h7, g4], by rw [h8, g5]⟩
        · rw [ignore_unitarian_rows_selected fs weight_file num_cols col_freq f rest S cols hs hf
            hb', h1]
          simp [List.append_assoc]
        · intro g
          rw [List.mem_cons, h3]
          constructor
          · rintro (hg | ⟨g1', g2'⟩)
            · subst hg
              exact ⟨List.mem_cons_self _ _, hs', hbiff.mp rfl⟩
            · exact ⟨List.mem_cons_of_mem _ g1', g2'⟩
          · rintro ⟨g1', g2', g3'⟩
            rcases List.mem_cons.mp g1' with hg | hg
            · exact Or.inl hg
            · exact Or.inr ⟨hg, g2', g3'⟩
        · rw [h4, g1]; simp [filename]
        · rw [h5, g2]; simp
        · rw [h6, g3]; simp only [List.map_cons, List.sum_cons]; ring

theorem corpus_frequency_perm (fs : FileSystem) (weight_file : WeightFile)
    (l1 l2 : List CorpusFile) (h : l1.Perm l2) (c : Int) :
    corpus_frequency fs weight_file l1 c = corpus_frequency fs weight_file l2 c := by
  simp only [corpus_frequency, unskipped]
  rw [((h.filter _).filter _).length_eq]

theorem calc_cols_to_ignore_exact (fs : FileSystem) (names : List String)
    (weight_file : WeightFile) (S0 : Solution) (hne : names ≠ []) :
    ∃ (D : List Int) (S : Solution) (files sel : List CorpusFile),
      calc_cols_to_ignore fs names weight_file S0 = Except.ok (D, S) ∧
      ((∀ n ∈ names, 8 * ((fs n).length : Int) ≤ corpus_width fs names) ∧
        ∃ n ∈ names, corpus_width fs names = 8 * ((fs n).length : Int)) ∧
      D.Pairwise (fun a b => a < b) ∧
      (∀ c, c ∈ D ↔ 0 ≤ c ∧ c < corpus_width fs names ∧
        (corpus_frequency fs weight_file (get_file_list fs names) c = 0 ∨
          ∃ f ∈ get_file_list fs names, skipped weight_file f = false ∧
            row_unitarian fs weight_file (get_file_list fs names) f ∧
            raw_bit fs f.file_path c)) ∧
      S.initial_singularities.Pairwise (fun a b => a < b) ∧
      (∀ c, c ∈ S.initial_singularities ↔ 0 ≤ c ∧ c < corpus_width fs names ∧
        corpus_frequency fs weight_file (get_file_list fs names) c = 0) ∧
      files.Perm (get_file_list fs names) ∧ sel.Sublist files ∧
      (∀ f, f ∈ sel ↔ f ∈ get_file_list fs names ∧ skipped weight_file f = false ∧
        row_unitarian fs weight_file (get_file_list fs names) f) ∧
      S.solution = S0.solution ++ sel.map (fun f => filename f.file_path) ∧
      S.rowdata = S0.rowdata ++ sel.map (fun f => get_exemplar_data fs f.file_path) ∧
      S.weight = S0.weight + (sel.map (fun f => weight_of weight_file f.file_path)).sum ∧
      S.num_non_optimal = S0.num_non_optimal := by
  obtain ⟨first, rest, hc, hw, hall⟩ := corpus_sorted_head fs names hne
  have hperm : (first :: rest).Perm (get_file_list fs names) := by
    rw [← hc]; exact sort_by_perm _ _
  have hW0 := corpus_width_nonneg fs names
  have hlen : ∀ f ∈ first :: rest,
      ((get_exemplar_data fs f.file_path).length : Int) ≤ 8 * first.file_size := by
    intro f hf
    rw [← hw]
    exact raw_length_le_width fs names f.file_path (hall f hf).1
  have hrep : 8 * first.file_size =
      ((List.replicate (8 * first.file_size).toNat (0 : Int)).length : Int) := by
    rw [List.length_replicate]; omega
  obtain ⟨cf, hcf, hcl, hcsp⟩ := count_column_frequencies_exact fs weight_file
    (8 * first.file_size) (first :: rest) (List.replicate (8 * first.file_size).toNat 0) hrep hlen
  rw [List.length_replicate] at hcl
  obtain ⟨S1, sel, h1, h2, h3, h4, h5, h6, h7, h8⟩ := ignore_unitarian_rows_exact fs weight_file
    (8 * first.file_size) cf (by rw [hcl]; omega) (first :: rest)
    { S0 with initial_singularities := index_set (get_singular_columns cf) }
    (get_singular_columns cf) hlen
  have hfreq : ∀ k : Nat, (k : Int) < corpus_width fs names →
      cf[k]? = some (corpus_frequency fs weight_file (get_file_list fs names) (k : Int)) := by
    intro k hk
    have := hcsp k 0 (by rw [List.getElem?_replicate, if_pos (by rw [← hw]; omega)])
    rw [this, zero_add, corpus_frequency_perm fs weight_file _ _ hperm]
  have hcfW : ∀ (k : Nat) (v : Int), cf[k]? = some v → (k : Int) < corpus_width fs names := by
    intro k v hk
    by_contra hcon
    rw [List.getElem?_eq_none (by rw [hcl, ← hw]; omega)] at hk
    cases hk
  have hsing : ∀ c, c ∈ get_singular_columns cf ↔ 0 ≤ c ∧ c < corpus_width fs names ∧
      corpus_frequency fs weight_file (get_file_list fs names) c = 0 := by
    intro c
    simp only [get_singular_columns, singular_positions_eq]
    rw [mem_positions_from]
    constructor
    · rintro ⟨i, v, hi, hv, hci⟩
      rw [zero_add] at hci
      subst hci
      have hlt := hcfW i v hi
      rw [hfreq i hlt] at hi
      injection hi with hi
      simp only [decide_eq_true_eq] at hv
      exact ⟨Int.natCast_nonneg _, hlt, by rw [hi]; exact hv⟩
    · rintro ⟨h0, hlt, hz⟩
      refine ⟨c.toNat, 0, ?_, by simp, by omega⟩
      rw [hfreq c.toNat (by omega), Int.toNat_of_nonneg h0, hz]
  have hunit : ∀ f ∈ first :: rest,
      (∃ i : Nat, (get_exemplar_data fs f.file_path)[i]? = some (1 : Int) ∧
        cf[i]? = some (1 : Int)) ↔
      row_unitarian fs weight_file (get_file_list fs names) f := by
    intro f hf
    constructor
    · rintro ⟨i, hbit, hci⟩
      have hlt := hcfW i 1 hci
      rw [hfreq i hlt] at hci
      injection hci with hci
      exact ⟨(i : Int), ⟨Int.natCast_nonneg _, by simpa using hbit⟩, hci⟩
    · rintro ⟨c, ⟨hc0, hbit⟩, hfr⟩
      have hlt : c.toNat < (get_exemplar_data fs f.file_path).length := by
        by_contra hcon
        rw [List.getElem?_eq_none (by omega)] at hbit
        cases hbit
      have hl := hlen f hf
      refine ⟨c.toNat, hbit, ?_⟩
      rw [hfreq c.toNat (by rw [hw]; omega), Int.toNat_of_nonneg hc0, hfr]
  have hselmem : ∀ f, f ∈ sel ↔ f ∈ get_file_list fs names ∧ skipped weight_file f = false ∧
      row_unitarian fs weight_file (get_file_list fs names) f := by
    intro f
    rw [h3]
    constructor
    · rintro ⟨g1, g2, g3⟩
      exact ⟨hperm.mem_iff.mp g1, g2, (hunit f g1).mp g3⟩
    · rintro ⟨g1, g2, g3⟩
      have g1' := hperm.mem_iff.mpr g1
      exact ⟨g1', g2, (hunit f g1').mpr g3⟩
  refine ⟨index_set (get_singular_columns cf ++
    sel.flatMap (fun f => nonzero_positions (get_exemplar_data fs f.file_path) 0)), S1,
    first :: rest, sel, ?_, ⟨?_, ?_⟩, index_set_sorted _, ?_, ?_, ?_, hperm, h2, hselmem,
    h4, h5, h6, h8⟩
  · simp only [calc_cols_to_ignore, hc, hcf, h1]
  · intro n hn
    have hmem : ({ file_path := n, file_size := ((fs n).length : Int) } : CorpusFile) ∈
        first :: rest := by
      apply hperm.mem_iff.mpr
      simp only [get_file_list]
      exact List.mem_map.mpr ⟨n, hn, rfl⟩
    have := (hall _ hmem).2.2
    rw [hw]
    simp only at this
    omega
  · refine ⟨first.file_path, (hall first (List.mem_cons_self _ _)).1, ?_⟩
    rw [hw, (hall first (List.mem_cons_self _ _)).2.1]
  · intro c
    rw [mem_index_set, List.mem_append, hsing, List.mem_flatMap]
    constructor
    · rintro (⟨h0, hlt, hz⟩ | ⟨f, hf, hcf'⟩)
      · exact ⟨h0, hlt, Or.inl hz⟩
      · obtain ⟨g1, g2, g3⟩ := (hselmem f).mp hf
        obtain ⟨hc0, hv⟩ := (mem_nonzero_positions _ c).mp hcf'
        have hbit := (raw_set_iff fs f.file_path c.toNat).mp hv
        have hlt : c.toNat < (get_exemplar_data fs f.file_path).length := by
          by_contra hcon
          rw [List.getElem?_eq_none (by omega)] at hbit
          cases hbit
        have hl := hlen f (hperm.mem_iff.mpr g1)
        exact ⟨hc0, by rw [hw]; omega, Or.inr ⟨f, g1, g2, g3, hc0, hbit⟩⟩
    · rintro ⟨h0, hlt, hz | ⟨f, g1, g2, g3, _, hbit⟩⟩
      · exact Or.inl ⟨h0, hlt, hz⟩
      · right
        refine ⟨f, (hselmem f).mpr ⟨g1, g2, g3⟩, ?_⟩
        exact (mem_nonzero_positions _ c).mpr ⟨h0, (raw_set_iff fs f.file_path c.toNat).mpr hbit⟩
  · rw [h7]
    exact index_set_sorted _
  · intro c
    rw [h7]
    show c ∈ index_set (get_singular_columns cf) ↔ _
    rw [mem_index_set, hsing]

/-- C27. The output of the large-data pass: for every non-empty corpus, over
the width `W` of eight times the largest file size, `calc_cols_to_ignore`
returns a strictly increasing list whose members are exactly the columns of
`[0, W)` of frequency 0 and the columns set in a file that is not skipped and
has a column of frequency 1 set, the frequency counting the files that are not
skipped; it records exactly the columns of frequency 0 as initial
singularities, in increasing order, and appends to the solution exactly those
row unitarians, each once, in the order in which the corpus is processed. -/
theorem cols_to_ignore_exact (fs : FileSystem) (names : List String)
    (weight_file : WeightFile) (S0 : Solution) (hne : names ≠ []) :
    ∃ (D : List Int) (S : Solution) (files sel : List CorpusFile),
      calc_cols_to_ignore fs names weight_file S0 = Except.ok (D, S) ∧
      ((∀ n ∈ names, 8 * ((fs n).length : Int) ≤ corpus_width fs names) ∧
        ∃ n ∈ names, corpus_width fs names = 8 * ((fs n).length : Int)) ∧
      D.Pairwise (fun a b => a < b) ∧
      (∀ c, c ∈ D ↔ 0 ≤ c ∧ c < corpus_width fs names ∧
        (corpus_frequency fs weight_file (get_file_list fs names) c = 0 ∨
          ∃ f ∈ get_file_list fs names, skipped weight_file f = false ∧
            row_unitarian fs weight_file (get_file_list fs names) f ∧
            raw_bit fs f.file_path c)) ∧
      S.initial_singularities.Pairwise (fun a b => a < b) ∧
      (∀ c, c ∈ S.initial_singularities ↔ 0 ≤ c ∧ c < corpus_width fs names ∧
        corpus_frequency fs weight_file (get_file_list fs names) c = 0) ∧
      files.Perm (get_file_list fs names) ∧ sel.Sublist files ∧
      (∀ f, f ∈ sel ↔ f ∈ get_file_list fs names ∧ skipped weight_file f = false ∧
        row_unitarian fs weight_file (get_file_list fs names) f) ∧
      S.solution = S0.solution ++ sel.map (fun f => filename f.file_path) ∧
      S.rowdata = S0.rowdata ++ sel.map (fun f => get_exemplar_data fs f.file_path) ∧
      S.weight = S0.weight + (sel.map (fun f => weight_of weight_file f.file_path)).sum ∧
      S.num_non_optimal = S0.num_non_optimal :=
  calc_cols_to_ignore_exact fs names weight_file S0 hne

/-- Witness for C27: the example corpus of the files `a` and `b`, unweighted. -/
theorem cols_to_ignore_exact_witness :
    ∃ (D : List Int) (S : Solution) (files sel : List CorpusFile),
      calc_cols_to_ignore example_files ["a", "b"] none Solution.empty = Except.ok (D, S) ∧
      ((∀ n ∈ ["a", "b"], 8 * ((example_files n).length : Int) ≤
          corpus_width example_files ["a", "b"]) ∧
        ∃ n ∈ ["a", "b"], corpus_width example_files ["a", "b"] =
          8 * ((example_files n).length : Int)) ∧
      D.Pairwise (fun a b => a < b) ∧
      (∀ c, c ∈ D ↔ 0 ≤ c ∧ c < corpus_width example_files ["a", "b"] ∧
        (corpus_frequency example_files none (get_file_list example_files ["a", "b"]) c = 0 ∨
          ∃ f ∈ get_file_list example_files ["a", "b"], skipped none f = false ∧
            row_unitarian example_files none (get_file_list example_files ["a", "b"]) f ∧
            raw_bit example_files f.file_path c)) ∧
      S.initial_singularities.Pairwise (fun a b => a < b) ∧
      (∀ c, c ∈ S.initial_singularities ↔ 0 ≤ c ∧ c < corpus_width example_files ["a", "b"] ∧
        corpus_frequency example_files none (get_file_list example_files ["a", "b"]) c = 0) ∧
      files.Perm (get_file_list example_files ["a", "b"]) ∧ sel.Sublist files ∧
      (∀ f, f ∈ sel ↔ f ∈ get_file_list example_files ["a", "b"] ∧ skipped none f = false ∧
        row_unitarian example_files none (get_file_list example_files ["a", "b"]) f) ∧
      S.solution = Solution.empty.solution ++ sel.map (fun f => filename f.file_path) ∧
      S.rowdata = Solution.empty.rowdata ++
        sel.map (fun f => get_exemplar_data example_files f.file_path) ∧
      S.weight = Solution.empty.weight + (sel.map (fun f => weight_of none f.file_path)).sum ∧
      S.num_non_optimal = Solution.empty.num_non_optimal :=
  cols_to_ignore_exact example_files ["a", "b"] none Solution.empty (by decide)

/-! ### Scenario S2: two duplicate files -/

/-- A run of `solve_oscp` through an invariant of the loop states that every
pass of the loop preserves. -/
theorem solve_oscp_run_state (fs : FileSystem) (greedy : Bool) (S0 : Solution) (m : Matrix)
    (cd : List ExemplarData) (name : String) (weight_file : WeightFile)
    (Inv : LoopState → Prop)
    (hm : matrix_wf m) (hcd : m.num_rows ≤ (cd.length : Int))
    (hlen : len_inv fs m.num_cols_orig m S0) (h0 : 0 ≤ m.num_cols_orig)
    (hinit : Inv { data := entry_matrix m,
                   solution := entry_solution m (labelled S0 m name greedy),
                   corpus_data := cd, option0 := true, option1 := true, option2 := true,
                   non_optimal := 0 })
    (hstep : ∀ st st1, loop_ok st → Inv st → st.data.num_rows ≠ 0 → st.data.num_cols ≠ 0 →
      solve_step fs greedy st = Except.ok st1 → Inv st1) :
    ∃ st v, (∀ fuel, 4 * (m.num_rows + m.num_cols).toNat + 3 ≤ fuel →
        solve_oscp fs fuel S0 m cd name greedy weight_file =
          Except.ok (some { solution := print_solution st.solution, data := st.data,
                            corpus_data := st.corpus_data, verified := v })) ∧
      Inv st ∧ loop_ok st ∧ (st.data.num_rows = 0 ∨ st.data.num_cols = 0) := by
  obtain ⟨b, hel⟩ := eliminate_column_singularities_ok m hm (labelled S0 m name greedy)
  have hfields := entry_matrix_fields m
  have hwf1 := entry_matrix_wf m hm
  let st0 : LoopState :=
    { data := entry_matrix m, solution := entry_solution m (labelled S0 m name greedy),
      corpus_data := cd, option0 := true, option1 := true, option2 := true, non_optimal := 0 }
  have hok0 : loop_ok st0 :=
    ⟨hwf1, by show (entry_matrix m).num_rows ≤ _; rw [hfields.1]; exact hcd⟩
  have hlen0 : len_inv fs m.num_cols_orig st0.data st0.solution := by
    obtain ⟨_, h2, h3⟩ := hlen
    refine ⟨hfields.2.1, ?_, ?_⟩
    · intro e he
      obtain ⟨e0, he0, hp, _⟩ := entry_matrix_rows m e he
      rw [hp]
      exact h2 e0 he0
    · intro row hrow
      have hrow' : row ∈ (entry_solution m (labelled S0 m name greedy)).rowdata := hrow
      rw [(entry_solution_fields m _).1] at hrow'
      exact h3 row hrow'
  have hmeas : loop_measure st0 ≤ 4 * (m.num_rows + m.num_cols).toNat + 3 := by
    have hf := loop_flags_le st0
    have h2 := hfields.2.2
    have h3 := hwf1.2.1
    have h4 : 0 ≤ m.num_rows := by rw [hm.1]; exact Int.natCast_nonneg _
    simp only [loop_measure, loop_size]
    rw [hfields.1]
    omega
  obtain ⟨st, hrun, ⟨hok, hinv, hl⟩, hfin⟩ := solve_loop_invariant fs greedy
    (fun st => loop_ok st ∧ Inv st ∧ len_inv fs m.num_cols_orig st.data st.solution)
    (fun st h => h.1)
    (fun st st1 h hr hc hs => by
      obtain ⟨st2, hs2, hok2, _⟩ := solve_step_progress fs greedy st h.1 hr hc
      rw [hs] at hs2
      injection hs2 with hs2
      subst hs2
      have heff := (solve_step_effect fs greedy st st1 h.1 hr hc hs).1
      exact ⟨hok2, hstep st st1 h.1 h.2.1 hr hc hs, len_inv_step fs _ st st1 heff h.2.2⟩)
    (4 * (m.num_rows + m.num_cols).toNat + 3) st0 hmeas ⟨hok0, hinit, hlen0⟩
  obtain ⟨v, hv⟩ := verify_solution_total st.data st.solution weight_file
    (by rw [hl.1]; exact h0) (by rw [hl.1]; exact hl.2.2)
  refine ⟨st, v, ?_, hinv, hok, hfin⟩
  intro fuel hfuel
  have hrun' := hrun fuel hfuel
  have hg := get_column_sum_ok m hm
  have hel' : eliminate_column_singularities m
      { S0 with
          scorelabel := if greedy then "Greedy heuristic" else "Milford-Hayes reduction",
          corpusname := name, num_rows := m.num_rows, num_columns := m.num_cols_orig } =
      Except.ok (b, entry_matrix m, entry_solution m (labelled S0 m name greedy)) := hel
  simp only [solve_oscp, hg, hel']
  have hrun2 : solve_loop fs greedy fuel
      { data := entry_matrix m, solution := entry_solution m (labelled S0 m name greedy),
        corpus_data := cd, option0 := true, option1 := true, option2 := true,
        non_optimal := 0 } = Except.ok (some st) := hrun'
  simp only [hrun2, hv]

theorem eq_singleton_of_nodup (l : List Int) (x : Int) (hnd : l.Nodup) (hx : x ∈ l)
    (hall : ∀ y ∈ l, y = x) : l = [x] := by
  cases l with
  | nil => cases hx
  | cons a rest =>
    have ha := hall a (List.mem_cons_self _ _)
    subst ha
    cases rest with
    | nil => rfl
    | cons b rest2 =>
      exfalso
      have hb := hall b (by simp)
      subst hb
      simp at hnd

theorem twin_rows_no_unity (m : Matrix) (r1 r2 : RowElem) (hrows : m.rowlist = [r1, r2])
    (hcol : r1.column = r2.column) :
    unity_columns (column_sums m.num_cols.toNat m.rowlist) 0 = [] := by
  apply List.eq_nil_iff_forall_not_mem.mpr
  intro x hx
  have h := ((mem_unity_columns _ _ x).mp hx).2.2
  rw [hrows] at h
  simp only [column_count, List.map_cons, List.map_nil, List.sum_cons, List.sum_nil, hcol] at h
  omega

theorem twin_subset_step (m : Matrix) (hm : matrix_wf m) (w l : String) (hwl : w < l)
    (r1 r2 : RowElem) (hrows : m.rowlist = [r1, r2]) (hcol : r1.column = r2.column)
    (hw1 : r1.weight = 1) (hw2 : r2.weight = 1)
    (hp : (r1.file_path = w ∧ r2.file_path = l) ∨ (r1.file_path = l ∧ r2.file_path = w)) :
    ∃ (m1 : Matrix) (r : RowElem), eliminate_subset_rows m = Except.ok (true, m1) ∧
      m1.rowlist = [r] ∧ r.file_path = w ∧ r.weight = 1 ∧ r.column = r1.column := by
  obtain ⟨result, hfind, hsound, hnd, hrange, hel, _⟩ := eliminate_subset_rows_ok m hm
  obtain ⟨c1, c2, _⟩ := find_subset_rows_complete m hm result hfind
  have hrow0 : row_at m 0 = some r1 := by simp [row_at, hrows]
  have hrow1 : row_at m 1 = some r2 := by simp [row_at, hrows]
  have hnum : m.num_rows = 2 := by rw [hm.1, hrows]; rfl
  have hsame01 : same_columns m 0 1 := ⟨r1, r2, hrow0, hrow1, fun v => by rw [hcol]⟩
  have hsame10 : same_columns m 1 0 := ⟨r2, r1, hrow1, hrow0, fun v => by rw [hcol]⟩
  have hdom : ∀ b ∈ result, ∃ a, a ∉ result ∧ (a = 0 ∨ a = 1) := by
    intro b hb
    obtain ⟨a, ha, ea, _, hea, _⟩ := hsound b hb
    obtain ⟨_, h0, h1, _⟩ := row_at_mem m a ea hea
    rw [hrows] at h1
    simp only [List.length_cons, List.length_nil] at h1
    exact ⟨a, ha, by omega⟩
  have hone := c1 0 1 (by decide) hsame01
  have hkey : ∀ (iw il : Int) (rw rl : RowElem), (iw = 0 ∧ il = 1) ∨ (iw = 1 ∧ il = 0) →
      row_at m iw = some rw → row_at m il = some rl → rw.file_path = w → rl.file_path = l →
      same_columns m il iw → result = [il] := by
    intro iw il rw rl hcases hrw hrl hpw hpl hsame
    have hil : il ∈ result := by
      by_contra hnot
      obtain ⟨ea, eb, hea, heb, _, hpath⟩ := c2 il hnot iw hsame
      rw [hrl] at hea
      rw [hrw] at heb
      injection hea with hea
      injection heb with heb
      subst hea heb
      have hweq : rl.weight = rw.weight := by
        rcases hcases with ⟨h1, h2⟩ | ⟨h1, h2⟩
        · subst h1 h2
          rw [hrow0] at hrw; rw [hrow1] at hrl
          injection hrw with hrw; injection hrl with hrl
          rw [← hrw, ← hrl, hw1, hw2]
        · subst h1 h2
          rw [hrow1] at hrw; rw [hrow0] at hrl
          injection hrw with hrw; injection hrl with hrl
          rw [← hrw, ← hrl, hw1, hw2]
      have := hpath hweq
      rw [hpw, hpl] at this
      exact absurd hwl (not_lt.mpr this)
    have hiw : iw ∉ result := by
      intro hin
      obtain ⟨a, ha, hcase⟩ := hdom il hil
      rcases hcases with ⟨h1, h2⟩ | ⟨h1, h2⟩ <;> rcases hcase with h | h <;> subst h1 h2 h <;>
        first
        | exact ha hin
        | exact ha hil
    apply eq_singleton_of_nodup result il hnd hil
    intro y hy
    have hr := hrange y hy
    rw [hnum] at hr
    have hne : y ≠ iw := fun h => hiw (h ▸ hy)
    rcases hcases with ⟨h1, h2⟩ | ⟨h1, h2⟩ <;> omega
  rcases hp with ⟨hp1, hp2⟩ | ⟨hp1, hp2⟩
  · have hres := hkey 0 1 r1 r2 (Or.inl ⟨rfl, rfl⟩) hrow0 hrow1 hp1 hp2 hsame10
    rw [hres, if_neg (by simp)] at hel
    refine ⟨_, r1, hel, ?_, hp1, hw1, rfl⟩
    simp [delete_rows, delete_positions, delete_positions_from, hrows]
  · have hres := hkey 1 0 r2 r1 (Or.inr ⟨rfl, rfl⟩) hrow1 hrow0 hp2 hp1 hsame01
    rw [hres, if_neg (by simp)] at hel
    refine ⟨_, r2, hel, ?_, hp2, hw2, hcol.symm⟩
    simp [delete_rows, delete_positions, delete_positions_from, hrows]

theorem single_row_forced (m : Matrix) (hm : matrix_wf m) (r : RowElem)
    (hrows : m.rowlist = [r]) (hlive : live r.column ≠ []) :
    unity_columns (column_sums m.num_cols.toNat m.rowlist) 0 ≠ [] ∧ forced_rows m = [0] ∧
      selected_rows m [0] = [r] := by
  have hrow0 : row_at m 0 = some r := by simp [row_at, hrows]
  have hW : ((m.num_cols.toNat : Nat) : Int) = m.num_cols := Int.toNat_of_nonneg hm.2.1
  have hU : unity_columns (column_sums m.num_cols.toNat m.rowlist) 0 ≠ [] := by
    obtain ⟨c, hc⟩ := List.exists_mem_of_ne_nil _ hlive
    have hw := hm.2.2.2 r (by rw [hrows]; exact List.mem_singleton_self _)
    have hnd : (live r.column).Nodup := hw.2.1.imp (fun h => ne_of_lt h)
    have hcount : column_count m.rowlist c = 1 := by
      rw [hrows]
      simp only [column_count, List.map_cons, List.map_nil, List.sum_cons, List.sum_nil,
        add_zero]
      rw [List.count_eq_one_of_mem hnd hc]
      rfl
    have hrg := hw.2.2 c hc
    have : c ∈ unity_columns (column_sums m.num_cols.toNat m.rowlist) 0 :=
      (mem_unity_columns _ _ c).mpr ⟨hrg.1, by omega, hcount⟩
    intro hnil
    rw [hnil] at this
    cases this
  refine ⟨hU, ?_, by simp [selected_rows, hrow0]⟩
  have hne := unitarian_rows_ne_nil m hU
  have hall : ∀ y ∈ forced_rows m, y = 0 := by
    intro y hy
    obtain ⟨e, he, _⟩ := (mem_unitarian_rows m _ y).mp hy
    obtain ⟨_, h0, h1, _⟩ := row_at_mem m y e he
    rw [hrows] at h1
    simp only [List.length_cons, List.length_nil] at h1
    omega
  obtain ⟨x, hx⟩ := List.exists_mem_of_ne_nil _ hne
  have hx0 : (0 : Int) ∈ forced_rows m := by
    have := hall x hx
    rw [← this]
    exact hx
  exact eq_singleton_of_nodup _ 0 (unitarian_rows_nodup _ _ _) hx0 hall

theorem twin_inv_step (fs : FileSystem) (w l : String) (hwl : w < l) (st st1 : LoopState)
    (hok : loop_ok st) (hinv : twin_inv w l st) (hr : st.data.num_rows ≠ 0)
    (hc : st.data.num_cols ≠ 0) (hstep : solve_step fs false st = Except.ok st1) :
    twin_inv w l st1 := by
  obtain ⟨st2, hs2, hok1, _⟩ := solve_step_progress fs false st hok hr hc
  rw [hstep] at hs2
  injection hs2 with hs2
  subst hs2
  obtain ⟨hwf, hcd⟩ := hok
  rcases hinv with ⟨r1, r2, hrows, hcol, hlive, hw1, hw2, hp, ho1, hfresh⟩ |
    ⟨r, hrows, hlive, hw1, hp, ho0, hfresh⟩ | ⟨hz, _⟩
  · by_cases h0 : st.option0 = true
    · obtain ⟨cd1, _, hel⟩ := eliminate_row_unitarians_ok fs st.data hwf st.solution
        st.corpus_data hcd
      have hU := twin_rows_no_unity st.data r1 r2 hrows hcol
      rw [if_pos (Or.inr (Or.inr hU))] at hel
      simp only [solve_step, h0, and_self, if_true, hel] at hstep
      injection hstep with hstep
      subst hstep
      left
      exact ⟨r1, r2, hrows, hcol, hlive, hw1, hw2, hp, by simpa using ho1, hfresh⟩
    · obtain ⟨m1, r, hel, hrows1, hpr, hwr, hcr⟩ := twin_subset_step st.data hwf w l hwl r1 r2
        hrows hcol hw1 hw2 hp
      have h0' : st.option0 = false := by simpa using h0
      simp only [solve_step, h0', ho1, and_true, Bool.false_eq_true, and_false, if_false,
        if_true, hel] at hstep
      injection hstep with hstep
      subst hstep
      right; left
      exact ⟨r, hrows1, by rw [hcr]; exact hlive, hwr, hpr, rfl, hfresh⟩
  · obtain ⟨cd1, _, hel⟩ := eliminate_row_unitarians_ok fs st.data hwf st.solution
      st.corpus_data hcd
    obtain ⟨hU, hforced, hsel⟩ := single_row_forced st.data hwf r hrows hlive
    have hcond : ¬ (st.data.num_rows = 0 ∨ st.data.num_cols = 0 ∨
        unity_columns (column_sums st.data.num_cols.toNat st.data.rowlist) 0 = []) := by
      rintro (h | h | h)
      · exact hr h
      · exact hc h
      · exact hU h
    have hforced' : unitarian_rows
        (unity_columns (column_sums st.data.num_cols.toNat st.data.rowlist) 0)
        st.data.rowlist 0 = [0] := hforced
    rw [if_neg hcond, hforced', hsel] at hel
    simp only [solve_step, ho0, and_self, if_true, hel] at hstep
    injection hstep with hstep
    subst hstep
    right; right
    obtain ⟨f1, _, f3, _, f5⟩ := add_all_fields fs true [r] st.solution
    obtain ⟨g1, g2, g3⟩ := hfresh
    have hnum : st.data.num_rows = 1 := by rw [hwf.1, hrows]; rfl
    have hle := reduced_num_rows st.data [0]
    have hge : 0 ≤ (reduced st.data [0]).num_rows := by
      have := hok1.1.1
      simp only at this
      rw [this]
      exact Int.natCast_nonneg _
    refine ⟨?_, ?_, ?_, ?_⟩
    · show (reduced st.data [0]).num_rows = 0
      simp only [List.length_singleton, Nat.cast_one] at hle
      omega
    · show (add_all fs true st.solution [r]).solution = [w]
      rw [f1, g1]
      simp [filename, hp]
    · show (add_all fs true st.solution [r]).weight = 1
      rw [f3, g2]
      simp [hw1]
    · show (add_all fs true st.solution [r]).num_non_optimal = 0
      rw [f5, g3]
      simp
  · exact absurd hz hr

theorem twin_matrix_wf (p q : String) : matrix_wf (twin_matrix p q) := by
  refine ⟨rfl, ?_, rfl, ?_⟩
  · show (0 : Int) ≤ 8
    decide
  · intro e he
    simp only [twin_matrix, List.mem_cons, List.mem_singleton, List.not_mem_nil, or_false] at he
    have hcol : e.column = [0, 1] ∧ e.row_sum = 2 := by
      rcases he with rfl | rfl <;> exact ⟨rfl, rfl⟩
    refine ⟨?_, ?_, ?_⟩
    · rw [hcol.1, hcol.2]; rfl
    · rw [hcol.1]; decide
    · rw [hcol.1]
      show ∀ v ∈ live [0, 1], 0 ≤ v ∧ v < (8 : Int)
      decide

theorem twin_run (p q w l : String) (hwl : w < l)
    (hp : (p = w ∧ q = l) ∨ (p = l ∧ q = w)) :
    ∃ res : SolveResult,
      (∀ fuel, 43 ≤ fuel →
        solve_oscp twin_files fuel Solution.empty (twin_matrix p q)
          (initialise_corpus_data (twin_matrix p q)) "run" false none =
          Except.ok (some res)) ∧
      res.solution.solution = [w] ∧ res.solution.weight = 1 ∧
      res.solution.num_non_optimal = 0 := by
  have hentry : entry_matrix (twin_matrix p q) =
      { num_rows := 2, num_cols := 2, num_cols_orig := 8, num_elems := 4,
        rowlist := [twin_row p, twin_row q] } := rfl
  obtain ⟨st, v, hrun, hinv, hok, hfin⟩ := solve_oscp_run_state twin_files false Solution.empty
    (twin_matrix p q) (initialise_corpus_data (twin_matrix p q)) "run" none (twin_inv w l)
    (twin_matrix_wf p q) (by show (2 : Int) ≤ ((2 : Nat) : Int); decide)
    ⟨rfl, by
      intro e _
      show (((twin_files e.file_path).flatMap byte_bits).length : Int) ≤ 8
      simp [twin_files, byte_bits], by
      intro row hrow
      simp [Solution.empty] at hrow⟩
    (by show (0 : Int) ≤ 8; decide)
    (by
      left
      refine ⟨twin_row p, twin_row q, by rw [hentry], rfl,
        by show live [0, 1] ≠ []; decide, rfl, rfl, hp, rfl, ?_⟩
      have hf := entry_solution_fields (twin_matrix p q)
        (labelled Solution.empty (twin_matrix p q) "run" false)
      exact ⟨hf.2.1, hf.2.2.1, hf.2.2.2⟩)
    (fun st st1 hok hinv hr hc hstep => twin_inv_step twin_files w l hwl st st1 hok hinv hr hc
      hstep)
  refine ⟨_, fun fuel hfuel => hrun fuel (by
    have : 4 * ((twin_matrix p q).num_rows + (twin_matrix p q).num_cols).toNat + 3 = 43 := rfl
    omega), ?_⟩
  rcases hinv with ⟨r1, r2, hrows, _, hlive, _⟩ | ⟨r, hrows, hlive, _⟩ | ⟨_, h1, h2, h3⟩
  · exfalso
    have hn := hok.1.1
    rw [hrows] at hn
    obtain ⟨c, hc⟩ := List.exists_mem_of_ne_nil _ hlive
    have hrg := (hok.1.2.2.2 r1 (by rw [hrows]; simp)).2.2 c hc
    simp only [List.length_cons, List.length_nil] at hn
    rcases hfin with h | h <;> omega
  · exfalso
    have hn := hok.1.1
    rw [hrows] at hn
    obtain ⟨c, hc⟩ := List.exists_mem_of_ne_nil _ hlive
    have hrg := (hok.1.2.2.2 r (by rw [hrows]; simp)).2.2 c hc
    simp only [List.length_cons, List.length_nil] at hn
    rcases hfin with h | h <;> omega
  · refine ⟨?_, h2, h3⟩
    show (print_solution st.solution).solution = [w]
    simp [print_solution, h1]

/-- C30. Scenario S2 (two duplicates): for the unweighted corpus of the two
one-byte files `a` and `b`, both `0b11000000`, in either order, the matrix
built from the corpus has two equal rows, and `solve_oscp` with `greedy`
false returns on it the solution `[a]` with weight 1 and `num_non_optimal`
zero. -/
theorem scenario_two_duplicates :
    (∃ res : SolveResult,
      matrix_from_corpus twin_files ["a", "b"] none [] = Except.ok (twin_matrix "a" "b") ∧
      (∀ fuel, 43 ≤ fuel →
        solve_oscp twin_files fuel Solution.empty (twin_matrix "a" "b")
          (initialise_corpus_data (twin_matrix "a" "b")) "run" false none =
          Except.ok (some res)) ∧
      res.solution.solution = ["a"] ∧ res.solution.weight = 1 ∧
      res.solution.num_non_optimal = 0) ∧
    (∃ res : SolveResult,
      matrix_from_corpus twin_files ["b", "a"] none [] = Except.ok (twin_matrix "b" "a") ∧
      (∀ fuel, 43 ≤ fuel →
        solve_oscp twin_files fuel Solution.empty (twin_matrix "b" "a")
          (initialise_corpus_data (twin_matrix "b" "a")) "run" false none =
          Except.ok (some res)) ∧
      res.solution.solution = ["a"] ∧ res.solution.weight = 1 ∧
      res.solution.num_non_optimal = 0) := by
  have hab : ("a" : String) < "b" := String.lt_iff_toList_lt.mpr (by decide)
  constructor
  · obtain ⟨res, h1, h2⟩ := twin_run "a" "b" "a" "b" hab (Or.inl ⟨rfl, rfl⟩)
    exact ⟨res, rfl, h1, h2⟩
  · obtain ⟨res, h1, h2⟩ := twin_run "b" "a" "a" "b" hab (Or.inr ⟨rfl, rfl⟩)
    exact ⟨res, rfl, h1, h2⟩

/-! ### Row equality and the sized constructor -/

theorem operator_eq_iff (a b : RowElem) :
    a.operator_eq b = true ↔ a.row_sum = b.row_sum ∧ a.column = b.column := by
  unfold RowElem.operator_eq
  by_cases h1 : a.row_sum = b.row_sum <;> by_cases h2 : a.column = b.column <;> simp [h1, h2]

/-- Counterexample for C36: removing column 0 from the matrix with the rows
`[0, 1]` and `[1]` leaves two rows with the same live column, `[DELETED, 0]`
and `[0]`, which `operator==` does not take for equal. -/
theorem row_equality_sees_tombstones :
    ∃ (m1 : Matrix) (a b : RowElem), remove_cols example_pair [0] = Except.ok m1 ∧
      m1.rowlist = [a, b] ∧ a.column = [DELETED, 0] ∧ b.column = [0] ∧
      live a.column = live b.column ∧ a.operator_eq b = false :=
  ⟨_, _, _, rfl, rfl, rfl, rfl, rfl, rfl⟩

/-- C36. `a == b` holds if and only if the two rows have the same
`row_sum` and the same stored column sequence, tombstones included,
irrespective of exemplar file, weight and file size; equal rows have the same
live column values, and two rows without tombstones that satisfy the row
invariant are equal as soon as they have the same set of column values. -/
theorem row_equality_stored_sequence (a b : RowElem) :
    (a.operator_eq b = true ↔ a.row_sum = b.row_sum ∧ a.column = b.column) ∧
    (a.operator_eq b = true → live a.column = live b.column) ∧
    (∀ W, row_wf W a → row_wf W b → DELETED ∉ a.column → DELETED ∉ b.column →
      (∀ v, v ∈ a.column ↔ v ∈ b.column) → a.operator_eq b = true) := by
  refine ⟨operator_eq_iff a b, ?_, ?_⟩
  · intro h
    rw [((operator_eq_iff a b).mp h).2]
  · intro W ha hb hda hdb hmem
    have hla : live a.column = a.column := by
      unfold live
      apply List.filter_eq_self.mpr
      intro v hv
      simp only [ne_eq, decide_eq_true_eq]
      intro h
      exact hda (h ▸ hv)
    have hlb : live b.column = b.column := by
      unfold live
      apply List.filter_eq_self.mpr
      intro v hv
      simp only [ne_eq, decide_eq_true_eq]
      intro h
      exact hdb (h ▸ hv)
    have hcol : a.column = b.column := by
      apply sorted_ext
      · rw [← hla]; exact ha.2.1
      · rw [← hlb]; exact hb.2.1
      · exact hmem
    apply (operator_eq_iff a b).mpr
    refine ⟨?_, hcol⟩
    rw [ha.1, hb.1, hcol]

theorem default_wf : matrix_wf Matrix.default := by decide

theorem sized_out_of_range_iff (rows columns : Int) :
    Matrix.sized rows columns = Except.error Err.out_of_range ↔ rows < 0 ∨ columns < 0 := by
  unfold Matrix.sized
  by_cases h : rows < 0 ∨ columns < 0
  · simp [h]
  · simp only [h, if_false, iff_false]
    intro h'
    cases h'

theorem insert_rows_fields (es : List RowElem) : ∀ (m : Matrix),
    (es.foldl insert_row m).num_rows = m.num_rows + (es.length : Int) ∧
    (es.foldl insert_row m).rowlist = m.rowlist ++ es ∧
    (es.foldl insert_row m).num_elems = m.num_elems + total_row_sum es ∧
    (es.foldl insert_row m).num_cols = m.num_cols := by
  induction es with
  | nil => intro m; simp [total_row_sum]
  | cons e es ih =>
    intro m
    obtain ⟨h1, h2, h3, h4⟩ := ih (insert_row m e)
    simp only [List.foldl_cons, List.length_cons, Nat.cast_add, Nat.cast_one]
    refine ⟨?_, ?_, ?_, ?_⟩
    · rw [h1]; simp only [insert_row]; omega
    · rw [h2]; simp [insert_row]
    · rw [h3]; simp only [insert_row, total_row_sum, List.map_cons, List.sum_cons]; omega
    · rw [h4]; rfl

/-- C37. The constructor `Matrix(rows, columns)` fails with `out_of_range`
exactly for a negative argument, but for `rows > 0` it returns a matrix whose
`num_rows` is `rows` while `rowlist` is empty, and after `rows` rows are
inserted with `insert_row`, as its documentation prescribes, `num_rows` is
`2 * rows` for `rows` stored rows: `assert_row_sums` fails. -/
theorem sized_constructor_counts_rows_twice (rows columns : Int) (es : List RowElem)
    (hr : 0 < rows) (hc : 0 ≤ columns) (hes : (es.length : Int) = rows) :
    (∀ r c : Int, Matrix.sized r c = Except.error Err.out_of_range ↔ r < 0 ∨ c < 0) ∧
    ∃ m, Matrix.sized rows columns = Except.ok m ∧
      m.num_rows ≠ (m.rowlist.length : Int) ∧
      (es.foldl insert_row m).rowlist = es ∧
      (es.foldl insert_row m).num_elems = total_row_sum es ∧
      (es.foldl insert_row m).num_rows = 2 * rows ∧
      (es.foldl insert_row m).num_rows ≠ ((es.foldl insert_row m).rowlist.length : Int) ∧
      assert_row_sums (es.foldl insert_row m) = false := by
  refine ⟨sized_out_of_range_iff, ?_⟩
  have hcond : ¬ (rows < 0 ∨ columns < 0) := by omega
  refine ⟨{ num_rows := rows, num_cols := columns, num_cols_orig := columns, num_elems := 0,
            rowlist := [] }, by simp only [Matrix.sized, hcond, if_false], ?_, ?_, ?_, ?_, ?_, ?_⟩
  · simp only [List.length_nil, Nat.cast_zero]; omega
  · rw [(insert_rows_fields es _).2.1]; rfl
  · rw [(insert_rows_fields es _).2.2.1]; simp
  · rw [(insert_rows_fields es _).1]; simp only; omega
  · rw [(insert_rows_fields es _).1, (insert_rows_fields es _).2.1]
    simp only [List.nil_append]; omega
  · simp only [assert_row_sums]
    rw [(insert_rows_fields es _).1, (insert_rows_fields es _).2.1]
    simp only [List.nil_append]
    have : ¬ (rows + (es.length : Int) = (es.length : Int)) := by omega
    simp [this]

/-- Witness for C37: one row inserted after `Matrix(1, 1)`. -/
theorem sized_constructor_counts_rows_twice_witness :
    (∀ r c : Int, Matrix.sized r c = Except.error Err.out_of_range ↔ r < 0 ∨ c < 0) ∧
    ∃ m, Matrix.sized 1 1 = Except.ok m ∧
      m.num_rows ≠ (m.rowlist.length : Int) ∧
      ([example_row "a" [0]].foldl insert_row m).rowlist = [example_row "a" [0]] ∧
      ([example_row "a" [0]].foldl insert_row m).num_elems =
        total_row_sum [example_row "a" [0]] ∧
      ([example_row "a" [0]].foldl insert_row m).num_rows = 2 * 1 ∧
      ([example_row "a" [0]].foldl insert_row m).num_rows ≠
        ((([example_row "a" [0]].foldl insert_row m).rowlist.length : Nat) : Int) ∧
      assert_row_sums ([example_row "a" [0]].foldl insert_row m) = false :=
  sized_constructor_counts_rows_twice 1 1 [example_row "a" [0]] (by decide) (by decide) rfl

/-! ### Tombstones -/

theorem live_live (column : List Int) : live (live column) = live column := by
  simp [live]

theorem at_index_map {α β : Type} (f : α → β) (xs : List α) (i : Int) :
    at_index (xs.map f) i =
      match at_index xs i with
      | Except.ok x => Except.ok (f x)
      | Except.error e => Except.error e := by
  unfold at_index
  by_cases h0 : i < 0
  · simp only [h0, if_true]
  · simp only [h0, if_false, List.getElem?_map]
    cases xs[i.toNat]? with
    | none => rfl
    | some x => rfl

theorem compact_row_wf (W : Int) (e : RowElem) (h : row_wf W e) : row_wf W (compact_row e) := by
  obtain ⟨h1, h2, h3⟩ := h
  refine ⟨?_, ?_, ?_⟩
  · show e.row_sum = live_count (live e.column)
    rw [h1, live_count_eq, live_count_eq, live_live]
  · show (live (live e.column)).Pairwise _
    rw [live_live]; exact h2
  · show ∀ v ∈ live (live e.column), _
    rw [live_live]; exact h3

theorem total_row_sum_compact (rows : List RowElem) :
    total_row_sum (rows.map compact_row) = total_row_sum rows := by
  simp only [total_row_sum, List.map_map]
  rfl

theorem compact_wf (m : Matrix) (hm : matrix_wf m) : matrix_wf (compact m) := by
  obtain ⟨h1, h2, h3, h4⟩ := hm
  refine ⟨?_, h2, ?_, ?_⟩
  · show m.num_rows = ((m.rowlist.map compact_row).length : Int)
    rw [List.length_map]; exact h1
  · show m.num_elems = total_row_sum (m.rowlist.map compact_row)
    rw [total_row_sum_compact]; exact h3
  · intro e he
    obtain ⟨e0, he0, rfl⟩ := List.mem_map.mp he
    exact compact_row_wf _ e0 (h4 e0 he0)

theorem get_row_scatter_live : ∀ (column result : List Int),
    get_row_scatter result (live column) = get_row_scatter result column := by
  intro column
  induction column with
  | nil => intro result; rfl
  | cons v vs ih =>
    intro result
    by_cases hv : v = DELETED
    · subst hv
      rw [live_cons_deleted, ih]
      simp [get_row_scatter]
    · rw [live_cons_live v vs hv]
      simp only [get_row_scatter, hv, ne_eq, not_false_eq_true, if_true]
      by_cases hc : 0 ≤ v ∧ v < (result.length : Int)
      · simp only [hc, and_self, if_true]; exact ih _
      · simp only [hc, if_false]

theorem scan_for_column_live (c : Int) : ∀ column : List Int,
    scan_for_column (live column) c = scan_for_column column c := by
  intro column
  induction column with
  | nil => rfl
  | cons v vs ih =>
    by_cases hv : v = DELETED
    · subst hv
      rw [live_cons_deleted, ih]
      simp [scan_for_column]
    · rw [live_cons_live v vs hv]
      simp only [scan_for_column, hv, or_false]
      by_cases hc : v < c
      · simp only [hc, if_true]; exact ih
      · simp only [hc, if_false]

theorem column_sum_add_live : ∀ (column result : List Int),
    column_sum_add result (live column) = column_sum_add result column := by
  intro column
  induction column with
  | nil => intro result; rfl
  | cons v vs ih =>
    intro result
    by_cases hv : v = DELETED
    · subst hv
      rw [live_cons_deleted, ih]
      simp [column_sum_add]
    · rw [live_cons_live v vs hv]
      simp only [column_sum_add, hv, ne_eq, not_false_eq_true, if_true]
      cases at_index result v with
      | error e => rfl
      | ok x => exact ih _

theorem column_sum_rows_compact : ∀ (rows : List RowElem) (result : List Int),
    column_sum_rows result (rows.map compact_row) = column_sum_rows result rows := by
  intro rows
  induction rows with
  | nil => intro result; rfl
  | cons e rest ih =>
    intro result
    simp only [List.map_cons, column_sum_rows]
    have : column_sum_add result (compact_row e).column = column_sum_add result e.column :=
      column_sum_add_live e.column result
    rw [this]
    cases column_sum_add result e.column with
    | error err => rfl
    | ok r1 => exact ih r1

theorem visited_rows_compact (m : Matrix) :
    visited_rows (compact m) =
      match visited_rows m with
      | Except.ok rows => Except.ok (rows.map compact_row)
      | Except.error e => Except.error e := by
  unfold visited_rows
  show (if m.num_rows ≤ ((m.rowlist.map compact_row).length : Int) then
      Except.ok ((m.rowlist.map compact_row).take m.num_rows.toNat)
    else Except.error Err.undefined) = _
  rw [List.length_map]
  by_cases h : m.num_rows ≤ (m.rowlist.length : Int)
  · simp [h, List.map_take]
  · simp [h]

theorem get_row_compact (m : Matrix) (r : Int) : get_row (compact m) r = get_row m r := by
  unfold get_row
  show (if r < 0 ∨ r ≥ m.num_rows then Except.error Err.out_of_range
    else if m.num_cols < 0 then Except.error Err.length_error
    else
      match at_index (m.rowlist.map compact_row) r with
      | Except.error e => Except.error e
      | Except.ok row => get_row_scatter (List.replicate m.num_cols.toNat 0) row.column) = _
  rw [at_index_map]
  cases at_index m.rowlist r with
  | error e => rfl
  | ok row =>
    have : get_row_scatter (List.replicate m.num_cols.toNat 0) (compact_row row).column =
        get_row_scatter (List.replicate m.num_cols.toNat 0) row.column :=
      get_row_scatter_live _ _
    simp only [this]

theorem get_col_compact (m : Matrix) (c : Int) : get_col (compact m) c = get_col m c := by
  unfold get_col
  show (if c < 0 ∨ c ≥ m.num_cols then Except.error Err.out_of_range
    else if m.num_rows < 0 then Except.error Err.length_error
    else if m.num_rows ≤ ((m.rowlist.map compact_row).length : Int) then
      Except.ok (((m.rowlist.map compact_row).take m.num_rows.toNat).map
        (fun element => if scan_for_column element.column c then 1 else 0))
    else Except.error Err.undefined) = _
  rw [List.length_map, ← List.map_take, List.map_map]
  have : ((fun element : RowElem => if scan_for_column element.column c then (1 : Int) else 0) ∘
      compact_row) = (fun element => if scan_for_column element.column c then 1 else 0) := by
    funext e
    show (if scan_for_column (live e.column) c then (1 : Int) else 0) = _
    rw [scan_for_column_live]
  rw [this]

theorem is_row_column_set_compact (m : Matrix) (r c : Int) :
    is_row_column_set (compact m) r c = is_row_column_set m r c := by
  unfold is_row_column_set
  show (if r < 0 ∨ c < 0 ∨ r ≥ m.num_rows ∨ c ≥ m.num_cols then Except.error Err.out_of_range
    else
      match at_index (m.rowlist.map compact_row) r with
      | Except.error e => Except.error e
      | Except.ok row => Except.ok (scan_for_column row.column c)) = _
  rw [at_index_map]
  cases at_index m.rowlist r with
  | error e => rfl
  | ok row =>
    have : scan_for_column (compact_row row).column c = scan_for_column row.column c :=
      scan_for_column_live c _
    simp only [this]

theorem get_row_sum_compact (m : Matrix) : get_row_sum (compact m) = get_row_sum m := by
  unfold get_row_sum
  rw [visited_rows_compact]
  show (if m.num_rows < 0 then _ else _) = _
  cases visited_rows m with
  | error e => rfl
  | ok rows =>
    simp only [List.map_map]
    rfl

theorem get_row_sum_at_compact (m : Matrix) (r : Int) :
    get_row_sum_at (compact m) r = get_row_sum_at m r := by
  unfold get_row_sum_at
  show (if r < 0 ∨ r ≥ m.num_rows then Except.error Err.out_of_range
    else
      match at_index (m.rowlist.map compact_row) r with
      | Except.error e => Except.error e
      | Except.ok row => Except.ok row.row_sum) = _
  rw [at_index_map]
  cases at_index m.rowlist r with
  | error e => rfl
  | ok row => rfl

theorem get_column_sum_compact (m : Matrix) :
    get_column_sum (compact m) = get_column_sum m := by
  unfold get_column_sum
  rw [visited_rows_compact]
  show (if m.num_cols < 0 then _ else _) = _
  cases visited_rows m with
  | error e => rfl
  | ok rows =>
    simp only
    rw [column_sum_rows_compact]
    rfl

theorem overlap_count_live (c1 c2 : List Int) :
    overlap_count (live c1) (live c2) = overlap_count c1 c2 := by
  simp only [overlap_count, live_live]

theorem get_overlap_compact (m : Matrix) (hm : matrix_wf m) (r1 r2 : Int) :
    get_overlap (compact m) r1 r2 = get_overlap m r1 r2 := by
  unfold get_overlap
  simp only [get_row_sum_at_compact]
  show (if r1 < 0 ∨ r2 < 0 ∨ r1 > m.num_rows ∨ r2 > m.num_rows then
      Except.error Err.out_of_range
    else
      match at_index (m.rowlist.map compact_row) r1, at_index (m.rowlist.map compact_row) r2 with
      | Except.ok row1, Except.ok row2 =>
        let result := overlap_loop row1.column row2.column 0
        match get_row_sum_at m r1, get_row_sum_at m r2 with
        | Except.ok s1, Except.ok s2 =>
          if result ≤ s1 ∧ result ≤ s2 then Except.ok result else Except.error Err.assert_failed
        | Except.error e, _ => Except.error e
        | _, Except.error e => Except.error e
      | Except.error e, _ => Except.error e
      | _, Except.error e => Except.error e) = _
  rw [at_index_map, at_index_map]
  cases h1 : at_index m.rowlist r1 with
  | error e => cases at_index m.rowlist r2 <;> rfl
  | ok row1 =>
    cases h2 : at_index m.rowlist r2 with
    | error e => rfl
    | ok row2 =>
      simp only
      have hr1 : row1 ∈ m.rowlist :=
        List.mem_iff_getElem?.mpr ⟨_, ((at_index_eq_ok _ _ _).mp h1).2⟩
      have hr2 : row2 ∈ m.rowlist :=
        List.mem_iff_getElem?.mpr ⟨_, ((at_index_eq_ok _ _ _).mp h2).2⟩
      have w1 := hm.2.2.2 row1 hr1
      have w2 := hm.2.2.2 row2 hr2
      have e1 : overlap_loop (compact_row row1).column (compact_row row2).column 0 =
          overlap_loop row1.column row2.column 0 := by
        rw [overlap_loop_spec row1.column row2.column 0 w1.2.1 (fun v hv => (w1.2.2 v hv).1)
          w2.2.1]
        have c1 := compact_row_wf _ row1 w1
        have c2 := compact_row_wf _ row2 w2
        rw [overlap_loop_spec (compact_row row1).column (compact_row row2).column 0 c1.2.1
          (fun v hv => (c1.2.2 v hv).1) c2.2.1]
        show 0 + overlap_count (live row1.column) (live row2.column) = _
        rw [overlap_count_live]
      simp only [e1]

theorem live_map_relocate_live (D : List Int) (column : List Int) :
    live ((live column).map (relocate D)) = live (column.map (relocate D)) := by
  induction column with
  | nil => rfl
  | cons v vs ih =>
    by_cases hv : v = DELETED
    · subst hv
      rw [live_cons_deleted, ih, List.map_cons]
      have : relocate D DELETED = DELETED := by simp [relocate]
      rw [this, live_cons_deleted]
    · rw [live_cons_live v vs hv, List.map_cons, List.map_cons]
      by_cases hr : relocate D v = DELETED
      · rw [hr, live_cons_deleted, live_cons_deleted, ih]
      · rw [live_cons_live _ _ hr, live_cons_live _ _ hr, ih]

theorem compact_relocate_row (D : List Int) (e : RowElem) :
    compact_row (relocate_row D (compact_row e)) = compact_row (relocate_row D e) := by
  simp only [compact_row, relocate_row, live_count_eq, live_map_relocate_live]

theorem compact_relocate (D : List Int) (m : Matrix) :
    compact (relocate_matrix D (compact m)) = compact (relocate_matrix D m) := by
  have hrow : ∀ rows : List RowElem,
      ((rows.map compact_row).map (relocate_row D)).map compact_row =
        (rows.map (relocate_row D)).map compact_row := by
    intro rows
    simp only [List.map_map]
    apply List.map_congr_left
    intro e _
    exact compact_relocate_row D e
  have hsum : ∀ rows : List RowElem,
      total_row_sum ((rows.map compact_row).map (relocate_row D)) =
        total_row_sum (rows.map (relocate_row D)) := by
    intro rows
    simp only [total_row_sum, List.map_map]
    congr 1
    apply List.map_congr_left
    intro e _
    show live_count ((live e.column).map (relocate D)) = live_count (e.column.map (relocate D))
    rw [live_count_eq, live_count_eq, live_map_relocate_live]
  show ({ relocate_matrix D (compact m) with
      rowlist := (relocate_matrix D (compact m)).rowlist.map compact_row } : Matrix) =
    { relocate_matrix D m with rowlist := (relocate_matrix D m).rowlist.map compact_row }
  simp only [relocate_matrix, compact, hrow, hsum]

/-- Counterexample for C40: column 0 removed from the example matrix, which
holds no tombstone and is its own compaction: the compacted result has the
first row `[0, 1]`, the result of `remove_cols` on the compaction has
`[DELETED, 0, 1]`; the two differ. -/
theorem compaction_after_remove_cols_differs :
    compact example_matrix = example_matrix ∧
    ∃ m1 m2, remove_cols example_matrix [0] = Except.ok m1 ∧
      remove_cols (compact example_matrix) [0] = Except.ok m2 ∧
      (compact m1).rowlist.map (fun e => e.column) = [[0, 1], [0, 3], [2]] ∧
      m2.rowlist.map (fun e => e.column) = [[DELETED, 0, 1], [0, 3], [2]] ∧
      compact m1 ≠ m2 := by
  refine ⟨rfl, _, _, rfl, rfl, rfl, rfl, ?_⟩
  intro h
  have h2 := congrArg (fun m : Matrix => m.rowlist.map (fun e => e.column)) h
  revert h2
  decide

/-- C40. For every matrix `M` satisfying the invariants and `M'`
the matrix with every `DELETED` entry dropped from every row, `get_row`,
`get_col`, `is_row_column_set`, `get_row_sum`, `get_column_sum` and
`get_overlap` return the same results on `M` and `M'` for all arguments, and
for every duplicate-free `D` within `[0, num_cols)` `remove_cols(D)` succeeds
on both and the two results have the same compaction (the result on `M'`
itself carries the tombstones of the columns just removed). -/
theorem tombstones_unobservable (m : Matrix) (hm : matrix_wf m) (D : List Int)
    (hnd : D.Nodup) (hD : ∀ d ∈ D, 0 ≤ d ∧ d < m.num_cols) :
    matrix_wf (compact m) ∧
    (∀ e ∈ (compact m).rowlist, DELETED ∉ e.column) ∧
    (∀ r, get_row (compact m) r = get_row m r) ∧
    (∀ c, get_col (compact m) c = get_col m c) ∧
    (∀ r c, is_row_column_set (compact m) r c = is_row_column_set m r c) ∧
    get_row_sum (compact m) = get_row_sum m ∧
    (∀ r, get_row_sum_at (compact m) r = get_row_sum_at m r) ∧
    get_column_sum (compact m) = get_column_sum m ∧
    (∀ r1 r2, get_overlap (compact m) r1 r2 = get_overlap m r1 r2) ∧
    ∃ m1 m2, remove_cols m D = Except.ok m1 ∧ remove_cols (compact m) D = Except.ok m2 ∧
      compact m2 = compact m1 := by
  refine ⟨compact_wf m hm, ?_, get_row_compact m, get_col_compact m,
    is_row_column_set_compact m, get_row_sum_compact m, get_row_sum_at_compact m,
    get_column_sum_compact m, get_overlap_compact m hm, ?_⟩
  · intro e he
    obtain ⟨e0, _, rfl⟩ := List.mem_map.mp he
    intro hmem
    have := (@mem_live e0.column DELETED).mp hmem
    exact this.2 rfl
  · exact ⟨_, _, remove_cols_ok m D hm hnd hD,
      remove_cols_ok (compact m) D (compact_wf m hm) hnd hD, compact_relocate D m⟩

/-- Witness for C40: the example matrix after column 0 was removed, which
holds a tombstone, and the removal of its column 1. -/
theorem tombstones_unobservable_witness :
    matrix_wf (compact (relocate_matrix [0] example_matrix)) ∧
    (∀ e ∈ (compact (relocate_matrix [0] example_matrix)).rowlist, DELETED ∉ e.column) ∧
    (∀ r, get_row (compact (relocate_matrix [0] example_matrix)) r =
      get_row (relocate_matrix [0] example_matrix) r) ∧
    (∀ c, get_col (compact (relocate_matrix [0] example_matrix)) c =
      get_col (relocate_matrix [0] example_matrix) c) ∧
    (∀ r c, is_row_column_set (compact (relocate_matrix [0] example_matrix)) r c =
      is_row_column_set (relocate_matrix [0] example_matrix) r c) ∧
    get_row_sum (compact (relocate_matrix [0] example_matrix)) =
      get_row_sum (relocate_matrix [0] example_matrix) ∧
    (∀ r, get_row_sum_at (compact (relocate_matrix [0] example_matrix)) r =
      get_row_sum_at (relocate_matrix [0] example_matrix) r) ∧
    get_column_sum (compact (relocate_matrix [0] example_matrix)) =
      get_column_sum (relocate_matrix [0] example_matrix) ∧
    (∀ r1 r2, get_overlap (compact (relocate_matrix [0] example_matrix)) r1 r2 =
      get_overlap (relocate_matrix [0] example_matrix) r1 r2) ∧
    ∃ m1 m2, remove_cols (relocate_matrix [0] example_matrix) [1] = Except.ok m1 ∧
      remove_cols (compact (relocate_matrix [0] example_matrix)) [1] = Except.ok m2 ∧
      compact m2 = compact m1 :=
  tombstones_unobservable (relocate_matrix [0] example_matrix) (by decide) [1] (by decide)
    (by decide)

/-! ### The postcondition of reduce -/

theorem relocated_dense (m : Matrix) (hm : matrix_wf m) (D : List Int) (hnd : D.Nodup)
    (hD : ∀ d ∈ D, 0 ≤ d ∧ d < m.num_cols) (i : Nat) (e : RowElem)
    (he : m.rowlist[i]? = some e) :
    dense (m.num_cols - (D.length : Int)).toNat (live (relocate_row D e).column) =
      delete_positions D (dense m.num_cols.toNat (live e.column)) := by
  have hi : (i : Int) < m.num_rows := by
    rw [hm.1]
    have := (List.getElem?_eq_some_iff.mp he).1
    exact_mod_cast this
  obtain ⟨row, h1, h2⟩ := get_row_relocate m D hm hnd hD (i : Int) (Int.natCast_nonneg _) hi
  rw [get_row_ok m hm i e he] at h1
  have hrel : (relocate_matrix D m).rowlist[i]? = some (relocate_row D e) := by
    simp [relocate_matrix, he]
  rw [get_row_ok (relocate_matrix D m) (relocate_matrix_wf m D hm hnd hD) i _ hrel] at h2
  injection h1 with h1
  injection h2 with h2
  rw [h1, ← h2]
  rfl

/-- C34. Postcondition of `reduce`: for every matrix satisfying the
invariants and every duplicate-free `rowset` within `[0, num_rows)`, `reduce`
succeeds and keeps the invariants; with `D` the duplicate-free list of the
columns set in some row of `rowset`, `num_cols` has decreased by the length
of `D`; every remaining row stems from a row outside `rowset`, has the same
exemplar, a `row_sum` of at least one, and as dense pattern the previous
pattern with the columns of `D` deleted; and every row outside `rowset` with
a column outside `D` remains. -/
theorem reduce_postcondition (m : Matrix) (hm : matrix_wf m) (rowset : List Int)
    (hnd : rowset.Nodup) (h : ∀ r ∈ rowset, 0 ≤ r ∧ r < m.num_rows) :
    ∃ (m1 : Matrix) (D : List Int), reduce m rowset = Except.ok m1 ∧ matrix_wf m1 ∧
      D.Nodup ∧
      (∀ c, c ∈ D ↔ ∃ r ∈ rowset, ∃ row, get_row m r = Except.ok row ∧ 0 ≤ c ∧
        row[c.toNat]? = some 1) ∧
      m1.num_cols = m.num_cols - (D.length : Int) ∧
      (∀ j : Int, 0 ≤ j → j < m1.num_rows →
        ∃ (i : Int) (row : List Int) (s : Int), i ∉ rowset ∧ 0 ≤ i ∧ i < m.num_rows ∧
          get_row m i = Except.ok row ∧ get_row m1 j = Except.ok (delete_positions D row) ∧
          get_row_exemplar m1 j = get_row_exemplar m i ∧
          get_row_sum_at m1 j = Except.ok s ∧ 1 ≤ s) ∧
      (∀ (i : Int) (row : List Int), 0 ≤ i → i < m.num_rows → i ∉ rowset →
        get_row m i = Except.ok row → (1 : Int) ∈ delete_positions D row →
        ∃ j : Int, 0 ≤ j ∧ j < m1.num_rows ∧
          get_row m1 j = Except.ok (delete_positions D row) ∧
          get_row_exemplar m1 j = get_row_exemplar m i) := by
  obtain ⟨hred, hwf⟩ := reduce_ok m hm rowset hnd h
  have hDr := projected_columns_range m hm rowset
  have hDn : (dedup (projected_columns m rowset)).Nodup := index_set_nodup _
  have hW : ((m.num_cols.toNat : Nat) : Int) = m.num_cols := Int.toNat_of_nonneg hm.2.1
  refine ⟨reduced m rowset, dedup (projected_columns m rowset), hred, hwf, hDn, ?_,
    reduced_num_cols m rowset, ?_, ?_⟩
  · intro c
    rw [show c ∈ dedup (projected_columns m rowset) ↔ c ∈ projected_columns m rowset from
      mem_index_set _ c, mem_projected_columns m hm rowset c]
    constructor
    · rintro ⟨r, hr, e, he, hc⟩
      obtain ⟨hmem, h0, h1, _⟩ := row_at_mem m r e he
      have he' : m.rowlist[r.toNat]? = some e := by
        simpa [row_at, not_lt.mpr h0] using he
      have hg := get_row_ok m hm r.toNat e he'
      rw [Int.toNat_of_nonneg h0] at hg
      have hrg := (hm.2.2.2 e hmem).2.2 c hc
      refine ⟨r, hr, _, hg, hrg.1, ?_⟩
      rw [dense_getElem?]
      have : c.toNat < m.num_cols.toNat := by omega
      simp [this, Int.toNat_of_nonneg hrg.1, hc]
    · rintro ⟨r, hr, row, hg, hc0, hc⟩
      obtain ⟨e, he, _, _⟩ := row_at_some m hm r (h r hr).1 (h r hr).2
      have he' : m.rowlist[r.toNat]? = some e := by
        simpa [row_at, not_lt.mpr (h r hr).1] using he
      have hg' := get_row_ok m hm r.toNat e he'
      rw [Int.toNat_of_nonneg (h r hr).1, hg] at hg'
      injection hg' with hg'
      rw [hg', dense_getElem?] at hc
      refine ⟨r, hr, e, he, ?_⟩
      by_cases hlt : c.toNat < m.num_cols.toNat
      · simp only [hlt, if_true, Int.toNat_of_nonneg hc0] at hc
        by_contra hn
        simp [hn] at hc
      · simp [hlt] at hc
  · intro j hj0 hj1
    obtain ⟨e1, he1, hmem1, _⟩ := row_at_some (reduced m rowset) hwf j hj0 hj1
    obtain ⟨i, e, hie, hir, hrel, hsum⟩ := mem_reduced_rowlist m rowset e1 hmem1
    have hi1 : (i : Int) < m.num_rows := by
      rw [hm.1]
      have := (List.getElem?_eq_some_iff.mp hie).1
      exact_mod_cast this
    have hrow : row_at m (i : Int) = some e := by simp [row_at, hie]
    have he1' : (reduced m rowset).rowlist[j.toNat]? = some e1 := by
      simpa [row_at, not_lt.mpr hj0] using he1
    have hg1 := get_row_ok (reduced m rowset) hwf j.toNat e1 he1'
    rw [Int.toNat_of_nonneg hj0, reduced_num_cols] at hg1
    refine ⟨(i : Int), dense m.num_cols.toNat (live e.column), e1.row_sum, hir,
      Int.natCast_nonneg _, hi1, get_row_ok m hm i e hie, ?_, ?_, ?_, ?_⟩
    · rw [hg1, hrel]
      exact congrArg Except.ok (relocated_dense m hm _ hDn hDr i e hie)
    · rw [get_row_exemplar_ok _ hwf j e1 he1, get_row_exemplar_ok m hm _ e hrow, hrel]
      rfl
    · exact get_row_sum_at_ok _ hwf j e1 he1
    · have hw := (hwf.2.2.2 e1 hmem1).1
      have : 0 ≤ e1.row_sum := by rw [hw, live_count_eq]; exact Int.natCast_nonneg _
      omega
  · intro i row hi0 hi1 hir hg hone
    obtain ⟨e, he, hmem, _⟩ := row_at_some m hm i hi0 hi1
    have he' : m.rowlist[i.toNat]? = some e := by
      simpa [row_at, not_lt.mpr hi0] using he
    have hi' : ((i.toNat : Nat) : Int) = i := Int.toNat_of_nonneg hi0
    have hg' := get_row_ok m hm i.toNat e he'
    rw [hi', hg] at hg'
    injection hg' with hg'
    have hdense := relocated_dense m hm _ hDn hDr i.toNat e he'
    have hsum : (relocate_row (dedup (projected_columns m rowset)) e).row_sum ≠ 0 := by
      intro hz
      have hw := (relocate_row_wf _ hDn m.num_cols hDr e (hm.2.2.2 e hmem)).1
      rw [hz, live_count_eq] at hw
      have hnil : live (relocate_row (dedup (projected_columns m rowset)) e).column = [] := by
        apply List.eq_nil_of_length_eq_zero
        omega
      rw [hnil, ← hg'] at hdense
      rw [← hdense] at hone
      simp [dense] at hone
    have hin := reduced_rowlist_mem m rowset i.toNat e he' (by rw [hi']; exact hir) hsum
    obtain ⟨j, hj⟩ := List.mem_iff_getElem?.mp hin
    have hj1 : (j : Int) < (reduced m rowset).num_rows := by
      rw [hwf.1]
      have := (List.getElem?_eq_some_iff.mp hj).1
      exact_mod_cast this
    have hrowj : row_at (reduced m rowset) (j : Int) = some
        (relocate_row (dedup (projected_columns m rowset)) e) := by simp [row_at, hj]
    refine ⟨(j : Int), Int.natCast_nonneg _, hj1, ?_, ?_⟩
    · rw [get_row_ok _ hwf j _ hj, reduced_num_cols, hg']
      exact congrArg Except.ok hdense
    · rw [get_row_exemplar_ok _ hwf _ _ hrowj, get_row_exemplar_ok m hm _ e he]
      rfl

/-- Witness for C34: row `b` of the example matrix is reduced away. -/
theorem reduce_postcondition_witness :
    ∃ (m1 : Matrix) (D : List Int), reduce example_matrix [1] = Except.ok m1 ∧ matrix_wf m1 ∧
      D.Nodup ∧
      (∀ c, c ∈ D ↔ ∃ r ∈ ([1] : List Int), ∃ row, get_row example_matrix r = Except.ok row ∧
        0 ≤ c ∧ row[c.toNat]? = some 1) ∧
      m1.num_cols = example_matrix.num_cols - (D.length : Int) ∧
      (∀ j : Int, 0 ≤ j → j < m1.num_rows →
        ∃ (i : Int) (row : List Int) (s : Int), i ∉ ([1] : List Int) ∧ 0 ≤ i ∧
          i < example_matrix.num_rows ∧
          get_row example_matrix i = Except.ok row ∧
          get_row m1 j = Except.ok (delete_positions D row) ∧
          get_row_exemplar m1 j = get_row_exemplar example_matrix i ∧
          get_row_sum_at m1 j = Except.ok s ∧ 1 ≤ s) ∧
      (∀ (i : Int) (row : List Int), 0 ≤ i → i < example_matrix.num_rows →
        i ∉ ([1] : List Int) →
        get_row example_matrix i = Except.ok row → (1 : Int) ∈ delete_positions D row →
        ∃ j : Int, 0 ≤ j ∧ j < m1.num_rows ∧
          get_row m1 j = Except.ok (delete_positions D row) ∧
          get_row_exemplar m1 j = get_row_exemplar example_matrix i) :=
  reduce_postcondition example_matrix (by decide) [1] (by decide) (by decide)

/-! ### Normalisation after the large-data pass -/

theorem column_count_two (c : Int) (rows : List RowElem) (e1 e2 : RowElem) (h1 : e1 ∈ rows)
    (h2 : e2 ∈ rows) (hne : e1 ≠ e2) (hc1 : c ∈ live e1.column) (hc2 : c ∈ live e2.column) :
    2 ≤ column_count rows c := by
  have hpos : 0 < column_count rows c := (column_count_pos_iff rows c).mpr ⟨e1, h1, hc1⟩
  by_contra hlt
  have hone : column_count rows c = 1 := by omega
  obtain ⟨i, hi⟩ := List.mem_iff_getElem?.mp h1
  obtain ⟨k, hk⟩ := List.mem_iff_getElem?.mp h2
  have := column_count_one_unique c rows hone i k e1 e2 hi hc1 hk hc2
  subst this
  rw [hi] at hk
  injection hk with hk
  exact hne hk

theorem get_file_list_nodup (fs : FileSystem) (names : List String) (h : names.Nodup) :
    (get_file_list fs names).Nodup := by
  unfold get_file_list
  apply List.Nodup.map _ h
  intro a b hab
  exact congrArg CorpusFile.file_path hab

theorem get_file_list_path_inj (fs : FileSystem) (names : List String) (f1 f2 : CorpusFile)
    (h1 : f1 ∈ get_file_list fs names) (h2 : f2 ∈ get_file_list fs names)
    (hp : f1.file_path = f2.file_path) : f1 = f2 := by
  obtain ⟨n1, _, rfl⟩ := List.mem_map.mp h1
  obtain ⟨n2, _, rfl⟩ := List.mem_map.mp h2
  simp only at hp
  subst hp
  rfl

theorem corpus_frequency_two (fs : FileSystem) (weight_file : WeightFile)
    (files : List CorpusFile) (hnd : files.Nodup) (c : Int)
    (h : 2 ≤ corpus_frequency fs weight_file files c) :
    ∃ f1 f2, f1 ∈ files ∧ f2 ∈ files ∧ f1 ≠ f2 ∧ skipped weight_file f1 = false ∧
      skipped weight_file f2 = false ∧
      (get_exemplar_data fs f1.file_path)[c.toNat]? = some 1 ∧
      (get_exemplar_data fs f2.file_path)[c.toNat]? = some 1 := by
  unfold corpus_frequency at h
  have hnd2 : ((unskipped weight_file files).filter
      (fun f => decide ((get_exemplar_data fs f.file_path)[c.toNat]? = some 1))).Nodup :=
    (hnd.filter _).filter _
  have hmem : ∀ f ∈ (unskipped weight_file files).filter
      (fun f => decide ((get_exemplar_data fs f.file_path)[c.toNat]? = some 1)),
      f ∈ files ∧ skipped weight_file f = false ∧
        (get_exemplar_data fs f.file_path)[c.toNat]? = some 1 := by
    intro f hf
    obtain ⟨hf1, hf2⟩ := List.mem_filter.mp hf
    obtain ⟨hf3, hf4⟩ := List.mem_filter.mp hf1
    refine ⟨hf3, by simpa using hf4, by simpa using hf2⟩
  cases hL : (unskipped weight_file files).filter
      (fun f => decide ((get_exemplar_data fs f.file_path)[c.toNat]? = some 1)) with
  | nil => rw [hL] at h; simp at h
  | cons f1 rest =>
    cases rest with
    | nil => rw [hL] at h; simp at h
    | cons f2 rest2 =>
      rw [hL] at hnd2 hmem
      have m1 := hmem f1 (by simp)
      have m2 := hmem f2 (by simp)
      have hne : f1 ≠ f2 := by
        intro heq
        subst heq
        simp at hnd2
      exact ⟨f1, f2, m1.1, m2.1, hne, m1.2.1, m2.2.1, m1.2.2, m2.2.2⟩

theorem corpus_frequency_one (fs : FileSystem) (weight_file : WeightFile)
    (files : List CorpusFile) (c : Int)
    (h : corpus_frequency fs weight_file files c = 1) :
    ∃ f, f ∈ files ∧ skipped weight_file f = false ∧
      (get_exemplar_data fs f.file_path)[c.toNat]? = some 1 := by
  unfold corpus_frequency at h
  cases hL : (unskipped weight_file files).filter
      (fun f => decide ((get_exemplar_data fs f.file_path)[c.toNat]? = some 1)) with
  | nil => rw [hL] at h; simp at h
  | cons f1 rest =>
    have hf : f1 ∈ (unskipped weight_file files).filter
        (fun f => decide ((get_exemplar_data fs f.file_path)[c.toNat]? = some 1)) := by
      rw [hL]; simp
    obtain ⟨hf1, hf2⟩ := List.mem_filter.mp hf
    obtain ⟨hf3, hf4⟩ := List.mem_filter.mp hf1
    exact ⟨f1, hf3, by simpa using hf4, by simpa using hf2⟩

theorem corpus_frequency_nonneg (fs : FileSystem) (weight_file : WeightFile)
    (files : List CorpusFile) (c : Int) : 0 ≤ corpus_frequency fs weight_file files c := by
  unfold corpus_frequency
  exact Int.natCast_nonneg _

/-- C35. Normalise is a no-op in LargeData mode: for every non-empty corpus
of files with distinct names, `calc_cols_to_ignore` returns a list `D`, the
matrix is built with `D` when the weight file names only corpus files, and in
every matrix built with `D` (same weights) every column has a column sum of
at least 2, so that `eliminate_column_singularities` returns false and leaves
the matrix and the solution, `initial_singularities` included, unchanged. -/
theorem normalise_noop_large_data (fs : FileSystem) (names : List String)
    (weight_file : WeightFile) (hne : names ≠ []) (hnames : names.Nodup) :
    ∃ (D : List Int) (S : Solution),
      calc_cols_to_ignore fs names weight_file Solution.empty = Except.ok (D, S) ∧
      ((∀ records, weight_file = some records → ∀ p ∈ records, p.1 ∈ names) →
        ∃ m, matrix_from_corpus fs names weight_file D = Except.ok m) ∧
      ∀ m, matrix_from_corpus fs names weight_file D = Except.ok m →
        (∃ freq, get_column_sum m = Except.ok freq ∧ (freq.length : Int) = m.num_cols ∧
          ∀ v ∈ freq, 2 ≤ v) ∧
        ∀ S1 : Solution, eliminate_column_singularities m S1 = Except.ok (false, m, S1) := by
  obtain ⟨D, S, files, sel, hcalc, _, hsorted, hmemD, _⟩ :=
    calc_cols_to_ignore_exact fs names weight_file Solution.empty hne
  have hnd : D.Nodup := hsorted.imp (fun h => ne_of_lt h)
  have hD : ∀ d ∈ D, 0 ≤ d ∧ d < corpus_width fs names := by
    intro d hd
    obtain ⟨h0, h1, _⟩ := (hmemD d).mp hd
    exact ⟨h0, h1⟩
  have hflnd := get_file_list_nodup fs names hnames
  refine ⟨D, S, hcalc, ?_, ?_⟩
  · intro hrec
    obtain ⟨m, hm, _⟩ := matrix_from_corpus_ok fs names weight_file D hne hnd hD hrec
    exact ⟨m, hm⟩
  · intro m hmat
    obtain ⟨hwf, _, hcols, hrows⟩ := matrix_from_corpus_spec fs names weight_file D hnd hD m hmat
    have hcount : ∀ j, 0 ≤ j → j < m.num_cols → 2 ≤ column_count m.rowlist j := by
      intro j hj0 hj1
      rw [hcols] at hj1
      obtain ⟨c, hc0, hc1, hcD, hcj⟩ := transform_value_surj D hnd (corpus_width fs names)
        (corpus_width_nonneg fs names) hD j hj0 hj1
      have hnot := fun h => hcD ((hmemD c).mpr ⟨hc0, hc1, h⟩)
      have hfreq : 2 ≤ corpus_frequency fs weight_file (get_file_list fs names) c := by
        have h0 := corpus_frequency_nonneg fs weight_file (get_file_list fs names) c
        by_contra hlt
        have hcase : corpus_frequency fs weight_file (get_file_list fs names) c = 0 ∨
            corpus_frequency fs weight_file (get_file_list fs names) c = 1 := by omega
        rcases hcase with hz | hone
        · exact hnot (Or.inl hz)
        · obtain ⟨f, hf, hs, hbit⟩ := corpus_frequency_one fs weight_file _ c hone
          exact hnot (Or.inr ⟨f, hf, hs, ⟨c, ⟨hc0, hbit⟩, hone⟩, ⟨hc0, hbit⟩⟩)
      obtain ⟨f1, f2, hf1, hf2, hne12, hs1, hs2, hb1, hb2⟩ :=
        corpus_frequency_two fs weight_file _ hflnd c hfreq
      have hn1 : f1.file_path ∈ names := by
        obtain ⟨n, hn, rfl⟩ := List.mem_map.mp hf1
        exact hn
      have hn2 : f2.file_path ∈ names := by
        obtain ⟨n, hn, rfl⟩ := List.mem_map.mp hf2
        exact hn
      obtain ⟨e1, he1, hp1⟩ := matrix_from_corpus_covers fs names weight_file D m hmat f1 hn1 hs1
      obtain ⟨e2, he2, hp2⟩ := matrix_from_corpus_covers fs names weight_file D m hmat f2 hn2 hs2
      have hne' : e1 ≠ e2 := by
        intro heq
        apply hne12
        apply get_file_list_path_inj fs names f1 f2 hf1 hf2
        rw [← hp1, ← hp2, heq]
      have hin : ∀ (e : RowElem) (f : CorpusFile), e ∈ m.rowlist → e.file_path = f.file_path →
          (get_exemplar_data fs f.file_path)[c.toNat]? = some 1 → j ∈ live e.column := by
        intro e f he hp hb
        have hcol := (hrows e he).2.1
        rw [hcol, live_file_entries D hnd (fun d hd => (hD d hd).1), mem_file_entries]
        refine ⟨c, ⟨hc0, 1, ?_, by decide⟩, hcD, hcj⟩
        rw [hp]; exact hb
      exact column_count_two j m.rowlist e1 e2 he1 he2 hne' (hin e1 f1 he1 hp1 hb1)
        (hin e2 f2 he2 hp2 hb2)
    have hW : ((m.num_cols.toNat : Nat) : Int) = m.num_cols := Int.toNat_of_nonneg hwf.2.1
    have hentry : entry_columns m = [] := by
      apply List.eq_nil_iff_forall_not_mem.mpr
      intro x hx
      obtain ⟨h0, h1, hz⟩ := (mem_entry_columns m hwf x).mp hx
      have := hcount x h0 h1
      omega
    constructor
    · refine ⟨_, get_column_sum_ok m hwf, ?_, ?_⟩
      · simp only [column_sums, List.length_map, List.length_range]
        exact hW
      · intro v hv
        simp only [column_sums, List.mem_map, List.mem_range] at hv
        obtain ⟨k, hk, rfl⟩ := hv
        exact hcount (k : Int) (Int.natCast_nonneg _) (by omega)
    · intro S1
      rw [eliminate_column_singularities_eq m hwf S1]
      simp only [hentry, if_true, entry_matrix, entry_solution]

/-- Witness for C35: the files `a` and `b` share their two columns, the file
`c` is a row unitarian whose column is ignored. -/
theorem normalise_noop_large_data_witness :
    ∃ (D : List Int) (S : Solution),
      calc_cols_to_ignore trio_files ["a", "b", "c"] none Solution.empty = Except.ok (D, S) ∧
      ((∀ records, (none : WeightFile) = some records → ∀ p ∈ records,
          p.1 ∈ ["a", "b", "c"]) →
        ∃ m, matrix_from_corpus trio_files ["a", "b", "c"] none D = Except.ok m) ∧
      ∀ m, matrix_from_corpus trio_files ["a", "b", "c"] none D = Except.ok m →
        (∃ freq, get_column_sum m = Except.ok freq ∧ (freq.length : Int) = m.num_cols ∧
          ∀ v ∈ freq, 2 ≤ v) ∧
        ∀ S1 : Solution, eliminate_column_singularities m S1 = Except.ok (false, m, S1) :=
  normalise_noop_large_data trio_files ["a", "b", "c"] none (by decide) (by decide)

/-! ### Independence of the row order -/

theorem row_at_path_inj (m : Matrix) (hd : distinct_paths m) (r1 r2 : Int) (e1 e2 : RowElem)
    (h1 : row_at m r1 = some e1) (h2 : row_at m r2 = some e2)
    (hp : e1.file_path = e2.file_path) : r1 = r2 := by
  obtain ⟨_, h10, h11, _⟩ := row_at_mem m r1 e1 h1
  obtain ⟨_, h20, h21, _⟩ := row_at_mem m r2 e2 h2
  simp only [row_at, not_lt.mpr h10, not_lt.mpr h20, if_false] at h1 h2
  have hl1 : r1.toNat < (m.rowlist.map (fun e => e.file_path)).length := by
    rw [List.length_map]; omega
  have hl2 : r2.toNat < (m.rowlist.map (fun e => e.file_path)).length := by
    rw [List.length_map]; omega
  have g1 : (m.rowlist.map (fun e => e.file_path))[r1.toNat] = e1.file_path := by
    have := List.getElem?_eq_some_iff.mp h1
    obtain ⟨_, h⟩ := this
    simp [h]
  have g2 : (m.rowlist.map (fun e => e.file_path))[r2.toNat] = e2.file_path := by
    have := List.getElem?_eq_some_iff.mp h2
    obtain ⟨_, h⟩ := this
    simp [h]
  have := (@List.Nodup.getElem_inj_iff _ _ hd _ hl1 _ hl2).mp (by rw [g1, g2, hp])
  omega

theorem row_at_of_mem (m : Matrix) (e : RowElem) (h : e ∈ m.rowlist) :
    ∃ r, row_at m r = some e := by
  obtain ⟨i, hi⟩ := List.mem_iff_getElem?.mp h
  exact ⟨(i : Int), by simp [row_at, hi]⟩

theorem find_subset_rows_iff (m : Matrix) (hm : matrix_wf m) (hd : distinct_paths m)
    (result : List Int) (h : find_subset_rows m = Except.ok result) (b : Int) :
    b ∈ result ↔ ∃ eb, row_at m b = some eb ∧ beaten m.rowlist eb := by
  obtain ⟨result1, hfind, hsound, _, _, _, _⟩ := eliminate_subset_rows_ok m hm
  rw [h] at hfind
  injection hfind with hfind
  subst hfind
  obtain ⟨_, c2, c3⟩ := find_subset_rows_complete m hm result h
  constructor
  · intro hb
    obtain ⟨a, ha, ea, eb, hea, heb, hsub, hw⟩ := hsound b hb
    have hab : a ≠ b := fun heq => ha (heq ▸ hb)
    refine ⟨eb, heb, ea, (row_at_mem m a ea hea).1, ?_, hsub, hw, ?_⟩
    · intro hp
      exact hab (row_at_path_inj m hd a b ea eb hea heb hp)
    · intro hsup hw2
      have hsame : same_columns m a b := ⟨ea, eb, hea, heb, fun v => ⟨hsup v, hsub v⟩⟩
      obtain ⟨ea', eb', hea', heb', _, hpath⟩ := c2 a ha b hsame
      rw [hea] at hea'
      rw [heb] at heb'
      injection hea' with hea'
      injection heb' with heb'
      subst hea' heb'
      have hle := hpath (le_antisymm hw hw2)
      rcases lt_or_eq_of_le hle with hlt | heq
      · exact hlt
      · exact absurd (row_at_path_inj m hd a b ea eb hea heb heq) hab
  · rintro ⟨eb, heb, ea, hmem, hne, hsub, hw, htie⟩
    obtain ⟨a, hea⟩ := row_at_of_mem m ea hmem
    have hab : a ≠ b := by
      intro heq
      subst heq
      rw [hea] at heb
      injection heb with heb
      exact hne (by rw [heb])
    have hdom : dominates m a b := ⟨ea, eb, hea, heb, hsub, hw⟩
    by_contra hb
    have ha : a ∈ result := by
      rcases c3 a b hab hdom with h1 | h1
      · exact h1
      · exact absurd h1 hb
    obtain ⟨a1, ha1, ea1, ea', hea1, hea', hsub1, hw1⟩ := hsound a ha
    rw [hea] at hea'
    injection hea' with hea'
    subst hea'
    by_cases h1 : a1 = b
    · subst h1
      rw [heb] at hea1
      injection hea1 with hea1
      subst hea1
      have hsame : same_columns m a1 a := ⟨eb, ea, heb, hea, fun v => ⟨hsub v, hsub1 v⟩⟩
      obtain ⟨eb', ea', heb', hea', _, hpath⟩ := c2 a1 hb a hsame
      rw [heb] at heb'
      rw [hea] at hea'
      injection heb' with heb'
      injection hea' with hea'
      subst heb' hea'
      have hle := hpath (le_antisymm hw1 hw)
      have hlt := htie hsub1 hw1
      exact absurd hlt (not_lt.mpr hle)
    · have hdom1 : dominates m a1 b :=
        ⟨ea1, eb, hea1, heb, fun v hv => hsub1 v (hsub v hv), le_trans hw1 hw⟩
      rcases c3 a1 b h1 hdom1 with h2 | h2
      · exact ha1 h2
      · exact hb h2

theorem find_subset_rows_paths (m : Matrix) (hm : matrix_wf m) (hd : distinct_paths m)
    (result : List Int) (h : find_subset_rows m = Except.ok result) (p : String) :
    (∃ b ∈ result, get_row_exemplar m b = Except.ok p) ↔
      ∃ e ∈ m.rowlist, e.file_path = p ∧ beaten m.rowlist e := by
  constructor
  · rintro ⟨b, hb, hp⟩
    obtain ⟨eb, heb, hbeat⟩ := (find_subset_rows_iff m hm hd result h b).mp hb
    rw [get_row_exemplar_ok m hm b eb heb] at hp
    injection hp with hp
    exact ⟨eb, (row_at_mem m b eb heb).1, hp, hbeat⟩
  · rintro ⟨e, he, hp, hbeat⟩
    obtain ⟨b, hb⟩ := row_at_of_mem m e he
    refine ⟨b, (find_subset_rows_iff m hm hd result h b).mpr ⟨e, hb, hbeat⟩, ?_⟩
    rw [get_row_exemplar_ok m hm b e hb, hp]

theorem total_row_sum_perm (l1 l2 : List RowElem) (h : l1.Perm l2) :
    total_row_sum l1 = total_row_sum l2 := by
  unfold total_row_sum
  exact (h.map _).sum_eq

theorem permuted_wf (m : Matrix) (hm : matrix_wf m) (rows : List RowElem)
    (hperm : rows.Perm m.rowlist) : matrix_wf { m with rowlist := rows } := by
  obtain ⟨h1, h2, h3, h4⟩ := hm
  refine ⟨?_, h2, ?_, ?_⟩
  · show m.num_rows = (rows.length : Int)
    rw [hperm.length_eq]; exact h1
  · show m.num_elems = total_row_sum rows
    rw [total_row_sum_perm rows m.rowlist hperm]; exact h3
  · intro e he
    exact h4 e (hperm.mem_iff.mp he)

/-- C39. Independence of row order: for every matrix satisfying the
invariants with at least one row, positive weights and pairwise distinct
exemplar paths, and for every permutation of its rows, `find_subset_rows`
returns on both matrices rows with the same set of exemplar paths, and
`eliminate_max_score` adds the same exemplar to the solution on both. -/
theorem row_order_independence (fs : FileSystem) (m : Matrix) (hm : matrix_wf m)
    (rows : List RowElem) (hperm : rows.Perm m.rowlist) (S : Solution)
    (hr : m.num_rows ≠ 0) (_hpos : ∀ e ∈ m.rowlist, 0 < e.weight) (hd : distinct_paths m) :
    (∃ result result1, find_subset_rows m = Except.ok result ∧
      find_subset_rows { m with rowlist := rows } = Except.ok result1 ∧
      ∀ p, (∃ b ∈ result, get_row_exemplar m b = Except.ok p) ↔
        (∃ b ∈ result1, get_row_exemplar { m with rowlist := rows } b = Except.ok p)) ∧
    ∃ (e : RowElem) (m1 m2 : Matrix), e ∈ m.rowlist ∧
      eliminate_max_score fs m S = Except.ok
        (true, m1,
          S.add_to_soln (filename e.file_path) (get_exemplar_data fs e.file_path) e.weight
            false) ∧
      eliminate_max_score fs { m with rowlist := rows } S = Except.ok
        (true, m2,
          S.add_to_soln (filename e.file_path) (get_exemplar_data fs e.file_path) e.weight
            false) := by
  have hm1 := permuted_wf m hm rows hperm
  have hd1 : distinct_paths { m with rowlist := rows } := by
    show (rows.map (fun e => e.file_path)).Nodup
    exact ((hperm.map _).nodup_iff).mpr hd
  constructor
  · obtain ⟨result, hfind, _⟩ := eliminate_subset_rows_ok m hm
    obtain ⟨result1, hfind1, _⟩ := eliminate_subset_rows_ok _ hm1
    refine ⟨result, result1, hfind, hfind1, ?_⟩
    intro p
    rw [find_subset_rows_paths m hm hd result hfind p,
      find_subset_rows_paths _ hm1 hd1 result1 hfind1 p]
    show _ ↔ ∃ e ∈ rows, e.file_path = p ∧ beaten rows e
    constructor
    · rintro ⟨e, he, hp, a, ha, hb⟩
      exact ⟨e, hperm.mem_iff.mpr he, hp, a, hperm.mem_iff.mpr ha, hb⟩
    · rintro ⟨e, he, hp, a, ha, hb⟩
      exact ⟨e, hperm.mem_iff.mp he, hp, a, hperm.mem_iff.mp ha, hb⟩
  · obtain ⟨row, e, he, hel, hmax, htie⟩ := eliminate_max_score_choice fs m hm S hr
      (row_at_path_inj m hd)
    obtain ⟨row1, e1, he1, hel1, hmax1, htie1⟩ := eliminate_max_score_choice fs
      { m with rowlist := rows } hm1 S hr (row_at_path_inj _ hd1)
    have hmem := (row_at_mem m row e he).1
    have hmem1 : e1 ∈ rows := (row_at_mem _ row1 e1 he1).1
    have hscore : row_score e1 = row_score e :=
      le_antisymm (hmax e1 (hperm.mem_iff.mp hmem1)) (hmax1 e (hperm.mem_iff.mpr hmem))
    have heq : e1 = e := by
      obtain ⟨r, hr1⟩ := row_at_of_mem m e1 (hperm.mem_iff.mp hmem1)
      obtain ⟨r2, hr2⟩ := row_at_of_mem { m with rowlist := rows } e (hperm.mem_iff.mpr hmem)
      rcases htie r e1 hr1 hscore with h1 | h1
      · subst h1
        rw [he] at hr1
        injection hr1 with hr1
        exact hr1.symm
      · rcases htie1 r2 e hr2 hscore.symm with h2 | h2
        · subst h2
          rw [he1] at hr2
          injection hr2
        · exact absurd h1 (lt_asymm h2)
    subst heq
    exact ⟨e1, _, _, hmem, hel, hel1⟩

/-- Witness for C39: the example matrix and its rows in the order b, c, a. -/
theorem row_order_independence_witness :
    (∃ result result1, find_subset_rows example_matrix = Except.ok result ∧
      find_subset_rows { example_matrix with
        rowlist := [example_row "b" [1, 4], example_row "c" [3],
          example_row "a" [0, 1, 2]] } = Except.ok result1 ∧
      ∀ p, (∃ b ∈ result, get_row_exemplar example_matrix b = Except.ok p) ↔
        (∃ b ∈ result1, get_row_exemplar { example_matrix with
          rowlist := [example_row "b" [1, 4], example_row "c" [3],
            example_row "a" [0, 1, 2]] } b = Except.ok p)) ∧
    ∃ (e : RowElem) (m1 m2 : Matrix), e ∈ example_matrix.rowlist ∧
      eliminate_max_score (fun _ => []) example_matrix Solution.empty = Except.ok
        (true, m1,
          Solution.empty.add_to_soln (filename e.file_path)
            (get_exemplar_data (fun _ => []) e.file_path) e.weight false) ∧
      eliminate_max_score (fun _ => []) { example_matrix with
          rowlist := [example_row "b" [1, 4], example_row "c" [3],
            example_row "a" [0, 1, 2]] } Solution.empty = Except.ok
        (true, m2,
          Solution.empty.add_to_soln (filename e.file_path)
            (get_exemplar_data (fun _ => []) e.file_path) e.weight false) :=
  row_order_independence (fun _ => []) example_matrix (by decide)
    [example_row "b" [1, 4], example_row "c" [3], example_row "a" [0, 1, 2]]
    (List.perm_append_comm :
      ([example_row "b" [1, 4], example_row "c" [3]] ++ [example_row "a" [0, 1, 2]]).Perm
        ([example_row "a" [0, 1, 2]] ++ [example_row "b" [1, 4], example_row "c" [3]]))
    Solution.empty (by decide)
    (by
      intro e he
      simp only [example_matrix, List.mem_cons, List.mem_singleton, List.not_mem_nil,
        or_false] at he
      rcases he with rfl | rfl | rfl <;> simp [example_row])
    (by
      show (["a", "b", "c"] : List String).Nodup
      decide)

/-! ### No exemplar is selected twice -/

theorem delete_positions_from_sublist {α : Type} (D : List Int) (xs : List α) :
    ∀ k : Nat, (delete_positions_from D k xs).Sublist xs := by
  induction xs with
  | nil => intro k; simp [delete_positions_from]
  | cons x xs ih =>
    intro k
    simp only [delete_positions_from]
    by_cases h : (k : Int) ∈ D
    · simp only [h, if_true]
      exact (ih (k + 1)).cons x
    · simp only [h, if_false]
      exact (ih (k + 1)).cons₂ x

theorem delete_positions_sublist {α : Type} (D : List Int) (xs : List α) :
    (delete_positions D xs).Sublist xs := delete_positions_from_sublist D xs 0

theorem live_relocate_nil (D : List Int) (column : List Int) (h : live column = []) :
    live (column.map (relocate D)) = [] := by
  rw [← live_map_relocate_live, h]
  rfl

theorem rows_kept_refl (m : Matrix) : rows_kept m m :=
  ⟨List.Sublist.refl _, fun e he => ⟨e, he, rfl, rfl, fun h => h⟩⟩

theorem rows_kept_relocate (D : List Int) (m : Matrix) : rows_kept m (relocate_matrix D m) := by
  constructor
  · show ((m.rowlist.map (relocate_row D)).map (fun e => e.file_path)).Sublist _
    rw [List.map_map]
    exact List.Sublist.refl _
  · intro e1 he1
    obtain ⟨e, he, rfl⟩ := List.mem_map.mp he1
    exact ⟨e, he, rfl, rfl, live_relocate_nil D e.column⟩

theorem rows_kept_delete (D : List Int) (m : Matrix) : rows_kept m (delete_rows D m) := by
  constructor
  · exact (delete_positions_sublist D m.rowlist).map _
  · intro e1 he1
    exact ⟨e1, delete_positions_subset D m.rowlist e1 he1, rfl, rfl, fun h => h⟩

theorem rows_kept_trans (m m1 m2 : Matrix) (h1 : rows_kept m m1) (h2 : rows_kept m1 m2) :
    rows_kept m m2 := by
  refine ⟨h2.1.trans h1.1, ?_⟩
  intro e2 he2
  obtain ⟨e1, he1, hp1, hw1, hl1⟩ := h2.2 e2 he2
  obtain ⟨e, he, hp, hw, hl⟩ := h1.2 e1 he1
  exact ⟨e, he, hp1.trans hp, hw1.trans hw, fun h => hl1 (hl h)⟩

theorem rows_kept_reduced (m : Matrix) (rows : List Int) : rows_kept m (reduced m rows) := by
  unfold reduced
  exact rows_kept_trans _ _ _
    (rows_kept_trans _ _ _ (rows_kept_relocate _ m) (rows_kept_delete rows _))
    (rows_kept_delete _ _)

theorem rows_kept_entry (m : Matrix) : rows_kept m (entry_matrix m) := by
  unfold entry_matrix
  by_cases h : entry_columns m = []
  · rw [if_pos h]; exact rows_kept_refl m
  · rw [if_neg h]; exact rows_kept_relocate _ m

theorem rows_kept_step (fs : FileSystem) (st st1 : LoopState) (h : step_effect fs st st1) :
    rows_kept st.data st1.data := by
  rcases h with ⟨h1, _⟩ | ⟨rows, _, _, _, _, _, h1, _⟩ | ⟨result, _, _, _, _, h1, _⟩ |
    ⟨result, _, _, _, _, h1, _⟩
  · rw [h1]; exact rows_kept_refl _
  · rw [h1]; exact rows_kept_reduced _ _
  · rw [h1]; exact rows_kept_delete _ _
  · rw [h1]; exact rows_kept_relocate _ _

theorem rows_kept_distinct (m m1 : Matrix) (h : rows_kept m m1) (hd : distinct_paths m) :
    distinct_paths m1 := h.1.nodup hd

theorem row_score_pos (W : Int) (e : RowElem) (hw : row_wf W e) (hpos : 0 < e.weight) :
    0 < row_score e ↔ live e.column ≠ [] := by
  unfold row_score
  have h0 : (0 : Int) ≤ e.row_sum := by rw [hw.1, live_count_eq]; exact Int.natCast_nonneg _
  constructor
  · intro h hnil
    have : e.row_sum = 0 := by rw [hw.1, live_count_eq, hnil]; rfl
    rw [this] at h
    simp at h
  · intro h
    have hne : e.row_sum ≠ 0 := by
      apply (row_sum_ne_zero_iff W e hw).mpr
      obtain ⟨v, hv⟩ := List.exists_mem_of_ne_nil _ h
      exact ⟨v, hv⟩
    have hlt : (0 : Int) < e.row_sum := by omega
    exact div_pos (by exact_mod_cast hlt) hpos

theorem solve_step_selected (fs : FileSystem) (greedy : Bool) (st st1 : LoopState)
    (hok : loop_ok st) (hr : st.data.num_rows ≠ 0) (hc : st.data.num_cols ≠ 0)
    (hd : distinct_paths st.data) (hpos : ∀ e ∈ st.data.rowlist, 0 < e.weight)
    (hne : ∀ j, 0 ≤ j → j < st.data.num_cols → ∃ e ∈ st.data.rowlist, j ∈ live e.column)
    (hstep : solve_step fs greedy st = Except.ok st1) :
    st1.solution = st.solution ∨
    ∃ (rows : List Int) (optimal : Bool), rows.Nodup ∧
      (∀ r ∈ rows, ∃ e, row_at st.data r = some e ∧ live e.column ≠ []) ∧
      st1.data = reduced st.data rows ∧
      st1.solution = add_all fs optimal st.solution (selected_rows st.data rows) := by
  obtain ⟨hwf, hcd⟩ := hok
  by_cases h0 : greedy = false ∧ st.option0 = true
  · obtain ⟨cd1, hlen, hel⟩ := eliminate_row_unitarians_ok fs st.data hwf st.solution
      st.corpus_data hcd
    simp only [solve_step, if_pos h0, hel] at hstep
    by_cases hU : unity_columns (column_sums st.data.num_cols.toNat st.data.rowlist) 0 = []
    · have hcond : st.data.num_rows = 0 ∨ st.data.num_cols = 0 ∨
          unity_columns (column_sums st.data.num_cols.toNat st.data.rowlist) 0 = [] :=
        Or.inr (Or.inr hU)
      simp only [if_pos hcond] at hstep
      injection hstep with hstep
      subst hstep
      exact Or.inl rfl
    · have hcond : ¬ (st.data.num_rows = 0 ∨ st.data.num_cols = 0 ∨
          unity_columns (column_sums st.data.num_cols.toNat st.data.rowlist) 0 = []) := by
        rintro (h | h | h)
        · exact hr h
        · exact hc h
        · exact hU h
      simp only [if_neg hcond] at hstep
      injection hstep with hstep
      subst hstep
      refine Or.inr ⟨forced_rows st.data, true, unitarian_rows_nodup _ _ _, ?_, rfl, rfl⟩
      intro r hrow
      obtain ⟨e, he, c, hcl, _⟩ := (mem_forced_rows st.data hwf r).mp hrow
      exact ⟨e, he, List.ne_nil_of_mem hcl⟩
  · by_cases h1 : greedy = false ∧ st.option1 = true
    · obtain ⟨result, _, hs, hnd, hrg, hel, _⟩ := eliminate_subset_rows_ok st.data hwf
      simp only [solve_step, if_neg h0, if_pos h1, hel] at hstep
      by_cases hres : result = []
      · simp only [if_pos hres] at hstep
        injection hstep with hstep
        subst hstep
        exact Or.inl rfl
      · simp only [if_neg hres] at hstep
        injection hstep with hstep
        subst hstep
        exact Or.inl rfl
    · by_cases h2 : greedy = false ∧ st.option2 = true
      · obtain ⟨result, _, hnd, hrg, hs, hel, _⟩ := eliminate_superset_cols_ok st.data hwf
        simp only [solve_step, if_neg h0, if_neg h1, if_pos h2, hel] at hstep
        by_cases hres : result = []
        · simp only [if_pos hres] at hstep
          injection hstep with hstep
          subst hstep
          exact Or.inl rfl
        · simp only [if_neg hres] at hstep
          injection hstep with hstep
          subst hstep
          exact Or.inl rfl
      · obtain ⟨row, e, he, hel, hmax, _⟩ := eliminate_max_score_choice fs st.data hwf
          st.solution hr (row_at_path_inj st.data hd)
        simp only [solve_step, if_neg h0, if_neg h1, if_neg h2, hel] at hstep
        injection hstep with hstep
        subst hstep
        refine Or.inr ⟨[row], false, List.nodup_singleton _, ?_, rfl, ?_⟩
        · intro r hrow
          rw [List.mem_singleton] at hrow
          subst hrow
          refine ⟨e, he, ?_⟩
          have hcpos : 0 < st.data.num_cols := by
            have := hwf.2.1
            omega
          obtain ⟨e0, he0, hl0⟩ := hne 0 (le_refl _) hcpos
          have hs0 : 0 < row_score e0 :=
            (row_score_pos _ e0 (hwf.2.2.2 e0 he0) (hpos e0 he0)).mpr (List.ne_nil_of_mem hl0)
          have hmem := (row_at_mem st.data r e he).1
          exact (row_score_pos _ e (hwf.2.2.2 e hmem) (hpos e hmem)).mp
            (lt_of_lt_of_le hs0 (hmax e0 he0))
        · simp [selected_rows, add_all, he]

theorem selected_paths_nodup (m : Matrix) (hd : distinct_paths m) :
    ∀ rows : List Int, rows.Nodup →
      ((selected_rows m rows).map (fun e => filename e.file_path)).Nodup := by
  intro rows
  induction rows with
  | nil => intro _; simp [selected_rows]
  | cons r rs ih =>
    intro hnd
    obtain ⟨hr, hrs⟩ := List.nodup_cons.mp hnd
    have ih' := ih hrs
    cases he : row_at m r with
    | none =>
      have : selected_rows m (r :: rs) = selected_rows m rs := by
        simp [selected_rows, List.filterMap_cons, he]
      rw [this]; exact ih'
    | some e =>
      have : selected_rows m (r :: rs) = e :: selected_rows m rs := by
        simp [selected_rows, List.filterMap_cons, he]
      rw [this, List.map_cons]
      apply List.nodup_cons.mpr
      refine ⟨?_, ih'⟩
      intro hmem
      obtain ⟨e1, he1, hp⟩ := List.mem_map.mp hmem
      obtain ⟨r1, hr1, hrow1⟩ := (mem_selected_rows m rs e1).mp he1
      have := row_at_path_inj m hd r1 r e1 e hrow1 he (by simpa [filename] using hp)
      subst this
      exact hr hr1

theorem fresh_inv_step (fs : FileSystem) (greedy : Bool) (W0 : Int) (st st1 : LoopState)
    (hok : loop_ok st) (hinv : fresh_inv fs W0 st) (hr : st.data.num_rows ≠ 0)
    (hc : st.data.num_cols ≠ 0) (hstep : solve_step fs greedy st = Except.ok st1) :
    fresh_inv fs W0 st1 := by
  obtain ⟨hcov, hd, hpos, hnd, hzero⟩ := hinv
  have heff := (solve_step_effect fs greedy st st1 hok hr hc hstep).1
  have hkept := rows_kept_step fs st st1 heff
  have hsel := solve_step_selected fs greedy st st1 hok hr hc hd hpos hcov.2.2.1 hstep
  refine ⟨cover_inv_step fs W0 st st1 hok.1 heff hcov, rows_kept_distinct _ _ hkept hd, ?_, ?_,
    ?_⟩
  · intro e1 he1
    obtain ⟨e, he, _, hw, _⟩ := hkept.2 e1 he1
    rw [hw]; exact hpos e he
  · rcases hsel with hs | ⟨rows, optimal, hrnd, hlive, _, hs⟩
    · rw [hs]; exact hnd
    · rw [hs, (add_all_fields fs optimal _ st.solution).1]
      apply List.Nodup.append hnd (selected_paths_nodup st.data hd rows hrnd)
      intro p hp1 hp2
      obtain ⟨e, he, hpe⟩ := List.mem_map.mp hp2
      obtain ⟨r, hrr, hrow⟩ := (mem_selected_rows st.data rows e).mp he
      obtain ⟨e', he', hl⟩ := hlive r hrr
      rw [hrow] at he'
      injection he' with he'
      subst he'
      exact hl (hzero e (row_at_mem st.data r e hrow).1 (by rw [hpe]; exact hp1))
  · intro e1 he1 hin
    obtain ⟨e, he, hp, _, hl⟩ := hkept.2 e1 he1
    rcases hsel with hs | ⟨rows, optimal, hrnd, hlive, hdata, hs⟩
    · rw [hs] at hin
      exact hl (hzero e he (by rw [← hp]; exact hin))
    · rw [hs, (add_all_fields fs optimal _ st.solution).1] at hin
      rcases List.mem_append.mp hin with hin | hin
      · exact hl (hzero e he (by rw [← hp]; exact hin))
      · exfalso
        obtain ⟨e2, he2, hpe⟩ := List.mem_map.mp hin
        obtain ⟨r, hrr, hrow⟩ := (mem_selected_rows st.data rows e2).mp he2
        rw [hdata] at he1
        obtain ⟨i, e0, hi0, hir, hrel, _⟩ := mem_reduced_rowlist st.data rows e1 he1
        have hrow0 : row_at st.data (i : Int) = some e0 := by simp [row_at, hi0]
        have hpath : e2.file_path = e0.file_path := by
          have h1 : e1.file_path = e0.file_path := by rw [hrel]; rfl
          rw [← h1]
          simpa [filename] using hpe
        have := row_at_path_inj st.data hd r (i : Int) e2 e0 hrow hrow0 hpath
        subst this
        exact hir hrr

theorem insert_corpus_rows_paths (fs : FileSystem) (T : List Int) :
    ∀ (files : List CorpusFile) (wm : Option (List (String × ℚ))) (m m1 : Matrix)
      (wm1 : Option (List (String × ℚ))),
    insert_corpus_rows fs T files wm m = Except.ok (m1, wm1) →
    ∃ new, m1.rowlist = m.rowlist ++ new ∧
      (new.map (fun e => e.file_path)).Sublist (files.map (fun f => f.file_path)) := by
  intro files
  induction files with
  | nil =>
    intro wm m m1 wm1 h
    simp only [insert_corpus_rows] at h
    injection h with h
    injection h with h1 h2
    subst h1
    exact ⟨[], by simp, by simp⟩
  | cons f0 rest ih =>
    intro wm m m1 wm1 h
    cases hrow : row_from_file fs f0.file_path T with
    | error err => simp only [insert_corpus_rows, hrow] at h; cases h
    | ok row =>
      have hpath := row_from_file_path fs f0.file_path T row hrow
      cases wm with
      | none =>
        simp only [insert_corpus_rows, hrow] at h
        obtain ⟨new, i1, i2⟩ := ih none (insert_row m row) m1 wm1 h
        refine ⟨row :: new, by rw [i1, insert_row_rowlist]; simp, ?_⟩
        simp only [List.map_cons, hpath]
        exact i2.cons₂ _
      | some records =>
        cases hlook : weight_lookup records (filename row.file_path) with
        | none =>
          simp only [insert_corpus_rows, hrow, hlook] at h
          obtain ⟨new, i1, i2⟩ := ih (some records) m m1 wm1 h
          exact ⟨new, i1, i2.cons _⟩
        | some w =>
          by_cases hw : w > 0
          · simp only [insert_corpus_rows, hrow, hlook, if_pos hw] at h
            obtain ⟨new, i1, i2⟩ := ih _ _ m1 wm1 h
            refine ⟨{ row with weight := w } :: new, by rw [i1, insert_row_rowlist]; simp, ?_⟩
            simp only [List.map_cons, hpath]
            exact i2.cons₂ _
          · simp only [insert_corpus_rows, hrow, hlook, if_neg hw] at h
            obtain ⟨new, i1, i2⟩ := ih _ _ m1 wm1 h
            exact ⟨new, i1, i2.cons _⟩

theorem matrix_from_corpus_distinct (fs : FileSystem) (names : List String)
    (weight_file : WeightFile) (D : List Int) (m : Matrix) (hnames : names.Nodup)
    (h : matrix_from_corpus fs names weight_file D = Except.ok m) : distinct_paths m := by
  have hperm := sort_by_perm corpus_file_greater (get_file_list fs names)
  have hnd : ((sort_by corpus_file_greater (get_file_list fs names)).map
      (fun f => f.file_path)).Nodup := by
    apply ((hperm.map _).nodup_iff).mpr
    simp only [get_file_list, List.map_map]
    have : ((fun f : CorpusFile => f.file_path) ∘
        (fun f : String => ({ file_path := f, file_size := ((fs f).length : Int) } : CorpusFile)))
        = id := by
      funext x; rfl
    rw [this, List.map_id]
    exact hnames
  simp only [matrix_from_corpus] at h
  cases hc : sort_by corpus_file_greater (get_file_list fs names) with
  | nil => rw [hc] at h; cases h
  | cons first rest =>
    rw [hc] at h hnd
    simp only at h
    cases hT : transform_index (8 * first.file_size) D with
    | error err => rw [hT] at h; cases h
    | ok T =>
      rw [hT] at h
      simp only at h
      cases hins : insert_corpus_rows fs T (first :: rest) weight_file
          { num_rows := 0, num_cols := 0, num_cols_orig := 8 * first.file_size, num_elems := 0,
            rowlist := [] } with
      | error err => rw [hins] at h; cases h
      | ok res =>
        obtain ⟨m1, wm1⟩ := res
        rw [hins] at h
        obtain ⟨new, i1, i2⟩ := insert_corpus_rows_paths fs T _ _ _ m1 wm1 hins
        have hm : m.rowlist = m1.rowlist := by
          simp only at h
          split at h
          · cases h
          · injection h with h; subst h; rfl
        show (m.rowlist.map (fun e => e.file_path)).Nodup
        rw [hm, i1]
        simp only [List.nil_append]
        exact i2.nodup hnd

theorem pre_pass_fresh (fs : FileSystem) (names : List String) (weight_file : WeightFile)
    (large_data greedy : Bool) (hne : names ≠ []) (hnames : names.Nodup) (D : List Int)
    (S0 : Solution)
    (hpre : (if large_data = true ∧ greedy = false then
          calc_cols_to_ignore fs names weight_file Solution.empty
        else Except.ok ([], Solution.empty)) = Except.ok (D, S0)) :
    S0.solution.Nodup ∧
      ∀ p ∈ S0.solution, ∀ c, raw_bit fs p c → c ∈ D := by
  by_cases hmode : large_data = true ∧ greedy = false
  · rw [if_pos hmode] at hpre
    obtain ⟨D1, S1, files, sel, hcalc, _, _, hmemD, _, _, hperm, hsub, hsel, hsol, _⟩ :=
      calc_cols_to_ignore_exact fs names weight_file Solution.empty hne
    rw [hpre] at hcalc
    injection hcalc with hcalc
    injection hcalc with hD hS
    subst hD hS
    have hfl := get_file_list_nodup fs names hnames
    have hselnd : sel.Nodup := hsub.nodup ((hperm.nodup_iff).mpr hfl)
    have hsol' : S0.solution = sel.map (fun f => filename f.file_path) := by
      rw [hsol]; rfl
    constructor
    · rw [hsol']
      apply List.Nodup.map_on _ hselnd
      intro f1 hf1 f2 hf2 hp
      exact get_file_list_path_inj fs names f1 f2 ((hsel f1).mp hf1).1 ((hsel f2).mp hf2).1
        (by simpa [filename] using hp)
    · intro p hp c hbit
      rw [hsol'] at hp
      obtain ⟨f, hf, rfl⟩ := List.mem_map.mp hp
      obtain ⟨hfl1, hs, hu⟩ := (hsel f).mp hf
      have hbit' : raw_bit fs f.file_path c := by simpa [filename] using hbit
      have hn : f.file_path ∈ names := by
        obtain ⟨n, hn, rfl⟩ := List.mem_map.mp hfl1
        exact hn
      have hlen := raw_length_le_width fs names f.file_path hn
      have hlt : c.toNat < (get_exemplar_data fs f.file_path).length :=
        (List.getElem?_eq_some_iff.mp hbit'.2).1
      apply (hmemD c).mpr
      refine ⟨hbit'.1, ?_, Or.inr ⟨f, hfl1, hs, hu, hbit'⟩⟩
      have := hbit'.1
      omega
  · rw [if_neg hmode] at hpre
    injection hpre with hpre
    injection hpre with hD hS
    subst hD hS
    exact ⟨List.nodup_nil, fun p hp => absurd hp (List.not_mem_nil _)⟩

/-- C38. No exemplar is selected twice: for every non-empty corpus of files
with pairwise distinct names, with no weight file or with a weight file
whose records name corpus files, in normal and in large-data mode and for
both values of `greedy`, the run returns once it is given enough passes, and
the solution sequence returned by `solve_oscp` contains no exemplar more than
once. -/
theorem no_exemplar_twice (fs : FileSystem) (names : List String) (weight_file : WeightFile)
    (large_data greedy : Bool) (runname : String) (hne : names ≠ [])
    (hnames : names.Nodup)
    (hrec : ∀ records, weight_file = some records → ∀ p ∈ records, p.1 ∈ names) :
    ∃ (N : Nat) (res : SolveResult),
      (∀ fuel, N ≤ fuel →
        moonlight_main fs fuel names weight_file large_data greedy runname =
          Except.ok (some res)) ∧
      res.solution.solution.Nodup := by
  obtain ⟨D, S0, hpre, hnd, hD, hrd, hsol, hw, hcov, hrest⟩ :=
    pre_pass_ok fs names weight_file large_data greedy hne
  obtain ⟨hS0nd, hS0bits⟩ := pre_pass_fresh fs names weight_file large_data greedy hne hnames
    D S0 hpre
  obtain ⟨m, hmat, _, _, _, hrows⟩ := matrix_from_corpus_ok fs names weight_file D hne hnd hD hrec
  obtain ⟨hm, hcd, hlen, h0, hstart, hwi, hW⟩ := corpus_start fs names weight_file D S0 m hmat hnd
    hD hrd hsol hw hcov hrest
  have hdm := matrix_from_corpus_distinct fs names weight_file D m hnames hmat
  have hkept := rows_kept_entry m
  have hsolf := entry_solution_fields m (labelled S0 m runname greedy)
  have hinit : fresh_inv fs m.num_cols_orig
      { data := entry_matrix m, solution := entry_solution m (labelled S0 m runname greedy),
        corpus_data := initialise_corpus_data m, option0 := true, option1 := true,
        option2 := true, non_optimal := 0 } := by
    refine ⟨?_, rows_kept_distinct _ _ hkept hdm, ?_, ?_, ?_⟩
    · exact cover_inv_entry fs m.num_cols_orig m (labelled S0 m runname greedy) hm rfl hstart
        hlen.2.1 hrd hlen.2.2
    · intro e1 he1
      obtain ⟨e, he, _, hwe, _⟩ := hkept.2 e1 he1
      rw [hwe]; exact (hrows e he).2.2.2.2
    · show (entry_solution m (labelled S0 m runname greedy)).solution.Nodup
      rw [hsolf.2.1]; exact hS0nd
    · intro e1 he1 hin
      have hin' : filename e1.file_path ∈
          (entry_solution m (labelled S0 m runname greedy)).solution := hin
      rw [hsolf.2.1] at hin'
      obtain ⟨e, he, hp, _, hl⟩ := hkept.2 e1 he1
      apply hl
      apply List.eq_nil_iff_forall_not_mem.mpr
      intro j hj
      rw [(hrows e he).2.1] at hj
      obtain ⟨c, hbit, hcD, _⟩ :=
        (mem_live_file_row fs D hnd (fun d hd => (hD d hd).1) e.file_path j).mp hj
      apply hcD
      apply hS0bits (filename e1.file_path) hin' c
      simpa [filename, hp] using hbit
  obtain ⟨st, v, hrun, hinv, _, _⟩ := solve_oscp_run_state fs greedy S0 m
    (initialise_corpus_data m) runname weight_file (fresh_inv fs m.num_cols_orig) hm hcd hlen h0
    hinit (fun st st1 hok hi hr hc hs => fresh_inv_step fs greedy _ st st1 hok hi hr hc hs)
  refine ⟨4 * (m.num_rows + m.num_cols).toNat + 3,
    { solution := print_solution st.solution, data := st.data, corpus_data := st.corpus_data,
      verified := v }, ?_, ?_⟩
  · intro fuel hfuel
    simp only [moonlight_main, hpre, hmat]
    exact hrun fuel hfuel
  · show (print_solution st.solution).solution.Nodup
    simp only [print_solution]
    exact ((List.perm_insertionSort _ _).nodup_iff).mpr hinv.2.2.2.1

/-- Witness for C38: the corpus of `trio_files` in large-data mode with the
reduction rules. -/
theorem no_exemplar_twice_witness :
    ∃ (N : Nat) (res : SolveResult),
      (∀ fuel, N ≤ fuel →
        moonlight_main trio_files fuel ["a", "b", "c"] none true false "run" =
          Except.ok (some res)) ∧
      res.solution.solution.Nodup :=
  no_exemplar_twice trio_files ["a", "b", "c"] none true false "run" (by decide) (by decide)
    (fun records h => by cases h)

/-! ### The unitarian analytics -/

theorem find_unitarian_rows_loop_credit (U : List Int) (rows : List RowElem) :
    ∀ (r : Int) (c_data : List ExemplarData) (res : List Int × List ExemplarData), 0 ≤ r →
      find_unitarian_rows_loop U rows r c_data = Except.ok res →
      res.2 = credit res.1 c_data := by
  induction rows with
  | nil =>
    intro r cd res _ h
    simp only [find_unitarian_rows_loop] at h
    injection h with h
    subst h
    rfl
  | cons e rest ih =>
    intro r cd res hr h
    by_cases hu : has_unitarian_entry U e.column = true
    · simp only [find_unitarian_rows_loop, hu, if_true] at h
      cases hx : at_index cd r with
      | error err => rw [hx] at h; cases h
      | ok x =>
        rw [hx] at h
        simp only at h
        cases hrec : find_unitarian_rows_loop U rest (r + 1)
            (cd.set r.toNat { x with score_unitarian := x.score_unitarian + 1 }) with
        | error err => rw [hrec] at h; cases h
        | ok res1 =>
          rw [hrec] at h
          simp only at h
          injection h with h
          subst h
          have := ih (r + 1) _ res1 (by omega) hrec
          simp only [credit, List.foldl_cons]
          rw [((at_index_eq_ok cd r x).mp hx).2]
          exact this
    · simp only [find_unitarian_rows_loop, hu] at h
      exact ih (r + 1) cd res (by omega) h

theorem find_unitarian_rows_credit (m : Matrix) (U : List Int) (c_data : List ExemplarData)
    (res : List Int × List ExemplarData)
    (h : find_unitarian_rows m U c_data = Except.ok res) : res.2 = credit res.1 c_data := by
  unfold find_unitarian_rows at h
  cases hv : visited_rows m with
  | error err => rw [hv] at h; cases h
  | ok rows =>
    rw [hv] at h
    exact find_unitarian_rows_loop_credit U rows 0 c_data res (le_refl _) h

theorem eliminate_row_unitarians_credit (fs : FileSystem) (m : Matrix) (hm : matrix_wf m)
    (S : Solution) (cd : List ExemplarData) (hc : m.num_rows ≤ (cd.length : Int))
    (hcond : ¬ (m.num_rows = 0 ∨ m.num_cols = 0 ∨
      unity_columns (column_sums m.num_cols.toNat m.rowlist) 0 = [])) :
    eliminate_row_unitarians fs m S cd = Except.ok
      (true, reduced m (forced_rows m), add_all fs true S (selected_rows m (forced_rows m)),
        credit (forced_rows m) cd) := by
  obtain ⟨cd1, hf, _⟩ := find_unitarian_rows_ok m hm
    (unity_columns (column_sums m.num_cols.toNat m.rowlist) 0) cd hc
  have hcred := find_unitarian_rows_credit m _ cd _ hf
  obtain ⟨cd2, _, hel⟩ := eliminate_row_unitarians_ok fs m hm S cd hc
  rw [if_neg hcond] at hel
  have hr := unitarian_rows_range m hm
    (unity_columns (column_sums m.num_cols.toNat m.rowlist) 0)
  have hadd := add_rows_to_solution_ok fs m hm true _ S hr
  have hred := (reduce_ok m hm _ (unitarian_rows_nodup _ _ _) hr).1
  have h0 : ¬ (m.num_rows = 0 ∨ m.num_cols = 0) := fun h =>
    hcond (h.elim Or.inl (fun h => Or.inr (Or.inl h)))
  have hpos : (unity_columns (column_sums m.num_cols.toNat m.rowlist) 0).length > 0 :=
    List.length_pos.mpr (fun h => hcond (Or.inr (Or.inr h)))
  simp only [eliminate_row_unitarians, if_neg h0, get_column_sum_ok m hm, if_pos hpos, hf,
    hadd, hred]
  simp only at hcred
  rw [hcred]
  rfl

theorem credit_inv_step (fs : FileSystem) (st st1 : LoopState)
    (hok : loop_ok st) (hinv : credit_inv st) (hr : st.data.num_rows ≠ 0)
    (hc : st.data.num_cols ≠ 0) (hstep : solve_step fs false st = Except.ok st1) :
    credit_inv st1 := by
  have hab : ("a" : String) < "b" := String.lt_iff_toList_lt.mpr (by decide)
  obtain ⟨st2, hs2, hok1, _⟩ := solve_step_progress fs false st hok hr hc
  rw [hstep] at hs2
  injection hs2 with hs2
  subst hs2
  obtain ⟨hwf, hcd⟩ := hok
  rcases hinv with ⟨r1, r2, hrows, hcol, hlive, hw1, hw2, hp1, hp2, ho1, hfresh, hdata⟩ |
    ⟨r, hrows, hlive, hw1, hp, ho0, hfresh, hdata⟩ | ⟨hz, _⟩
  · by_cases h0 : st.option0 = true
    · obtain ⟨cd1, _, hel⟩ := eliminate_row_unitarians_ok fs st.data hwf st.solution
        st.corpus_data hcd
      have hU := twin_rows_no_unity st.data r1 r2 hrows hcol
      rw [if_pos (Or.inr (Or.inr hU))] at hel
      simp only [solve_step, h0, and_self, if_true, hel] at hstep
      injection hstep with hstep
      subst hstep
      left
      exact ⟨r1, r2, hrows, hcol, hlive, hw1, hw2, hp1, hp2, by simpa using ho1, hfresh, hdata⟩
    · obtain ⟨m1, r, hel, hrows1, hpr, hwr, hcr⟩ := twin_subset_step st.data hwf "a" "b" hab
        r1 r2 hrows hcol hw1 hw2 (Or.inr ⟨hp1, hp2⟩)
      have h0' : st.option0 = false := by simpa using h0
      simp only [solve_step, h0', ho1, and_true, Bool.false_eq_true, and_false, if_false,
        if_true, hel] at hstep
      injection hstep with hstep
      subst hstep
      right; left
      exact ⟨r, hrows1, by rw [hcr]; exact hlive, hwr, hpr, rfl, hfresh, hdata⟩
  · obtain ⟨hU, hforced, hsel⟩ := single_row_forced st.data hwf r hrows hlive
    have hcond : ¬ (st.data.num_rows = 0 ∨ st.data.num_cols = 0 ∨
        unity_columns (column_sums st.data.num_cols.toNat st.data.rowlist) 0 = []) := by
      rintro (h | h | h)
      · exact hr h
      · exact hc h
      · exact hU h
    have hel := eliminate_row_unitarians_credit fs st.data hwf st.solution st.corpus_data hcd
      hcond
    rw [hforced, hsel] at hel
    simp only [solve_step, ho0, and_self, if_true, hel] at hstep
    injection hstep with hstep
    subst hstep
    right; right
    obtain ⟨f1, _, _, _, _⟩ := add_all_fields fs true [r] st.solution
    obtain ⟨g1, _, _⟩ := hfresh
    have hnum : st.data.num_rows = 1 := by rw [hwf.1, hrows]; rfl
    have hle := reduced_num_rows st.data [0]
    have hge : 0 ≤ (reduced st.data [0]).num_rows := by
      have := hok1.1.1
      simp only at this
      rw [this]
      exact Int.natCast_nonneg _
    refine ⟨?_, ?_, ?_⟩
    · show (reduced st.data [0]).num_rows = 0
      simp only [List.length_singleton, Nat.cast_one] at hle
      omega
    · show (add_all fs true st.solution [r]).solution = ["a"]
      rw [f1, g1]
      simp [filename, hp]
    · show credit [0] st.corpus_data = _
      rw [hdata]
      simp [credit, twin_data]
  · exact absurd hz hr

/-- C33. The unitarian credit goes to the analytics entry at the row's
current index, not to the entry of the row's exemplar: for the two duplicates
`b` and `a` of scenario S2, stored in this order, with the analytics
initialised from the matrix, `solve_oscp` removes row `b` by the subset-row
rule, then finds row `a`, now at index 0, as unitarian, and returns the
solution `[a]` with `score_unitarian` raised to 1 on the entry of `b` and
left at 0 on the entry of `a`. -/
theorem unitarian_credit_goes_to_row_index :
    ∃ res : SolveResult,
      matrix_from_corpus twin_files ["b", "a"] none [] = Except.ok (twin_matrix "b" "a") ∧
      (initialise_corpus_data (twin_matrix "b" "a")).map
        (fun x => (x.file_path, x.score_unitarian)) = [("b", 0), ("a", 0)] ∧
      (∀ fuel, 43 ≤ fuel →
        solve_oscp twin_files fuel Solution.empty (twin_matrix "b" "a")
          (initialise_corpus_data (twin_matrix "b" "a")) "run" false none =
          Except.ok (some res)) ∧
      res.solution.solution = ["a"] ∧
      res.corpus_data.map (fun x => (x.file_path, x.score_unitarian)) =
        [("b", 1), ("a", 0)] := by
  have hentry : entry_matrix (twin_matrix "b" "a") =
      { num_rows := 2, num_cols := 2, num_cols_orig := 8, num_elems := 4,
        rowlist := [twin_row "b", twin_row "a"] } := rfl
  obtain ⟨st, v, hrun, hinv, hok, hfin⟩ := solve_oscp_run_state twin_files false Solution.empty
    (twin_matrix "b" "a") (initialise_corpus_data (twin_matrix "b" "a")) "run" none credit_inv
    (twin_matrix_wf "b" "a") (by show (2 : Int) ≤ ((2 : Nat) : Int); decide)
    ⟨rfl, by
      intro e _
      show (((twin_files e.file_path).flatMap byte_bits).length : Int) ≤ 8
      simp [twin_files, byte_bits], by
      intro row hrow
      simp [Solution.empty] at hrow⟩
    (by show (0 : Int) ≤ 8; decide)
    (by
      left
      refine ⟨twin_row "b", twin_row "a", by rw [hentry], rfl,
        by show live [0, 1] ≠ []; decide, rfl, rfl, rfl, rfl, rfl, ?_, ?_⟩
      · have hf := entry_solution_fields (twin_matrix "b" "a")
          (labelled Solution.empty (twin_matrix "b" "a") "run" false)
        exact ⟨hf.2.1, hf.2.2.1, hf.2.2.2⟩
      · show initialise_corpus_data (twin_matrix "b" "a") = _
        simp [initialise_corpus_data, twin_matrix, twin_row, twin_data])
    (fun st st1 hok hinv hr hc hstep => credit_inv_step twin_files st st1 hok hinv hr hc hstep)
  refine ⟨_, rfl, ?_, fun fuel hfuel => hrun fuel (by
    have : 4 * ((twin_matrix "b" "a").num_rows + (twin_matrix "b" "a").num_cols).toNat + 3
      = 43 := rfl
    omega), ?_⟩
  · simp [initialise_corpus_data, twin_matrix, twin_row]
  rcases hinv with ⟨r1, r2, hrows, _, hlive, _⟩ | ⟨r, hrows, hlive, _⟩ | ⟨_, h1, h2⟩
  · exfalso
    have hn := hok.1.1
    rw [hrows] at hn
    obtain ⟨c, hc⟩ := List.exists_mem_of_ne_nil _ hlive
    have hrg := (hok.1.2.2.2 r1 (by rw [hrows]; simp)).2.2 c hc
    simp only [List.length_cons, List.length_nil] at hn
    rcases hfin with h | h <;> omega
  · exfalso
    have hn := hok.1.1
    rw [hrows] at hn
    obtain ⟨c, hc⟩ := List.exists_mem_of_ne_nil _ hlive
    have hrg := (hok.1.2.2.2 r (by rw [hrows]; simp)).2.2 c hc
    simp only [List.length_cons, List.length_nil] at hn
    rcases hfin with h | h <;> omega
  · refine ⟨?_, ?_⟩
    · show (print_solution st.solution).solution = ["a"]
      simp [print_solution, h1]
    · show st.corpus_data.map (fun x => (x.file_path, x.score_unitarian)) = _
      rw [h2]
      simp [twin_data]

/-! ### The rules on a matrix whose rows are known up to their order -/

theorem column_count_perm (l1 l2 : List RowElem) (h : l1.Perm l2) (c : Int) :
    column_count l1 c = column_count l2 c := by
  unfold column_count
  exact (h.map _).sum_eq

theorem column_sums_perm (W : Nat) (l1 l2 : List RowElem) (h : l1.Perm l2) :
    column_sums W l1 = column_sums W l2 := by
  unfold column_sums
  apply List.map_congr_left
  intro c _
  exact column_count_perm l1 l2 h _

theorem beaten_perm (l1 l2 : List RowElem) (h : l1.Perm l2) (e : RowElem) :
    beaten l1 e ↔ beaten l2 e := by
  unfold beaten
  constructor
  · rintro ⟨a, ha, hb⟩; exact ⟨a, h.mem_iff.mp ha, hb⟩
  · rintro ⟨a, ha, hb⟩; exact ⟨a, h.mem_iff.mpr ha, hb⟩

theorem distinct_paths_of_perm (m : Matrix) (R : List RowElem) (hperm : m.rowlist.Perm R)
    (hR : (R.map (fun e => e.file_path)).Nodup) : distinct_paths m :=
  ((hperm.map _).nodup_iff).mpr hR

theorem delete_positions_from_filter {α : Type} (D : List Int) (P : α → Bool) (xs : List α) :
    ∀ k : Nat, (∀ (i : Nat) (x : α), xs[i]? = some x →
        (((k + i : Nat) : Int) ∈ D ↔ P x = true)) →
      delete_positions_from D k xs = xs.filter (fun x => !P x) := by
  induction xs with
  | nil => intro k _; rfl
  | cons x xs ih =>
    intro k h
    have h0 := h 0 x (by simp)
    have hrec := ih (k + 1) (fun i x1 hx => by
      have := h (i + 1) x1 (by simpa using hx)
      have e : k + 1 + i = k + (i + 1) := by omega
      rw [e]; exact this)
    simp only [delete_positions_from, List.filter_cons]
    by_cases hk : ((k : Nat) : Int) ∈ D
    · have hp : P x = true := h0.mp (by simpa using hk)
      simp only [hk, if_true, hp, Bool.not_true, Bool.false_eq_true, if_false]
      exact hrec
    · have hp : P x = false := by
        cases hpx : P x with
        | false => rfl
        | true => exact absurd (h0.mpr hpx) (by simpa using hk)
      simp only [hk, if_false, hp, Bool.not_false, if_true]
      rw [hrec]

theorem eliminate_subset_rows_filter (m : Matrix) (hm : matrix_wf m) (hd : distinct_paths m) :
    ∃ m1, eliminate_subset_rows m = Except.ok
        (m.rowlist.any (fun e => decide (beaten m.rowlist e)), m1) ∧
      m1.rowlist = m.rowlist.filter (fun e => !decide (beaten m.rowlist e)) ∧
      m1.num_cols = m.num_cols ∧ m1.num_cols_orig = m.num_cols_orig := by
  obtain ⟨result, hfind, _, _, _, hel, _⟩ := eliminate_subset_rows_ok m hm
  have hiff := find_subset_rows_iff m hm hd result hfind
  have hidx : ∀ (i : Nat) (x : RowElem), m.rowlist[i]? = some x →
      (((0 + i : Nat) : Int) ∈ result ↔ decide (beaten m.rowlist x) = true) := by
    intro i x hx
    rw [Nat.zero_add, hiff (i : Int)]
    have hrow : row_at m (i : Int) = some x := by simp [row_at, hx]
    rw [hrow]
    simp
  have hfilter : delete_positions result m.rowlist =
      m.rowlist.filter (fun e => !decide (beaten m.rowlist e)) :=
    delete_positions_from_filter result _ m.rowlist 0 hidx
  by_cases hres : result = []
  · rw [if_pos hres] at hel
    refine ⟨m, ?_, ?_, rfl, rfl⟩
    · rw [hel]
      have : m.rowlist.any (fun e => decide (beaten m.rowlist e)) = false := by
        apply List.any_eq_false.mpr
        intro e he hb
        obtain ⟨i, hi⟩ := List.mem_iff_getElem?.mp he
        have := (hidx i e hi).mpr hb
        rw [hres] at this
        cases this
      rw [this]
    · rw [← hfilter, hres, delete_positions_nil]
  · rw [if_neg hres] at hel
    refine ⟨delete_rows result m, ?_, hfilter, rfl, rfl⟩
    rw [hel]
    have : m.rowlist.any (fun e => decide (beaten m.rowlist e)) = true := by
      obtain ⟨b, hb⟩ := List.exists_mem_of_ne_nil _ hres
      obtain ⟨eb, heb, hbeat⟩ := (hiff b).mp hb
      apply List.any_eq_true.mpr
      exact ⟨eb, (row_at_mem m b eb heb).1, by simpa using hbeat⟩
    rw [this]

theorem eliminate_subset_rows_perm (m : Matrix) (hm : matrix_wf m) (R : List RowElem)
    (hperm : m.rowlist.Perm R) (hR : (R.map (fun e => e.file_path)).Nodup) :
    ∃ m1, eliminate_subset_rows m = Except.ok
        (R.any (fun e => decide (beaten R e)), m1) ∧
      m1.rowlist.Perm (R.filter (fun e => !decide (beaten R e))) ∧
      m1.num_cols = m.num_cols ∧ m1.num_cols_orig = m.num_cols_orig := by
  obtain ⟨m1, hel, hrows, hcols, horig⟩ := eliminate_subset_rows_filter m hm
    (distinct_paths_of_perm m R hperm hR)
  have hfun : (fun e => decide (beaten m.rowlist e)) = (fun e => decide (beaten R e)) := by
    funext e
    exact decide_eq_decide.mpr (beaten_perm _ _ hperm e)
  have hfun2 : (fun e => !decide (beaten m.rowlist e)) = (fun e => !decide (beaten R e)) := by
    funext e
    rw [decide_eq_decide.mpr (beaten_perm _ _ hperm e)]
  have hany : m.rowlist.any (fun e => decide (beaten R e)) =
      R.any (fun e => decide (beaten R e)) := by
    apply Bool.eq_iff_iff.mpr
    simp only [List.any_eq_true]
    constructor
    · rintro ⟨e, he, h⟩; exact ⟨e, hperm.mem_iff.mp he, h⟩
    · rintro ⟨e, he, h⟩; exact ⟨e, hperm.mem_iff.mpr he, h⟩
  refine ⟨m1, ?_, ?_, hcols, horig⟩
  · rw [hel, hfun, hany]
  · rw [hrows, hfun2]
    exact hperm.filter _

theorem projected_single (m : Matrix) (hm : matrix_wf m) (row : Int) (e : RowElem)
    (he : row_at m row = some e) : dedup (projected_columns m [row]) = live e.column := by
  apply sorted_ext _ _ (index_set_sorted _) (hm.2.2.2 e (row_at_mem m row e he).1).2.1
  intro c
  rw [mem_index_set, mem_projected_columns m hm [row] c]
  constructor
  · rintro ⟨r, hr, e1, he1, hc⟩
    rw [List.mem_singleton] at hr
    subst hr
    rw [he] at he1
    injection he1 with he1
    subst he1
    exact hc
  · intro hc
    exact ⟨row, List.mem_singleton_self _, e, he, hc⟩

theorem reduced_single_rows (m : Matrix) (hm : matrix_wf m) (hd : distinct_paths m)
    (row : Int) (e : RowElem) (he : row_at m row = some e) :
    (reduced m [row]).rowlist.Perm
      (((m.rowlist.filter (fun e0 => decide (e0.file_path ≠ e.file_path))).map
        (relocate_row (live e.column))).filter (fun e1 => decide (e1.row_sum ≠ 0))) ∧
    (reduced m [row]).num_cols = m.num_cols - ((live e.column).length : Int) := by
  have hD := projected_single m hm row e he
  constructor
  · have hnd1 : (reduced m [row]).rowlist.Nodup :=
      List.Nodup.of_map _ (rows_kept_distinct _ _ (rows_kept_reduced m [row]) hd)
    have hnd2 : (((m.rowlist.filter (fun e0 => decide (e0.file_path ≠ e.file_path))).map
        (relocate_row (live e.column))).filter (fun e1 => decide (e1.row_sum ≠ 0))).Nodup := by
      apply List.Nodup.of_map (fun e => e.file_path)
      have h1 : ((((m.rowlist.filter (fun e0 => decide (e0.file_path ≠ e.file_path))).map
          (relocate_row (live e.column))).filter (fun e1 => decide (e1.row_sum ≠ 0))).map
          (fun e => e.file_path)).Sublist
          (((m.rowlist.filter (fun e0 => decide (e0.file_path ≠ e.file_path))).map
          (relocate_row (live e.column))).map (fun e => e.file_path)) :=
        (List.filter_sublist _).map _
      rw [List.map_map] at h1
      have h2 : ((m.rowlist.filter (fun e0 => decide (e0.file_path ≠ e.file_path))).map
          ((fun e => e.file_path) ∘ relocate_row (live e.column))).Sublist
          (m.rowlist.map (fun e => e.file_path)) := (List.filter_sublist _).map _
      exact (h1.trans h2).nodup hd
    apply (List.perm_ext_iff_of_nodup hnd1 hnd2).mpr
    intro e1
    constructor
    · intro h1
      obtain ⟨i, e0, hi0, hir, hrel, hsum⟩ := mem_reduced_rowlist m [row] e1 h1
      have hrow0 : row_at m (i : Int) = some e0 := by simp [row_at, hi0]
      have hne : e0.file_path ≠ e.file_path := by
        intro hp
        have := row_at_path_inj m hd (i : Int) row e0 e hrow0 he hp
        exact hir (by rw [this]; exact List.mem_singleton_self _)
      apply List.mem_filter.mpr
      refine ⟨?_, by simpa using hsum⟩
      apply List.mem_map.mpr
      refine ⟨e0, List.mem_filter.mpr ⟨(row_at_mem m _ e0 hrow0).1, by simpa using hne⟩, ?_⟩
      rw [hrel, hD]
    · intro h1
      obtain ⟨h2, hsum⟩ := List.mem_filter.mp h1
      obtain ⟨e0, h3, hrel⟩ := List.mem_map.mp h2
      obtain ⟨h4, hne⟩ := List.mem_filter.mp h3
      obtain ⟨i, hi⟩ := List.mem_iff_getElem?.mp h4
      have hir : (i : Int) ∉ [row] := by
        intro hmem
        rw [List.mem_singleton] at hmem
        have hrow0 : row_at m (i : Int) = some e0 := by simp [row_at, hi]
        rw [hmem, he] at hrow0
        injection hrow0 with hrow0
        subst hrow0
        simp at hne
      have := reduced_rowlist_mem m [row] i e0 hi hir (by
        rw [hD, hrel]; simpa using hsum)
      rw [hD, hrel] at this
      exact this
  · rw [reduced_num_cols, hD]

/-! ### Scenario S4 -/

theorem closing_inv_step (fs : FileSystem) (r : RowElem) (S : Solution) (st st1 : LoopState)
    (hlive : live r.column ≠ []) (hok : loop_ok st) (hinv : closing_inv fs r S st)
    (hr : st.data.num_rows ≠ 0) (hc : st.data.num_cols ≠ 0)
    (hstep : solve_step fs false st = Except.ok st1) : closing_inv fs r S st1 := by
  obtain ⟨st2, hs2, hok1, _⟩ := solve_step_progress fs false st hok hr hc
  rw [hstep] at hs2
  injection hs2 with hs2
  subst hs2
  obtain ⟨hwf, hcd⟩ := hok
  rcases hinv with ⟨hrows, ho0, hsol⟩ | ⟨hz, _⟩
  · obtain ⟨cd1, _, hel⟩ := eliminate_row_unitarians_ok fs st.data hwf st.solution
      st.corpus_data hcd
    obtain ⟨hU, hforced, hsel⟩ := single_row_forced st.data hwf r hrows hlive
    have hcond : ¬ (st.data.num_rows = 0 ∨ st.data.num_cols = 0 ∨
        unity_columns (column_sums st.data.num_cols.toNat st.data.rowlist) 0 = []) := by
      rintro (h | h | h)
      · exact hr h
      · exact hc h
      · exact hU h
    have hforced' : unitarian_rows
        (unity_columns (column_sums st.data.num_cols.toNat st.data.rowlist) 0)
        st.data.rowlist 0 = [0] := hforced
    rw [if_neg hcond, hforced', hsel] at hel
    simp only [solve_step, ho0, and_self, if_true, hel] at hstep
    injection hstep with hstep
    subst hstep
    right
    have hnum : st.data.num_rows = 1 := by rw [hwf.1, hrows]; rfl
    have hle := reduced_num_rows st.data [0]
    have hge : 0 ≤ (reduced st.data [0]).num_rows := by
      have := hok1.1.1
      simp only at this
      rw [this]
      exact Int.natCast_nonneg _
    refine ⟨?_, ?_⟩
    · show (reduced st.data [0]).num_rows = 0
      simp only [List.length_singleton, Nat.cast_one] at hle
      omega
    · show add_all fs true st.solution [r] = _
      rw [hsol]
  · exact absurd hz hr

theorem closing_inv_final (fs : FileSystem) (r : RowElem) (S : Solution) (st : LoopState)
    (hlive : live r.column ≠ []) (hok : loop_ok st) (hinv : closing_inv fs r S st)
    (hfin : st.data.num_rows = 0 ∨ st.data.num_cols = 0) :
    st.solution = add_all fs true S [r] := by
  rcases hinv with ⟨hrows, _, _⟩ | ⟨_, h⟩
  · exfalso
    have hn := hok.1.1
    rw [hrows] at hn
    obtain ⟨c, hc⟩ := List.exists_mem_of_ne_nil _ hlive
    have hrg := (hok.1.2.2.2 r (by rw [hrows]; simp)).2.2 c hc
    simp only [List.length_cons, List.length_nil] at hn
    rcases hfin with h | h <;> omega
  · exact h

theorem dominated_inv_step (S : Solution) (st st1 : LoopState)
    (hok : loop_ok st) (hinv : dominated_inv S st) (hr : st.data.num_rows ≠ 0)
    (hc : st.data.num_cols ≠ 0) (hstep : solve_step dominated_files false st = Except.ok st1) :
    dominated_inv S st1 := by
  rcases hinv with ⟨hperm, hcols, ho1, hsol⟩ | hclose
  · obtain ⟨hwf, hcd⟩ := hok
    by_cases h0 : st.option0 = true
    · obtain ⟨cd1, _, hel⟩ := eliminate_row_unitarians_ok dominated_files st.data hwf
        st.solution st.corpus_data hcd
      have hU : unity_columns (column_sums st.data.num_cols.toNat st.data.rowlist) 0 = [] := by
        rw [hcols, column_sums_perm _ _ _ hperm]
        rfl
      rw [if_pos (Or.inr (Or.inr hU))] at hel
      simp only [solve_step, h0, and_self, if_true, hel] at hstep
      injection hstep with hstep
      subst hstep
      left
      exact ⟨hperm, hcols, by simpa using ho1, hsol⟩
    · obtain ⟨m1, hel, hrows1, _, _⟩ := eliminate_subset_rows_perm st.data hwf _ hperm
        (by show (["x", "y", "z"] : List String).Nodup; decide)
      have hany : [dominated_row "x", dominated_row "y", dominated_row "z"].any
          (fun e => decide (beaten [dominated_row "x", dominated_row "y", dominated_row "z"] e))
          = true := by decide
      have hfil : [dominated_row "x", dominated_row "y", dominated_row "z"].filter
          (fun e => !decide
            (beaten [dominated_row "x", dominated_row "y", dominated_row "z"] e))
          = [dominated_row "z"] := by decide
      rw [hany] at hel
      rw [hfil] at hrows1
      have h0' : st.option0 = false := by simpa using h0
      simp only [solve_step, h0', ho1, and_true, Bool.false_eq_true, and_false, if_false,
        if_true, hel] at hstep
      injection hstep with hstep
      subst hstep
      right; left
      exact ⟨List.perm_singleton.mp hrows1, rfl, hsol⟩
  · right
    exact closing_inv_step dominated_files _ S st st1 (by decide) hok hclose hr hc hstep

theorem dominated_run (m : Matrix) (hm : matrix_wf m) (hcols : m.num_cols = 8)
    (horig : m.num_cols_orig = 8)
    (hperm : m.rowlist.Perm [dominated_row "x", dominated_row "y", dominated_row "z"]) :
    ∃ res : SolveResult,
      (∀ fuel, 47 ≤ fuel →
        solve_oscp dominated_files fuel Solution.empty m (initialise_corpus_data m) "run"
          false none = Except.ok (some res)) ∧
      res.solution.solution = ["z"] ∧ res.solution.weight = 1 ∧
      res.solution.num_non_optimal = 0 := by
  have hnum : m.num_rows = 3 := by rw [hm.1, hperm.length_eq]; rfl
  have hentry : entry_columns m = [2, 3, 4, 5, 6, 7] := by
    unfold entry_columns
    rw [hcols, column_sums_perm _ _ _ hperm]
    rfl
  have hdata : entry_matrix m = relocate_matrix [2, 3, 4, 5, 6, 7] m := by
    unfold entry_matrix
    rw [hentry]
    rfl
  obtain ⟨st, v, hrun, hinv, hok, hfin⟩ := solve_oscp_run_state dominated_files false
    Solution.empty m (initialise_corpus_data m) "run" none
    (dominated_inv (entry_solution m (labelled Solution.empty m "run" false)))
    hm (by rw [hm.1]; simp [initialise_corpus_data])
    ⟨rfl, by
      intro e _
      rw [horig]
      show (((dominated_files e.file_path).flatMap byte_bits).length : Int) ≤ 8
      unfold dominated_files
      split_ifs <;> simp [byte_bits], by
      intro row hrow
      simp [Solution.empty] at hrow⟩
    (by rw [horig]; decide)
    (by
      left
      refine ⟨?_, ?_, rfl, rfl⟩
      · show (entry_matrix m).rowlist.Perm _
        rw [hdata]
        exact (hperm.map (relocate_row [2, 3, 4, 5, 6, 7]))
      · show (entry_matrix m).num_cols = 2
        rw [hdata]
        show m.num_cols - 6 = 2
        omega)
    (fun st st1 hok hinv hr hc hstep => dominated_inv_step _ st st1 hok hinv hr hc hstep)
  refine ⟨_, fun fuel hfuel => hrun fuel (by rw [hnum, hcols]; exact hfuel), ?_⟩
  have hsol : st.solution = add_all dominated_files true
      (entry_solution m (labelled Solution.empty m "run" false)) [dominated_row "z"] := by
    rcases hinv with ⟨hp, hc2, _, _⟩ | hclose
    · exfalso
      have hn := hok.1.1
      rw [hp.length_eq] at hn
      simp only [List.length_cons, List.length_nil] at hn
      rcases hfin with h | h <;> omega
    · exact closing_inv_final dominated_files _ _ st (by decide) hok hclose hfin
  obtain ⟨f1, _, f3, _, f5⟩ := add_all_fields dominated_files true [dominated_row "z"]
    (entry_solution m (labelled Solution.empty m "run" false))
  have hf := entry_solution_fields m (labelled Solution.empty m "run" false)
  refine ⟨?_, ?_, ?_⟩
  · show (print_solution st.solution).solution = ["z"]
    simp only [print_solution]
    rw [hsol, f1, hf.2.1]
    rfl
  · show (print_solution st.solution).weight = 1
    simp only [print_solution]
    rw [hsol, f3, hf.2.2.1]
    simp [labelled, Solution.empty, dominated_row, example_row]
  · show (print_solution st.solution).num_non_optimal = 0
    simp only [print_solution]
    rw [hsol, f5, hf.2.2.2]
    simp [labelled, Solution.empty]

theorem dominated_matrix_wf (names : List String) (h : names.Perm ["x", "y", "z"]) :
    matrix_wf (dominated_matrix names) ∧
      (dominated_matrix names).rowlist.Perm
        [dominated_row "x", dominated_row "y", dominated_row "z"] := by
  have hp : (names.map dominated_row).Perm (["x", "y", "z"].map dominated_row) := h.map _
  have hlen : names.length = 3 := h.length_eq
  refine ⟨⟨?_, by show (0 : Int) ≤ 8; decide, ?_, ?_⟩, hp⟩
  · show (3 : Int) = ((names.map dominated_row).length : Int)
    rw [List.length_map, hlen]; rfl
  · show (4 : Int) = total_row_sum (names.map dominated_row)
    rw [total_row_sum_perm _ _ hp]
    rfl
  · intro e he
    have hall : ∀ e ∈ (["x", "y", "z"] : List String).map dominated_row, row_wf 8 e := by
      decide
    exact hall e (hp.mem_iff.mp he)

theorem dominated_matrix_built (names : List String) (h : names.Perm ["x", "y", "z"]) :
    matrix_from_corpus dominated_files names none [] = Except.ok (dominated_matrix names) := by
  have hmem := List.mem_permutations.mpr h
  simp [List.permutations, List.permutationsAux, List.permutationsAux.rec] at hmem
  rcases hmem with rfl | rfl | rfl | rfl | rfl | rfl <;> rfl

/-- Counterexample for C31: scenario S4, the files being listed in the order
`x`, `y`, `z`: the matrix is built, `solve_oscp` returns, and neither `x` nor
`y` is in the returned solution, whose only member is `z`. -/
theorem scenario_dominated_not_x_y :
    ∃ res : SolveResult,
      matrix_from_corpus dominated_files ["x", "y", "z"] none [] =
        Except.ok (dominated_matrix ["x", "y", "z"]) ∧
      (∀ fuel, 47 ≤ fuel →
        solve_oscp dominated_files fuel Solution.empty (dominated_matrix ["x", "y", "z"])
          (initialise_corpus_data (dominated_matrix ["x", "y", "z"])) "run" false none =
          Except.ok (some res)) ∧
      "x" ∉ res.solution.solution ∧ "y" ∉ res.solution.solution ∧
      "z" ∈ res.solution.solution := by
  obtain ⟨hwf, hperm⟩ := dominated_matrix_wf ["x", "y", "z"] (List.Perm.refl _)
  obtain ⟨res, hrun, hsol, _, _⟩ := dominated_run (dominated_matrix ["x", "y", "z"]) hwf rfl rfl
    hperm
  refine ⟨res, rfl, hrun, ?_, ?_, ?_⟩ <;> rw [hsol] <;> decide

/-- C31. Scenario S4: for the unweighted corpus of the three
one-byte files `x = 0b10000000`, `y = 0b01000000`, `z = 0b11000000`, listed
in any order, the matrix is built and `solve_oscp` with `greedy` false
returns on it the solution `[z]` with weight 1 and `num_non_optimal` zero:
the rows `x` and `y` are subsets of the row `z` of the same weight and are
removed by the subset-row rule, after which `z` is a row unitarian. -/
theorem scenario_dominated (names : List String) (h : names.Perm ["x", "y", "z"]) :
    ∃ res : SolveResult,
      matrix_from_corpus dominated_files names none [] =
        Except.ok (dominated_matrix names) ∧
      (∀ fuel, 47 ≤ fuel →
        solve_oscp dominated_files fuel Solution.empty (dominated_matrix names)
          (initialise_corpus_data (dominated_matrix names)) "run" false none =
          Except.ok (some res)) ∧
      res.solution.solution = ["z"] ∧ res.solution.weight = 1 ∧
      res.solution.num_non_optimal = 0 := by
  obtain ⟨hwf, hperm⟩ := dominated_matrix_wf names h
  obtain ⟨res, hrun, hsol⟩ := dominated_run (dominated_matrix names) hwf rfl rfl hperm
  exact ⟨res, dominated_matrix_built names h, hrun, hsol⟩

/-- Witness for C31: the files listed in the order `z`, `x`, `y`. -/
theorem scenario_dominated_witness :
    ∃ res : SolveResult,
      matrix_from_corpus dominated_files ["z", "x", "y"] none [] =
        Except.ok (dominated_matrix ["z", "x", "y"]) ∧
      (∀ fuel, 47 ≤ fuel →
        solve_oscp dominated_files fuel Solution.empty (dominated_matrix ["z", "x", "y"])
          (initialise_corpus_data (dominated_matrix ["z", "x", "y"])) "run" false none =
          Except.ok (some res)) ∧
      res.solution.solution = ["z"] ∧ res.solution.weight = 1 ∧
      res.solution.num_non_optimal = 0 :=
  scenario_dominated ["z", "x", "y"]
    (List.perm_append_comm : (["z"] ++ ["x", "y"]).Perm (["x", "y"] ++ ["z"]))

/-! ### Scenario S6 -/

theorem find_superset_cols_sorted (m : Matrix) (hm : matrix_wf m) (result : List Int)
    (h : find_superset_cols m = Except.ok result) : result.Pairwise (fun a b => a < b) := by
  obtain ⟨sup, _, hres⟩ := find_superset_cols_eq m hm result h
  rw [hres]
  exact index_set_sorted _

theorem weighted_superset_cols (m : Matrix) (hm : matrix_wf m) (hcols : m.num_cols = 4)
    (hperm : m.rowlist.Perm weighted_rows4) :
    eliminate_superset_cols m = Except.ok (true, relocate_matrix [0, 2] m) := by
  obtain ⟨result, hfind, _, hrg, hsound, hel, _⟩ := eliminate_superset_cols_ok m hm
  have hsorted := find_superset_cols_sorted m hm result hfind
  have hmem : ∀ e, e ∈ m.rowlist ↔ e ∈ weighted_rows4 := fun e => hperm.mem_iff
  have h01 : (0 : Int) ∈ result := by
    apply find_superset_cols_complete m hm result hfind 0 1 (by decide)
    · exact ⟨weighted_row "a" [0, 1], (hmem _).mpr (by decide), by decide⟩
    · intro r e he
      have hall : ∀ e ∈ weighted_rows4,
          ((0 : Int) ∈ live e.column ↔ (1 : Int) ∈ live e.column) := by decide
      exact hall e ((hmem e).mp (row_at_mem m r e he).1)
  have h23 : (2 : Int) ∈ result := by
    apply find_superset_cols_complete m hm result hfind 2 3 (by decide)
    · exact ⟨weighted_row "b" [2, 3], (hmem _).mpr (by decide), by decide⟩
    · intro r e he
      have hall : ∀ e ∈ weighted_rows4,
          ((2 : Int) ∈ live e.column ↔ (3 : Int) ∈ live e.column) := by decide
      exact hall e ((hmem e).mp (row_at_mem m r e he).1)
  have hnot : ∀ x ∈ result, ∀ y, (y = 1 ∨ y = 3) → x = y →
      (∀ a, (a = 1 ∨ a = 3) → a ≠ y → ∃ e ∈ weighted_rows4, a ∈ live e.column ∧
        y ∉ live e.column) → False := by
    intro x hx y hy hxy hrows
    subst hxy
    obtain ⟨a, ha, ha0, ha1, _, hsub⟩ := hsound x hx
    rw [hcols] at ha1
    have hane0 : a ≠ 0 := fun h => ha (h ▸ h01)
    have hane2 : a ≠ 2 := fun h => ha (h ▸ h23)
    have hanex : a ≠ x := fun h => ha (h ▸ hx)
    have hcase : a = 1 ∨ a = 3 := by omega
    obtain ⟨e, he, hae, hxe⟩ := hrows a hcase hanex
    exact hxe (hsub e ((hmem e).mpr he) hae)
  have hres : result = [0, 2] := by
    apply sorted_ext result [0, 2] hsorted (by decide)
    intro x
    constructor
    · intro hx
      have hr := hrg x hx
      rw [hcols] at hr
      have hcase : x = 0 ∨ x = 1 ∨ x = 2 ∨ x = 3 := by omega
      rcases hcase with h | h | h | h
      · subst h; decide
      · exfalso
        apply hnot x hx 1 (Or.inl rfl) h
        intro a ha hne
        rcases ha with rfl | rfl
        · exact absurd rfl hne
        · exact ⟨weighted_row "b" [2, 3], by decide, by decide, by decide⟩
      · subst h; decide
      · exfalso
        apply hnot x hx 3 (Or.inr rfl) h
        intro a ha hne
        rcases ha with rfl | rfl
        · exact ⟨weighted_row "a" [0, 1], by decide, by decide, by decide⟩
        · exact absurd rfl hne
    · intro hx
      simp only [List.mem_cons, List.mem_singleton, List.not_mem_nil, or_false] at hx
      rcases hx with rfl | rfl
      · exact h01
      · exact h23
  rw [hres, if_neg (by decide)] at hel
  exact hel

theorem weighted_greedy (m : Matrix) (hm : matrix_wf m) (hcols : m.num_cols = 2)
    (hperm : m.rowlist.Perm weighted_rows2) (S : Solution) :
    ∃ m1, eliminate_max_score weighted_files m S = Except.ok
        (true, m1, S.add_to_soln "a" (get_exemplar_data weighted_files "a") 1 false) ∧
      m1.rowlist.Perm weighted_rows1 ∧ m1.num_cols = 1 := by
  have hab : ("a" : String) < "b" := String.lt_iff_toList_lt.mpr (by decide)
  have hd : distinct_paths m := distinct_paths_of_perm m _ hperm
    (by show (["a", "b", "c"] : List String).Nodup; decide)
  have hnum : m.num_rows ≠ 0 := by
    rw [hm.1, hperm.length_eq]
    decide
  obtain ⟨row, e, he, hel, hmax, htie⟩ := eliminate_max_score_choice weighted_files m hm S hnum
    (row_at_path_inj m hd)
  have hmem : ∀ e, e ∈ m.rowlist ↔ e ∈ weighted_rows2 := fun e => hperm.mem_iff
  have hina : weighted_row "a" [DELETED, 0] ∈ m.rowlist := (hmem _).mpr (by decide)
  have hsa : row_score (weighted_row "a" [DELETED, 0]) = 1 := by
    simp [row_score, weighted_row, live_count, DELETED]
  have hsb : row_score (weighted_row "b" [DELETED, 1]) = 1 := by
    simp [row_score, weighted_row, live_count, DELETED]
  have hsc : row_score (weighted_row "c" [DELETED, 0, DELETED, 1]) = 2 / 10 := by
    simp [row_score, weighted_row, live_count, DELETED]
  have hea : e = weighted_row "a" [DELETED, 0] := by
    have hin := (hmem e).mp (row_at_mem m row e he).1
    simp only [weighted_rows2, List.mem_cons, List.mem_singleton, List.not_mem_nil,
      or_false] at hin
    rcases hin with h | h | h
    · exact h
    · exfalso
      obtain ⟨r1, hr1⟩ := row_at_of_mem m _ hina
      rcases htie r1 _ hr1 (by rw [h, hsa, hsb]) with h1 | h1
      · subst h1
        rw [he] at hr1
        injection hr1 with hr1
        rw [h] at hr1
        have := congrArg RowElem.file_path hr1
        revert this
        decide
      · rw [h] at h1
        exact lt_asymm hab h1
    · exfalso
      have := hmax _ hina
      rw [h, hsa, hsc] at this
      norm_num at this
  subst hea
  obtain ⟨hrows, hc1⟩ := reduced_single_rows m hm hd row _ he
  refine ⟨reduced m [row], hel, ?_, ?_⟩
  · refine hrows.trans ?_
    have hp := ((hperm.filter (fun e0 => decide (e0.file_path ≠
      (weighted_row "a" [DELETED, 0]).file_path))).map
      (relocate_row (live (weighted_row "a" [DELETED, 0]).column))).filter
      (fun e1 => decide (e1.row_sum ≠ 0))
    refine hp.trans ?_
    have : ((weighted_rows2.filter (fun e0 => decide (e0.file_path ≠
        (weighted_row "a" [DELETED, 0]).file_path))).map
        (relocate_row (live (weighted_row "a" [DELETED, 0]).column))).filter
        (fun e1 => decide (e1.row_sum ≠ 0)) = weighted_rows1 := by decide
    rw [this]
  · rw [hc1, hcols]
    rfl

theorem weighted_inv_step (S : Solution) (st st1 : LoopState)
    (hok : loop_ok st) (hinv : weighted_inv S st) (hr : st.data.num_rows ≠ 0)
    (hc : st.data.num_cols ≠ 0) (hstep : solve_step weighted_files false st = Except.ok st1) :
    weighted_inv S st1 := by
  rcases hinv with ⟨hperm, hcols, ho2, hsol⟩ | ⟨hperm, hcols, ho0, ho2, hsol⟩ |
    ⟨hperm, hcols, ho1, hsol⟩ | hclose
  · obtain ⟨hwf, hcd⟩ := hok
    by_cases h0 : st.option0 = true
    · obtain ⟨cd1, _, hel⟩ := eliminate_row_unitarians_ok weighted_files st.data hwf
        st.solution st.corpus_data hcd
      have hU : unity_columns (column_sums st.data.num_cols.toNat st.data.rowlist) 0 = [] := by
        rw [hcols, column_sums_perm _ _ _ hperm]
        rfl
      rw [if_pos (Or.inr (Or.inr hU))] at hel
      simp only [solve_step, h0, and_self, if_true, hel] at hstep
      injection hstep with hstep
      subst hstep
      left
      exact ⟨hperm, hcols, ho2, hsol⟩
    · have h0' : st.option0 = false := by simpa using h0
      by_cases h1 : st.option1 = true
      · obtain ⟨m1, hel, hrows1, hcols1, _⟩ := eliminate_subset_rows_perm st.data hwf _ hperm
          (by show (["a", "b", "c"] : List String).Nodup; decide)
        have hany : weighted_rows4.any (fun e => decide (beaten weighted_rows4 e)) = false := by
          decide
        have hfil : weighted_rows4.filter (fun e => !decide (beaten weighted_rows4 e)) =
            weighted_rows4 := by decide
        rw [hany] at hel
        rw [hfil] at hrows1
        simp only [solve_step, h0', h1, and_true, Bool.false_eq_true, and_false, if_false,
          if_true, hel] at hstep
        injection hstep with hstep
        subst hstep
        left
        exact ⟨hrows1, by rw [hcols1]; exact hcols, ho2, hsol⟩
      · have h1' : st.option1 = false := by simpa using h1
        have hel := weighted_superset_cols st.data hwf hcols hperm
        simp only [solve_step, h0', h1', ho2, and_true, Bool.false_eq_true, and_false, if_false,
          if_true, hel] at hstep
        injection hstep with hstep
        subst hstep
        right; left
        refine ⟨?_, ?_, rfl, rfl, hsol⟩
        · show (st.data.rowlist.map (relocate_row [0, 2])).Perm weighted_rows2
          exact hperm.map (relocate_row [0, 2])
        · show st.data.num_cols - 2 = 2
          omega
  · obtain ⟨hwf, hcd⟩ := hok
    by_cases h1 : st.option1 = true
    · obtain ⟨m1, hel, hrows1, hcols1, _⟩ := eliminate_subset_rows_perm st.data hwf _ hperm
        (by show (["a", "b", "c"] : List String).Nodup; decide)
      have hany : weighted_rows2.any (fun e => decide (beaten weighted_rows2 e)) = false := by
        decide
      have hfil : weighted_rows2.filter (fun e => !decide (beaten weighted_rows2 e)) =
          weighted_rows2 := by decide
      rw [hany] at hel
      rw [hfil] at hrows1
      simp only [solve_step, ho0, h1, and_true, Bool.false_eq_true, and_false, if_false,
        if_true, hel] at hstep
      injection hstep with hstep
      subst hstep
      right; left
      exact ⟨hrows1, by rw [hcols1]; exact hcols, rfl, ho2, hsol⟩
    · have h1' : st.option1 = false := by simpa using h1
      obtain ⟨m1, hel, hrows1, hcols1⟩ := weighted_greedy st.data hwf hcols hperm st.solution
      simp only [solve_step, ho0, h1', ho2, and_true, Bool.false_eq_true, and_false, if_false,
        hel] at hstep
      injection hstep with hstep
      subst hstep
      right; right; left
      exact ⟨hrows1, hcols1, rfl, by rw [hsol]⟩
  · obtain ⟨hwf, hcd⟩ := hok
    by_cases h0 : st.option0 = true
    · obtain ⟨cd1, _, hel⟩ := eliminate_row_unitarians_ok weighted_files st.data hwf
        st.solution st.corpus_data hcd
      have hU : unity_columns (column_sums st.data.num_cols.toNat st.data.rowlist) 0 = [] := by
        rw [hcols, column_sums_perm _ _ _ hperm]
        rfl
      rw [if_pos (Or.inr (Or.inr hU))] at hel
      simp only [solve_step, h0, and_self, if_true, hel] at hstep
      injection hstep with hstep
      subst hstep
      right; right; left
      exact ⟨hperm, hcols, by simpa using ho1, hsol⟩
    · have h0' : st.option0 = false := by simpa using h0
      obtain ⟨m1, hel, hrows1, _, _⟩ := eliminate_subset_rows_perm st.data hwf _ hperm
        (by show (["b", "c"] : List String).Nodup; decide)
      have hany : weighted_rows1.any (fun e => decide (beaten weighted_rows1 e)) = true := by
        decide
      have hfil : weighted_rows1.filter (fun e => !decide (beaten weighted_rows1 e)) =
          [weighted_row "b" [DELETED, 0]] := by decide
      rw [hany] at hel
      rw [hfil] at hrows1
      simp only [solve_step, h0', ho1, and_true, Bool.false_eq_true, and_false, if_false,
        if_true, hel] at hstep
      injection hstep with hstep
      subst hstep
      right; right; right; left
      exact ⟨List.perm_singleton.mp hrows1, rfl, hsol⟩
  · right; right; right
    exact closing_inv_step weighted_files _ _ st st1 (by decide) hok hclose hr hc hstep

theorem weighted_run (m : Matrix) (hm : matrix_wf m) (hcols : m.num_cols = 8)
    (horig : m.num_cols_orig = 8) (hperm : m.rowlist.Perm weighted_rows4) :
    ∃ res : SolveResult,
      (∀ fuel, 47 ≤ fuel →
        solve_oscp weighted_files fuel Solution.empty m (initialise_corpus_data m) "run"
          false weighted_records = Except.ok (some res)) ∧
      res.solution.solution = ["a", "b"] ∧ res.solution.weight = 2 ∧
      res.solution.num_non_optimal = 1 := by
  have hab : ("a" : String) < "b" := String.lt_iff_toList_lt.mpr (by decide)
  have hnum : m.num_rows = 3 := by rw [hm.1, hperm.length_eq]; rfl
  have hentry : entry_columns m = [4, 5, 6, 7] := by
    unfold entry_columns
    rw [hcols, column_sums_perm _ _ _ hperm]
    rfl
  have hdata : entry_matrix m = relocate_matrix [4, 5, 6, 7] m := by
    unfold entry_matrix
    rw [hentry]
    rfl
  obtain ⟨st, v, hrun, hinv, hok, hfin⟩ := solve_oscp_run_state weighted_files false
    Solution.empty m (initialise_corpus_data m) "run" weighted_records
    (weighted_inv (entry_solution m (labelled Solution.empty m "run" false)))
    hm (by rw [hm.1]; simp [initialise_corpus_data])
    ⟨rfl, by
      intro e _
      rw [horig]
      show (((weighted_files e.file_path).flatMap byte_bits).length : Int) ≤ 8
      unfold weighted_files
      split_ifs <;> simp [byte_bits], by
      intro row hrow
      simp [Solution.empty] at hrow⟩
    (by rw [horig]; decide)
    (by
      left
      refine ⟨?_, ?_, rfl, rfl⟩
      · show (entry_matrix m).rowlist.Perm _
        rw [hdata]
        exact (hperm.map (relocate_row [4, 5, 6, 7]))
      · show (entry_matrix m).num_cols = 4
        rw [hdata]
        show m.num_cols - 4 = 4
        omega)
    (fun st st1 hok hinv hr hc hstep => weighted_inv_step _ st st1 hok hinv hr hc hstep)
  refine ⟨_, fun fuel hfuel => hrun fuel (by rw [hnum, hcols]; exact hfuel), ?_⟩
  have hsol : st.solution = add_all weighted_files true
      ((entry_solution m (labelled Solution.empty m "run" false)).add_to_soln "a"
        (get_exemplar_data weighted_files "a") 1 false) [weighted_row "b" [DELETED, 0]] := by
    have hlen : ∀ R : List RowElem, st.data.rowlist.Perm R → R.length = 3 ∨ R.length = 2 →
        st.data.num_cols ≠ 0 → False := by
      intro R hp hR hcne
      have hn := hok.1.1
      rw [hp.length_eq] at hn
      rcases hfin with h | h
      · rcases hR with h3 | h3 <;> rw [h3] at hn <;> omega
      · exact hcne h
    rcases hinv with ⟨hp, hc2, _, _⟩ | ⟨hp, hc2, _, _, _⟩ | ⟨hp, hc2, _, _⟩ | hclose
    · exact (hlen _ hp (Or.inl rfl) (by omega)).elim
    · exact (hlen _ hp (Or.inl rfl) (by omega)).elim
    · exact (hlen _ hp (Or.inr rfl) (by omega)).elim
    · exact closing_inv_final weighted_files _ _ st (by decide) hok hclose hfin
  obtain ⟨f1, _, f3, _, f5⟩ := add_all_fields weighted_files true
    [weighted_row "b" [DELETED, 0]]
    ((entry_solution m (labelled Solution.empty m "run" false)).add_to_soln "a"
      (get_exemplar_data weighted_files "a") 1 false)
  obtain ⟨g1, _, g3, _, g5, _⟩ := add_to_soln_fields
    (entry_solution m (labelled Solution.empty m "run" false)) "a"
    (get_exemplar_data weighted_files "a") 1 false
  have hf := entry_solution_fields m (labelled Solution.empty m "run" false)
  refine ⟨?_, ?_, ?_⟩
  · show (print_solution st.solution).solution = ["a", "b"]
    simp only [print_solution]
    rw [hsol, f1, g1, hf.2.1]
    show (["a", "b"] : List String).insertionSort (fun a b => a ≤ b) = ["a", "b"]
    apply List.Sorted.insertionSort_eq
    simp only [List.Sorted, List.pairwise_cons, List.mem_singleton, List.not_mem_nil]
    refine ⟨fun x hx => by rw [hx]; exact le_of_lt hab, by simp⟩
  · show (print_solution st.solution).weight = 2
    simp only [print_solution]
    rw [hsol, f3, g3, hf.2.2.1]
    simp [labelled, Solution.empty, weighted_row]
    norm_num
  · show (print_solution st.solution).num_non_optimal = 1
    simp only [print_solution]
    rw [hsol, f5, g5, hf.2.2.2]
    simp [labelled, Solution.empty]

theorem weighted_matrix_wf (names : List String) (h : names.Perm ["a", "b", "c"]) :
    matrix_wf (weighted_matrix names) ∧ (weighted_matrix names).rowlist.Perm weighted_rows4 := by
  have hp : (weighted_matrix names).rowlist.Perm weighted_rows4 :=
    h.map (fun p =>
      weighted_row p (if p = "a" then [0, 1] else if p = "b" then [2, 3] else [0, 1, 2, 3]))
  refine ⟨⟨?_, by show (0 : Int) ≤ 8; decide, ?_, ?_⟩, hp⟩
  · show (3 : Int) = ((weighted_matrix names).rowlist.length : Int)
    rw [hp.length_eq]; rfl
  · show (8 : Int) = total_row_sum (weighted_matrix names).rowlist
    rw [total_row_sum_perm _ _ hp]
    rfl
  · intro e he
    have hall : ∀ e ∈ weighted_rows4, row_wf 8 e := by decide
    exact hall e (hp.mem_iff.mp he)

theorem weighted_matrix_built (names : List String) (h : names.Perm ["a", "b", "c"]) :
    matrix_from_corpus weighted_files names weighted_records [] =
      Except.ok (weighted_matrix names) := by
  have hmem := List.mem_permutations.mpr h
  simp [List.permutations, List.permutationsAux, List.permutationsAux.rec] at hmem
  rcases hmem with rfl | rfl | rfl | rfl | rfl | rfl <;> rfl

/-- C32. Scenario S6 (weighted preference): for the corpus of the three
one-byte files `a = 0b11000000`, `b = 0b00110000`, `c = 0b11110000`, listed
in any order, with the weights `a` = 1, `b` = 1, `c` = 10, the matrix is
built and `solve_oscp` with `greedy` false returns on it the solution
`[a, b]` with total weight 2 (the row `a` is the greedy pick made when no
reduction rule applies, so `num_non_optimal` is 1). -/
theorem scenario_weighted (names : List String) (h : names.Perm ["a", "b", "c"]) :
    ∃ res : SolveResult,
      matrix_from_corpus weighted_files names weighted_records [] =
        Except.ok (weighted_matrix names) ∧
      (∀ fuel, 47 ≤ fuel →
        solve_oscp weighted_files fuel Solution.empty (weighted_matrix names)
          (initialise_corpus_data (weighted_matrix names)) "run" false weighted_records =
          Except.ok (some res)) ∧
      res.solution.solution = ["a", "b"] ∧ res.solution.weight = 2 ∧
      res.solution.num_non_optimal = 1 := by
  obtain ⟨hwf, hperm⟩ := weighted_matrix_wf names h
  obtain ⟨res, hrun, hsol⟩ := weighted_run (weighted_matrix names) hwf rfl rfl hperm
  exact ⟨res, weighted_matrix_built names h, hrun, hsol⟩

/-- Witness for C32: the files listed in the order `c`, `a`, `b`. -/
theorem scenario_weighted_witness :
    ∃ res : SolveResult,
      matrix_from_corpus weighted_files ["c", "a", "b"] weighted_records [] =
        Except.ok (weighted_matrix ["c", "a", "b"]) ∧
      (∀ fuel, 47 ≤ fuel →
        solve_oscp weighted_files fuel Solution.empty (weighted_matrix ["c", "a", "b"])
          (initialise_corpus_data (weighted_matrix ["c", "a", "b"])) "run" false
          weighted_records = Except.ok (some res)) ∧
      res.solution.solution = ["a", "b"] ∧ res.solution.weight = 2 ∧
      res.solution.num_non_optimal = 1 :=
  scenario_weighted ["c", "a", "b"]
    (List.perm_append_comm : (["c"] ++ ["a", "b"]).Perm (["a", "b"] ++ ["c"]))

end Moonlight
